import Mathlib

/-! Repository update scheduler (`cmd/repo-updater/repos/scheduler.go`)

A shallow embedding of the two heaps of the update scheduler, the Due-Schedule
(`schedule`) and the Update Queue (`updateQueue`), together with the parts of
Go's `container/heap` they are driven by.

Modelling conventions

* Go pointers to heap entries (`*repoUpdate`, `*scheduledRepoUpdate`) are
  positions in an arena `mem` of allocated objects; the heap slice holds
  pointers and the index map sends a repo ID to a pointer, exactly as in the
  source, so aliasing between the slice and the map is kept.
* `*configuredRepo2` values are immutable once handed to the scheduler and are
  embedded by value.
* A panic (explicit `panic(...)`, an out-of-range slice access, a dangling
  pointer) is the result `none`.
* `time.Time` and `time.Duration` are integer nanosecond counts; an instant
  counts from the zero of the seconds count that a `time.Time` holds, and
  `Add` and `Sub` are cut off at the ends of their ranges as in Go.
* `uint64` arithmetic wraps modulo `2 ^ 64`.
* Every operation runs atomically (each one holds the structure's mutex for
  its whole body in the source); `timeNow` is a parameter: reading number `k`
  made by an operation is `clock k`.
* A buffered channel of `struct{}` values is the number of values it holds.

Layout: the embedding of the source (time, data, `container/heap`, the two
heaps, the schedule loop, the scheduler, the orchestrator, the mutexes, the
dump), sequences of calls, the vocabulary of the statements, concrete states,
and then the theorems.
-/

namespace repos

/-! ## Time -/

/-- Instants, in nanoseconds from the zero of the count of seconds that a `time.Time` holds
(`time.Unix(s, 0)` is second `s + 62135596800` of that count). -/
abbrev Time := Int

/-- Durations (`time.Duration`), in nanoseconds. -/
abbrev Duration := Int

/-- Successive readings of `timeNow` made by one operation. -/
abbrev Clock := Nat → Time

namespace time

def Millisecond : Duration := 1000000

def Second : Duration := 1000 * Millisecond

def Hour : Duration := 3600 * Second

def minDuration : Duration := -(2 ^ 63)

def maxDuration : Duration := 2 ^ 63 - 1

/-- The first instant of the range of `time.Time`, which counts the seconds in an `int64`:
the start of second `-2^63`. -/
def minTime : Time := -(2 ^ 63) * Second

/-- The last instant of the range of `time.Time`: the last nanosecond of second
`2^63 - 1`. -/
def maxTime : Time := (2 ^ 63 - 1) * Second + (Second - 1)

end time

/-- Go's `t.Add(d)` on an instant without a monotonic reading, as `time.Unix` and the mocked
`timeNow` of the tests return them. A `time.Time` holds a count of seconds in an `int64` and
the nanoseconds within the second; `Add` adds `d` to both and, when the count of seconds
would leave the range of `int64`, sets it to `2^63 - 1` (or to `-(2^63 - 1)`) and keeps the
nanoseconds it has computed. An integer outside the range of `time.Time` is not a value of
the type; `Add` is plain addition there. -/
def Time.Add (t : Time) (d : Duration) : Time :=
  if t < time.minTime ∨ time.maxTime < t then t + d
  else if time.maxTime < t + d then (2 ^ 63 - 1) * time.Second + (t + d) % time.Second
  else if t + d < time.minTime then -(2 ^ 63 - 1) * time.Second + (t + d) % time.Second
  else t + d

/-- Go's `t.Before(u)`. -/
def Time.Before (t u : Time) : Bool := decide (t < u)

/-- Go's `t.Sub(u)`: the difference, saturated to the range of a `Duration`. -/
def Time.Sub (t u : Time) : Duration :=
  if t - u > time.maxDuration then time.maxDuration
  else if t - u < time.minDuration then time.minDuration
  else t - u

/-- Firing instant of the one-shot timer armed by `timeAfterFunc(d, f)` at instant `now`:
the runtime counts the delay down on its own clock, no `time.Time` is computed. -/
def timeAfterFunc (now : Time) (d : Duration) : Time := now + d

/-- The constant `minDelay`: 45 seconds. -/
def minDelay : Duration := 45 * time.Second

/-- The constant `maxDelay`: 8 hours. -/
def maxDelay : Duration := 8 * time.Hour

/-! ## Data model -/

/-- The struct `configuredRepo2`; `ID` is a `uint32`, only ever compared. -/
structure configuredRepo2 where
  URL : String
  ID : Nat
  Name : String
  Enabled : Bool
deriving DecidableEq, Inhabited

/-- A pointer into an arena of heap entries. -/
abbrev Ptr := Nat

/-- A Go map from repo IDs to entry pointers, as an association list. -/
abbrev IndexMap := List (Nat × Ptr)

/-- The lookup `m[k]`; `none` is Go's `nil`. -/
def IndexMap.get (m : IndexMap) (k : Nat) : Option Ptr :=
  (m.find? (fun e => decide (e.1 = k))).map (fun e => e.2)

/-- The statement `delete(m, k)`. -/
def IndexMap.delete (m : IndexMap) (k : Nat) : IndexMap :=
  m.filter (fun e => !decide (e.1 = k))

/-- The assignment `m[k] = v`. -/
def IndexMap.set (m : IndexMap) (k : Nat) (v : Ptr) : IndexMap :=
  (k, v) :: IndexMap.delete m k

/-- The constant `notifyChanBuffer`. -/
def notifyChanBuffer : Nat := 1

/-- The function `notify`: a non-blocking send on a channel holding `ch` values. -/
def notify (ch : Nat) : Nat := if ch < notifyChanBuffer then ch + 1 else ch

/-- The type `priority` (a Go `int`). -/
abbrev priority := Int

def priorityLow : priority := 0

def priorityHigh : priority := 1

/-- The struct `repoUpdate`. -/
structure repoUpdate where
  Repo : configuredRepo2
  Priority : priority
  Seq : Nat
  Updating : Bool
  Index : Int
deriving DecidableEq, Inhabited

/-- The struct `updateQueue`; `mem` is the arena its entry pointers point into. -/
structure updateQueue where
  mem : List repoUpdate
  heap : List Ptr
  index : IndexMap
  seq : Nat
  notifyEnqueue : Nat
deriving DecidableEq, Inhabited

/-- The struct `scheduledRepoUpdate`. -/
structure scheduledRepoUpdate where
  Repo : configuredRepo2
  Interval : Duration
  Due : Time
  Index : Int
deriving DecidableEq, Inhabited

/-- The struct `schedule`; `timer` is the firing instant of the armed timer, if any. -/
structure schedule where
  mem : List scheduledRepoUpdate
  heap : List Ptr
  index : IndexMap
  timer : Option Time
  wakeup : Nat
deriving DecidableEq, Inhabited

/-- The type `sourceRepoMap`. -/
abbrev sourceRepoMap := List (String × configuredRepo2)

/-- The struct `updateScheduler`. -/
structure updateScheduler where
  sourceRepos : List (String × sourceRepoMap)
  updateQueue : repos.updateQueue
  schedule : repos.schedule
deriving DecidableEq, Inhabited

/-- The constructor `NewUpdateScheduler`. -/
def NewUpdateScheduler : updateScheduler :=
  { sourceRepos := [],
    updateQueue := { mem := [], heap := [], index := [], seq := 0, notifyEnqueue := 0 },
    schedule := { mem := [], heap := [], index := [], timer := none, wakeup := 0 } }

/-- A heap position held in an `int` field, used as a slice index: a negative value is out
of range. -/
def toIndex (i : Int) : Option Nat := if i < 0 then none else some i.toNat

/-! ## The package container/heap -/

namespace heap

/-- The interface `heap.Interface` (with `sort.Interface`), over states `σ` and items `ε`. -/
structure Interface (σ ε : Type) where
  Len : σ → Nat
  Less : σ → Nat → Nat → Option Bool
  Swap : σ → Nat → Nat → Option σ
  Push : σ → ε → Option σ
  Pop : σ → Option (σ × ε)

end heap

namespace heap

variable {σ ε : Type}

/-- The loop of `up`; every iteration moves `j` to its parent, so `j + 1` rounds suffice. -/
def upLoop (h : Interface σ ε) : Nat → σ → Nat → Option σ
  | 0, _, _ => none
  | fuel + 1, s, j =>
    let i := (j - 1) / 2
    if i = j then some s
    else
      match h.Less s j i with
      | none => none
      | some false => some s
      | some true =>
        match h.Swap s i j with
        | none => none
        | some s1 => upLoop h fuel s1 i

/-- The function `up`. -/
def up (h : Interface σ ε) (s : σ) (j : Nat) : Option σ := upLoop h (j + 1) s j

/-- The loop of `down`, returning the final state and the final position `i`. The source also
leaves the loop when `j1 < 0`, after `int` overflow; positions are slice positions here. -/
def downLoop (h : Interface σ ε) : Nat → σ → Nat → Nat → Option (σ × Nat)
  | 0, _, _, _ => none
  | fuel + 1, s, i, n =>
    let j1 := 2 * i + 1
    if j1 ≥ n then some (s, i)
    else
      let j2 := j1 + 1
      match (if j2 < n then h.Less s j2 j1 else some false) with
      | none => none
      | some b =>
        let j := if b then j2 else j1
        match h.Less s j i with
        | none => none
        | some false => some (s, i)
        | some true =>
          match h.Swap s i j with
          | none => none
          | some s1 => downLoop h fuel s1 j n

/-- The function `down`; the position grows in every round and stays below `n`. -/
def down (h : Interface σ ε) (s : σ) (i0 n : Nat) : Option (σ × Bool) :=
  (downLoop h (n + 1) s i0 n).map (fun r => (r.1, decide (r.2 > i0)))

/-- The function `heap.Push`. -/
def Push (h : Interface σ ε) (s : σ) (x : ε) : Option σ :=
  (h.Push s x).bind (fun s1 => up h s1 (h.Len s1 - 1))

/-- The function `heap.Fix`. -/
def Fix (h : Interface σ ε) (s : σ) (i : Nat) : Option σ :=
  (down h s i (h.Len s)).bind (fun r => if r.2 then some r.1 else up h r.1 i)

/-- The function `heap.Fix` at a position held in an `int`. At -1 neither loop takes a step
(`down` stops at `j1 < 0`, `up` at `i == j`) and the call returns; at a position below -1 the
call of `Less` in `up` is out of range. -/
def FixAt (h : Interface σ ε) (s : σ) (i : Int) : Option σ :=
  if i = -1 then some s else (toIndex i).bind (Fix h s)

/-- The function `heap.Remove`. -/
def Remove (h : Interface σ ε) (s : σ) (i : Nat) : Option (σ × ε) :=
  let n := h.Len s - 1
  (if n ≠ i then
    (h.Swap s i n).bind (fun s1 =>
      (down h s1 i n).bind (fun r => if r.2 then some r.1 else up h r.1 i))
   else some s).bind h.Pop

/-- The function `heap.Pop`. -/
def Pop (h : Interface σ ε) (s : σ) : Option (σ × ε) :=
  let n := h.Len s - 1
  (h.Swap s 0 n).bind (fun s1 => (down h s1 0 n).bind (fun r => h.Pop r.1))

end heap

/-! ## The Update Queue -/

namespace updateQueue

/-- The entry `q.heap[i]`, dereferenced. -/
def entry (q : updateQueue) (i : Nat) : Option repoUpdate :=
  (q.heap[i]?).bind (fun x => q.mem[x]?)

/-- An assignment to fields of the entry `x` points to. -/
def modify (q : updateQueue) (x : Ptr) (f : repoUpdate → repoUpdate) : Option updateQueue :=
  (q.mem[x]?).map (fun e => { q with mem := q.mem.set x (f e) })

/-- The method `reset`. -/
def reset (q : updateQueue) : updateQueue :=
  { q with heap := q.heap.take 0, index := [], seq := 0, notifyEnqueue := 0 }

/-- The method `nextSeq` on a `uint64` counter. -/
def nextSeq (q : updateQueue) : updateQueue × Nat :=
  let q1 := { q with seq := (q.seq + 1) % 2 ^ 64 }
  (q1, q1.seq)

/-- The method `Len`. -/
def Len (q : updateQueue) : Nat := q.heap.length

/-- The method `Less`. -/
def Less (q : updateQueue) (i j : Nat) : Option Bool :=
  match q.entry i, q.entry j with
  | some qi, some qj =>
    if qi.Updating ≠ qj.Updating then some qj.Updating
    else if qi.Priority ≠ qj.Priority then some (decide (qi.Priority > qj.Priority))
    else some (decide (qi.Seq < qj.Seq))
  | _, _ => none

/-- The method `Swap`. -/
def Swap (q : updateQueue) (i j : Nat) : Option updateQueue :=
  match q.heap[i]?, q.heap[j]? with
  | some hi, some hj =>
    let q1 := { q with heap := (q.heap.set i hj).set j hi }
    ((q1.heap[i]?).bind (fun x => q1.modify x (fun e => { e with Index := i }))).bind
      (fun q2 => (q2.heap[j]?).bind (fun x => q2.modify x (fun e => { e with Index := j })))
  | _, _ => none

/-- The method `Push`. -/
def Push (q : updateQueue) (x : Ptr) : Option updateQueue :=
  let n := q.heap.length
  (q.modify x (fun e => { e with Index := n })).bind (fun q1 =>
    let r := q1.nextSeq
    (r.1.modify x (fun e => { e with Seq := r.2 })).bind (fun q2 =>
      let q3 := { q2 with heap := q2.heap ++ [x] }
      (q3.mem[x]?).map (fun item => { q3 with index := q3.index.set item.Repo.ID x })))

/-- The method `Pop`. -/
def Pop (q : updateQueue) : Option (updateQueue × Ptr) :=
  let n := q.heap.length
  (q.heap[n - 1]?).bind (fun x =>
    (q.modify x (fun e => { e with Index := -1 })).bind (fun q1 =>
      let q2 := { q1 with heap := q1.heap.take (n - 1) }
      (q2.mem[x]?).map (fun item => ({ q2 with index := q2.index.delete item.Repo.ID }, x))))

/-- An `updateQueue` as a `heap.Interface`. -/
def iface : heap.Interface updateQueue Ptr :=
  { Len := Len, Less := Less, Swap := Swap, Push := Push, Pop := Pop }

/-- The method `enqueue`; the result carries the return value `updated`. -/
def enqueue (q : updateQueue) (repo : configuredRepo2) (p : priority) :
    Option (updateQueue × Bool) :=
  if repo.ID = 0 then none
  else
    match q.index.get repo.ID with
    | none =>
      let x := q.mem.length
      let q1 := { q with mem := q.mem ++
        [{ Repo := repo, Priority := p, Seq := 0, Updating := false, Index := 0 }] }
      (heap.Push iface q1 x).map (fun q2 =>
        ({ q2 with notifyEnqueue := notify q2.notifyEnqueue }, false))
    | some x =>
      (q.mem[x]?).bind (fun update =>
        if update.Updating then some (q, false)
        else
          (q.modify x (fun e => { e with Repo := repo })).bind (fun q1 =>
            if p ≤ update.Priority then some (q1, true)
            else
              (q1.modify x (fun e => { e with Priority := p })).bind (fun q2 =>
                let r := q2.nextSeq
                (r.1.modify x (fun e => { e with Seq := r.2 })).bind (fun q3 =>
                  (q3.mem[x]?).bind (fun u =>
                    (heap.FixAt iface q3 u.Index).map (fun q4 =>
                      ({ q4 with notifyEnqueue := notify q4.notifyEnqueue }, true)))))))

/-- The method `remove`; the result carries the return value `removed`. -/
def remove (q : updateQueue) (repo : configuredRepo2) (updating : Bool) :
    Option (updateQueue × Bool) :=
  if repo.ID = 0 then none
  else
    match q.index.get repo.ID with
    | none => some (q, false)
    | some x =>
      (q.mem[x]?).bind (fun update =>
        if update.Updating = updating then
          (toIndex update.Index).bind (fun i =>
            (heap.Remove iface q i).map (fun r => (r.1, true)))
        else some (q, false))

/-- The method `acquireNext`; the inner `none` is the `nil` result. -/
def acquireNext (q : updateQueue) : Option (updateQueue × Option configuredRepo2) :=
  if q.heap.length = 0 then some (q, none)
  else
    (q.heap[0]?).bind (fun x =>
      (q.mem[x]?).bind (fun update =>
        if update.Updating then some (q, none)
        else
          (q.modify x (fun e => { e with Updating := true })).bind (fun q1 =>
            (q1.mem[x]?).bind (fun u =>
              (heap.FixAt iface q1 u.Index).bind (fun q2 =>
                (q2.mem[x]?).map (fun u2 => (q2, some u2.Repo)))))))

end updateQueue

/-! ## The Due-Schedule -/

namespace schedule

/-- The entry `s.heap[i]`, dereferenced. -/
def entry (s : schedule) (i : Nat) : Option scheduledRepoUpdate :=
  (s.heap[i]?).bind (fun x => s.mem[x]?)

/-- An assignment to fields of the entry `x` points to. -/
def modify (s : schedule) (x : Ptr) (f : scheduledRepoUpdate → scheduledRepoUpdate) :
    Option schedule :=
  (s.mem[x]?).map (fun e => { s with mem := s.mem.set x (f e) })

/-- The method `Len`. -/
def Len (s : schedule) : Nat := s.heap.length

/-- The method `Less`. -/
def Less (s : schedule) (i j : Nat) : Option Bool :=
  match s.entry i, s.entry j with
  | some si, some sj => some (Time.Before si.Due sj.Due)
  | _, _ => none

/-- The method `Swap`. -/
def Swap (s : schedule) (i j : Nat) : Option schedule :=
  match s.heap[i]?, s.heap[j]? with
  | some hi, some hj =>
    let s1 := { s with heap := (s.heap.set i hj).set j hi }
    ((s1.heap[i]?).bind (fun x => s1.modify x (fun e => { e with Index := i }))).bind
      (fun s2 => (s2.heap[j]?).bind (fun x => s2.modify x (fun e => { e with Index := j })))
  | _, _ => none

/-- The method `Push`. -/
def Push (s : schedule) (x : Ptr) : Option schedule :=
  let n := s.heap.length
  (s.modify x (fun e => { e with Index := n })).bind (fun s1 =>
    let s2 := { s1 with heap := s1.heap ++ [x] }
    (s2.mem[x]?).map (fun item => { s2 with index := s2.index.set item.Repo.ID x }))

/-- The method `Pop`. -/
def Pop (s : schedule) : Option (schedule × Ptr) :=
  let n := s.heap.length
  (s.heap[n - 1]?).bind (fun x =>
    (s.modify x (fun e => { e with Index := -1 })).bind (fun s1 =>
      let s2 := { s1 with heap := s1.heap.take (n - 1) }
      (s2.mem[x]?).map (fun item => ({ s2 with index := s2.index.delete item.Repo.ID }, x))))

/-- A `schedule` as a `heap.Interface`. -/
def iface : heap.Interface schedule Ptr :=
  { Len := Len, Less := Less, Swap := Swap, Push := Push, Pop := Pop }

/-- The method `rescheduleTimer`; `now` is the reading of `timeNow` it makes when the heap
is not empty. -/
def rescheduleTimer (s : schedule) (now : Time) : Option schedule :=
  let s1 := { s with timer := none }
  if s1.heap.length > 0 then
    (s1.entry 0).map (fun root =>
      { s1 with timer := some (timeAfterFunc now (Time.Sub root.Due now)) })
  else some s1

/-- The method `upsert`; the result carries the return value `updated`. -/
def upsert (s : schedule) (repo : configuredRepo2) (clock : Clock) : Option (schedule × Bool) :=
  if repo.ID = 0 then none
  else
    match s.index.get repo.ID with
    | some x => (s.modify x (fun e => { e with Repo := repo })).map (fun s1 => (s1, true))
    | none =>
      let x := s.mem.length
      let s1 := { s with mem := s.mem ++
        [{ Repo := repo, Interval := minDelay, Due := Time.Add (clock 0) minDelay, Index := 0 }] }
      (heap.Push iface s1 x).bind (fun s2 =>
        (s2.rescheduleTimer (clock 1)).map (fun s3 => (s3, false)))

/-- The method `updateInterval`; reading 1 of the clock is made by the debug log line. -/
def updateInterval (s : schedule) (repo : configuredRepo2) (interval : Duration)
    (clock : Clock) : Option schedule :=
  if repo.ID = 0 then none
  else
    match s.index.get repo.ID with
    | none => some s
    | some x =>
      (s.modify x (fun e => { e with Interval :=
          if interval > maxDelay then maxDelay
          else if interval < minDelay then minDelay
          else interval })).bind (fun s1 =>
        (s1.modify x (fun e => { e with Due := Time.Add (clock 0) e.Interval })).bind (fun s2 =>
          (s2.mem[x]?).bind (fun update =>
            (heap.FixAt iface s2 update.Index).bind (fun s3 =>
              s3.rescheduleTimer (clock 2)))))

/-- The method `remove`; the result carries the return value `removed`. -/
def remove (s : schedule) (repo : configuredRepo2) (clock : Clock) : Option (schedule × Bool) :=
  if repo.ID = 0 then none
  else
    match s.index.get repo.ID with
    | none => some (s, false)
    | some x =>
      (s.mem[x]?).bind (fun update =>
        let reschedule := decide (update.Index = 0)
        (toIndex update.Index).bind (fun i =>
          (heap.Remove iface s i).bind (fun r =>
            if reschedule then (r.1.rescheduleTimer (clock 0)).map (fun s1 => (s1, true))
            else some (r.1, true))))

/-- The method `reset`. -/
def reset (s : schedule) : schedule :=
  { s with heap := s.heap.take 0, index := [], wakeup := 0, timer := none }

end schedule

/-! ## The schedule loop -/

namespace updateScheduler

/-- The `for` loop of `runSchedule` after `k` readings of the clock; the result carries the
number of readings made. The loop has no bound of its own: `fuel` bounds its rounds. -/
def runScheduleFor (clock : Clock) : Nat → Nat → updateScheduler → Option (updateScheduler × Nat)
  | 0, _, _ => none
  | fuel + 1, k, s =>
    if s.schedule.heap.length = 0 then some (s, k)
    else
      (s.schedule.heap[0]?).bind (fun x =>
        (s.schedule.mem[x]?).bind (fun repoUpdate =>
          if !(Time.Before repoUpdate.Due (Time.Add (clock k) time.Millisecond)) then
            some (s, k + 1)
          else
            (s.updateQueue.enqueue repoUpdate.Repo priorityLow).bind (fun r =>
              (s.schedule.modify x
                  (fun e => { e with Due := Time.Add (clock (k + 1)) e.Interval })).bind
                (fun sch1 =>
                  (heap.Fix schedule.iface sch1 0).bind (fun sch2 =>
                    runScheduleFor clock fuel (k + 2)
                      { s with updateQueue := r.1, schedule := sch2 })))))

/-- The method `runSchedule`, with the deferred `rescheduleTimer`. -/
def runSchedule (s : updateScheduler) (fuel : Nat) (clock : Clock) : Option updateScheduler :=
  (runScheduleFor clock fuel 0 s).bind (fun r =>
    (r.1.schedule.rescheduleTimer (clock r.2)).map (fun sch => { r.1 with schedule := sch }))

/-- The loop of `runSchedule` with a log of its rounds: beside what `runScheduleFor` returns,
the repos handed to `enqueue`, one for each round and in the order of the rounds, each with
the number of the clock reading that gives its entry the new Due. The rounds themselves are
those of `runScheduleFor`. -/
def runScheduleLog (clock : Clock) :
    Nat → Nat → updateScheduler → Option (updateScheduler × Nat × List (configuredRepo2 × Nat))
  | 0, _, _ => none
  | fuel + 1, k, s =>
    if s.schedule.heap.length = 0 then some (s, k, [])
    else
      (s.schedule.heap[0]?).bind (fun x =>
        (s.schedule.mem[x]?).bind (fun repoUpdate =>
          if !(Time.Before repoUpdate.Due (Time.Add (clock k) time.Millisecond)) then
            some (s, k + 1, [])
          else
            (s.updateQueue.enqueue repoUpdate.Repo priorityLow).bind (fun r =>
              (s.schedule.modify x
                  (fun e => { e with Due := Time.Add (clock (k + 1)) e.Interval })).bind
                (fun sch1 =>
                  (heap.Fix schedule.iface sch1 0).bind (fun sch2 =>
                    (runScheduleLog clock fuel (k + 2)
                      { s with updateQueue := r.1, schedule := sch2 }).map
                      (fun res => (res.1, res.2.1, (repoUpdate.Repo, k + 1) :: res.2.2)))))))

end updateScheduler

/-! ## The scheduler -/

/-- Modelled from the spec: the type `Repo` of the repository store is declared outside the
files at hand. The fields are what `Update` and `configuredRepo2FromRepo` read of a repo;
`IsDeleted` and `CloneURLs` are the results of its methods of these names. -/
structure Repo where
  ID : Nat
  Name : String
  Enabled : Bool
  IsDeleted : Bool
  CloneURLs : List String
deriving DecidableEq, Inhabited

/-- Modelled from the spec: the type `gitserverprotocol.RepoUpdateResponse` is declared
outside the files at hand; the scheduler reads its two optional timestamps. -/
structure RepoUpdateResponse where
  LastFetched : Option Time
  LastChanged : Option Time
deriving DecidableEq, Inhabited

/-- The function `configuredRepo2FromRepo`. -/
def configuredRepo2FromRepo (r : Repo) : configuredRepo2 :=
  let repo : configuredRepo2 := { URL := "", ID := r.ID, Name := r.Name, Enabled := r.Enabled }
  match r.CloneURLs with
  | url :: _ => { repo with URL := url }
  | [] => repo

/-- The lookup `m[key]` in a `sourceRepoMap`; `none` is the result `ok = false`. -/
def sourceRepoMap.get (m : sourceRepoMap) (key : String) : Option configuredRepo2 :=
  (m.find? (fun e => decide (e.1 = key))).map (fun e => e.2)

/-- The lookup `s.sourceRepos[source]`; `none` is Go's `nil`. -/
def sourceReposGet (m : List (String × sourceRepoMap)) (source : String) :
    Option sourceRepoMap :=
  (m.find? (fun e => decide (e.1 = source))).map (fun e => e.2)

/-- The assignment `s.sourceRepos[source] = list`. -/
def sourceReposSet (m : List (String × sourceRepoMap)) (source : String)
    (list : sourceRepoMap) : List (String × sourceRepoMap) :=
  (source, list) :: m.filter (fun e => !decide (e.1 = source))

namespace updateScheduler

/-- The method `upsert` of the scheduler (its debug log lines are left out). -/
def upsert (s : updateScheduler) (r : Repo) (clock : Clock) : Option updateScheduler :=
  let repo := configuredRepo2FromRepo r
  (s.schedule.upsert repo clock).bind (fun a =>
    (s.updateQueue.enqueue repo priorityLow).map (fun b =>
      { s with schedule := a.1, updateQueue := b.1 }))

/-- The method `remove` of the scheduler (its debug log lines are left out). -/
def remove (s : updateScheduler) (r : Repo) (clock : Clock) : Option updateScheduler :=
  let repo := configuredRepo2FromRepo r
  (s.schedule.remove repo clock).bind (fun a =>
    (s.updateQueue.remove repo false).map (fun b =>
      { s with schedule := a.1, updateQueue := b.1 }))

/-- The method `Update`: the loop over `rs`; iteration `i` reads the clock `clockAt i`. The
gauge `schedKnownRepos` is a metric outside the scheduler state and is left out. -/
def Update (s : updateScheduler) : List Repo → (Nat → Clock) → Option updateScheduler
  | [], _ => some s
  | r :: rs, clockAt =>
    (if r.IsDeleted then s.remove r (clockAt 0) else s.upsert r (clockAt 0)).bind
      (fun s1 => s1.Update rs (fun i => clockAt (i + 1)))

/-- The first loop of `updateSource`, over the pairs of the old list: a repo whose key is
missing from `newList`, or is mapped to a repo that is not enabled, is removed from the
schedule and, when not updating, from the queue. -/
def updateSourceRemove (newList : sourceRepoMap) (s : updateScheduler) :
    List (String × configuredRepo2) → (Nat → Clock) → Option updateScheduler
  | [], _ => some s
  | (key, repo) :: rest, clockAt =>
    let gone : Bool :=
      match sourceRepoMap.get newList key with
      | none => true
      | some updatedRepo => !updatedRepo.Enabled
    (if gone then
      (s.schedule.remove repo (clockAt 0)).bind (fun a =>
        let updating := false
        (s.updateQueue.remove repo updating).map (fun b =>
          { s with schedule := a.1, updateQueue := b.1 }))
     else some s).bind
      (fun s1 => updateSourceRemove newList s1 rest (fun i => clockAt (i + 1)))

/-- The second loop of `updateSource`, over the pairs of the new list: every enabled repo is
upserted into the schedule and enqueued at low priority. -/
def updateSourceSchedule (s : updateScheduler) :
    List (String × configuredRepo2) → (Nat → Clock) → Option updateScheduler
  | [], _ => some s
  | (_, updatedRepo) :: rest, clockAt =>
    (if updatedRepo.Enabled then
      (s.schedule.upsert updatedRepo (clockAt 0)).bind (fun a =>
        (s.updateQueue.enqueue updatedRepo priorityLow).map (fun b =>
          { s with schedule := a.1, updateQueue := b.1 }))
     else some s).bind
      (fun s1 => updateSourceSchedule s1 rest (fun i => clockAt (i + 1)))

/-- The method `updateSource`. A Go map is iterated in an unspecified order; here a map is an
association list iterated in list order, the old list first. Iteration `i` of the two loops
together reads the clock `clockAt i`. -/
def updateSource (s : updateScheduler) (source : String) (newList : sourceRepoMap)
    (clockAt : Nat → Clock) : Option updateScheduler :=
  let s0 : updateScheduler :=
    if sourceReposGet s.sourceRepos source = none then
      { s with sourceRepos := sourceReposSet s.sourceRepos source [] }
    else s
  let oldList := (sourceReposGet s0.sourceRepos source).getD []
  (updateSourceRemove newList s0 oldList clockAt).bind (fun s1 =>
    (updateSourceSchedule s1 newList (fun i => clockAt (oldList.length + i))).map (fun s2 =>
      { s2 with sourceRepos := sourceReposSet s2.sourceRepos source newList }))

/-- The goroutine that `runUpdateLoop` starts for an acquired repo, from the return of
`requestRepoUpdate` on: `resp` is the response (`none` for `nil`) and `err` says whether the
error is not `nil`, which only decides a log line and a metric. The deferred
`updateQueue.remove(repo, true)` runs last. -/
def dispatch (s : updateScheduler) (repo : configuredRepo2) (resp : Option RepoUpdateResponse)
    (err : Bool) (clock : Clock) : Option updateScheduler :=
  let _logged := err
  let updated : Option repos.schedule :=
    match resp with
    | some { LastFetched := some lastFetched, LastChanged := some lastChanged } =>
      let interval := (Time.Sub lastFetched lastChanged).tdiv 2
      s.schedule.updateInterval repo interval clock
    | _ => some s.schedule
  updated.bind (fun sch =>
    (s.updateQueue.remove repo true).map (fun b =>
      { s with schedule := sch, updateQueue := b.1 }))

end updateScheduler

/-- Modelled from the spec: the type `protocol.RepoScheduleState` is declared outside the
files at hand; these are the fields that `ScheduleInfo` fills in. -/
structure RepoScheduleState where
  Index : Int
  Total : Int
  IntervalSeconds : Int
  Due : Time
deriving DecidableEq, Inhabited

/-- Modelled from the spec: the type `protocol.RepoQueueState` is declared outside the files
at hand; these are the fields that `ScheduleInfo` fills in. -/
structure RepoQueueState where
  Index : Int
  Total : Int
  Updating : Bool
deriving DecidableEq, Inhabited

/-- Modelled from the spec: the type `protocol.RepoUpdateSchedulerInfoResult` is declared
outside the files at hand; `none` is a `nil` sub-result. -/
structure RepoUpdateSchedulerInfoResult where
  Schedule : Option RepoScheduleState
  Queue : Option RepoQueueState
deriving DecidableEq, Inhabited

namespace updateScheduler

/-- The method `Set`: `Update`, then a count of the repos that are not deleted for the gauge
`schedKnownRepos`, a metric outside the scheduler state. -/
def Set (s : updateScheduler) (rs : List Repo) (clockAt : Nat → Clock) :
    Option updateScheduler :=
  (s.Update rs clockAt).map (fun s1 =>
    let _known := (rs.filter (fun r => !r.IsDeleted)).length
    s1)

/-- The method `UpdateOnce`; the counter `schedManualFetch` is a metric outside the scheduler
state and is left out. The field `Enabled` of the repo is not set and has its zero value. -/
def UpdateOnce (s : updateScheduler) (id : Nat) (name url : String) : Option updateScheduler :=
  let repo : configuredRepo2 := { ID := id, Name := name, URL := url, Enabled := false }
  (s.updateQueue.enqueue repo priorityHigh).map (fun b => { s with updateQueue := b.1 })

/-- The method `ScheduleInfo`. The conversion `int(...)` of the quotient is the identity on a
platform with a 64-bit `int`. -/
def ScheduleInfo (s : updateScheduler) (id : Nat) : Option RepoUpdateSchedulerInfoResult :=
  let result : RepoUpdateSchedulerInfoResult := { Schedule := none, Queue := none }
  let r1 : Option RepoUpdateSchedulerInfoResult :=
    match s.schedule.index.get id with
    | some x =>
      (s.schedule.mem[x]?).map (fun update =>
        let state : RepoScheduleState :=
          { Index := update.Index,
            Total := s.schedule.index.length,
            IntervalSeconds := update.Interval.tdiv time.Second,
            Due := update.Due }
        { result with Schedule := some state })
    | none => some result
  r1.bind (fun result =>
    match s.updateQueue.index.get id with
    | some x =>
      (s.updateQueue.mem[x]?).map (fun update =>
        let state : RepoQueueState :=
          { Index := update.Index,
            Total := s.updateQueue.index.length,
            Updating := update.Updating }
        { result with Queue := some state })
    | none => some result)

end updateScheduler

namespace heap

/-- The loop `for len(h.heap) > 0 { x := heap.Pop(&h); out = append(out, x) }` that
`DebugDump` runs on the copy of a heap. Every round shortens the heap by one item; `fuel`
bounds the rounds. -/
def drain {σ ε : Type} (h : Interface σ ε) : Nat → σ → List ε → Option (σ × List ε)
  | 0, _, _ => none
  | fuel + 1, s, out =>
    if h.Len s > 0 then (Pop h s).bind (fun r => drain h fuel r.1 (out ++ [r.2]))
    else some (s, out)

end heap

/-- The values that a slice of pointers points to; `none` when a pointer is dangling. -/
def derefAll {α : Type} (mem : List α) : List Ptr → Option (List α)
  | [] => some []
  | x :: xs => (mem[x]?).bind (fun e => (derefAll mem xs).map (fun es => e :: es))

/-- The struct that `DebugDump` returns; the two slices of pointers are given by the values
they point to when `DebugDump` returns. -/
structure DebugData where
  UpdateQueue : List repoUpdate
  Schedule : List scheduledRepoUpdate
  SourceRepos : List (String × List configuredRepo2)
deriving DecidableEq, Inhabited

namespace schedule

/-- The copy of the schedule that `DebugDump` makes: a `schedule` literal with nothing but a
heap slice, which points to fresh copies of the entries; the copy of the entry at position
`i` is allocated at pointer `i`. -/
def copy (s : schedule) : Option schedule :=
  (derefAll s.mem s.heap).map (fun updates =>
    { mem := updates, heap := List.range updates.length, index := [], timer := none,
      wakeup := 0 })

end schedule

namespace updateQueue

/-- The copy of the queue that `DebugDump` makes: an `updateQueue` literal with nothing but a
heap slice, which points to fresh copies of the entries; the copy of the entry at position
`i` is allocated at pointer `i`. -/
def copy (q : updateQueue) : Option updateQueue :=
  (derefAll q.mem q.heap).map (fun updates =>
    { mem := updates, heap := List.range updates.length, index := [], seq := 0,
      notifyEnqueue := 0 })

end updateQueue

namespace updateScheduler

/-- The method `DebugDump`. `sortSlice` stands for `sort.Slice` with the comparison of repo
names that the source passes to it. The source takes the three locks one after another; here
the scheduler does not change in between. Each loop pops a copy of a heap until it is empty;
a round shortens the heap by one, so one round more than its length suffices. -/
def DebugDump (s : updateScheduler) (sortSlice : List configuredRepo2 → List configuredRepo2) :
    Option DebugData :=
  let sourceRepos := s.sourceRepos.map (fun p => (p.1, sortSlice (p.2.map (fun r => r.2))))
  s.schedule.copy.bind (fun scheduleCopy =>
    (heap.drain schedule.iface (scheduleCopy.heap.length + 1) scheduleCopy []).bind (fun r1 =>
      (derefAll r1.1.mem r1.2).bind (fun dumpSchedule =>
        s.updateQueue.copy.bind (fun queueCopy =>
          (heap.drain updateQueue.iface (queueCopy.heap.length + 1) queueCopy []).bind
            (fun r2 =>
              (derefAll r2.1.mem r2.2).map (fun dumpQueue =>
                { UpdateQueue := dumpQueue, Schedule := dumpSchedule,
                  SourceRepos := sourceRepos }))))))

end updateScheduler

/-! ## The orchestrator -/

/-- The struct `schedulerConfig`. -/
structure schedulerConfig where
  running : Bool
  autoGitUpdatesEnabled : Bool
deriving DecidableEq, Inhabited

/-- Modelled from the spec: the site configuration that `conf.Get()` returns is declared
outside the files at hand; `RunScheduler` reads its field `DisableAutoGitUpdates`. -/
structure SiteConfiguration where
  DisableAutoGitUpdates : Bool
deriving DecidableEq, Inhabited

/-- A goroutine started by `RunScheduler`, with the number of the context it is given. -/
inductive goroutine where
  | runUpdateLoop (ctx : Nat)
  | runScheduleLoop (ctx : Nat)
deriving DecidableEq

/-- The variables captured by the callback of `RunScheduler` (`have`, `stop`), and what the
callback has done so far: the sub-contexts derived by `context.WithCancel`, each with its
parent, the contexts cancelled, and the goroutines started. A context is a number; `next`
is the number of the sub-context that `context.WithCancel` returns next. -/
structure watcher where
  haveConfig : schedulerConfig
  stop : Option Nat
  next : Nat
  derived : List (Nat × Nat)
  cancelled : List Nat
  started : List goroutine
deriving DecidableEq, Inhabited

/-- The state of `RunScheduler` before the first notification: `have` is the zero value and
`stop` is `nil`; the sub-contexts are numbered from `next`. -/
def watcher.init (next : Nat) : watcher :=
  { haveConfig := { running := false, autoGitUpdatesEnabled := false }, stop := none,
    next := next, derived := [], cancelled := [], started := [] }

/-- The callback that `RunScheduler` passes to `conf.Watch`, run on the configuration `c`
that `conf.Get()` returns; `ctx` is the context given to `RunScheduler`. The log lines are
left out. -/
def RunScheduler (ctx : Nat) (w : watcher) (c : SiteConfiguration) : watcher :=
  let want : schedulerConfig :=
    { running := true, autoGitUpdatesEnabled := !c.DisableAutoGitUpdates }
  if w.haveConfig = want then w
  else
    let w1 : watcher :=
      match w.stop with
      | some old => { w with cancelled := w.cancelled ++ [old] }
      | none => w
    let ctx2 := w1.next
    let w2 : watcher :=
      { w1 with next := w1.next + 1, derived := w1.derived ++ [(ctx2, ctx)], stop := some ctx2 }
    let w3 : watcher := { w2 with started := w2.started ++ [goroutine.runUpdateLoop ctx2] }
    let w4 : watcher :=
      if want.autoGitUpdatesEnabled then
        { w3 with started := w3.started ++ [goroutine.runScheduleLoop ctx2] }
      else w3
    { w4 with haveConfig := want }

/-! ## The mutexes -/

/-- The three mutexes of the scheduler: `s.mu`, `s.schedule.mu` and `s.updateQueue.mu`. -/
inductive mutex where
  | scheduler
  | schedule
  | updateQueue
deriving DecidableEq

/-- A call of `Lock` or of `Unlock` on a mutex. -/
inductive lockEvent where
  | Lock (m : mutex)
  | Unlock (m : mutex)
deriving DecidableEq

/-- An operation of the scheduler, with what decides the `Lock` and `Unlock` calls it makes:
the repos passed to `Update` and `Set`, the stored and the new list of `updateSource`, the
number of iterations of the loop of `runSchedule`, and the response that the dispatch
goroutine gets. -/
inductive operation where
  | Update (rs : List Repo)
  | Set (rs : List Repo)
  | updateSource (oldList newList : sourceRepoMap)
  | UpdateOnce
  | runSchedule (iterations : Nat)
  | dispatch (resp : Option RepoUpdateResponse)
  | DebugDump
  | ScheduleInfo

namespace locks

/-- The methods `reset`, `enqueue`, `remove` and `acquireNext` of the queue: `q.mu.Lock()`
with a deferred `q.mu.Unlock()`. -/
def updateQueue : List lockEvent := [.Lock .updateQueue, .Unlock .updateQueue]

/-- The methods `upsert`, `updateInterval`, `remove` and `reset` of the schedule:
`s.mu.Lock()` and `s.mu.Unlock()` around the body, in which `rescheduleTimer` takes no
lock. -/
def schedule : List lockEvent := [.Lock .schedule, .Unlock .schedule]

/-- The method `upsert` of the scheduler: `s.schedule.upsert`, then `s.updateQueue.enqueue`. -/
def upsert : List lockEvent := schedule ++ updateQueue

/-- The method `remove` of the scheduler: `s.schedule.remove`, then `s.updateQueue.remove`. -/
def remove : List lockEvent := schedule ++ updateQueue

/-- The loop of `Update` over the repos. -/
def UpdateLoop : List Repo → List lockEvent
  | [] => []
  | r :: rs => (if r.IsDeleted then remove else upsert) ++ UpdateLoop rs

/-- The method `Update`: `s.mu.Lock()`, the loop, and the deferred `s.mu.Unlock()`. -/
def Update (rs : List Repo) : List lockEvent :=
  [.Lock .scheduler] ++ UpdateLoop rs ++ [.Unlock .scheduler]

/-- The method `Set`: the call of `Update`; the count that follows takes no lock. -/
def Set (rs : List Repo) : List lockEvent := Update rs

/-- The first loop of `updateSource`, over the stored list. -/
def updateSourceRemove (newList : sourceRepoMap) : List (String × configuredRepo2) →
    List lockEvent
  | [] => []
  | (key, _) :: rest =>
    (match sourceRepoMap.get newList key with
      | none => schedule ++ updateQueue
      | some updatedRepo => if !updatedRepo.Enabled then schedule ++ updateQueue else []) ++
      updateSourceRemove newList rest

/-- The second loop of `updateSource`, over the new list. -/
def updateSourceSchedule : List (String × configuredRepo2) → List lockEvent
  | [] => []
  | (_, updatedRepo) :: rest =>
    (if updatedRepo.Enabled then schedule ++ updateQueue else []) ++ updateSourceSchedule rest

/-- The method `updateSource`: `s.mu.Lock()`, the two loops, the deferred `s.mu.Unlock()`. -/
def updateSource (oldList newList : sourceRepoMap) : List lockEvent :=
  [.Lock .scheduler] ++ updateSourceRemove newList oldList ++ updateSourceSchedule newList ++
    [.Unlock .scheduler]

/-- The method `UpdateOnce`: the call of `s.updateQueue.enqueue`. -/
def UpdateOnce : List lockEvent := updateQueue

/-- The iterations of the loop of `runSchedule` that find the root due: each calls
`s.updateQueue.enqueue`; `heap.Fix` takes no lock. -/
def runScheduleLoop : Nat → List lockEvent
  | 0 => []
  | n + 1 => updateQueue ++ runScheduleLoop n

/-- The method `runSchedule`: `s.schedule.mu.Lock()`, the loop, and the deferred
`rescheduleTimer` and `s.schedule.mu.Unlock()`. -/
def runSchedule (iterations : Nat) : List lockEvent :=
  [.Lock .schedule] ++ runScheduleLoop iterations ++ [.Unlock .schedule]

/-- The goroutine that `runUpdateLoop` starts, after `requestRepoUpdate`: the call of
`s.schedule.updateInterval` for a response with both timestamps, then the deferred
`s.updateQueue.remove`. -/
def dispatch : Option RepoUpdateResponse → List lockEvent
  | some { LastFetched := some _, LastChanged := some _ } => schedule ++ updateQueue
  | _ => updateQueue

/-- The method `DebugDump`: the three mutexes one after another. -/
def DebugDump : List lockEvent :=
  [.Lock .scheduler, .Unlock .scheduler, .Lock .schedule, .Unlock .schedule,
   .Lock .updateQueue, .Unlock .updateQueue]

/-- The method `ScheduleInfo`: the mutex of the schedule, then the mutex of the queue. -/
def ScheduleInfo : List lockEvent :=
  [.Lock .schedule, .Unlock .schedule, .Lock .updateQueue, .Unlock .updateQueue]

/-- The `Lock` and `Unlock` calls of an operation that does not panic, in order. -/
def trace : operation → List lockEvent
  | .Update rs => Update rs
  | .Set rs => Set rs
  | .updateSource oldList newList => updateSource oldList newList
  | .UpdateOnce => UpdateOnce
  | .runSchedule iterations => runSchedule iterations
  | .dispatch resp => dispatch resp
  | .DebugDump => DebugDump
  | .ScheduleInfo => ScheduleInfo

end locks

/-! ## The dump in the memory of the scheduler -/

namespace updateQueue

/-- The copy of the queue that `DebugDump` makes, in the memory that holds the entries of
the queue: the copies of the entries are fresh cells, allocated after the cells in use. -/
def copyIn (q : updateQueue) : Option updateQueue :=
  (derefAll q.mem q.heap).map (fun updates =>
    { mem := q.mem ++ updates,
      heap := (List.range updates.length).map (fun i => i + q.mem.length),
      index := [], seq := 0, notifyEnqueue := 0 })

end updateQueue

namespace schedule

/-- The copy of the schedule that `DebugDump` makes, in the memory that holds the entries of
the schedule: the copies of the entries are fresh cells, allocated after the cells in use. -/
def copyIn (q : schedule) : Option schedule :=
  (derefAll q.mem q.heap).map (fun updates =>
    { mem := q.mem ++ updates,
      heap := (List.range updates.length).map (fun i => i + q.mem.length),
      index := [], timer := none, wakeup := 0 })

end schedule

namespace updateScheduler

/-- The method `DebugDump` with the copies of the entries made in the memory that holds the
entries themselves, as `updateCopy := *update` makes them; next to the dump, the result
carries the scheduler as the method leaves it. The slices and maps of the scheduler are not
those of the copies, which are struct literals of their own. -/
def DebugDumpIn (s : updateScheduler) (sortSlice : List configuredRepo2 → List configuredRepo2) :
    Option (DebugData × updateScheduler) :=
  let sourceRepos := s.sourceRepos.map (fun p => (p.1, sortSlice (p.2.map (fun r => r.2))))
  s.schedule.copyIn.bind (fun scheduleCopy =>
    (heap.drain schedule.iface (scheduleCopy.heap.length + 1) scheduleCopy []).bind (fun r1 =>
      (derefAll r1.1.mem r1.2).bind (fun dumpSchedule =>
        s.updateQueue.copyIn.bind (fun queueCopy =>
          (heap.drain updateQueue.iface (queueCopy.heap.length + 1) queueCopy []).bind
            (fun r2 =>
              (derefAll r2.1.mem r2.2).map (fun dumpQueue =>
                ({ UpdateQueue := dumpQueue, Schedule := dumpSchedule,
                   SourceRepos := sourceRepos },
                 { s with schedule := { s.schedule with mem := r1.1.mem },
                          updateQueue := { s.updateQueue with mem := r2.1.mem } })))))))

end updateScheduler

/-! ## Sequences of calls -/

/-- A call on the Update Queue. -/
inductive queueCall where
  | enqueue (repo : configuredRepo2) (p : priority)
  | remove (repo : configuredRepo2) (updating : Bool)
  | acquireNext

namespace updateQueue

/-- One call on the queue; the second component is what `acquireNext` returned. -/
def call (q : updateQueue) : queueCall → Option (updateQueue × Option configuredRepo2)
  | .enqueue repo p => (q.enqueue repo p).map (fun r => (r.1, none))
  | .remove repo updating => (q.remove repo updating).map (fun r => (r.1, none))
  | .acquireNext => q.acquireNext

/-- A sequence of calls, with the results of the calls in order. -/
def calls (q : updateQueue) : List queueCall → Option (updateQueue × List (Option configuredRepo2))
  | [] => some (q, [])
  | c :: cs => (q.call c).bind (fun r => (r.1.calls cs).map (fun r2 => (r2.1, r.2 :: r2.2)))

end updateQueue

/-- The calls that C3 lets follow an acquisition: enqueue of any repo at any priority,
remove with updating = false, and acquireNext (repo IDs non-zero). -/
def queueCall.follows : queueCall → Prop
  | .enqueue repo _ => repo.ID ≠ 0
  | .remove repo updating => repo.ID ≠ 0 ∧ updating = false
  | .acquireNext => True

instance (c : queueCall) : Decidable c.follows := by
  cases c <;> unfold queueCall.follows <;> infer_instance

/-- A call on the Due-Schedule of a scheduler. -/
inductive scheduleCall where
  | upsert (repo : configuredRepo2) (clock : Clock)
  | updateInterval (repo : configuredRepo2) (interval : Duration) (clock : Clock)
  | remove (repo : configuredRepo2) (clock : Clock)
  | runSchedule (fuel : Nat) (clock : Clock)
  | reset

namespace updateScheduler

/-- One call on the Due-Schedule. -/
def scheduleCall (s : updateScheduler) : repos.scheduleCall → Option updateScheduler
  | .upsert repo clock => (s.schedule.upsert repo clock).map (fun r => { s with schedule := r.1 })
  | .updateInterval repo interval clock =>
    (s.schedule.updateInterval repo interval clock).map (fun r => { s with schedule := r })
  | .remove repo clock => (s.schedule.remove repo clock).map (fun r => { s with schedule := r.1 })
  | .runSchedule fuel clock => s.runSchedule fuel clock
  | .reset => some { s with schedule := s.schedule.reset }

/-- A sequence of calls on the Due-Schedule. -/
def scheduleCalls (s : updateScheduler) : List repos.scheduleCall → Option updateScheduler
  | [] => some s
  | c :: cs => (s.scheduleCall c).bind (fun s1 => s1.scheduleCalls cs)

end updateScheduler

/-- A call of one of the mutating operations of the two heaps of a scheduler: an operation
on the Due-Schedule (`runSchedule` included, which also enqueues), an operation on the Update
Queue, or the `reset` of the Update Queue. -/
inductive schedulerCall where
  | schedule (c : scheduleCall)
  | queue (c : queueCall)
  | queueReset

namespace updateScheduler

/-- One call of a mutating operation. -/
def step (s : updateScheduler) : schedulerCall → Option updateScheduler
  | .schedule c => s.scheduleCall c
  | .queue c => (s.updateQueue.call c).map (fun r => { s with updateQueue := r.1 })
  | .queueReset => some { s with updateQueue := s.updateQueue.reset }

/-- A sequence of calls of mutating operations. -/
def steps (s : updateScheduler) : List schedulerCall → Option updateScheduler
  | [] => some s
  | c :: cs => (s.step c).bind (fun s1 => s1.steps cs)

end updateScheduler

/-! ## The update loop -/

/-- What happens at a point where `runUpdateLoop` waits. At the `select`: a value is received
from `notifyEnqueue` (`proceed`), or `ctx.Done()` is closed (`cancel`). At
`limiter.Acquire(ctx)`: a slot is granted (`proceed`), or the call returns an error because
the context is cancelled (`cancel`). In between another goroutine may make a call on the
scheduler (`other`). -/
inductive loopEvent where
  | proceed
  | cancel
  | other (c : schedulerCall)

/-- Where `runUpdateLoop` has returned. -/
inductive loopExit where
  | idle
  | acquiring
deriving DecidableEq

/-- The scheduler as `runUpdateLoop` leaves it, where it returned (`none`: it has not
returned, the events have run out), and the repos it started an update goroutine for. -/
structure loopResult where
  state : updateScheduler
  exit : Option loopExit
  started : List configuredRepo2
deriving DecidableEq

namespace updateScheduler

/-- The method `runUpdateLoop`, driven by the events at its waiting points; `inner` says
whether the loop is in its inner `for` (waiting in `limiter.Acquire`) or at the `select`.
`limiter` is declared outside the files at hand: its `Acquire` is its outcome in the events.
A `proceed` at the `select` is taken only when the channel holds a value, which it takes
out. The goroutine started for an acquired repo runs on its own; its calls are `other`
events. -/
def runUpdateLoopAt : Bool → updateScheduler → List configuredRepo2 → List loopEvent →
    Option loopResult
  | _, s, acc, [] => some { state := s, exit := none, started := acc }
  | inner, s, acc, .other c :: es => (s.step c).bind (fun s1 => runUpdateLoopAt inner s1 acc es)
  | false, s, acc, .cancel :: _ =>
    some { state := { s with updateQueue := s.updateQueue.reset }, exit := some loopExit.idle,
           started := acc }
  | false, s, acc, .proceed :: es =>
    if s.updateQueue.notifyEnqueue = 0 then runUpdateLoopAt false s acc es
    else
      runUpdateLoopAt true
        { s with updateQueue :=
            { s.updateQueue with notifyEnqueue := s.updateQueue.notifyEnqueue - 1 } } acc es
  | true, s, acc, .cancel :: _ =>
    some { state := s, exit := some loopExit.acquiring, started := acc }
  | true, s, acc, .proceed :: es =>
    (s.updateQueue.acquireNext).bind (fun r =>
      match r.2 with
      | none => runUpdateLoopAt false { s with updateQueue := r.1 } acc es
      | some repo => runUpdateLoopAt true { s with updateQueue := r.1 } (acc ++ [repo]) es)

/-- The method `runUpdateLoop`, from its start. -/
def runUpdateLoop (s : updateScheduler) (events : List loopEvent) : Option loopResult :=
  runUpdateLoopAt false s [] events

end updateScheduler

/-! ## Calls and resets of the Update Queue -/

/-- A call on the Update Queue, or its reset. -/
inductive queueOp where
  | call (c : queueCall)
  | reset

namespace updateQueue

/-- One call or reset; what `acquireNext` returns is left out. -/
def op (q : updateQueue) : queueOp → Option updateQueue
  | .call c => (q.call c).map (fun r => r.1)
  | .reset => some q.reset

/-- A sequence of calls and resets. -/
def ops (q : updateQueue) : List queueOp → Option updateQueue
  | [] => some q
  | o :: os => (q.op o).bind (fun q1 => q1.ops os)

end updateQueue

/-- The operation is a call of `enqueue`. -/
def queueOp.isEnqueue : queueOp → Bool
  | .call (.enqueue _ _) => true
  | _ => false

namespace updateQueue

/-- The calls of `acquireNext` that a caller makes until one returns nil, with the repos
returned, in order. Every call that returns a repo marks one more entry as updating;
`fuel` bounds the calls. -/
def acquireUntilNil : Nat → updateQueue → Option (updateQueue × List configuredRepo2)
  | 0, _ => none
  | fuel + 1, q =>
    (q.acquireNext).bind (fun r =>
      match r.2 with
      | none => some (r.1, [])
      | some repo => (acquireUntilNil fuel r.1).map (fun r2 => (r2.1, repo :: r2.2)))

end updateQueue

/-! ## Calls that put repos into the scheduler -/

/-- A call of one of the methods that put repos into the scheduler: `updateSource`, `Update`,
`Set` and `UpdateOnce`, with the clock readings of its loop. -/
inductive sourceCall where
  | updateSource (source : String) (newList : sourceRepoMap) (clockAt : Nat → Clock)
  | Update (rs : List Repo) (clockAt : Nat → Clock)
  | Set (rs : List Repo) (clockAt : Nat → Clock)
  | UpdateOnce (id : Nat) (name url : String)

namespace updateScheduler

/-- One call of `updateSource`, `Update`, `Set` or `UpdateOnce`. -/
def sourceCall (s : updateScheduler) : repos.sourceCall → Option updateScheduler
  | .updateSource source newList clockAt => s.updateSource source newList clockAt
  | .Update rs clockAt => s.Update rs clockAt
  | .Set rs clockAt => s.Set rs clockAt
  | .UpdateOnce id name url => s.UpdateOnce id name url

/-- A sequence of such calls, one after another. -/
def sourceCalls (s : updateScheduler) : List repos.sourceCall → Option updateScheduler
  | [] => some s
  | c :: cs => (s.sourceCall c).bind (fun s1 => s1.sourceCalls cs)

end updateScheduler

/-! ## Vocabulary: the heap condition -/

namespace heap

variable {β : Type} (lt : β → β → Bool)

/-- The heap condition on the first `n` positions of a slot assignment. -/
def HeapOn (f : Nat → Option β) (n : Nat) : Prop :=
  ∀ k a b, 0 < k → k < n → f ((k - 1) / 2) = some a → f k = some b → lt b a = false

/-- The heap condition everywhere except between `j` and its parent. -/
def UpHole (f : Nat → Option β) (n j : Nat) : Prop :=
  (∀ k a b, 0 < k → k < n → k ≠ j → f ((k - 1) / 2) = some a → f k = some b → lt b a = false) ∧
  (∀ c a b, 0 < j → 0 < c → c < n → (c - 1) / 2 = j →
    f ((j - 1) / 2) = some a → f c = some b → lt b a = false)

/-- The heap condition everywhere except at the pairs that involve position `i`. -/
def Hole (f : Nat → Option β) (n i : Nat) : Prop :=
  (∀ k a b, 0 < k → k < n → k ≠ i → (k - 1) / 2 ≠ i →
    f ((k - 1) / 2) = some a → f k = some b → lt b a = false) ∧
  (∀ c a b, 0 < i → 0 < c → c < n → (c - 1) / 2 = i →
    f ((i - 1) / 2) = some a → f c = some b → lt b a = false)

/-- Exchange of the slots `i` and `j`. -/
def swapF (f : Nat → Option β) (i j : Nat) : Nat → Option β :=
  fun k => if k = j then f i else if k = i then f j else f k

end heap

namespace heap

/-- An implementation of `Interface` that behaves as a sequence of slots ordered by `lt`;
`inv` is its representation invariant and `rel` what `Swap` leaves untouched. -/
structure Lawful {σ ε β : Type} (h : Interface σ ε) (inv : σ → Prop)
    (slot : σ → Nat → Option β) (lt : β → β → Bool) (rel : σ → σ → Prop) : Prop where
  rel_refl : ∀ s, rel s s
  rel_trans : ∀ a b c, rel a b → rel b c → rel a c
  asymm : ∀ a b, lt a b = true → lt b a = false
  trans : ∀ a b c, lt b a = false → lt c b = false → lt c a = false
  slot_some : ∀ s i, inv s → i < h.Len s → ∃ a, slot s i = some a
  Less_eq : ∀ s i j a b, inv s → slot s i = some a → slot s j = some b →
    h.Less s i j = some (lt a b)
  Swap_eq : ∀ s i j, inv s → i < h.Len s → j < h.Len s →
    ∃ s1, h.Swap s i j = some s1 ∧ inv s1 ∧ rel s s1 ∧ h.Len s1 = h.Len s ∧
      slot s1 = swapF (slot s) i j

/-- A decision procedure for `HeapOn`. -/
def HeapOnB {β : Type} (lt : β → β → Bool) (f : Nat → Option β) (n : Nat) : Bool :=
  (List.range n).all (fun k =>
    k == 0 ||
    match f ((k - 1) / 2), f k with
    | some a, some b => !lt b a
    | _, _ => true)

/-- The heap condition is decidable: it is what `HeapOnB` computes. -/
instance {β : Type} (lt : β → β → Bool) (f : Nat → Option β) (n : Nat) :
    Decidable (HeapOn lt f n) :=
  decidable_of_iff (HeapOnB lt f n = true) (by
    unfold HeapOn HeapOnB
    rw [List.all_eq_true]
    constructor
    · intro h k a b hk hkn ha hb
      have h1 := h k (List.mem_range.mpr hkn)
      have hk0 : ¬ k = 0 := by omega
      simpa [hk0, ha, hb] using h1
    · intro h k hk
      rw [List.mem_range] at hk
      by_cases hk0 : k = 0
      · simp [hk0]
      · cases ha : f ((k - 1) / 2) with
        | none => simp
        | some a =>
          cases hb : f k with
          | none => simp
          | some b => simp [hk0, h k a b (by omega) hk ha hb])

/-- The items in the first `n` slots, in the order of the slots. -/
def items {σ β : Type} (slot : σ → Nat → Option β) (s : σ) (n : Nat) : List β :=
  (List.range n).filterMap (slot s)

/-- What the method `Pop` of a heap does to the slots: it takes the last one, returns the
`key` of its item and leaves the others; `keep` is what it retains of the state. -/
def PopsLast {σ ε β : Type} (h : Interface σ ε) (inv : σ → Prop) (slot : σ → Nat → Option β)
    (key : β → ε) (keep : σ → σ → Prop) : Prop :=
  ∀ s, inv s → 0 < h.Len s →
    ∃ s1 a, slot s (h.Len s - 1) = some a ∧ h.Pop s = some (s1, key a) ∧ inv s1 ∧
      keep s s1 ∧ h.Len s1 = h.Len s - 1 ∧ ∀ k, k < h.Len s - 1 → slot s1 k = slot s k

/-- A map `φ` of states, with a map `ψ` of items, that the methods of a heap interface
commute with on the states that satisfy `P`, which the methods keep. -/
structure Commutes {σ ε : Type} (h : Interface σ ε) (φ : σ → σ) (ψ : ε → ε) (P : σ → Prop) :
    Prop where
  Len : ∀ s, P s → h.Len (φ s) = h.Len s
  Less : ∀ s i j, P s → h.Less (φ s) i j = h.Less s i j
  Swap : ∀ s i j, P s → h.Swap (φ s) i j = (h.Swap s i j).map φ
  Swap_keeps : ∀ s i j s1, P s → h.Swap s i j = some s1 → P s1
  Push : ∀ s x, P s → h.Push (φ s) (ψ x) = (h.Push s x).map φ
  Push_keeps : ∀ s x s1, P s → h.Push s x = some s1 → P s1
  Pop : ∀ s, P s → h.Pop (φ s) = (h.Pop s).map (fun r => (φ r.1, ψ r.2))
  Pop_keeps : ∀ s r, P s → h.Pop s = some r → P r.1

end heap

/-! ## Vocabulary: representation invariant of the Update Queue -/

/-- The fields of an entry other than its heap position. -/
def repoUpdate.core (e : repoUpdate) : repoUpdate := { e with Index := 0 }

namespace updateQueue

/-- The comparison made by `Less`, on slots (pointer and entry). -/
def lt (a b : Ptr × repoUpdate) : Bool :=
  if a.2.Updating ≠ b.2.Updating then b.2.Updating
  else if a.2.Priority ≠ b.2.Priority then decide (a.2.Priority > b.2.Priority)
  else decide (a.2.Seq < b.2.Seq)

/-- The pointer at heap position `i` with the entry it points to (position field erased). -/
def slot (q : updateQueue) (i : Nat) : Option (Ptr × repoUpdate) :=
  (q.heap[i]?).bind (fun x => (q.mem[x]?).map (fun e => (x, e.core)))

/-- The entry at heap position `i` records that position, has a non-zero repo ID and is
the one the index map holds for that ID. -/
def EntryOk (q : updateQueue) (i : Nat) (x : Ptr) : Prop :=
  match q.mem[x]? with
  | some e => e.Index = (i : Int) ∧ e.Repo.ID ≠ 0 ∧ q.index.get e.Repo.ID = some x
  | none => False

/-- The index map binding `e` points to an entry of the heap with that repo ID. -/
def KeyOk (q : updateQueue) (e : Nat × Ptr) : Prop :=
  e.2 ∈ q.heap ∧
  match q.mem[e.2]? with
  | some u => u.Repo.ID = e.1
  | none => False

instance (q : updateQueue) (i : Nat) (x : Ptr) : Decidable (EntryOk q i x) := by
  unfold EntryOk
  split <;> infer_instance

instance (q : updateQueue) (e : Nat × Ptr) : Decidable (KeyOk q e) := by
  unfold KeyOk
  split <;> infer_instance

/-- Structural well-formedness: heap slice, position fields and index map agree. -/
def Wf (q : updateQueue) : Prop :=
  (∀ i, (h : i < q.heap.length) → EntryOk q i (q.heap.get ⟨i, h⟩)) ∧
  (∀ e ∈ q.index, KeyOk q e) ∧
  (q.index.map Prod.fst).Nodup

instance (q : updateQueue) : Decidable (Wf q) := by
  unfold Wf
  infer_instance

/-- What `Swap` leaves untouched. -/
def rel (q q1 : updateQueue) : Prop :=
  q1.index = q.index ∧ q1.seq = q.seq ∧ q1.notifyEnqueue = q.notifyEnqueue ∧
  q1.mem.length = q.mem.length ∧
  (∀ y : Ptr, (q1.mem[y]?).map repoUpdate.core = (q.mem[y]?).map repoUpdate.core) ∧
  (∀ x, x ∈ q1.heap ↔ x ∈ q.heap)

/-- The heap condition of the queue under its comparator. -/
def Ordered (q : updateQueue) : Prop := heap.HeapOn lt q.slot q.heap.length

instance (q : updateQueue) : Decidable (Ordered q) := by
  unfold Ordered
  infer_instance

/-- The representation invariant of the Update Queue. -/
def Valid (q : updateQueue) : Prop := Wf q ∧ Ordered q

instance (q : updateQueue) : Decidable (Valid q) := by
  unfold Valid
  infer_instance

/-- The entry the index map holds for a repo ID. -/
def find (q : updateQueue) (id : Nat) : Option repoUpdate :=
  (q.index.get id).bind (fun x => q.mem[x]?)

end updateQueue

/-- The comparison made by `updateQueue.Less` on two entries. -/
def repoUpdate.less (qi qj : repoUpdate) : Bool :=
  if qi.Updating ≠ qj.Updating then qj.Updating
  else if qi.Priority ≠ qj.Priority then decide (qi.Priority > qj.Priority)
  else decide (qi.Seq < qj.Seq)

namespace updateQueue

/-- The entries currently in the queue, in heap order. -/
def entries (q : updateQueue) : List repoUpdate := q.heap.filterMap (fun x => q.mem[x]?)

end updateQueue

/-- In the results `out` of a sequence of calls, the repo with ID `b` is returned only
after the repo with ID `a` has been returned. -/
def AcquiredBefore (out : List (Option configuredRepo2)) (a b : Nat) : Prop :=
  ∀ (k : Nat) (R : configuredRepo2), out[k]? = some (some R) → R.ID = b →
    ∃ (j : Nat) (R1 : configuredRepo2), j < k ∧ out[j]? = some (some R1) ∧ R1.ID = a

namespace updateQueue

/-- No entry's `Seq` exceeds the sequence counter. -/
def SeqBounded (q : updateQueue) : Prop := ∀ e ∈ q.entries, e.Seq ≤ q.seq

instance (q : updateQueue) : Decidable q.SeqBounded := by
  unfold SeqBounded
  infer_instance

end updateQueue

/-! ## Vocabulary: representation invariant of the Due-Schedule -/

/-- The fields of an entry other than its heap position. -/
def scheduledRepoUpdate.core (e : scheduledRepoUpdate) : scheduledRepoUpdate := { e with Index := 0 }

namespace schedule

/-- The comparison made by `Less`, on slots (pointer and entry). -/
def lt (a b : Ptr × scheduledRepoUpdate) : Bool := Time.Before a.2.Due b.2.Due

/-- The pointer at heap position `i` with the entry it points to (position field erased). -/
def slot (q : schedule) (i : Nat) : Option (Ptr × scheduledRepoUpdate) :=
  (q.heap[i]?).bind (fun x => (q.mem[x]?).map (fun e => (x, e.core)))

/-- The entry at heap position `i` records that position, has a non-zero repo ID and is
the one the index map holds for that ID. -/
def EntryOk (q : schedule) (i : Nat) (x : Ptr) : Prop :=
  match q.mem[x]? with
  | some e => e.Index = (i : Int) ∧ e.Repo.ID ≠ 0 ∧ q.index.get e.Repo.ID = some x
  | none => False

/-- The index map binding `e` points to an entry of the heap with that repo ID. -/
def KeyOk (q : schedule) (e : Nat × Ptr) : Prop :=
  e.2 ∈ q.heap ∧
  match q.mem[e.2]? with
  | some u => u.Repo.ID = e.1
  | none => False

instance (q : schedule) (i : Nat) (x : Ptr) : Decidable (EntryOk q i x) := by
  unfold EntryOk
  split <;> infer_instance

instance (q : schedule) (e : Nat × Ptr) : Decidable (KeyOk q e) := by
  unfold KeyOk
  split <;> infer_instance

/-- Structural well-formedness: heap slice, position fields and index map agree. -/
def Wf (q : schedule) : Prop :=
  (∀ i, (h : i < q.heap.length) → EntryOk q i (q.heap.get ⟨i, h⟩)) ∧
  (∀ e ∈ q.index, KeyOk q e) ∧
  (q.index.map Prod.fst).Nodup

instance (q : schedule) : Decidable (Wf q) := by
  unfold Wf
  infer_instance

/-- What `Swap` leaves untouched. -/
def rel (q q1 : schedule) : Prop :=
  q1.index = q.index ∧ q1.timer = q.timer ∧ q1.wakeup = q.wakeup ∧
  q1.mem.length = q.mem.length ∧
  (∀ y : Ptr, (q1.mem[y]?).map scheduledRepoUpdate.core = (q.mem[y]?).map scheduledRepoUpdate.core) ∧
  (∀ x, x ∈ q1.heap ↔ x ∈ q.heap)

/-- The heap condition of the schedule under its comparator. -/
def Ordered (q : schedule) : Prop := heap.HeapOn lt q.slot q.heap.length

instance (q : schedule) : Decidable (Ordered q) := by
  unfold Ordered
  infer_instance

/-- The representation invariant of the Due-Schedule. -/
def Valid (q : schedule) : Prop := Wf q ∧ Ordered q

instance (q : schedule) : Decidable (Valid q) := by
  unfold Valid
  infer_instance

/-- The entry the index map holds for a repo ID. -/
def find (q : schedule) (id : Nat) : Option scheduledRepoUpdate :=
  (q.index.get id).bind (fun x => q.mem[x]?)

/-- The entries currently in the schedule, in heap order. -/
def entries (q : schedule) : List scheduledRepoUpdate := q.heap.filterMap (fun x => q.mem[x]?)

/-- Every entry's refresh interval lies between `minDelay` and `maxDelay`. -/
def IntervalOk (s : schedule) : Prop :=
  ∀ e ∈ s.entries, minDelay ≤ e.Interval ∧ e.Interval ≤ maxDelay

instance (s : schedule) : Decidable s.IntervalOk := by
  unfold IntervalOk
  infer_instance

/-- The interval that `updateInterval` stores for a requested `interval`. -/
def clampInterval (interval : Duration) : Duration :=
  if interval > maxDelay then maxDelay
  else if interval < minDelay then minDelay
  else interval

end schedule

/-- The readings of `clock` lie in a window shorter than `minDelay`: the instant `B` is at
least a millisecond after every reading and at most `minDelay` after every reading. Every
reading has at least `maxDelay` to go before the end of the range of `time.Time`, so that no
`Add` of the pass saturates. -/
def clockWithin (clock : Clock) (B : Time) : Prop :=
  ∀ k, clock k + time.Millisecond ≤ B ∧ B ≤ clock k + minDelay ∧
    clock k + maxDelay ≤ time.maxTime

/-- The entry, if any, is due before `B`. -/
def dueBefore (B : Time) : Option scheduledRepoUpdate → Bool
  | some e => decide (e.Due < B)
  | none => false

namespace schedule

/-- The number of scheduled repos whose entry is due before `B`. -/
def pending (s : schedule) (B : Time) : Nat :=
  (s.index.map Prod.fst).countP
    (fun id => dueBefore B ((s.find id).map scheduledRepoUpdate.core))

end schedule

/-- The calls that return on every scheduler state whose heaps satisfy their invariants and
whose schedule holds at most `n` entries: those with a non-zero repo ID, and `runSchedule`
when the clock readings of the pass lie in a window shorter than `minDelay` and the fuel
exceeds `n`. -/
def scheduleCall.returnsWithin (n : Nat) : scheduleCall → Prop
  | .upsert repo _ => repo.ID ≠ 0
  | .updateInterval repo _ _ => repo.ID ≠ 0
  | .remove repo _ => repo.ID ≠ 0
  | .runSchedule fuel clock => n < fuel ∧ ∃ B, clockWithin clock B
  | .reset => True

/-- The queue calls with a non-zero repo ID. -/
def queueCall.nonZero : queueCall → Prop
  | .enqueue repo _ => repo.ID ≠ 0
  | .remove repo _ => repo.ID ≠ 0
  | .acquireNext => True

namespace updateScheduler

/-- The invariants of the two heaps of a scheduler. -/
def Inv (s : updateScheduler) : Prop :=
  s.schedule.Valid ∧ s.schedule.IntervalOk ∧ s.updateQueue.Valid

instance (s : updateScheduler) : Decidable s.Inv := by
  unfold Inv
  infer_instance

end updateScheduler

namespace updateQueue

/-- The queue has an entry for the repo ID. -/
def has (q : updateQueue) (id : Nat) : Prop := ∃ e ∈ q.entries, e.Repo.ID = id

instance (q : updateQueue) (id : Nat) : Decidable (q.has id) := by
  unfold has
  infer_instance

end updateQueue

namespace schedule

/-- The schedule has an entry for the repo ID. -/
def has (s : schedule) (id : Nat) : Prop := ∃ e ∈ s.entries, e.Repo.ID = id

instance (s : schedule) (id : Nat) : Decidable (s.has id) := by
  unfold has
  infer_instance

end schedule

/-- The interval that the dispatch goroutine passes to `updateInterval`, if it calls it:
half of `LastFetched.Sub(LastChanged)`, for a response with both timestamps. -/
def newInterval : Option RepoUpdateResponse → Option Duration
  | some { LastFetched := some lastFetched, LastChanged := some lastChanged } =>
    some ((Time.Sub lastFetched lastChanged).tdiv 2)
  | _ => none

namespace updateScheduler

/-- The two calls that put a repo on the scheduler, as `upsert` and the second loop of
`updateSource` make them: `schedule.upsert`, then `enqueue` at low priority. -/
def add (s : updateScheduler) (repo : configuredRepo2) (clock : Clock) :
    Option updateScheduler :=
  (s.schedule.upsert repo clock).bind (fun a =>
    (s.updateQueue.enqueue repo priorityLow).map (fun b =>
      { s with schedule := a.1, updateQueue := b.1 }))

/-- The two calls that take a repo off the scheduler, as `remove` and the first loop of
`updateSource` make them: `schedule.remove`, then `updateQueue.remove` with
updating = false. -/
def drop (s : updateScheduler) (repo : configuredRepo2) (clock : Clock) :
    Option updateScheduler :=
  (s.schedule.remove repo clock).bind (fun a =>
    (s.updateQueue.remove repo false).map (fun b =>
      { s with schedule := a.1, updateQueue := b.1 }))

/-- The schedule entry of a repo ID, heap position erased. -/
def scheduled (s : updateScheduler) (id : Nat) : Option scheduledRepoUpdate :=
  (s.schedule.find id).map scheduledRepoUpdate.core

/-- The queue entry of a repo ID, heap position erased. -/
def queued (s : updateScheduler) (id : Nat) : Option repoUpdate :=
  (s.updateQueue.find id).map repoUpdate.core

end updateScheduler

/-- The test that the first loop of `updateSource` makes on a key of the old list: the key is
missing from `newList`, or mapped by it to a repo that is not enabled. -/
def sourceRepoMap.dropped (newList : sourceRepoMap) (key : String) : Bool :=
  match sourceRepoMap.get newList key with
  | none => true
  | some updatedRepo => !updatedRepo.Enabled

/-- The IDs of the repos of the old list that the first loop of `updateSource` removes. -/
def droppedIDs (newList old : sourceRepoMap) : List Nat :=
  (old.filter (fun p => sourceRepoMap.dropped newList p.1)).map (fun p => p.2.ID)

/-- The IDs of the enabled repos of a list. -/
def enabledIDs (list : sourceRepoMap) : List Nat :=
  (list.filter (fun p => p.2.Enabled)).map (fun p => p.2.ID)

namespace updateScheduler

/-- The state after the first statement of `updateSource`, which stores an empty list for a
source that has none. -/
def initSource (s : updateScheduler) (source : String) : updateScheduler :=
  if sourceReposGet s.sourceRepos source = none then
    { s with sourceRepos := sourceReposSet s.sourceRepos source [] }
  else s

/-- The list that `updateSource` takes as the old list of a source. -/
def oldList (s : updateScheduler) (source : String) : sourceRepoMap :=
  (sourceReposGet s.sourceRepos source).getD []

end updateScheduler

/-- The repos of `es` that are not in `D`, appended to `D` in the order of their first
occurrence. -/
def firstOccFrom (D es : List configuredRepo2) : List configuredRepo2 :=
  es.foldl (fun D r => if r ∈ D then D else D ++ [r]) D

/-- The repos of a list in the order of their first occurrence. -/
def firstOcc (es : List configuredRepo2) : List configuredRepo2 := firstOccFrom [] es

/-- The queue entries of repos that are pushed one after another at priority `p` when the
sequence counter is `c`, heap positions erased. -/
def freshEntries (p : priority) : Nat → List configuredRepo2 → List repoUpdate
  | _, [] => []
  | c, r :: l =>
    { Repo := r, Priority := p, Seq := c + 1, Updating := false, Index := 0 } ::
      freshEntries p (c + 1) l

/-- The first entry of a list for a repo ID. -/
def entryOf (L : List repoUpdate) (id : Nat) : Option repoUpdate :=
  L.find? (fun e => decide (e.Repo.ID = id))

namespace schedule

end schedule

namespace schedule

end schedule

namespace updateQueue

/-- The heap slice holds distinct pointers to allocated entries. -/
def Loose (q : updateQueue) : Prop := q.heap.Nodup ∧ ∀ x ∈ q.heap, x < q.mem.length

/-- Every allocated entry has the same fields, the heap position aside. -/
def keep (q q1 : updateQueue) : Prop :=
  ∀ y : Ptr, (q1.mem[y]?).map repoUpdate.core = (q.mem[y]?).map repoUpdate.core

end updateQueue

namespace schedule

/-- The heap slice holds distinct pointers to allocated entries. -/
def Loose (q : schedule) : Prop := q.heap.Nodup ∧ ∀ x ∈ q.heap, x < q.mem.length

/-- Every allocated entry has the same fields, the heap position aside. -/
def keep (q q1 : schedule) : Prop :=
  ∀ y : Ptr, (q1.mem[y]?).map scheduledRepoUpdate.core = (q.mem[y]?).map scheduledRepoUpdate.core

end schedule

namespace updateScheduler

/-- The loop of `runSchedule` cut off after `n` rounds: the state reached, the number of
clock readings made, and whether the loop has been left. A panic in one of the rounds is the
result `none`; being cut off is not. -/
def runScheduleRounds (clock : Clock) :
    Nat → Nat → updateScheduler → Option (updateScheduler × Nat × Bool)
  | 0, k, s => some (s, k, false)
  | n + 1, k, s =>
    if s.schedule.heap.length = 0 then some (s, k, true)
    else
      (s.schedule.heap[0]?).bind (fun x =>
        (s.schedule.mem[x]?).bind (fun repoUpdate =>
          if !(Time.Before repoUpdate.Due (Time.Add (clock k) time.Millisecond)) then
            some (s, k + 1, true)
          else
            (s.updateQueue.enqueue repoUpdate.Repo priorityLow).bind (fun r =>
              (s.schedule.modify x
                  (fun e => { e with Due := Time.Add (clock (k + 1)) e.Interval })).bind
                (fun sch1 =>
                  (heap.Fix schedule.iface sch1 0).bind (fun sch2 =>
                    runScheduleRounds clock n (k + 2)
                      { s with updateQueue := r.1, schedule := sch2 })))))

end updateScheduler

/-- The entries that are due at the first clock reading of a pass are the ones that are due
at every reading of the pass. -/
def dueStable (clock : Clock) (s : schedule) : Prop :=
  ∀ e ∈ s.entries, ∀ k,
    Time.Before e.Due (Time.Add (clock k) time.Millisecond) =
      Time.Before e.Due (Time.Add (clock 0) time.Millisecond)

/-- The context a goroutine was started with. -/
def goroutine.ctx : goroutine → Nat
  | .runUpdateLoop ctx => ctx
  | .runScheduleLoop ctx => ctx

/-- The goroutines whose context has not been cancelled. -/
def watcher.running (w : watcher) : List goroutine :=
  w.started.filter (fun g => decide (g.ctx ∉ w.cancelled))

/-- The loops that `RunScheduler` wants to run on context `k` under a configuration. -/
def wantedLoops (k : Nat) (want : schedulerConfig) : List goroutine :=
  goroutine.runUpdateLoop k ::
    (if want.autoGitUpdatesEnabled then [goroutine.runScheduleLoop k] else [])

/-- What holds of the state of `RunScheduler` between notifications: contexts in use are
below `next`; before the first notification nothing has been started; afterwards the
goroutines on the context of `stop` are the wanted loops and all others are cancelled. -/
def watcher.Ok (w : watcher) : Prop :=
  (∀ g ∈ w.started, g.ctx < w.next) ∧ (∀ k ∈ w.cancelled, k < w.next) ∧
  match w.stop with
  | none => w.started = [] ∧ w.haveConfig = { running := false, autoGitUpdatesEnabled := false }
  | some k =>
    k < w.next ∧ k ∉ w.cancelled ∧ w.haveConfig.running = true ∧
    w.running = wantedLoops k w.haveConfig

/-- The mutexes held after a trace that starts with the mutexes `held` held. -/
def heldAfter : List mutex → List lockEvent → List mutex
  | held, [] => held
  | held, .Lock m :: es => heldAfter (m :: held) es
  | held, .Unlock m :: es => heldAfter (held.erase m) es

/-- Whether a trace that starts with the mutexes `held` held locks `wanted` at a moment at
which `holding` is held. -/
def locksWhileHolding (holding wanted : mutex) : List mutex → List lockEvent → Bool
  | _, [] => false
  | held, .Lock m :: es =>
    (decide (m = wanted) && decide (holding ∈ held)) ||
      locksWhileHolding holding wanted (m :: held) es
  | held, .Unlock m :: es => locksWhileHolding holding wanted (held.erase m) es

/-- A trace that leaves the held mutexes as they are and does not lock `b` while `a` is
held. -/
def Neutral (a b : mutex) (held : List mutex) (t : List lockEvent) : Prop :=
  heldAfter held t = held ∧ locksWhileHolding a b held t = false

/-- Whether the operation is `runSchedule`. -/
def operation.isRunSchedule : operation → Bool
  | .runSchedule _ => true
  | _ => false

/-- The pointer that `x` becomes when `n` cells are put into an arena before its cell `k`. -/
def rename (k n : Nat) (x : Nat) : Nat := if x < k then x else x + n

/-- The arena `l` with the cells `G` put in before its cell `k`. -/
def insertCells {α : Type} (k : Nat) (G : List α) (l : List α) : List α :=
  l.take k ++ G ++ l.drop k

namespace updateQueue

/-- The queue with the cells `G` put into its arena before cell `k`: the pointers of the heap
slice and of the index map are renamed accordingly. -/
def insertAt (k : Nat) (G : List repoUpdate) (q : updateQueue) : updateQueue :=
  { mem := insertCells k G q.mem, heap := q.heap.map (rename k G.length),
    index := q.index.map (fun e => (e.1, rename k G.length e.2)), seq := q.seq,
    notifyEnqueue := q.notifyEnqueue }

end updateQueue

namespace schedule

/-- The schedule with the cells `G` put into its arena before cell `k`: the pointers of the heap
slice and of the index map are renamed accordingly. -/
def insertAt (k : Nat) (G : List scheduledRepoUpdate) (q : schedule) : schedule :=
  { mem := insertCells k G q.mem, heap := q.heap.map (rename k G.length),
    index := q.index.map (fun e => (e.1, rename k G.length e.2)), timer := q.timer,
    wakeup := q.wakeup }

end schedule

namespace updateQueue

/-- Every queued Seq is at least 1 and at most the sequence counter, and two entries with one
Seq are the entry of one repo ID. -/
def SeqOk (q : updateQueue) : Prop :=
  (∀ id e, q.find id = some e → 1 ≤ e.Seq ∧ e.Seq ≤ q.seq) ∧
  ∀ i j a b, q.find i = some a → q.find j = some b → a.Seq = b.Seq → i = j

/-- The entries that are not being updated, in heap order, without their heap positions. -/
def waiting (q : updateQueue) : List repoUpdate :=
  (q.entries.filter (fun e => !e.Updating)).map repoUpdate.core

end updateQueue

namespace updateScheduler

/-- Every repo of every stored list has a non-zero ID. -/
def StoredOk (s : updateScheduler) : Prop :=
  ∀ source, ∀ p ∈ s.oldList source, p.2.ID ≠ 0

end updateScheduler

/-- The call carries the repo ID: as the ID of an enabled repo of the list of `updateSource`,
as the ID of a repo given to `Update` or `Set`, or as the ID given to `UpdateOnce`. -/
def sourceCall.carries (id : Nat) : sourceCall → Prop
  | .updateSource _ newList _ => id ∈ enabledIDs newList
  | .Update rs _ => id ∈ rs.map (fun r => r.ID)
  | .Set rs _ => id ∈ rs.map (fun r => r.ID)
  | .UpdateOnce id1 _ _ => id = id1

/-- All repo IDs that the call is given are non-zero. -/
def sourceCall.Ok : sourceCall → Prop
  | .updateSource _ newList _ => ∀ p ∈ newList, p.2.ID ≠ 0
  | .Update rs _ => ∀ r ∈ rs, r.ID ≠ 0
  | .Set rs _ => ∀ r ∈ rs, r.ID ≠ 0
  | .UpdateOnce id _ _ => id ≠ 0

/-- The call stores a list for the source `S`: it is a call of `updateSource` for `S`. -/
def sourceCall.stores (S : String) : sourceCall → Prop
  | .updateSource source _ _ => source = S
  | _ => False

instance (id : Nat) (c : sourceCall) : Decidable (c.carries id) := by
  cases c <;> unfold sourceCall.carries <;> infer_instance

instance (c : sourceCall) : Decidable c.Ok := by
  cases c <;> unfold sourceCall.Ok <;> infer_instance

instance (S : String) (c : sourceCall) : Decidable (c.stores S) := by
  cases c <;> unfold sourceCall.stores <;> infer_instance

/-! ## Concrete states -/

def repoA : configuredRepo2 := { URL := "a.git", ID := 1, Name := "a", Enabled := true }

def repoB : configuredRepo2 := { URL := "b.git", ID := 2, Name := "b", Enabled := true }

/-- A repo that is in none of the example states. -/
def repoC : configuredRepo2 := { URL := "c.git", ID := 3, Name := "c", Enabled := true }

/-- The queue after `enqueue(repoA, low)` and `enqueue(repoB, low)` on a fresh scheduler. -/
def exampleQueue : updateQueue :=
  { mem := [{ Repo := repoA, Priority := priorityLow, Seq := 1, Updating := false, Index := 0 },
            { Repo := repoB, Priority := priorityLow, Seq := 2, Updating := false, Index := 1 }],
    heap := [0, 1], index := [(2, 1), (1, 0)], seq := 2, notifyEnqueue := 1 }

/-- The state `exampleQueue` after one `acquireNext`, which returns `repoA`. -/
def exampleQueueAcquired : updateQueue :=
  { mem := [{ Repo := repoA, Priority := priorityLow, Seq := 1, Updating := true, Index := 1 },
            { Repo := repoB, Priority := priorityLow, Seq := 2, Updating := false, Index := 0 }],
    heap := [1, 0], index := [(2, 1), (1, 0)], seq := 2, notifyEnqueue := 1 }

/-- The Due-Schedule after `upsert(repoA)` at instant 0 and `upsert(repoB)` at instant 10. -/
def exampleSchedule : schedule :=
  { mem := [{ Repo := repoA, Interval := 45000000000, Due := 45000000000, Index := 0 },
            { Repo := repoB, Interval := 45000000000, Due := 45000000010, Index := 1 }],
    heap := [0, 1], index := [(2, 1), (1, 0)], timer := some 45000000000, wakeup := 0 }

/-- The scheduler after the two upserts and one `runSchedule` pass at instant 45s. -/
def exampleScheduler : updateScheduler :=
  { sourceRepos := [],
    updateQueue := exampleQueue,
    schedule :=
      { mem := [{ Repo := repoA, Interval := 45000000000, Due := 90000000000, Index := 1 },
                { Repo := repoB, Interval := 45000000000, Due := 90000000000, Index := 0 }],
        heap := [1, 0], index := [(2, 1), (1, 0)], timer := some 90000000000, wakeup := 0 } }

/-- The calls that lead from a fresh scheduler to `exampleScheduler`. -/
def exampleCalls : List scheduleCall :=
  [scheduleCall.upsert repoA (fun _ => 0), scheduleCall.upsert repoB (fun _ => 10),
   scheduleCall.runSchedule 5 (fun _ => 45000000000)]

/-- A scheduler in which `repoA` and `repoB` are scheduled and `repoA` is in flight. -/
def inFlightScheduler : updateScheduler :=
  { sourceRepos := [], updateQueue := exampleQueueAcquired, schedule := exampleSchedule }

/-- The state `inFlightScheduler` after the dispatch of `repoA` has completed with an error
and a response that carries both timestamps, ten hours apart, at instant 100. -/
def inFlightSchedulerAfter : updateScheduler :=
  { sourceRepos := [],
    updateQueue :=
      { mem := [{ Repo := repoA, Priority := priorityLow, Seq := 1, Updating := true,
                  Index := -1 },
                { Repo := repoB, Priority := priorityLow, Seq := 2, Updating := false,
                  Index := 0 }],
        heap := [1], index := [(2, 1)], seq := 2, notifyEnqueue := 1 },
    schedule :=
      { mem := [{ Repo := repoA, Interval := 18000000000000, Due := 18000000000100,
                  Index := 1 },
                { Repo := repoB, Interval := 45000000000, Due := 45000000010, Index := 0 }],
        heap := [1, 0], index := [(2, 1), (1, 0)], timer := some 45000000010, wakeup := 0 } }

/-- A fresh scheduler whose Due-Schedule is `exampleSchedule`: both entries are due at the
instant 45s. -/
def dueScheduler : updateScheduler :=
  { sourceRepos := [],
    updateQueue := { mem := [], heap := [], index := [], seq := 0, notifyEnqueue := 0 },
    schedule := exampleSchedule }

/-- The store's record of `repoA`, logically deleted. -/
def deletedRepoA : Repo :=
  { ID := 1, Name := "a", Enabled := true, IsDeleted := true, CloneURLs := ["a.git"] }

/-- The store's record of `repoC`, not deleted. -/
def knownRepoC : Repo :=
  { ID := 3, Name := "c", Enabled := true, IsDeleted := false, CloneURLs := ["c.git"] }

/-- The state `inFlightScheduler` after `Update(deletedRepoA)`: `repoA` has left the
schedule and is still in the queue. -/
def inFlightSchedulerDeleted : updateScheduler :=
  { sourceRepos := [], updateQueue := exampleQueueAcquired,
    schedule :=
      { mem := [{ Repo := repoA, Interval := 45000000000, Due := 45000000000, Index := -1 },
                { Repo := repoB, Interval := 45000000000, Due := 45000000010, Index := 0 }],
        heap := [1], index := [(2, 1)], timer := some 45000000010, wakeup := 0 } }

/-- The repo `repoA` under the new name "b": same ID. -/
def repoARenamed : configuredRepo2 := { URL := "a.git", ID := 1, Name := "b", Enabled := true }

/-- The fresh scheduler after `updateSource("github", {a: repoA})` at instant 0. -/
def sourceScheduler : updateScheduler :=
  { sourceRepos := [("github", [("a", repoA)])],
    updateQueue :=
      { mem := [{ Repo := repoA, Priority := priorityLow, Seq := 1, Updating := false,
                  Index := 0 }],
        heap := [0], index := [(1, 0)], seq := 1, notifyEnqueue := 1 },
    schedule :=
      { mem := [{ Repo := repoA, Interval := 45000000000, Due := 45000000000, Index := 0 }],
        heap := [0], index := [(1, 0)], timer := some 45000000000, wakeup := 0 } }

/-- The state `sourceScheduler` after `updateSource("github", {b: repoARenamed})` at
instant 0: the entries of ID 1 were removed and new ones were added. -/
def sourceSchedulerRenamed : updateScheduler :=
  { sourceRepos := [("github", [("b", repoARenamed)])],
    updateQueue :=
      { mem := [{ Repo := repoA, Priority := priorityLow, Seq := 1, Updating := false,
                  Index := -1 },
                { Repo := repoARenamed, Priority := priorityLow, Seq := 2, Updating := false,
                  Index := 0 }],
        heap := [1], index := [(1, 1)], seq := 2, notifyEnqueue := 1 },
    schedule :=
      { mem := [{ Repo := repoA, Interval := 45000000000, Due := 45000000000, Index := -1 },
                { Repo := repoARenamed, Interval := 45000000000, Due := 45000000000,
                  Index := 0 }],
        heap := [1], index := [(1, 1)], timer := some 45000000000, wakeup := 0 } }

/-- A clock that advances by 10ns from one reading to the next, up to the fifth reading. -/
def creepingClock : Clock := fun k => 44999000005 + 10 * (min k 4 : Nat)

/-- The state `sourceScheduler` after `updateSource("gitlab", {a: repoA})`: two sources list
`repoA`. -/
def twoSourceScheduler : updateScheduler :=
  { sourceRepos := [("gitlab", [("a", repoA)]), ("github", [("a", repoA)])],
    updateQueue := sourceScheduler.updateQueue, schedule := sourceScheduler.schedule }

/-- Six operations on the queue, one of them a reset. -/
def exampleOps : List queueOp :=
  [queueOp.call (queueCall.enqueue repoA priorityLow),
   queueOp.call (queueCall.enqueue repoB priorityHigh),
   queueOp.reset,
   queueOp.call (queueCall.enqueue repoC priorityLow),
   queueOp.call (queueCall.enqueue repoA priorityLow),
   queueOp.call queueCall.acquireNext]

/-- The fresh queue after `exampleOps`: the two cells allocated before the reset are
garbage. -/
def exampleOpsQueue : updateQueue :=
  { mem := [⟨repoA, priorityLow, 1, false, 1⟩, ⟨repoB, priorityHigh, 2, false, 0⟩,
            ⟨repoC, priorityLow, 1, true, 1⟩, ⟨repoA, priorityLow, 2, false, 0⟩],
    heap := [3, 2], index := [(1, 3), (3, 2)], seq := 2, notifyEnqueue := 1 }

/-- One round that advances the sequence counter and leaves the entries as they were:
`repoC` is enqueued at high priority, acquired, and removed as an update that has ended. -/
def burnCycle : List queueOp :=
  [queueOp.call (queueCall.enqueue repoC priorityHigh), queueOp.call queueCall.acquireNext,
   queueOp.call (queueCall.remove repoC true)]

/-- The round `burnCycle`, `n` times. -/
def burnCycles : Nat → List queueOp
  | 0 => []
  | n + 1 => burnCycle ++ burnCycles n

/-- The call enqueue(repoA, low) and then 2^64 - 1 rounds of `burnCycle`: 2^64 calls of
enqueue in all. -/
def wrapOps : List queueOp :=
  queueOp.call (queueCall.enqueue repoA priorityLow) :: burnCycles (2 ^ 64 - 1)

/-- The cells that `n` rounds of `burnCycle` leave behind when the counter is `c` before
the first: the removed entries of `repoC`. -/
def burnCells : Nat → Nat → List repoUpdate
  | 0, _ => []
  | n + 1, c =>
    ⟨repoC, priorityHigh, (c + 1) % 2 ^ 64, true, -1⟩ :: burnCells n ((c + 1) % 2 ^ 64)

/-- The queue that holds `repoA` with Seq 1 when the counter is `c`; the cells `G` are those
of entries removed since. -/
def burnQueue (G : List repoUpdate) (c : Nat) : updateQueue :=
  { mem := ⟨repoA, priorityLow, 1, false, 0⟩ :: G, heap := [0], index := [(1, 0)], seq := c,
    notifyEnqueue := 1 }

/-- The queue `burnQueue [] 0` after enqueue(repoB, low): both entries have Seq 1. -/
def tieQueue : updateQueue :=
  { mem := [⟨repoA, priorityLow, 1, false, 0⟩, ⟨repoB, priorityLow, 1, false, 1⟩],
    heap := [0, 1], index := [(2, 1), (1, 0)], seq := 1, notifyEnqueue := 1 }

/-- The first instant of the last second of the range of `time.Time`. -/
def lastSecond : Time := (2 ^ 63 - 1) * time.Second

/-- The state `dueScheduler` after two rounds of the loop of `runSchedule` under the fixed
clock reading `lastSecond`: both repos are queued, and both entries are due at `lastSecond`,
where `Add` has cut their new Due off. -/
def stuckScheduler : updateScheduler :=
  { sourceRepos := [],
    updateQueue := exampleQueue,
    schedule :=
      { mem := [{ Repo := repoA, Interval := 45000000000, Due := 9223372036854775807000000000,
                  Index := 1 },
                { Repo := repoB, Interval := 45000000000, Due := 9223372036854775807000000000,
                  Index := 0 }],
        heap := [1, 0], index := [(2, 1), (1, 0)], timer := some 45000000000, wakeup := 0 } }

/-- The store's record of `repoA`, not deleted. -/
def knownRepoA : Repo :=
  { ID := 1, Name := "a", Enabled := true, IsDeleted := false, CloneURLs := ["a.git"] }

/-! ## Instants of time.Time -/

/-- Away from the ends of the range of `time.Time`, `Add` is addition. -/
theorem Time.Add_eq {t : Time} {d : Duration} (h1 : time.minTime ≤ t + d)
    (h2 : t + d ≤ time.maxTime) : Time.Add t d = t + d := by
  unfold Time.Add
  unfold Time Duration at *
  split_ifs <;> first | rfl | omega

/-- The instant that `Add` saturates at: `maxDelay` from the last second of the range gives
the last second again. -/
theorem Time.Add_last (f : Int) (d : Duration) (hf0 : 0 ≤ f) (hf1 : f < time.Second)
    (hd : d % time.Second = 0) (hd1 : time.Second ≤ d) :
    Time.Add ((2 ^ 63 - 1) * time.Second + f) d = (2 ^ 63 - 1) * time.Second + f := by
  have hs : time.Second = 1000000000 := by decide
  have hmin : time.minTime = -9223372036854775808000000000 := by decide
  have hmax : time.maxTime = 9223372036854775807999999999 := by decide
  rw [hs] at hf1 hd hd1
  unfold Time.Add
  rw [hs, hmin, hmax]
  unfold Time Duration at *
  split_ifs <;> omega

/-- A sum that does not pass the end of the range is not cut off. -/
theorem Time.Add_eq_of_le {t : Time} {d : Duration} (h0 : 0 ≤ d) (h : t + d ≤ time.maxTime) :
    Time.Add t d = t + d := by
  unfold Time.Add
  unfold Time Duration at *
  split_ifs <;> first | rfl | omega

theorem clockWithin_add {clock : Clock} {B : Time} (h : clockWithin clock B) (k : Nat)
    {d : Duration} (h0 : 0 ≤ d) (h1 : d ≤ maxDelay) : Time.Add (clock k) d = clock k + d := by
  obtain ⟨_, _, h4⟩ := h k
  apply Time.Add_eq_of_le h0
  unfold Time Duration at *
  omega

theorem clockWithin_millisecond {clock : Clock} {B : Time} (h : clockWithin clock B) (k : Nat) :
    Time.Add (clock k) time.Millisecond = clock k + time.Millisecond :=
  clockWithin_add h k (by decide) (by decide)

/-! ## The loops of container/heap restore the heap condition -/

namespace heap

variable {β : Type} {lt : β → β → Bool}

theorem swapF_left {f : Nat → Option β} {i j : Nat} : swapF f i j i = f j := by
  unfold swapF
  by_cases h : i = j
  · simp [h]
  · simp [h]

theorem swapF_right {f : Nat → Option β} {i j : Nat} : swapF f i j j = f i := by
  simp [swapF]

theorem swapF_other {f : Nat → Option β} {i j k : Nat} (h1 : k ≠ i) (h2 : k ≠ j) :
    swapF f i j k = f k := by
  simp [swapF, h1, h2]

theorem upHole_done_root {f : Nat → Option β} {n : Nat} (h : UpHole lt f n 0) : HeapOn lt f n := by
  intro k a b hk hkn ha hb
  exact h.1 k a b hk hkn (by omega) ha hb

theorem upHole_done {f : Nat → Option β} {n j : Nat} {a b : β} (h : UpHole lt f n j)
    (ha : f j = some a) (hb : f ((j - 1) / 2) = some b) (hlt : lt a b = false) :
    HeapOn lt f n := by
  intro k x y hk hkn hx hy
  by_cases hkj : k = j
  · subst hkj
    rw [hb] at hx
    rw [ha] at hy
    cases hx
    cases hy
    exact hlt
  · exact h.1 k x y hk hkn hkj hx hy

theorem upHole_swap (asymm : ∀ a b, lt a b = true → lt b a = false)
    (trans : ∀ a b c, lt b a = false → lt c b = false → lt c a = false)
    {f : Nat → Option β} {n j : Nat} {a b : β} (h : UpHole lt f n j) (hj : 0 < j)
    (ha : f j = some a) (hb : f ((j - 1) / 2) = some b) (hlt : lt a b = true) :
    UpHole lt (swapF f ((j - 1) / 2) j) n ((j - 1) / 2) := by
  have hba : lt b a = false := asymm a b hlt
  have hpj : (j - 1) / 2 ≠ j := by omega
  constructor
  · intro k x y hk hkn hki hx hy
    by_cases hkj : k = j
    · subst hkj
      rw [swapF_left, ha] at hx
      rw [swapF_right, hb] at hy
      rw [← Option.some.inj hx, ← Option.some.inj hy]
      exact hba
    · rw [swapF_other hki hkj] at hy
      by_cases hpk : (k - 1) / 2 = j
      · rw [hpk, swapF_right, hb] at hx
        rw [← Option.some.inj hx]
        exact h.2 k b y hj hk hkn hpk hb hy
      · by_cases hpk2 : (k - 1) / 2 = (j - 1) / 2
        · rw [hpk2, swapF_left, ha] at hx
          rw [← Option.some.inj hx]
          have h1 : lt y b = false := h.1 k b y hk hkn hkj (by rw [hpk2]; exact hb) hy
          exact trans a b y hba h1
        · rw [swapF_other hpk2 hpk] at hx
          exact h.1 k x y hk hkn hkj hx hy
  · intro c x y hi hc hcn hpc hx hy
    have h1 : (((j - 1) / 2 - 1) / 2) ≠ (j - 1) / 2 := by omega
    have h2 : (((j - 1) / 2 - 1) / 2) ≠ j := by omega
    rw [swapF_other h1 h2] at hx
    have hgb : lt b x = false := h.1 ((j - 1) / 2) x b hi (by omega) hpj hx hb
    by_cases hcj : c = j
    · subst hcj
      rw [swapF_right, hb] at hy
      rw [← Option.some.inj hy]
      exact hgb
    · have hci : c ≠ (j - 1) / 2 := by omega
      rw [swapF_other hci hcj] at hy
      have h3 : lt y b = false := h.1 c b y hc hcn hcj (by rw [hpc]; exact hb) hy
      exact trans x b y hgb h3

theorem upHole_heap {f : Nat → Option β} {n j : Nat} (h : UpHole lt f n j)
    (hp : ∀ a b, 0 < j → f ((j - 1) / 2) = some a → f j = some b → lt b a = false) :
    HeapOn lt f n := by
  intro k x y hk hkn hx hy
  by_cases hkj : k = j
  · subst hkj
    exact hp x y hk hx hy
  · exact h.1 k x y hk hkn hkj hx hy

theorem hole_stay {f : Nat → Option β} {n i : Nat} (h : Hole lt f n i)
    (hc : ∀ c x y, 0 < c → c < n → (c - 1) / 2 = i → f i = some x → f c = some y →
      lt y x = false) : UpHole lt f n i := by
  refine ⟨?_, h.2⟩
  intro k x y hk hkn hki hx hy
  by_cases hpk : (k - 1) / 2 = i
  · rw [hpk] at hx
    exact hc k x y hk hkn hpk hx hy
  · exact h.1 k x y hk hkn hki hpk hx hy

theorem hole_swap (asymm : ∀ a b, lt a b = true → lt b a = false)
    {f : Nat → Option β} {n i c : Nat} {a b : β} (h : Hole lt f n i)
    (hc : 0 < c) (hcn : c < n) (hpc : (c - 1) / 2 = i)
    (ha : f c = some a) (hb : f i = some b) (hlt : lt a b = true)
    (hmin : ∀ d y, 0 < d → d < n → (d - 1) / 2 = i → d ≠ c → f d = some y → lt y a = false) :
    Hole lt (swapF f i c) n c ∧
    (∀ x y, swapF f i c ((c - 1) / 2) = some x → swapF f i c c = some y → lt y x = false) := by
  have hic : i ≠ c := by omega
  refine ⟨⟨?_, ?_⟩, ?_⟩
  · intro k x y hk hkn hkc hpk hx hy
    by_cases hki : k = i
    · subst hki
      have h1 : (k - 1) / 2 ≠ k := by omega
      rw [swapF_other h1 hpk] at hx
      rw [swapF_left, ha] at hy
      rw [← Option.some.inj hy]
      exact h.2 c x a hk hc hcn hpc hx ha
    · rw [swapF_other hki hkc] at hy
      by_cases hpki : (k - 1) / 2 = i
      · rw [hpki, swapF_left, ha] at hx
        rw [← Option.some.inj hx]
        exact hmin k y hk hkn hpki hkc hy
      · rw [swapF_other hpki hpk] at hx
        exact h.1 k x y hk hkn hki hpki hx hy
  · intro g x y _ hg hgn hpg hx hy
    rw [hpc, swapF_left, ha] at hx
    have hgi : g ≠ i := by omega
    have hgc : g ≠ c := by omega
    rw [swapF_other hgi hgc] at hy
    rw [← Option.some.inj hx]
    exact h.1 g a y hg hgn hgi (by omega) (by rw [hpg]; exact ha) hy
  · intro x y hx hy
    rw [hpc, swapF_left, ha] at hx
    rw [swapF_right, hb] at hy
    rw [← Option.some.inj hx, ← Option.some.inj hy]
    exact asymm a b hlt

theorem heapOn_modify (trans : ∀ a b c, lt b a = false → lt c b = false → lt c a = false)
    {f g : Nat → Option β} {n i : Nat} (h : HeapOn lt f n)
    (hfg : ∀ k, k < n → k ≠ i → g k = f k) (hi : i < n → ∃ a, f i = some a) : Hole lt g n i := by
  constructor
  · intro k x y hk hkn hki hpk hx hy
    rw [hfg _ (by omega) hpk] at hx
    rw [hfg _ hkn hki] at hy
    exact h k x y hk hkn hx hy
  · intro c x y hi0 hc hcn hpc hx hy
    rw [hfg _ (by omega) (by omega)] at hx
    rw [hfg _ hcn (by omega)] at hy
    obtain ⟨v, hv⟩ := hi (by omega)
    have h1 : lt v x = false := h i x v hi0 (by omega) hx hv
    have h2 : lt y v = false := h c v y hc hcn (by rw [hpc]; exact hv) hy
    exact trans x v y h1 h2

theorem heapOn_mono {f : Nat → Option β} {n m : Nat} (h : HeapOn lt f n) (hm : m ≤ n) :
    HeapOn lt f m :=
  fun k a b hk hkm ha hb => h k a b hk (by omega) ha hb

theorem heapOn_congr {f g : Nat → Option β} {n : Nat} (h : HeapOn lt f n)
    (hfg : ∀ k, k < n → g k = f k) : HeapOn lt g n := by
  intro k a b hk hkn ha hb
  rw [hfg _ (by omega)] at ha
  rw [hfg _ hkn] at hb
  exact h k a b hk hkn ha hb

theorem heapOn_root_min (asymm : ∀ a b, lt a b = true → lt b a = false)
    (trans : ∀ a b c, lt b a = false → lt c b = false → lt c a = false)
    {f : Nat → Option β} {n : Nat} (h : HeapOn lt f n) (hf : ∀ k, k < n → ∃ a, f k = some a) :
    ∀ k a b, k < n → f 0 = some a → f k = some b → lt b a = false := by
  intro k
  induction k using Nat.strong_induction_on with
  | _ k ih =>
    intro a b hkn ha hb
    by_cases hk : k = 0
    · subst hk
      rw [ha] at hb
      rw [← Option.some.inj hb]
      cases hl : lt a a
      · rfl
      · have := asymm a a hl
        rw [hl] at this
        cases this
    · obtain ⟨p, hp⟩ := hf ((k - 1) / 2) (by omega)
      have h1 : lt p a = false := ih ((k - 1) / 2) (by omega) a p (by omega) ha hp
      have h2 : lt b p = false := h k p b (by omega) hkn hp hb
      exact trans a p b h1 h2

end heap

namespace heap

variable {σ ε β : Type} {h : Interface σ ε} {inv : σ → Prop} {slot : σ → Nat → Option β}
  {lt : β → β → Bool} {rel : σ → σ → Prop} (L : Lawful h inv slot lt rel)

include L

theorem upLoop_spec : ∀ (fuel : Nat) (s : σ) (j : Nat), inv s → j < h.Len s → j < fuel →
    ∃ s1, upLoop h fuel s j = some s1 ∧ inv s1 ∧ rel s s1 ∧ h.Len s1 = h.Len s ∧
      (∀ k, j < k → slot s1 k = slot s k) ∧
      (∀ n, UpHole lt (slot s) n j → HeapOn lt (slot s1) n) := by
  intro fuel
  induction fuel with
  | zero => intro s j _ _ hf; omega
  | succ fuel ih =>
    intro s j hinv hj hf
    unfold upLoop
    by_cases hij : (j - 1) / 2 = j
    · simp only [hij, if_true]
      refine ⟨s, rfl, hinv, L.rel_refl s, rfl, fun _ _ => rfl, fun n hu => ?_⟩
      have h0 : j = 0 := by omega
      subst h0
      exact upHole_done_root hu
    · obtain ⟨a, ha⟩ := L.slot_some s j hinv hj
      obtain ⟨b, hb⟩ := L.slot_some s ((j - 1) / 2) hinv (by omega)
      have hless := L.Less_eq s j ((j - 1) / 2) a b hinv ha hb
      simp only [hij, if_false, hless]
      cases hlt : lt a b
      · exact ⟨s, rfl, hinv, L.rel_refl s, rfl, fun _ _ => rfl, fun n hu => upHole_done hu ha hb hlt⟩
      · obtain ⟨s1, hs, hinv1, hrel1, hlen1, hslot1⟩ :=
          L.Swap_eq s ((j - 1) / 2) j hinv (by omega) hj
        simp only [hs]
        obtain ⟨s2, h2, hinv2, hrel2, hlen2, hslot2, hheap2⟩ :=
          ih s1 ((j - 1) / 2) hinv1 (by omega) (by omega)
        refine ⟨s2, h2, hinv2, L.rel_trans _ _ _ hrel1 hrel2, by omega, ?_, ?_⟩
        · intro k hk
          rw [hslot2 k (by omega), hslot1, swapF_other (by omega) (by omega)]
        · intro n hu
          apply hheap2
          rw [hslot1]
          exact upHole_swap L.asymm L.trans hu (by omega) ha hb hlt

theorem up_spec (s : σ) (j : Nat) (hinv : inv s) (hj : j < h.Len s) :
    ∃ s1, up h s j = some s1 ∧ inv s1 ∧ rel s s1 ∧ h.Len s1 = h.Len s ∧
      (∀ k, j < k → slot s1 k = slot s k) ∧
      (∀ n, UpHole lt (slot s) n j → HeapOn lt (slot s1) n) :=
  upLoop_spec L (j + 1) s j hinv hj (by omega)

/-- The child that `down` compares with position `i`: the smaller of the children below `n`. -/
theorem down_choice (s : σ) (i n : Nat) (hinv : inv s) (hn : n ≤ h.Len s)
    (hj1 : 2 * i + 1 < n) :
    ∃ b, (if 2 * i + 1 + 1 < n then h.Less s (2 * i + 1 + 1) (2 * i + 1) else some false)
        = some b ∧
      ∃ a, slot s (if b then 2 * i + 1 + 1 else 2 * i + 1) = some a ∧
        (if b then 2 * i + 1 + 1 else 2 * i + 1) < n ∧
        ∀ d y, 0 < d → d < n → (d - 1) / 2 = i → d ≠ (if b then 2 * i + 1 + 1 else 2 * i + 1) →
          slot s d = some y → lt y a = false := by
  obtain ⟨v1, hv1⟩ := L.slot_some s (2 * i + 1) hinv (by omega)
  by_cases hj2 : 2 * i + 1 + 1 < n
  · obtain ⟨v2, hv2⟩ := L.slot_some s (2 * i + 1 + 1) hinv (by omega)
    have hless := L.Less_eq s (2 * i + 1 + 1) (2 * i + 1) v2 v1 hinv hv2 hv1
    simp only [hj2, if_true, hless]
    refine ⟨lt v2 v1, rfl, ?_⟩
    cases hlt : lt v2 v1
    · refine ⟨v1, by simpa using hv1, by simpa using hj1, ?_⟩
      intro d y hd hdn hpd hne hy
      have hd2 : d = 2 * i + 1 + 1 := by
        simp only [Bool.false_eq_true, if_false] at hne
        omega
      rw [hd2, hv2] at hy
      rw [← Option.some.inj hy]
      exact hlt
    · refine ⟨v2, by simpa using hv2, by simpa using hj2, ?_⟩
      intro d y hd hdn hpd hne hy
      have hd1 : d = 2 * i + 1 := by
        simp only [if_true] at hne
        omega
      rw [hd1, hv1] at hy
      rw [← Option.some.inj hy]
      exact L.asymm _ _ hlt
  · simp only [hj2, if_false]
    refine ⟨false, rfl, v1, by simpa using hv1, by simpa using hj1, ?_⟩
    intro d y hd hdn hpd hne hy
    simp only [Bool.false_eq_true, if_false] at hne
    omega

theorem downLoop_spec : ∀ (fuel : Nat) (s : σ) (i n : Nat), inv s → n ≤ h.Len s →
    n + 1 ≤ fuel + i → 0 < fuel →
    ∃ s1 i1, downLoop h fuel s i n = some (s1, i1) ∧ inv s1 ∧ rel s s1 ∧
      h.Len s1 = h.Len s ∧ i ≤ i1 ∧ (i1 = i → s1 = s) ∧
      (∀ k, (k < i ∨ n ≤ k) → slot s1 k = slot s k) ∧
      (Hole lt (slot s) n i →
        (i1 = i → UpHole lt (slot s) n i) ∧
        ((i < i1 ∨ ∀ a b, 0 < i → slot s ((i - 1) / 2) = some a → slot s i = some b →
            lt b a = false) → HeapOn lt (slot s1) n)) := by
  intro fuel
  induction fuel with
  | zero => intro s i n _ _ _ hf; omega
  | succ fuel ih =>
    intro s i n hinv hn hfuel _
    unfold downLoop
    by_cases hj1 : 2 * i + 1 ≥ n
    · simp only [hj1, if_true]
      refine ⟨s, i, rfl, hinv, L.rel_refl s, rfl, Nat.le_refl i, fun _ => rfl,
        fun _ _ => rfl, fun hh => ?_⟩
      have hup : UpHole lt (slot s) n i :=
        hole_stay hh (fun c x y hc hcn hpc _ _ => by omega)
      refine ⟨fun _ => hup, fun hor => ?_⟩
      rcases hor with hlt | hp
      · omega
      · exact upHole_heap hup hp
    · have hj1lt : 2 * i + 1 < n := by omega
      obtain ⟨b, hb, a, ha, hjn, hmin⟩ := down_choice L s i n hinv hn hj1lt
      obtain ⟨vi, hvi⟩ := L.slot_some s i hinv (by omega)
      simp only [hj1, if_false, hb]
      generalize hjdef : (if b = true then 2 * i + 1 + 1 else 2 * i + 1) = j at ha hjn hmin
      have hjpar : (j - 1) / 2 = i := by
        cases b
        · simp only [Bool.false_eq_true, if_false] at hjdef; omega
        · simp only [if_true] at hjdef; omega
      have hjpos : 0 < j := by
        cases b
        · simp only [Bool.false_eq_true, if_false] at hjdef; omega
        · simp only [if_true] at hjdef; omega
      have hless := L.Less_eq s j i a vi hinv ha hvi
      simp only [hless]
      cases hlt : lt a vi
      · refine ⟨s, i, rfl, hinv, L.rel_refl s, rfl, Nat.le_refl i, fun _ => rfl,
          fun _ _ => rfl, fun hh => ?_⟩
        have hup : UpHole lt (slot s) n i := by
          apply hole_stay hh
          intro c x y hc hcn hpc hx hy
          rw [hvi] at hx
          rw [← Option.some.inj hx]
          by_cases hcj : c = j
          · rw [hcj, ha] at hy
            rw [← Option.some.inj hy]
            exact hlt
          · exact L.trans vi a y hlt (hmin c y hc hcn hpc hcj hy)
        refine ⟨fun _ => hup, fun hor => ?_⟩
        rcases hor with hlt | hp
        · omega
        · exact upHole_heap hup hp
      · obtain ⟨s1, hs, hinv1, hrel1, hlen1, hslot1⟩ :=
          L.Swap_eq s i j hinv (by omega) (by omega)
        simp only [hs]
        obtain ⟨s2, i2, h2, hinv2, hrel2, hlen2, hle2, _, hslot2, hheap2⟩ :=
          ih s1 j n hinv1 (by omega) (by omega) (by omega)
        refine ⟨s2, i2, h2, hinv2, L.rel_trans _ _ _ hrel1 hrel2, by omega, by omega,
          fun hi => by omega, ?_, fun hh => ?_⟩
        · intro k hk
          rw [hslot2 k (by omega), hslot1, swapF_other (by omega) (by omega)]
        · refine ⟨fun hi => by omega, fun _ => ?_⟩
          have hsw := hole_swap L.asymm hh hjpos hjn hjpar ha hvi hlt hmin
          rw [← hslot1] at hsw
          refine (hheap2 hsw.1).2 (Or.inr ?_)
          intro x y _ hx hy
          exact hsw.2 x y hx hy

/-- The step shared by `Fix` and `Remove`: `if !down(h, i, n) { up(h, i) }`. -/
theorem down_up_spec (s : σ) (i n : Nat) (hinv : inv s) (hi : i < n) (hn : n ≤ h.Len s) :
    ∃ s1, (down h s i n).bind (fun r => if r.2 then some r.1 else up h r.1 i) = some s1 ∧
      inv s1 ∧ rel s s1 ∧ h.Len s1 = h.Len s ∧
      (∀ k, n ≤ k → slot s1 k = slot s k) ∧
      (Hole lt (slot s) n i → HeapOn lt (slot s1) n) := by
  obtain ⟨s1, i1, h1, hinv1, hrel1, hlen1, hle1, hsame1, hslot1, hheap1⟩ :=
    downLoop_spec L (n + 1) s i n hinv hn (by omega) (by omega)
  unfold down
  rw [h1]
  by_cases hmoved : i1 > i
  · simp only [Option.map_some', Option.some_bind, hmoved, decide_True, if_true]
    exact ⟨s1, rfl, hinv1, hrel1, hlen1, fun k hk => hslot1 k (Or.inr hk),
      fun hh => (hheap1 hh).2 (Or.inl hmoved)⟩
  · have hi1 : i1 = i := by omega
    have hs1 : s1 = s := hsame1 hi1
    simp only [Option.map_some', Option.some_bind, hmoved, decide_False, Bool.false_eq_true,
      if_false]
    rw [hs1]
    obtain ⟨s2, h2, hinv2, hrel2, hlen2, hslot2, hheap2⟩ := up_spec L s i hinv (by omega)
    exact ⟨s2, h2, hinv2, hrel2, hlen2, fun k hk => hslot2 k (by omega),
      fun hh => hheap2 n ((hheap1 hh).1 hi1)⟩

theorem Fix_spec (s : σ) (i : Nat) (hinv : inv s) (hi : i < h.Len s) :
    ∃ s1, Fix h s i = some s1 ∧ inv s1 ∧ rel s s1 ∧ h.Len s1 = h.Len s ∧
      (Hole lt (slot s) (h.Len s) i → HeapOn lt (slot s1) (h.Len s)) := by
  obtain ⟨s1, h1, hinv1, hrel1, hlen1, _, hheap1⟩ :=
    down_up_spec L s i (h.Len s) hinv hi (Nat.le_refl _)
  exact ⟨s1, h1, hinv1, hrel1, hlen1, hheap1⟩

end heap

/-! ## Index maps -/

theorem IndexMap.get_eq_some {m : IndexMap} {k : Nat} {v : Ptr} (h : IndexMap.get m k = some v) :
    (k, v) ∈ m := by
  unfold IndexMap.get at h
  cases hf : m.find? (fun e => decide (e.1 = k)) with
  | none => rw [hf] at h; cases h
  | some e =>
    rw [hf] at h
    have h1 := List.find?_some hf
    have h2 := List.mem_of_find?_eq_some hf
    simp only [Option.map_some', Option.some.injEq] at h
    simp only [decide_eq_true_eq] at h1
    have : e = (k, v) := by
      cases e
      simp only at h h1
      rw [h, h1]
    rw [← this]
    exact h2

theorem IndexMap.get_isSome_of_mem {m : IndexMap} {e : Nat × Ptr} (h : e ∈ m) :
    ∃ v, IndexMap.get m e.1 = some v := by
  unfold IndexMap.get
  cases hf : m.find? (fun e1 => decide (e1.1 = e.1)) with
  | none =>
    rw [List.find?_eq_none] at hf
    have := hf e h
    simp at this
  | some e1 => exact ⟨e1.2, rfl⟩

theorem IndexMap.get_of_mem {m : IndexMap} (hm : (m.map Prod.fst).Nodup) {e : Nat × Ptr}
    (h : e ∈ m) : IndexMap.get m e.1 = some e.2 := by
  induction m with
  | nil => cases h
  | cons a m ih =>
    rw [List.map_cons, List.nodup_cons] at hm
    unfold IndexMap.get
    by_cases ha : a.1 = e.1
    · rcases List.mem_cons.mp h with h1 | h1
      · simp [List.find?_cons, h1]
      · exact (hm.1 (by rw [ha]; exact List.mem_map_of_mem Prod.fst h1)).elim
    · rcases List.mem_cons.mp h with h1 | h1
      · exact (ha (by rw [h1])).elim
      · have := ih hm.2 h1
        unfold IndexMap.get at this
        simpa [List.find?_cons, ha] using this

theorem IndexMap.get_nil (k : Nat) : IndexMap.get [] k = none := rfl

theorem IndexMap.get_delete (m : IndexMap) (k k1 : Nat) :
    IndexMap.get (IndexMap.delete m k) k1 = if k1 = k then none else IndexMap.get m k1 := by
  unfold IndexMap.get IndexMap.delete
  rw [List.find?_filter]
  by_cases hk : k1 = k
  · subst hk
    have hp : (fun a : Nat × Ptr =>
        decide ((!decide (a.1 = k1)) = true ∧ decide (a.1 = k1) = true)) = fun _ => false := by
      funext a
      by_cases ha : a.1 = k1 <;> simp [ha]
    rw [hp]
    simp
  · have hp : (fun a : Nat × Ptr =>
        decide ((!decide (a.1 = k)) = true ∧ decide (a.1 = k1) = true)) =
        fun a => decide (a.1 = k1) := by
      funext a
      by_cases ha : a.1 = k1
      · have : ¬ a.1 = k := fun h => hk (ha.symm.trans h)
        simp [ha, hk]
      · simp [ha]
    rw [hp]
    simp [hk]

theorem IndexMap.get_set (m : IndexMap) (k : Nat) (v : Ptr) (k1 : Nat) :
    IndexMap.get (IndexMap.set m k v) k1 = if k1 = k then some v else IndexMap.get m k1 := by
  by_cases hk : k1 = k
  · subst hk
    simp [IndexMap.get, IndexMap.set]
  · have h := IndexMap.get_delete m k k1
    simp only [hk, if_false] at h ⊢
    rw [← h]
    have hk2 : ¬ k = k1 := fun e => hk e.symm
    simp [IndexMap.get, IndexMap.set, List.find?_cons, hk2]

theorem IndexMap.keys_delete {m : IndexMap} (k : Nat) (h : (m.map Prod.fst).Nodup) :
    ((IndexMap.delete m k).map Prod.fst).Nodup := by
  unfold IndexMap.delete
  exact List.Nodup.sublist (List.Sublist.map _ (List.filter_sublist m)) h

theorem IndexMap.keys_set {m : IndexMap} (k : Nat) (v : Ptr) (h : (m.map Prod.fst).Nodup) :
    ((IndexMap.set m k v).map Prod.fst).Nodup := by
  unfold IndexMap.set
  rw [List.map_cons, List.nodup_cons]
  refine ⟨?_, IndexMap.keys_delete k h⟩
  intro hmem
  rw [List.mem_map] at hmem
  obtain ⟨e, he, hek⟩ := hmem
  unfold IndexMap.delete at he
  rw [List.mem_filter] at he
  simp [hek] at he

/-! ## Update Queue: the heap interface keeps the representation invariant -/

namespace updateQueue

theorem wf_entry {q : updateQueue} (hq : q.Wf) {i : Nat} {x : Ptr} (h : q.heap[i]? = some x) :
    ∃ e, q.mem[x]? = some e ∧ e.Index = (i : Int) ∧ e.Repo.ID ≠ 0 ∧
      q.index.get e.Repo.ID = some x := by
  obtain ⟨hlt, hx⟩ := List.getElem?_eq_some.mp h
  have h1 := hq.1 i hlt
  simp only [List.get_eq_getElem, hx] at h1
  unfold EntryOk at h1
  cases hm : q.mem[x]? with
  | none => rw [hm] at h1; exact h1.elim
  | some e => rw [hm] at h1; exact ⟨e, rfl, h1⟩

theorem wf_index {q : updateQueue} (hq : q.Wf) {id : Nat} {x : Ptr}
    (h : q.index.get id = some x) :
    ∃ (i : Nat) (e : repoUpdate), q.heap[i]? = some x ∧ q.mem[x]? = some e ∧ e.Repo.ID = id := by
  have h1 := hq.2.1 (id, x) (IndexMap.get_eq_some h)
  unfold KeyOk at h1
  obtain ⟨hmem, h2⟩ := h1
  obtain ⟨i, hi⟩ := List.mem_iff_getElem?.mp hmem
  cases hm : q.mem[x]? with
  | none => simp only [hm] at h2
  | some e =>
    simp only [hm] at h2
    exact ⟨i, e, hi, rfl, h2⟩

theorem wf_intro {q : updateQueue}
    (h1 : ∀ (i : Nat) (x : Ptr), q.heap[i]? = some x → ∃ e, q.mem[x]? = some e ∧ e.Index = (i : Int) ∧
      e.Repo.ID ≠ 0 ∧ q.index.get e.Repo.ID = some x)
    (h2 : ∀ id x, q.index.get id = some x → x ∈ q.heap ∧ ∃ e, q.mem[x]? = some e ∧ e.Repo.ID = id)
    (h3 : (q.index.map Prod.fst).Nodup) : q.Wf := by
  refine ⟨?_, ?_, h3⟩
  · intro i hlt
    obtain ⟨e, he, hrest⟩ := h1 i (q.heap.get ⟨i, hlt⟩) (by simp)
    unfold EntryOk
    rw [he]
    exact hrest
  · intro e he
    obtain ⟨hmem, u, hu, hid⟩ := h2 e.1 e.2 (IndexMap.get_of_mem h3 he)
    unfold KeyOk
    rw [hu]
    exact ⟨hmem, hid⟩

end updateQueue

theorem getElem?_swap {α : Type} (l : List α) (i j : Nat) (hi hj : α)
    (h1 : l[i]? = some hi) (h2 : l[j]? = some hj) (k : Nat) :
    ((l.set i hj).set j hi)[k]? = heap.swapF (fun k => l[k]?) i j k := by
  have hil : i < l.length := (List.getElem?_eq_some.mp h1).1
  have hjl : j < l.length := (List.getElem?_eq_some.mp h2).1
  unfold heap.swapF
  rw [List.getElem?_set, List.getElem?_set]
  by_cases hkj : k = j
  · subst hkj
    simp [hjl, h1]
  · have hjk : ¬ j = k := fun e => hkj e.symm
    by_cases hki : k = i
    · subst hki
      simp [hjk, hkj, hil, h2]
    · have hik : ¬ i = k := fun e => hki e.symm
      simp [hkj, hki, hjk, hik]

theorem swapF_exists {β : Type} (f : Nat → Option β) (i j : Nat) (x : β) :
    (∃ k, heap.swapF f i j k = some x) ↔ ∃ k, f k = some x := by
  constructor
  · rintro ⟨k, hk⟩
    unfold heap.swapF at hk
    by_cases hkj : k = j
    · simp only [hkj, if_true] at hk; exact ⟨i, hk⟩
    · by_cases hki : k = i
      · subst hki
        simp only [hkj, if_true, if_false] at hk; exact ⟨j, hk⟩
      · simp only [hkj, hki, if_false] at hk; exact ⟨k, hk⟩
  · rintro ⟨k, hk⟩
    by_cases hki : k = i
    · exact ⟨j, by rw [heap.swapF_right, ← hki]; exact hk⟩
    · by_cases hkj : k = j
      · exact ⟨i, by rw [heap.swapF_left, ← hkj]; exact hk⟩
      · exact ⟨k, by rw [heap.swapF_other hki hkj]; exact hk⟩

namespace updateQueue

theorem modify_eq {q : updateQueue} {x : Ptr} {e : repoUpdate} (f : repoUpdate → repoUpdate)
    (h : q.mem[x]? = some e) : q.modify x f = some { q with mem := q.mem.set x (f e) } := by
  simp [modify, h]

theorem wf_heap_inj {q : updateQueue} (hq : q.Wf) {i j : Nat} {x : Ptr}
    (hi : q.heap[i]? = some x) (hj : q.heap[j]? = some x) : i = j := by
  obtain ⟨e, he, hidx, _⟩ := wf_entry hq hi
  obtain ⟨e1, he1, hidx1, _⟩ := wf_entry hq hj
  rw [he] at he1
  cases he1
  omega

theorem Swap_eq {q : updateQueue} {i j : Nat} {hi hj : Ptr} {ei ej : repoUpdate}
    (h1 : q.heap[i]? = some hi) (h2 : q.heap[j]? = some hj)
    (m1 : q.mem[hi]? = some ei) (m2 : q.mem[hj]? = some ej) (hne : i ≠ j → hi ≠ hj) :
    ∃ q1, q.Swap i j = some q1 ∧ q1.index = q.index ∧ q1.seq = q.seq ∧
      q1.notifyEnqueue = q.notifyEnqueue ∧ q1.mem.length = q.mem.length ∧
      (∀ k, q1.heap[k]? = heap.swapF (fun k => q.heap[k]?) i j k) ∧
      (∀ y : Ptr, q1.mem[y]? = if y = hi then some { ei with Index := j }
        else if y = hj then some { ej with Index := i } else q.mem[y]?) := by
  have hil : i < q.heap.length := (List.getElem?_eq_some.mp h1).1
  have hjl : j < q.heap.length := (List.getElem?_eq_some.mp h2).1
  have hxi : hi < q.mem.length := (List.getElem?_eq_some.mp m1).1
  have hxj : hj < q.mem.length := (List.getElem?_eq_some.mp m2).1
  have hsw := getElem?_swap q.heap i j hi hj h1 h2
  have hswi : ((q.heap.set i hj).set j hi)[i]? = some hj := by
    rw [hsw, heap.swapF_left]; exact h2
  have hswj : ((q.heap.set i hj).set j hi)[j]? = some hi := by
    rw [hsw, heap.swapF_right]; exact h1
  unfold Swap
  simp only [h1, h2]
  simp only [hswi, Option.some_bind]
  rw [modify_eq _ (by simpa using m2)]
  simp only [Option.some_bind, hswj]
  by_cases hij : i = j
  · subst hij
    have hhh : hi = hj := by rw [h1] at h2; exact Option.some.inj h2
    subst hhh
    have hee : ei = ej := by rw [m1] at m2; exact Option.some.inj m2
    subst hee
    rw [modify_eq (e := { ei with Index := i }) _ (by simp [hxi])]
    refine ⟨_, rfl, rfl, rfl, rfl, by simp, fun k => hsw k, ?_⟩
    intro y
    by_cases hy : y = hi
    · subst hy; simp [hxi]
    · have hy2 : ¬ hi = y := fun e => hy e.symm
      simp [hy, hy2, List.getElem?_set]
  · have hhne : hi ≠ hj := hne hij
    have hhne2 : ¬ hj = hi := fun e => hhne e.symm
    rw [modify_eq (e := ei) _ (by simp [List.getElem?_set, hhne2, m1])]
    refine ⟨_, rfl, rfl, rfl, rfl, by simp, fun k => hsw k, ?_⟩
    intro y
    by_cases hy : y = hi
    · subst hy; simp [hxi]
    · have hy2 : ¬ hi = y := fun e => hy e.symm
      by_cases hy3 : y = hj
      · subst hy3; simp [hy, hy2, List.getElem?_set, hxj]
      · have hy4 : ¬ hj = y := fun e => hy3 e.symm
        simp [hy, hy2, hy3, hy4, List.getElem?_set]

theorem lt_asymm (a b : Ptr × repoUpdate) (h : lt a b = true) : lt b a = false := by
  unfold lt at h ⊢
  rcases a with ⟨xa, ⟨ra, (pa : Int), sa, ua, ia⟩⟩
  rcases b with ⟨xb, ⟨rb, (pb : Int), sb, ub, ib⟩⟩
  simp only at h ⊢
  cases ua <;> cases ub <;>
    simp only [ne_eq, not_true_eq_false, not_false_eq_true, if_true, if_false, reduceCtorEq,
      Bool.true_eq_false, Bool.false_eq_true] at h ⊢
  all_goals
    split_ifs at h ⊢ <;>
      simp only [decide_eq_true_eq, decide_eq_false_iff_not] at h ⊢
  all_goals
    unfold priority at *
    omega

theorem lt_trans (a b c : Ptr × repoUpdate) (h1 : lt b a = false) (h2 : lt c b = false) :
    lt c a = false := by
  unfold lt at h1 h2 ⊢
  rcases a with ⟨xa, ⟨ra, (pa : Int), sa, ua, ia⟩⟩
  rcases b with ⟨xb, ⟨rb, (pb : Int), sb, ub, ib⟩⟩
  rcases c with ⟨xc, ⟨rc, (pc : Int), sc, uc, ic⟩⟩
  simp only at h1 h2 ⊢
  cases ua <;> cases ub <;> cases uc <;>
    simp only [ne_eq, not_true_eq_false, not_false_eq_true, if_true, if_false, reduceCtorEq,
      Bool.true_eq_false, Bool.false_eq_true] at h1 h2 ⊢
  all_goals
    split_ifs at h1 h2 ⊢ <;>
      simp only [decide_eq_true_eq, decide_eq_false_iff_not] at h1 h2 ⊢
  all_goals
    unfold priority at *
    omega

theorem rel_refl (q : updateQueue) : rel q q :=
  ⟨rfl, rfl, rfl, rfl, fun _ => rfl, fun _ => Iff.rfl⟩

theorem rel_trans (a b c : updateQueue) (h1 : rel a b) (h2 : rel b c) : rel a c := by
  unfold rel at *
  refine ⟨h2.1.trans h1.1, h2.2.1.trans h1.2.1, h2.2.2.1.trans h1.2.2.1,
    h2.2.2.2.1.trans h1.2.2.2.1, fun y => ?_, fun x => ?_⟩
  · exact (h2.2.2.2.2.1 y).trans (h1.2.2.2.2.1 y)
  · exact (h2.2.2.2.2.2 x).trans (h1.2.2.2.2.2 x)

theorem slot_eq_some {q : updateQueue} {i : Nat} {a : Ptr × repoUpdate} :
    q.slot i = some a ↔ ∃ e, q.heap[i]? = some a.1 ∧ q.mem[a.1]? = some e ∧ a.2 = e.core := by
  unfold slot
  constructor
  · intro h
    cases hx : q.heap[i]? with
    | none => rw [hx] at h; cases h
    | some x =>
      rw [hx] at h
      simp only [Option.some_bind] at h
      cases hm : q.mem[x]? with
      | none => rw [hm] at h; cases h
      | some e =>
        rw [hm] at h
        simp only [Option.map_some', Option.some.injEq] at h
        subst h
        exact ⟨e, rfl, hm, rfl⟩
  · rintro ⟨e, h1, h2, h3⟩
    rw [h1]
    simp only [Option.some_bind, h2, Option.map_some', Option.some.injEq]
    rw [← h3]

theorem slot_of {q : updateQueue} {i : Nat} {x : Ptr} {e : repoUpdate}
    (h1 : q.heap[i]? = some x) (h2 : q.mem[x]? = some e) : q.slot i = some (x, e.core) :=
  slot_eq_some.mpr ⟨e, h1, h2, rfl⟩

theorem slot_some (q : updateQueue) (i : Nat) (hq : q.Wf) (hi : i < q.heap.length) :
    ∃ a, q.slot i = some a := by
  have hx : q.heap[i]? = some q.heap[i] := List.getElem?_eq_getElem hi
  obtain ⟨e, he, _⟩ := wf_entry hq hx
  exact ⟨(q.heap[i], e.core), slot_eq_some.mpr ⟨e, hx, he, rfl⟩⟩

theorem Less_eq (q : updateQueue) (i j : Nat) (a b : Ptr × repoUpdate)
    (ha : q.slot i = some a) (hb : q.slot j = some b) : q.Less i j = some (lt a b) := by
  obtain ⟨ea, h1, h2, h3⟩ := slot_eq_some.mp ha
  obtain ⟨eb, h4, h5, h6⟩ := slot_eq_some.mp hb
  have e1 : q.entry i = some ea := by simp [entry, h1, h2]
  have e2 : q.entry j = some eb := by simp [entry, h4, h5]
  unfold Less lt
  rw [e1, e2, h3, h6]
  simp only [repoUpdate.core]
  split_ifs <;> rfl

theorem Swap_spec (q : updateQueue) (i j : Nat) (hq : q.Wf) (hi : i < q.heap.length)
    (hj : j < q.heap.length) :
    ∃ q1, q.Swap i j = some q1 ∧ q1.Wf ∧ rel q q1 ∧ q1.heap.length = q.heap.length ∧
      q1.slot = heap.swapF q.slot i j := by
  have hxi : q.heap[i]? = some q.heap[i] := List.getElem?_eq_getElem hi
  have hxj : q.heap[j]? = some q.heap[j] := List.getElem?_eq_getElem hj
  obtain ⟨ei, hei, hidxi, hidi, hgeti⟩ := wf_entry hq hxi
  obtain ⟨ej, hej, hidxj, hidj, hgetj⟩ := wf_entry hq hxj
  obtain ⟨q1, hs, hindex, hseq, hnot, hlen, hheap, hmem⟩ :=
    Swap_eq hxi hxj hei hej (fun hne he => hne (wf_heap_inj hq hxi (he ▸ hxj)))
  have hmemiff : ∀ x, x ∈ q1.heap ↔ x ∈ q.heap := by
    intro x
    rw [List.mem_iff_getElem?, List.mem_iff_getElem?]
    simp only [hheap]
    exact swapF_exists _ i j x
  have hcore : ∀ y : Ptr, (q1.mem[y]?).map repoUpdate.core = (q.mem[y]?).map repoUpdate.core := by
    intro y
    rw [hmem y]
    by_cases hy : y = q.heap[i]
    · subst hy; simp [hei, repoUpdate.core]
    · by_cases hy2 : y = q.heap[j]
      · subst hy2; simp [hy, hej, repoUpdate.core]
      · simp [hy, hy2]
  have hlenh : q1.heap.length = q.heap.length := by
    apply Nat.le_antisymm
    · by_contra hc
      have h1 : q.heap.length < q1.heap.length := by omega
      have h2 := hheap q.heap.length
      rw [heap.swapF_other (by omega) (by omega), List.getElem?_eq_getElem h1] at h2
      simp at h2
    · by_contra hc
      have h1 : q1.heap.length < q.heap.length := by omega
      have h2 := hheap q1.heap.length
      by_cases hk1 : q1.heap.length = j
      · rw [hk1, heap.swapF_right] at h2
        have h3 : q1.heap[j]? = none := List.getElem?_eq_none (by omega)
        rw [h3, hxi] at h2; cases h2
      · by_cases hk2 : q1.heap.length = i
        · rw [hk2, heap.swapF_left] at h2
          have h3 : q1.heap[i]? = none := List.getElem?_eq_none (by omega)
          rw [h3, hxj] at h2; cases h2
        · rw [heap.swapF_other hk2 hk1, List.getElem?_eq_getElem h1] at h2
          simp at h2
  have hslot : q1.slot = heap.swapF q.slot i j := by
    funext k
    by_cases hkj : k = j
    · subst hkj
      rw [heap.swapF_right, slot_of hxi hei]
      exact slot_of (e := { ei with Index := k }) (by rw [hheap, heap.swapF_right]; exact hxi)
        (by rw [hmem]; simp)
    · by_cases hki : k = i
      · subst hki
        have hh : ¬ q.heap[j] = q.heap[k] := fun e => hkj (wf_heap_inj hq hxi (e ▸ hxj))
        rw [heap.swapF_left, slot_of hxj hej]
        exact slot_of (e := { ej with Index := k }) (by rw [hheap, heap.swapF_left]; exact hxj)
          (by rw [hmem]; simp [hh])
      · rw [heap.swapF_other hki hkj]
        unfold slot
        rw [hheap k, heap.swapF_other hki hkj]
        cases hx : q.heap[k]? with
        | none => rfl
        | some x =>
          have hne1 : x ≠ q.heap[i] := fun e => hki (wf_heap_inj hq hx (e ▸ hxi))
          have hne2 : x ≠ q.heap[j] := fun e => hkj (wf_heap_inj hq hx (e ▸ hxj))
          simp [hmem, hne1, hne2]
  refine ⟨q1, hs, ?_, ⟨hindex, hseq, hnot, hlen, hcore, hmemiff⟩, hlenh, hslot⟩
  apply wf_intro
  · intro k x hk
    rw [hheap k] at hk
    rw [hindex]
    by_cases hkj : k = j
    · subst hkj
      rw [heap.swapF_right, hxi] at hk
      have hx := Option.some.inj hk
      subst hx
      exact ⟨{ ei with Index := k }, by rw [hmem]; simp, rfl, hidi, hgeti⟩
    · by_cases hki : k = i
      · subst hki
        rw [heap.swapF_left, hxj] at hk
        have hx := Option.some.inj hk
        subst hx
        have hh : ¬ q.heap[j] = q.heap[k] := fun e => hkj (wf_heap_inj hq hxi (e ▸ hxj))
        exact ⟨{ ej with Index := k }, by rw [hmem]; simp [hh], rfl, hidj, hgetj⟩
      · rw [heap.swapF_other hki hkj] at hk
        have hne1 : x ≠ q.heap[i] := fun e => hki (wf_heap_inj hq hk (e ▸ hxi))
        have hne2 : x ≠ q.heap[j] := fun e => hkj (wf_heap_inj hq hk (e ▸ hxj))
        obtain ⟨e, he, hrest⟩ := wf_entry hq hk
        exact ⟨e, by rw [hmem]; simp [hne1, hne2, he], hrest⟩
  · intro id x hget
    rw [hindex] at hget
    obtain ⟨k, e, hk, he, hid⟩ := wf_index hq hget
    refine ⟨(hmemiff x).mpr (List.mem_iff_getElem?.mpr ⟨k, hk⟩), ?_⟩
    have hc := hcore x
    rw [he] at hc
    cases hm : q1.mem[x]? with
    | none => rw [hm] at hc; cases hc
    | some e1 =>
      rw [hm] at hc
      simp only [Option.map_some', Option.some.injEq] at hc
      refine ⟨e1, rfl, ?_⟩
      have : e1.core.Repo.ID = e.core.Repo.ID := by rw [hc]
      simpa [repoUpdate.core, hid] using this
  · rw [hindex]; exact hq.2.2

/-- The Update Queue as a lawful heap. -/
theorem lawful : heap.Lawful iface Wf slot lt rel where
  rel_refl := rel_refl
  rel_trans := rel_trans
  asymm := lt_asymm
  trans := lt_trans
  slot_some := fun s i hq hi => slot_some s i hq hi
  Less_eq := fun s i j a b _ ha hb => Less_eq s i j a b ha hb
  Swap_eq := fun s i j hq hi hj => Swap_spec s i j hq hi hj

theorem Push_eq {q : updateQueue} {x : Ptr} {e : repoUpdate} (h : q.mem[x]? = some e) :
    q.Push x = some
      { mem := q.mem.set x { e with Index := q.heap.length, Seq := (q.seq + 1) % 2 ^ 64 },
        heap := q.heap ++ [x],
        index := q.index.set e.Repo.ID x,
        seq := (q.seq + 1) % 2 ^ 64,
        notifyEnqueue := q.notifyEnqueue } := by
  have hx : x < q.mem.length := (List.getElem?_eq_some.mp h).1
  unfold Push
  simp [modify, nextSeq, h, hx, List.set_set]

theorem Pop_eq {q : updateQueue} {x : Ptr} {e : repoUpdate}
    (h1 : q.heap[q.heap.length - 1]? = some x) (h2 : q.mem[x]? = some e) :
    q.Pop = some
      ({ mem := q.mem.set x { e with Index := -1 },
         heap := q.heap.take (q.heap.length - 1),
         index := q.index.delete e.Repo.ID,
         seq := q.seq,
         notifyEnqueue := q.notifyEnqueue }, x) := by
  have hx : x < q.mem.length := (List.getElem?_eq_some.mp h2).1
  unfold Pop
  simp [modify, h1, h2, hx]

end updateQueue

theorem getElem?_set_mem {α : Type} (l : List α) (x y : Nat) (v : α) (hx : x < l.length) :
    (l.set x v)[y]? = if y = x then some v else l[y]? := by
  rw [List.getElem?_set]
  by_cases h : x = y
  · subst h; simp [hx]
  · have h2 : ¬ y = x := fun e => h e.symm
    simp [h, h2]

theorem getElem?_append_one {α : Type} (l : List α) (x : α) (k : Nat) :
    (l ++ [x])[k]? = if k < l.length then l[k]? else if k = l.length then some x else none := by
  by_cases h : k < l.length
  · simp [h, List.getElem?_append_left h]
  · rw [List.getElem?_append_right (by omega)]
    by_cases h2 : k = l.length
    · simp [h2]
    · have : k - l.length ≠ 0 := by omega
      have h3 : [x][k - l.length]? = none := List.getElem?_eq_none (by simp; omega)
      simp [h, h2, h3]

namespace updateQueue

/-- The effect of the method `Push` on a well-formed queue, for a fresh entry `x`. -/
theorem Push_spec {q : updateQueue} (hq : q.Wf) {x : Ptr} {e : repoUpdate}
    (hx : q.mem[x]? = some e) (hfresh : x ∉ q.heap) (hid : e.Repo.ID ≠ 0)
    (hget : q.index.get e.Repo.ID = none) :
    ∃ q1, q.Push x = some q1 ∧ q1.Wf ∧ q1.heap = q.heap ++ [x] ∧
      q1.seq = (q.seq + 1) % 2 ^ 64 ∧ q1.notifyEnqueue = q.notifyEnqueue ∧
      q1.index = q.index.set e.Repo.ID x ∧
      q1.mem = q.mem.set x { e with Index := q.heap.length, Seq := (q.seq + 1) % 2 ^ 64 } ∧
      (∀ k, k < q.heap.length → q1.slot k = q.slot k) := by
  have hxl : x < q.mem.length := (List.getElem?_eq_some.mp hx).1
  refine ⟨_, Push_eq hx, ?_, rfl, rfl, rfl, rfl, rfl, ?_⟩
  · apply wf_intro
    · intro k y hk
      simp only [getElem?_append_one] at hk
      by_cases hkl : k < q.heap.length
      · simp only [hkl, if_true] at hk
        have hyx : y ≠ x := fun h => hfresh (h ▸ List.mem_iff_getElem?.mpr ⟨k, hk⟩)
        obtain ⟨e1, he1, hidx, hid1, hget1⟩ := wf_entry hq hk
        refine ⟨e1, by simp only [getElem?_set_mem _ _ _ _ hxl, hyx, if_false]; exact he1,
          hidx, hid1, ?_⟩
        simp only [IndexMap.get_set]
        have : e1.Repo.ID ≠ e.Repo.ID := by
          intro h
          rw [h, hget] at hget1
          cases hget1
        simp only [this, if_false]
        exact hget1
      · by_cases hkn : k = q.heap.length
        · simp only [hkl, hkn, if_true, if_false, lt_irrefl, Option.some.injEq] at hk
          subst hk
          refine ⟨{ e with Index := q.heap.length, Seq := (q.seq + 1) % 2 ^ 64 },
            by simp only [getElem?_set_mem _ _ _ _ hxl, if_true], by simp [hkn], hid, ?_⟩
          simp [IndexMap.get_set]
        · simp only [hkl, hkn, if_false] at hk
          cases hk
    · intro id y hgety
      simp only [IndexMap.get_set] at hgety
      by_cases hidd : id = e.Repo.ID
      · simp only [hidd, if_true, Option.some.injEq] at hgety
        subst hgety
        refine ⟨by simp, { e with Index := q.heap.length, Seq := (q.seq + 1) % 2 ^ 64 },
          by simp only [getElem?_set_mem _ _ _ _ hxl, if_true], hidd.symm⟩
      · simp only [hidd, if_false] at hgety
        obtain ⟨k, e1, hk, he1, hid1⟩ := wf_index hq hgety
        have hyx : y ≠ x := fun h => hfresh (h ▸ List.mem_iff_getElem?.mpr ⟨k, hk⟩)
        refine ⟨by simp [List.mem_iff_getElem?.mpr ⟨k, hk⟩], e1, ?_, hid1⟩
        simp only [getElem?_set_mem _ _ _ _ hxl, hyx, if_false]
        exact he1
    · exact IndexMap.keys_set _ _ hq.2.2
  · intro k hk
    unfold slot
    simp only [getElem?_append_one, hk, if_true]
    cases hy : q.heap[k]? with
    | none => rfl
    | some y =>
      have hyx : y ≠ x := fun h => hfresh (h ▸ List.mem_iff_getElem?.mpr ⟨k, hy⟩)
      simp only [Option.some_bind, getElem?_set_mem _ _ _ _ hxl, hyx, if_false]

/-- The effect of the method `Pop` on a well-formed, non-empty queue. -/
theorem Pop_spec {q : updateQueue} (hq : q.Wf) {x : Ptr}
    (h1 : q.heap[q.heap.length - 1]? = some x) :
    ∃ q1 e, q.mem[x]? = some e ∧ q.Pop = some (q1, x) ∧ q1.Wf ∧
      q1.heap = q.heap.take (q.heap.length - 1) ∧
      q1.seq = q.seq ∧ q1.notifyEnqueue = q.notifyEnqueue ∧
      q1.index = q.index.delete e.Repo.ID ∧
      q1.mem = q.mem.set x { e with Index := -1 } ∧
      (∀ k, k < q.heap.length - 1 → q1.slot k = q.slot k) := by
  obtain ⟨e, he, hidx, hid, hget⟩ := wf_entry hq h1
  have hxl : x < q.mem.length := (List.getElem?_eq_some.mp he).1
  have hnl : q.heap.length - 1 < q.heap.length := (List.getElem?_eq_some.mp h1).1
  refine ⟨_, e, he, Pop_eq h1 he, ?_, rfl, rfl, rfl, rfl, rfl, ?_⟩
  · apply wf_intro
    · intro k y hk
      simp only [List.getElem?_take] at hk
      by_cases hkl : k < q.heap.length - 1
      · simp only [hkl, if_true] at hk
        have hyx : y ≠ x := fun h => by
          have := wf_heap_inj hq hk (h ▸ h1)
          omega
        obtain ⟨e1, he1, hidx1, hid1, hget1⟩ := wf_entry hq hk
        refine ⟨e1, by simp only [getElem?_set_mem _ _ _ _ hxl, hyx, if_false]; exact he1,
          hidx1, hid1, ?_⟩
        simp only [IndexMap.get_delete]
        have : e1.Repo.ID ≠ e.Repo.ID := by
          intro h
          rw [h, hget] at hget1
          exact hyx (Option.some.inj hget1).symm
        simp only [this, if_false]
        exact hget1
      · simp only [hkl, if_false] at hk
        cases hk
    · intro id y hgety
      simp only [IndexMap.get_delete] at hgety
      by_cases hidd : id = e.Repo.ID
      · simp only [hidd, if_true] at hgety
        cases hgety
      · simp only [hidd, if_false] at hgety
        obtain ⟨k, e1, hk, he1, hid1⟩ := wf_index hq hgety
        have hyx : y ≠ x := by
          intro h
          rw [h, he] at he1
          exact hidd ((Option.some.inj he1) ▸ hid1).symm
        have hkl : k < q.heap.length - 1 := by
          have hk1 : k < q.heap.length := (List.getElem?_eq_some.mp hk).1
          by_contra hc
          have : k = q.heap.length - 1 := by omega
          rw [this, h1] at hk
          exact hyx (Option.some.inj hk).symm
        refine ⟨List.mem_iff_getElem?.mpr ⟨k, by
          rw [List.getElem?_take, if_pos hkl]; exact hk⟩, e1, ?_, hid1⟩
        simp only [getElem?_set_mem _ _ _ _ hxl, hyx, if_false]
        exact he1
    · exact IndexMap.keys_delete _ hq.2.2
  · intro k hk
    unfold slot
    simp only [List.getElem?_take, hk, if_true]
    cases hy : q.heap[k]? with
    | none => rfl
    | some y =>
      have hyx : y ≠ x := fun h => by
        have := wf_heap_inj hq hy (h ▸ h1)
        omega
      simp only [Option.some_bind, getElem?_set_mem _ _ _ _ hxl, hyx, if_false]

theorem heapFix_spec {q : updateQueue} (hq : q.Wf) {i : Nat} (hi : i < q.heap.length)
    (hh : heap.Hole lt q.slot q.heap.length i) :
    ∃ q1, heap.Fix iface q i = some q1 ∧ q1.Valid ∧ rel q q1 ∧
      q1.heap.length = q.heap.length := by
  obtain ⟨q1, h1, hwf, hrel, hlen, hheap⟩ := heap.Fix_spec lawful q i hq hi
  refine ⟨q1, h1, ⟨hwf, ?_⟩, hrel, hlen⟩
  unfold Ordered
  have hl : q1.heap.length = q.heap.length := hlen
  rw [hl]
  exact hheap hh

theorem heapPush_spec {q : updateQueue} (hq : q.Valid) {x : Ptr} {e : repoUpdate}
    (hx : q.mem[x]? = some e) (hfresh : x ∉ q.heap) (hid : e.Repo.ID ≠ 0)
    (hget : q.index.get e.Repo.ID = none) :
    ∃ q1, heap.Push iface q x = some q1 ∧ q1.Valid ∧
      q1.seq = (q.seq + 1) % 2 ^ 64 ∧ q1.notifyEnqueue = q.notifyEnqueue ∧
      q1.index = q.index.set e.Repo.ID x ∧ q1.mem.length = q.mem.length ∧
      (∀ y : Ptr, (q1.mem[y]?).map repoUpdate.core =
        ((q.mem.set x { e with Seq := (q.seq + 1) % 2 ^ 64 })[y]?).map repoUpdate.core) ∧
      (∀ y, y ∈ q1.heap ↔ y ∈ q.heap ∨ y = x) ∧ q1.heap.length = q.heap.length + 1 := by
  obtain ⟨qa, hpush, hwfa, hheapa, hseqa, hnota, hindexa, hmema, hslota⟩ :=
    Push_spec hq.1 hx hfresh hid hget
  have hxl : x < q.mem.length := (List.getElem?_eq_some.mp hx).1
  have hlena : qa.heap.length = q.heap.length + 1 := by rw [hheapa]; simp
  obtain ⟨q1, hup, hwf1, hrel1, hlen1, _, hheap1⟩ :=
    heap.up_spec lawful qa q.heap.length hwfa (by show q.heap.length < qa.heap.length; omega)
  obtain ⟨r1, r2, r3, r4, r5, r6⟩ := hrel1
  have hlen1h : q1.heap.length = qa.heap.length := hlen1
  refine ⟨q1, ?_, ⟨hwf1, ?_⟩, r2.trans hseqa, r3.trans hnota, r1.trans hindexa, ?_, ?_, ?_,
    by omega⟩
  · unfold heap.Push
    show ((q.Push x).bind fun s1 => heap.up iface s1 (s1.heap.length - 1)) = some q1
    rw [hpush, Option.some_bind, hlena, Nat.add_sub_cancel]
    exact hup
  · unfold Ordered
    rw [hlen1h, hlena]
    apply hheap1
    constructor
    · intro k a b hk hkn hkne ha hb
      have h1 : k < q.heap.length := by omega
      have ha1 : q.slot ((k - 1) / 2) = some a := by
        rw [← hslota _ (by omega)]; exact ha
      have hb1 : q.slot k = some b := by
        rw [← hslota _ h1]; exact hb
      exact hq.2 k a b hk h1 ha1 hb1
    · intro c a b hj hc hcn hpc _ _
      omega
  · rw [r4, hmema]; simp
  · intro y
    rw [r5 y, hmema]
    by_cases hy : y = x
    · subst hy
      simp [getElem?_set_mem _ _ _ _ hxl, repoUpdate.core]
    · simp [getElem?_set_mem _ _ _ _ hxl, hy]
  · intro y
    rw [r6 y, hheapa]
    simp

theorem mem_take_last {q : updateQueue} (hq : q.Wf) {x : Ptr}
    (h1 : q.heap[q.heap.length - 1]? = some x) (y : Ptr) :
    y ∈ q.heap.take (q.heap.length - 1) ↔ y ∈ q.heap ∧ y ≠ x := by
  rw [List.mem_iff_getElem?, List.mem_iff_getElem?]
  constructor
  · rintro ⟨k, hk⟩
    rw [List.getElem?_take] at hk
    by_cases hkl : k < q.heap.length - 1
    · rw [if_pos hkl] at hk
      refine ⟨⟨k, hk⟩, fun h => ?_⟩
      have := wf_heap_inj hq hk (h ▸ h1)
      omega
    · rw [if_neg hkl] at hk
      cases hk
  · rintro ⟨⟨k, hk⟩, hne⟩
    have hk1 : k < q.heap.length := (List.getElem?_eq_some.mp hk).1
    have hkl : k < q.heap.length - 1 := by
      by_contra hc
      have : k = q.heap.length - 1 := by omega
      rw [this, h1] at hk
      exact hne (Option.some.inj hk).symm
    exact ⟨k, by rw [List.getElem?_take, if_pos hkl]; exact hk⟩

/-- The function `heap.Remove` on a valid queue: the entry at position `i` leaves, the rest
stays and the heap condition holds again. -/
theorem heapRemove_spec {q : updateQueue} (hq : q.Valid) {i : Nat} {x : Ptr}
    (hx : q.heap[i]? = some x) :
    ∃ q1 e, q.mem[x]? = some e ∧ heap.Remove iface q i = some (q1, x) ∧ q1.Valid ∧
      q1.seq = q.seq ∧ q1.notifyEnqueue = q.notifyEnqueue ∧
      q1.index = q.index.delete e.Repo.ID ∧ q1.mem.length = q.mem.length ∧
      (∀ y : Ptr, y ≠ x → (q1.mem[y]?).map repoUpdate.core = (q.mem[y]?).map repoUpdate.core) ∧
      (∀ y, y ∈ q1.heap ↔ y ∈ q.heap ∧ y ≠ x) ∧ q1.heap.length + 1 = q.heap.length := by
  have hil : i < q.heap.length := (List.getElem?_eq_some.mp hx).1
  obtain ⟨e, he, _, _, _⟩ := wf_entry hq.1 hx
  by_cases hni : q.heap.length - 1 = i
  · have h1 : q.heap[q.heap.length - 1]? = some x := by rw [hni]; exact hx
    obtain ⟨q1, e1, he1, hpop, hwf1, hheap1, hseq1, hnot1, hindex1, hmem1, hslot1⟩ :=
      Pop_spec hq.1 h1
    have hee : e1 = e := by rw [he] at he1; exact (Option.some.inj he1).symm
    subst hee
    have hxl : x < q.mem.length := (List.getElem?_eq_some.mp he).1
    refine ⟨q1, e1, he, ?_, ⟨hwf1, ?_⟩, hseq1, hnot1, hindex1, by rw [hmem1]; simp, ?_, ?_,
      by rw [hheap1, List.length_take]; omega⟩
    · unfold heap.Remove
      show ((if q.heap.length - 1 ≠ i then _ else some q).bind Pop) = _
      rw [if_neg (by simpa using hni), Option.some_bind]
      exact hpop
    · unfold Ordered
      rw [hheap1, List.length_take, Nat.min_eq_left (by omega)]
      exact heap.heapOn_congr (heap.heapOn_mono hq.2 (by omega)) hslot1
    · intro y hy
      rw [hmem1, getElem?_set_mem _ _ _ _ hxl, if_neg hy]
    · intro y
      rw [hheap1]
      exact mem_take_last hq.1 h1 y
  · have hin : i < q.heap.length - 1 := by omega
    obtain ⟨qa, hswap, hwfa, hrela, hlena, hslota⟩ :=
      Swap_spec q i (q.heap.length - 1) hq.1 hil (by omega)
    obtain ⟨qb, hdu, hwfb, hrelb, hlenb, hslotb, hheapb⟩ :=
      heap.down_up_spec lawful qa i (q.heap.length - 1) hwfa hin
        (by show q.heap.length - 1 ≤ qa.heap.length; omega)
    have hlenbh : qb.heap.length = q.heap.length := by
      have : qb.heap.length = qa.heap.length := hlenb
      omega
    have hsl : qb.slot (q.heap.length - 1) = some (x, e.core) := by
      have h2 : slot qb (q.heap.length - 1) = slot qa (q.heap.length - 1) :=
        hslotb _ (Nat.le_refl _)
      show slot qb (q.heap.length - 1) = _
      rw [h2]
      show qa.slot (q.heap.length - 1) = _
      rw [hslota, heap.swapF_right]
      exact slot_of hx he
    obtain ⟨eb, hb1, hb2, hb3⟩ := slot_eq_some.mp hsl
    simp only at hb1 hb2 hb3
    have hlast : qb.heap[qb.heap.length - 1]? = some x := by rw [hlenbh]; exact hb1
    obtain ⟨q1, e1, he1, hpop, hwf1, hheap1, hseq1, hnot1, hindex1, hmem1, hslot1⟩ :=
      Pop_spec hwfb hlast
    have hee : e1 = eb := by rw [hb2] at he1; exact (Option.some.inj he1).symm
    subst hee
    have hxl : x < qb.mem.length := (List.getElem?_eq_some.mp hb2).1
    obtain ⟨a1, a2, a3, a4, a5, a6⟩ := hrela
    obtain ⟨b1, b2, b3, b4, b5, b6⟩ := hrelb
    have hidb : e1.Repo.ID = e.Repo.ID := by
      have : e.core.Repo.ID = e1.core.Repo.ID := by rw [hb3]
      simpa [repoUpdate.core] using this.symm
    refine ⟨q1, e, he, ?_, ⟨hwf1, ?_⟩, by rw [hseq1, b2, a2], by rw [hnot1, b3, a3],
      by rw [hindex1, b1, a1, hidb], by rw [hmem1]; simp; omega, ?_, ?_,
      by rw [hheap1, List.length_take]; omega⟩
    · unfold heap.Remove
      show ((if q.heap.length - 1 ≠ i then
        (q.Swap i (q.heap.length - 1)).bind (fun s1 =>
          (heap.down iface s1 i (q.heap.length - 1)).bind
            (fun r => if r.2 then some r.1 else heap.up iface r.1 i))
        else some q).bind Pop) = _
      rw [if_pos hni, hswap, Option.some_bind, hdu, Option.some_bind]
      exact hpop
    · unfold Ordered
      rw [hheap1, List.length_take, Nat.min_eq_left (by omega), hlenbh]
      have hhole : heap.Hole lt qa.slot (q.heap.length - 1) i := by
        apply heap.heapOn_modify lt_trans (heap.heapOn_mono hq.2 (Nat.sub_le _ _))
        · intro k hk hki
          rw [hslota, heap.swapF_other hki (by omega)]
        · intro _
          exact slot_some q i hq.1 hil
      refine heap.heapOn_congr (hheapb hhole) ?_
      intro k hk
      exact hslot1 k (by rw [hlenbh]; exact hk)
    · intro y hy
      rw [hmem1, getElem?_set_mem _ _ _ _ hxl, if_neg hy, b5, a5]
    · intro y
      rw [hheap1, mem_take_last hwfb hlast y, b6, a6]

end updateQueue

/-! ## Update Queue: effect of the methods -/

namespace updateQueue

theorem find_eq_some {q : updateQueue} (hq : q.Wf) {id : Nat} {e : repoUpdate}
    (h : q.find id = some e) :
    ∃ (i : Nat) (x : Ptr), q.index.get id = some x ∧ q.heap[i]? = some x ∧ q.mem[x]? = some e ∧
      e.Repo.ID = id ∧ e.Index = (i : Int) := by
  unfold find at h
  cases hg : q.index.get id with
  | none => rw [hg] at h; cases h
  | some x =>
    rw [hg, Option.some_bind] at h
    obtain ⟨i, e1, hi, he1, hid⟩ := wf_index hq hg
    rw [h] at he1
    cases he1
    obtain ⟨e2, he2, hidx, _⟩ := wf_entry hq hi
    rw [h] at he2
    cases he2
    exact ⟨i, x, rfl, hi, h, hid, hidx⟩

theorem find_of_heap {q : updateQueue} (hq : q.Wf) {i : Nat} {x : Ptr} {e : repoUpdate}
    (hx : q.heap[i]? = some x) (he : q.mem[x]? = some e) : q.find e.Repo.ID = some e := by
  obtain ⟨e1, he1, _, _, hget⟩ := wf_entry hq hx
  rw [he] at he1
  cases he1
  unfold find
  rw [hget, Option.some_bind, he]

theorem find_rel {q q1 : updateQueue} (h : rel q q1) (id : Nat) :
    (q1.find id).map repoUpdate.core = (q.find id).map repoUpdate.core := by
  obtain ⟨h1, _, _, _, h5, _⟩ := h
  unfold find
  rw [h1]
  cases q.index.get id with
  | none => rfl
  | some x => simp only [Option.some_bind]; exact h5 x

/-- Assignment to fields of the entry at heap position `i`, other than its position and
repo ID, keeps the queue well formed and touches only slot `i`. -/
theorem modify_spec {q : updateQueue} (hq : q.Wf) {i : Nat} {x : Ptr} {e : repoUpdate}
    (hx : q.heap[i]? = some x) (he : q.mem[x]? = some e) (f : repoUpdate → repoUpdate)
    (hf1 : (f e).Index = e.Index) (hf2 : (f e).Repo.ID = e.Repo.ID) :
    q.modify x f = some { q with mem := q.mem.set x (f e) } ∧
    ({ q with mem := q.mem.set x (f e) } : updateQueue).Wf ∧
    (∀ k, k ≠ i → ({ q with mem := q.mem.set x (f e) } : updateQueue).slot k = q.slot k) ∧
    ({ q with mem := q.mem.set x (f e) } : updateQueue).slot i = some (x, (f e).core) ∧
    (∀ id, ({ q with mem := q.mem.set x (f e) } : updateQueue).find id =
      if id = e.Repo.ID then some (f e) else q.find id) := by
  have hxl : x < q.mem.length := (List.getElem?_eq_some.mp he).1
  obtain ⟨e0, he0, hidx, hid, hget⟩ := wf_entry hq hx
  rw [he] at he0
  cases he0
  refine ⟨modify_eq f he, ?_, ?_, ?_, ?_⟩
  · apply wf_intro
    · intro k y hk
      simp only at hk ⊢
      obtain ⟨e1, he1, hidx1, hid1, hget1⟩ := wf_entry hq hk
      by_cases hy : y = x
      · subst hy
        rw [he] at he1
        cases he1
        exact ⟨f e, by rw [getElem?_set_mem _ _ _ _ hxl, if_pos rfl], by rw [hf1]; exact hidx1,
          by rw [hf2]; exact hid1, by rw [hf2]; exact hget1⟩
      · exact ⟨e1, by rw [getElem?_set_mem _ _ _ _ hxl, if_neg hy]; exact he1, hidx1, hid1, hget1⟩
    · intro id y hg
      simp only at hg ⊢
      obtain ⟨k, e1, hk, he1, hid1⟩ := wf_index hq hg
      refine ⟨List.mem_iff_getElem?.mpr ⟨k, hk⟩, ?_⟩
      by_cases hy : y = x
      · subst hy
        rw [he] at he1
        cases he1
        exact ⟨f e, by rw [getElem?_set_mem _ _ _ _ hxl, if_pos rfl], by rw [hf2]; exact hid1⟩
      · exact ⟨e1, by rw [getElem?_set_mem _ _ _ _ hxl, if_neg hy]; exact he1, hid1⟩
    · exact hq.2.2
  · intro k hk
    unfold slot
    simp only
    cases hy : q.heap[k]? with
    | none => rfl
    | some y =>
      have hyx : y ≠ x := fun h => hk (wf_heap_inj hq hy (h ▸ hx))
      simp only [Option.some_bind, getElem?_set_mem _ _ _ _ hxl, hyx, if_false]
  · exact slot_of (q := { q with mem := q.mem.set x (f e) }) hx
      (by simp only [getElem?_set_mem _ _ _ _ hxl, if_true])
  · intro id
    unfold find
    simp only
    by_cases hidd : id = e.Repo.ID
    · rw [if_pos hidd, hidd, hget, Option.some_bind, getElem?_set_mem _ _ _ _ hxl, if_pos rfl]
    · rw [if_neg hidd]
      cases hg : q.index.get id with
      | none => rfl
      | some y =>
        have hyx : y ≠ x := by
          intro h
          obtain ⟨k, e1, _, he1, hid1⟩ := wf_index hq hg
          rw [h, he] at he1
          cases he1
          exact hidd hid1.symm
        rw [Option.some_bind, Option.some_bind, getElem?_set_mem _ _ _ _ hxl, if_neg hyx]

theorem lt_eq_less (a b : Ptr × repoUpdate) : lt a b = a.2.less b.2 := rfl

theorem less_core (a b : repoUpdate) : a.core.less b.core = a.less b := rfl

/-- In a valid queue no entry sorts before the entry at the heap root. -/
theorem root_min {q : updateQueue} (hq : q.Valid) {x : Ptr} {e : repoUpdate}
    (hx : q.heap[0]? = some x) (he : q.mem[x]? = some e) {id : Nat} {e1 : repoUpdate}
    (h1 : q.find id = some e1) : e1.less e = false := by
  obtain ⟨i, y, _, hy, hm, _, _⟩ := find_eq_some hq.1 h1
  have hi : i < q.heap.length := (List.getElem?_eq_some.mp hy).1
  have := heap.heapOn_root_min lt_asymm lt_trans hq.2 (fun k hk => slot_some q k hq.1 hk)
    i (x, e.core) (y, e1.core) hi (slot_of hx he) (slot_of hy hm)
  rw [lt_eq_less] at this
  exact this

end updateQueue

theorem toIndex_natCast (i : Nat) : toIndex (i : Int) = some i := by
  unfold toIndex
  simp

theorem heap.FixAt_natCast {σ ε : Type} (h : heap.Interface σ ε) (s : σ) (i : Nat) :
    heap.FixAt h s (i : Int) = heap.Fix h s i := by
  unfold heap.FixAt
  rw [if_neg (by omega), toIndex_natCast]
  rfl

namespace updateQueue

theorem modify_ex {q : updateQueue} (hq : q.Wf) {i : Nat} {x : Ptr} {e : repoUpdate}
    (hx : q.heap[i]? = some x) (he : q.mem[x]? = some e) (f : repoUpdate → repoUpdate)
    (hf1 : (f e).Index = e.Index) (hf2 : (f e).Repo.ID = e.Repo.ID) :
    ∃ q1, q.modify x f = some q1 ∧ q1.Wf ∧ q1.mem = q.mem.set x (f e) ∧ q1.heap = q.heap ∧
      q1.index = q.index ∧ q1.seq = q.seq ∧ q1.notifyEnqueue = q.notifyEnqueue ∧
      q1.mem[x]? = some (f e) ∧
      (∀ k, k ≠ i → q1.slot k = q.slot k) ∧ q1.slot i = some (x, (f e).core) ∧
      (∀ id, q1.find id = if id = e.Repo.ID then some (f e) else q.find id) := by
  obtain ⟨h1, h2, h3, h4, h5⟩ := modify_spec hq hx he f hf1 hf2
  have hxl : x < q.mem.length := (List.getElem?_eq_some.mp he).1
  exact ⟨_, h1, h2, rfl, rfl, rfl, rfl, rfl,
    by simp only [getElem?_set_mem _ _ _ _ hxl, if_true], h3, h4, h5⟩

/-- The method `acquireNext` on a valid queue. -/
theorem acquireNext_spec {q : updateQueue} (hq : q.Valid) :
    ∃ q1 r, q.acquireNext = some (q1, r) ∧ q1.Valid ∧ q1.seq = q.seq ∧
      q1.notifyEnqueue = q.notifyEnqueue ∧ q1.index = q.index ∧
      q1.heap.length = q.heap.length ∧ q1.mem.length = q.mem.length ∧
      (r = none → q1 = q ∧ ∀ id e, q.find id = some e → e.Updating = true) ∧
      (∀ R, r = some R → ∃ e, q.find R.ID = some e ∧ e.Repo = R ∧ e.Updating = false ∧
        (∀ id e1, q.find id = some e1 → e1.less e = false) ∧
        (∀ id, (q1.find id).map repoUpdate.core =
          if id = R.ID then some ({ e with Updating := true } : repoUpdate).core
          else (q.find id).map repoUpdate.core)) := by
  unfold acquireNext
  by_cases hlen : q.heap.length = 0
  · rw [if_pos hlen]
    refine ⟨q, none, rfl, hq, rfl, rfl, rfl, rfl, rfl, fun _ => ⟨rfl, ?_⟩, fun R h => by cases h⟩
    intro id e h
    obtain ⟨i, y, _, hy, _⟩ := find_eq_some hq.1 h
    have := (List.getElem?_eq_some.mp hy).1
    omega
  · rw [if_neg hlen]
    have hx : q.heap[0]? = some q.heap[0] := List.getElem?_eq_getElem (by omega)
    obtain ⟨e, he, hidx, hid, hget⟩ := wf_entry hq.1 hx
    rw [hx, Option.some_bind, he, Option.some_bind]
    cases hu : e.Updating
    · simp only [Bool.false_eq_true, if_false]
      obtain ⟨qa, hmod, hwfa, hmema, hheapa, hindexa, hseqa, hnota, hmx, hslota, hslot0, hfinda⟩ :=
        modify_ex hq.1 hx he (fun e => { e with Updating := true }) rfl rfl
      rw [hmod, Option.some_bind, hmx, Option.some_bind]
      have h0 : heap.FixAt iface qa ({ e with Updating := true } : repoUpdate).Index =
          heap.Fix iface qa 0 := by
        show heap.FixAt iface qa e.Index = _
        rw [hidx]
        exact heap.FixAt_natCast _ _ 0
      rw [h0]
      have hhole : heap.Hole lt qa.slot qa.heap.length 0 := by
        rw [hheapa]
        exact heap.heapOn_modify lt_trans hq.2 (fun k _ hk => hslota k hk)
          (fun h => slot_some q 0 hq.1 h)
      obtain ⟨q2, hfix, hv2, hrel2, hlen2⟩ := heapFix_spec hwfa (i := 0)
        (by rw [hheapa]; omega) hhole
      rw [hfix, Option.some_bind]
      obtain ⟨r1, r2, r3, r4, r5, r6⟩ := hrel2
      have hc := r5 q.heap[0]
      rw [hmx] at hc
      cases hm2 : q2.mem[q.heap[0]]? with
      | none => rw [hm2] at hc; cases hc
      | some u2 =>
        rw [hm2] at hc
        simp only [Option.map_some', Option.some.injEq] at hc
        have hrepo : u2.Repo = e.Repo := by
          have : u2.core.Repo = ({ e with Updating := true } : repoUpdate).core.Repo := by rw [hc]
          exact this
        simp only [Option.map_some']
        refine ⟨q2, some u2.Repo, rfl, hv2, r2.trans hseqa, r3.trans hnota, r1.trans hindexa,
          by rw [hlen2, hheapa], by rw [r4, hmema]; simp, (fun h => by cases h), ?_⟩
        intro R hR
        cases hR
        refine ⟨e, ?_, hrepo.symm, hu, ?_, ?_⟩
        · rw [hrepo]; exact find_of_heap hq.1 hx he
        · intro id e1 h1
          exact root_min hq hx he h1
        · intro id
          have := find_rel ⟨r1, r2, r3, r4, r5, r6⟩ id
          rw [this, hfinda, hrepo]
          by_cases hidd : id = e.Repo.ID
          · simp [hidd]
          · simp [hidd]
    · simp only [if_true]
      refine ⟨q, none, rfl, hq, rfl, rfl, rfl, rfl, rfl, fun _ => ⟨rfl, ?_⟩, fun R h => by cases h⟩
      intro id e1 h1
      have hmin := root_min hq hx he h1
      unfold repoUpdate.less at hmin
      cases hu1 : e1.Updating
      · rw [hu1, hu] at hmin
        simp at hmin
      · rfl

theorem wf_ptr_lt {q : updateQueue} (hq : q.Wf) {x : Ptr} (hx : x ∈ q.heap) :
    x < q.mem.length := by
  obtain ⟨i, hi⟩ := List.mem_iff_getElem?.mp hx
  obtain ⟨e, he, _⟩ := wf_entry hq hi
  exact (List.getElem?_eq_some.mp he).1

end updateQueue

theorem getElem?_append_lt {α : Type} (l : List α) (v : α) {y : Nat} (hy : y < l.length) :
    (l ++ [v])[y]? = l[y]? := List.getElem?_append_left hy

namespace updateQueue

/-- Allocation of a new entry object leaves the queue as it is. -/
theorem alloc_spec {q : updateQueue} (hq : q.Valid) (v : repoUpdate) :
    ({ q with mem := q.mem ++ [v] } : updateQueue).Valid ∧
    ({ q with mem := q.mem ++ [v] } : updateQueue).mem[q.mem.length]? = some v ∧
    q.mem.length ∉ q.heap ∧
    (∀ id, ({ q with mem := q.mem ++ [v] } : updateQueue).find id = q.find id) := by
  have hslot : ∀ k, ({ q with mem := q.mem ++ [v] } : updateQueue).slot k = q.slot k := by
    intro k
    unfold slot
    simp only
    cases hy : q.heap[k]? with
    | none => rfl
    | some y =>
      have := wf_ptr_lt hq.1 (List.mem_iff_getElem?.mpr ⟨k, hy⟩)
      simp only [Option.some_bind, getElem?_append_lt _ _ this]
  refine ⟨⟨?_, ?_⟩, by simp, fun h => Nat.lt_irrefl _ (wf_ptr_lt hq.1 h), ?_⟩
  · apply wf_intro
    · intro k y hk
      simp only at hk ⊢
      obtain ⟨e1, he1, hrest⟩ := wf_entry hq.1 hk
      have := (List.getElem?_eq_some.mp he1).1
      exact ⟨e1, by rw [getElem?_append_lt _ _ this]; exact he1, hrest⟩
    · intro id y hg
      simp only at hg ⊢
      obtain ⟨k, e1, hk, he1, hid1⟩ := wf_index hq.1 hg
      have := (List.getElem?_eq_some.mp he1).1
      exact ⟨List.mem_iff_getElem?.mpr ⟨k, hk⟩, e1,
        by rw [getElem?_append_lt _ _ this]; exact he1, hid1⟩
    · exact hq.1.2.2
  · unfold Ordered
    have : ({ q with mem := q.mem ++ [v] } : updateQueue).slot = q.slot := funext hslot
    rw [this]
    exact hq.2
  · intro id
    unfold find
    simp only
    cases hg : q.index.get id with
    | none => rfl
    | some y =>
      obtain ⟨k, e1, hk, he1, hid1⟩ := wf_index hq.1 hg
      have := (List.getElem?_eq_some.mp he1).1
      simp only [Option.some_bind, getElem?_append_lt _ _ this]

theorem find_eq_none {q : updateQueue} (hq : q.Wf) {id : Nat} :
    q.find id = none ↔ q.index.get id = none := by
  unfold find
  constructor
  · intro h
    cases hg : q.index.get id with
    | none => rfl
    | some x =>
      obtain ⟨k, e1, hk, he1, hid1⟩ := wf_index hq hg
      rw [hg, Option.some_bind, he1] at h
      cases h
  · intro h
    rw [h]
    rfl

theorem alloc_ex {q : updateQueue} (hq : q.Valid) (v : repoUpdate) :
    ∃ qa : updateQueue, qa = { q with mem := q.mem ++ [v] } ∧ qa.Valid ∧
      qa.mem[q.mem.length]? = some v ∧ q.mem.length ∉ qa.heap ∧ qa.index = q.index ∧
      qa.seq = q.seq ∧ qa.notifyEnqueue = q.notifyEnqueue ∧ qa.heap = q.heap ∧
      qa.mem.length = q.mem.length + 1 ∧
      (∀ y, y < q.mem.length → qa.mem[y]? = q.mem[y]?) := by
  obtain ⟨h1, h2, h3, _⟩ := alloc_spec hq v
  exact ⟨_, rfl, h1, h2, h3, rfl, rfl, rfl, rfl, by simp,
    fun y hy => getElem?_append_lt _ _ hy⟩

/-- The method `enqueue` for a repo that is not in the queue. -/
theorem enqueue_new_spec {q : updateQueue} (hq : q.Valid) {repo : configuredRepo2}
    (hid : repo.ID ≠ 0) (p : priority) (hnone : q.find repo.ID = none) :
    ∃ q1, q.enqueue repo p = some (q1, false) ∧ q1.Valid ∧
      q1.seq = (q.seq + 1) % 2 ^ 64 ∧ q1.notifyEnqueue = notify q.notifyEnqueue ∧
      q1.heap.length = q.heap.length + 1 ∧
      (∀ id, (q1.find id).map repoUpdate.core =
        if id = repo.ID then
          some { Repo := repo, Priority := p, Seq := (q.seq + 1) % 2 ^ 64, Updating := false,
                 Index := 0 }
        else (q.find id).map repoUpdate.core) := by
  have hget : q.index.get repo.ID = none := (find_eq_none hq.1).mp hnone
  obtain ⟨qa, hqa, hva, hma, hfresh, hindexa, hseqa, hnota, hheapa, hlena, hmema⟩ := alloc_ex hq
    { Repo := repo, Priority := p, Seq := 0, Updating := false, Index := 0 }
  obtain ⟨q1, hpush, hv1, hseq1, hnot1, hindex1, hlen1, hcore1, hmem1, hhl1⟩ :=
    heapPush_spec hva hma hfresh hid (by rw [hindexa]; exact hget)
  refine ⟨{ q1 with notifyEnqueue := notify q1.notifyEnqueue }, ?_, ?_, by rw [hseq1, hseqa], ?_,
    by rw [← hheapa]; exact hhl1, ?_⟩
  · unfold enqueue
    rw [if_neg hid, hget]
    simp only
    rw [← hqa, hpush]
    rfl
  · exact hv1
  · show notify q1.notifyEnqueue = _
    rw [hnot1, hnota]
  · intro id
    show (q1.find id).map repoUpdate.core = _
    unfold find
    rw [hindex1, hindexa]
    simp only [IndexMap.get_set]
    have hxl : q.mem.length < qa.mem.length := by omega
    by_cases hidd : id = repo.ID
    · simp only [hidd, if_true, Option.some_bind]
      rw [hcore1, getElem?_set_mem _ _ _ _ hxl, if_pos rfl, hseqa]
      rfl
    · simp only [hidd, if_false]
      cases hg : q.index.get id with
      | none => rfl
      | some y =>
        obtain ⟨k, e1, hk, he1, hid1⟩ := wf_index hq.1 hg
        have hy := (List.getElem?_eq_some.mp he1).1
        have hyx : y ≠ q.mem.length := Nat.ne_of_lt hy
        simp only [Option.some_bind]
        rw [hcore1, getElem?_set_mem _ _ _ _ hxl, if_neg hyx, hmema y hy]

/-- The method `enqueue` for a repo whose entry is already updating: nothing changes. -/
theorem enqueue_updating_spec {q : updateQueue} (hq : q.Wf) {repo : configuredRepo2}
    (hid : repo.ID ≠ 0) (p : priority) {e : repoUpdate} (hfind : q.find repo.ID = some e)
    (hu : e.Updating = true) : q.enqueue repo p = some (q, false) := by
  obtain ⟨i, x, hget, hx, he, _, _⟩ := find_eq_some hq hfind
  unfold enqueue
  rw [if_neg hid, hget]
  simp only
  rw [he, Option.some_bind, if_pos hu]

/-- The method `enqueue` for a queued, not updating repo at a priority that is not higher. -/
theorem enqueue_same_spec {q : updateQueue} (hq : q.Valid) {repo : configuredRepo2}
    (hid : repo.ID ≠ 0) (p : priority) {e : repoUpdate} (hfind : q.find repo.ID = some e)
    (hu : e.Updating = false) (hp : p ≤ e.Priority) :
    ∃ q1 x, q.index.get repo.ID = some x ∧ q.enqueue repo p = some (q1, true) ∧ q1.Valid ∧
      q1.mem = q.mem.set x { e with Repo := repo } ∧ q1.heap = q.heap ∧ q1.index = q.index ∧
      q1.seq = q.seq ∧ q1.notifyEnqueue = q.notifyEnqueue ∧
      (∀ id, q1.find id = if id = repo.ID then some { e with Repo := repo } else q.find id) := by
  obtain ⟨i, x, hget, hx, he, heid, _⟩ := find_eq_some hq.1 hfind
  obtain ⟨q1, hmod, hwf1, hmem1, hheap1, hindex1, hseq1, hnot1, hmx, hslot1, hsloti, hfind1⟩ :=
    modify_ex hq.1 hx he (fun e => { e with Repo := repo }) rfl heid.symm
  refine ⟨q1, x, hget, ?_, ⟨hwf1, ?_⟩, hmem1, hheap1, hindex1, hseq1, hnot1, ?_⟩
  · unfold enqueue
    rw [if_neg hid, hget]
    simp only
    rw [he, Option.some_bind, if_neg (by simp [hu]), hmod, Option.some_bind, if_pos hp]
  · unfold Ordered
    rw [hheap1]
    intro k a b hk hkn ha hb
    have hkey : ∀ j c, q1.slot j = some c → ∃ d, q.slot j = some d ∧ ∀ z, lt c z = lt d z ∧
        lt z c = lt z d := by
      intro j c hc
      by_cases hj : j = i
      · subst hj
        rw [hsloti] at hc
        cases hc
        exact ⟨(x, e.core), slot_of hx he, fun z => ⟨rfl, rfl⟩⟩
      · rw [hslot1 j hj] at hc
        exact ⟨c, hc, fun z => ⟨rfl, rfl⟩⟩
    obtain ⟨a1, ha1, hza⟩ := hkey _ a ha
    obtain ⟨b1, hb1, hzb⟩ := hkey _ b hb
    rw [(hzb a).1, (hza b1).2]
    exact hq.2 k a1 b1 hk hkn ha1 hb1
  · intro id
    rw [hfind1 id, heid]

/-- The method `enqueue` for a queued, not updating repo at a strictly higher priority. -/
theorem enqueue_bump_spec {q : updateQueue} (hq : q.Valid) {repo : configuredRepo2}
    (hid : repo.ID ≠ 0) (p : priority) {e : repoUpdate} (hfind : q.find repo.ID = some e)
    (hu : e.Updating = false) (hp : e.Priority < p) :
    ∃ q1, q.enqueue repo p = some (q1, true) ∧ q1.Valid ∧
      q1.seq = (q.seq + 1) % 2 ^ 64 ∧ q1.notifyEnqueue = notify q.notifyEnqueue ∧
      q1.index = q.index ∧ q1.heap.length = q.heap.length ∧
      (∀ id, (q1.find id).map repoUpdate.core =
        if id = repo.ID then
          some ({ e with Repo := repo, Priority := p, Seq := (q.seq + 1) % 2 ^ 64 } :
            repoUpdate).core
        else (q.find id).map repoUpdate.core) := by
  obtain ⟨i, x, hget, hx, he, heid, hidx⟩ := find_eq_some hq.1 hfind
  obtain ⟨q1, hmod1, hwf1, hmem1, hheap1, hindex1, hseq1, hnot1, hmx1, hslot1, _, hfind1⟩ :=
    modify_ex hq.1 hx he (fun e => { e with Repo := repo }) rfl heid.symm
  obtain ⟨q2, hmod2, hwf2, hmem2, hheap2, hindex2, hseq2, hnot2, hmx2, hslot2, _, hfind2⟩ :=
    modify_ex hwf1 (by rw [hheap1]; exact hx) hmx1 (fun e => { e with Priority := p }) rfl rfl
  have hwf2s : ({ q2 with seq := (q2.seq + 1) % 2 ^ 64 } : updateQueue).Wf := hwf2
  obtain ⟨q3, hmod3, hwf3, hmem3, hheap3, hindex3, hseq3, hnot3, hmx3, hslot3, _, hfind3⟩ :=
    modify_ex hwf2s (i := i) (x := x) (by show q2.heap[i]? = some x; rw [hheap2, hheap1]; exact hx)
      (by show q2.mem[x]? = _; exact hmx2)
      (fun e => { e with Seq := (q2.seq + 1) % 2 ^ 64 }) rfl rfl
  have hh3 : q3.heap = q.heap := by rw [hheap3]; show q2.heap = _; rw [hheap2, hheap1]
  have hhole : heap.Hole lt q3.slot q3.heap.length i := by
    rw [hh3]
    refine heap.heapOn_modify lt_trans hq.2 (fun k _ hk => ?_) (fun h => slot_some q i hq.1 h)
    rw [hslot3 k hk]
    show q2.slot k = _
    rw [hslot2 k hk, hslot1 k hk]
  have hil : i < q.heap.length := (List.getElem?_eq_some.mp hx).1
  obtain ⟨q4, hfix, hv4, hrel4, hlen4⟩ := heapFix_spec hwf3 (i := i) (by rw [hh3]; exact hil) hhole
  have hseq : q3.seq = (q.seq + 1) % 2 ^ 64 := by
    rw [hseq3]; show (q2.seq + 1) % 2 ^ 64 = _; rw [hseq2, hseq1]
  have hnot : q3.notifyEnqueue = q.notifyEnqueue := by
    rw [hnot3]; show q2.notifyEnqueue = _; rw [hnot2, hnot1]
  have hindex : q3.index = q.index := by
    rw [hindex3]; show q2.index = _; rw [hindex2, hindex1]
  obtain ⟨r1, r2, r3, r4, r5, r6⟩ := hrel4
  refine ⟨{ q4 with notifyEnqueue := notify q4.notifyEnqueue }, ?_, hv4, r2.trans hseq, ?_,
    r1.trans hindex, by rw [hlen4, hh3], ?_⟩
  · unfold enqueue
    rw [if_neg hid, hget]
    simp only
    rw [he, Option.some_bind, if_neg (by simp [hu]), hmod1, Option.some_bind,
      if_neg (by unfold priority at *; omega), hmod2, Option.some_bind]
    simp only [nextSeq]
    rw [hmod3, Option.some_bind, hmx3, Option.some_bind]
    have hti : heap.FixAt iface q3 ({ ({ ({ e with Repo := repo } : repoUpdate) with
        Priority := p } : repoUpdate) with Seq := (q2.seq + 1) % 2 ^ 64 } : repoUpdate).Index =
        heap.Fix iface q3 i := by
      show heap.FixAt iface q3 e.Index = _
      rw [hidx]
      exact heap.FixAt_natCast _ _ i
    rw [hti, hfix]
    rfl
  · show notify q4.notifyEnqueue = _
    rw [r3, hnot]
  · intro id
    show (q4.find id).map repoUpdate.core = _
    rw [find_rel ⟨r1, r2, r3, r4, r5, r6⟩ id]
    have h3 : q3.find id = if id = repo.ID then
        some ({ e with Repo := repo, Priority := p, Seq := (q2.seq + 1) % 2 ^ 64 } : repoUpdate)
        else q2.find id := hfind3 id
    have h2 : q2.find id = if id = repo.ID then
        some ({ e with Repo := repo, Priority := p } : repoUpdate) else q1.find id := hfind2 id
    have h1 : q1.find id = if id = repo.ID then
        some ({ e with Repo := repo } : repoUpdate) else q.find id := by rw [hfind1 id, heid]
    rw [h3]
    by_cases hidd : id = repo.ID
    · rw [if_pos hidd, if_pos hidd, hseq2, hseq1]
      rfl
    · rw [if_neg hidd, if_neg hidd, h2, if_neg hidd, h1, if_neg hidd]

/-- The method `remove` on a valid queue. -/
theorem remove_spec {q : updateQueue} (hq : q.Valid) {repo : configuredRepo2}
    (hid : repo.ID ≠ 0) (updating : Bool) :
    (q.find repo.ID = none ∧ q.remove repo updating = some (q, false)) ∨
    (∃ e, q.find repo.ID = some e ∧ e.Updating ≠ updating ∧
      q.remove repo updating = some (q, false)) ∨
    (∃ e q1, q.find repo.ID = some e ∧ e.Updating = updating ∧
      q.remove repo updating = some (q1, true) ∧ q1.Valid ∧ q1.seq = q.seq ∧
      q1.notifyEnqueue = q.notifyEnqueue ∧ q1.heap.length + 1 = q.heap.length ∧
      (∀ id, (q1.find id).map repoUpdate.core =
        if id = repo.ID then none else (q.find id).map repoUpdate.core)) := by
  cases hfind : q.find repo.ID with
  | none =>
    left
    refine ⟨rfl, ?_⟩
    unfold remove
    rw [if_neg hid, (find_eq_none hq.1).mp hfind]
  | some e =>
    right
    obtain ⟨i, x, hget, hx, he, heid, hidx⟩ := find_eq_some hq.1 hfind
    by_cases hu : e.Updating = updating
    · right
      obtain ⟨q1, e1, he1, hrem, hv1, hseq1, hnot1, hindex1, hlen1, hcore1, hmem1, hhl1⟩ :=
        heapRemove_spec hq hx
      have hee : e1 = e := by rw [he] at he1; exact (Option.some.inj he1).symm
      subst hee
      refine ⟨e1, q1, rfl, hu, ?_, hv1, hseq1, hnot1, hhl1, ?_⟩
      · unfold remove
        rw [if_neg hid, hget]
        simp only
        rw [he, Option.some_bind, if_pos hu, hidx, toIndex_natCast, Option.some_bind, hrem]
        rfl
      · intro id
        unfold find
        rw [hindex1, IndexMap.get_delete, heid]
        by_cases hidd : id = repo.ID
        · simp only [hidd, if_true]
          rfl
        · simp only [hidd, if_false]
          cases hg : q.index.get id with
          | none => rfl
          | some y =>
            have hyx : y ≠ x := by
              intro h
              obtain ⟨k, e2, _, he2, hid2⟩ := wf_index hq.1 hg
              rw [h, he] at he2
              cases he2
              exact hidd (hid2.symm.trans heid)
            simp only [Option.some_bind]
            exact hcore1 y hyx
    · left
      refine ⟨e, rfl, hu, ?_⟩
      unfold remove
      rw [if_neg hid, hget]
      simp only
      rw [he, Option.some_bind, if_neg hu]

end updateQueue

/-! ## Update Queue: call sequences -/

namespace updateQueue

theorem mem_entries {q : updateQueue} (hq : q.Wf) {e : repoUpdate} :
    e ∈ q.entries ↔ q.find e.Repo.ID = some e := by
  unfold entries
  rw [List.mem_filterMap]
  constructor
  · rintro ⟨x, hx, he⟩
    obtain ⟨i, hi⟩ := List.mem_iff_getElem?.mp hx
    exact find_of_heap hq hi he
  · intro h
    obtain ⟨i, x, _, hx, he, _⟩ := find_eq_some hq h
    exact ⟨x, List.mem_iff_getElem?.mpr ⟨i, hx⟩, he⟩

theorem find_id {q : updateQueue} (hq : q.Wf) {id : Nat} {e : repoUpdate}
    (h : q.find id = some e) : e.Repo.ID = id := by
  obtain ⟨_, _, _, _, _, hid, _⟩ := find_eq_some hq h
  exact hid

theorem enqueue_ne_zero {q : updateQueue} {repo : configuredRepo2} {p : priority}
    {r : updateQueue × Bool} (h : q.enqueue repo p = some r) : repo.ID ≠ 0 := by
  intro h0
  unfold enqueue at h
  rw [if_pos h0] at h
  cases h

theorem remove_ne_zero {q : updateQueue} {repo : configuredRepo2} {u : Bool}
    {r : updateQueue × Bool} (h : q.remove repo u = some r) : repo.ID ≠ 0 := by
  intro h0
  unfold remove at h
  rw [if_pos h0] at h
  cases h

/-- The four cases of `enqueue` on a valid queue, with what each one does to the entries. -/
theorem enqueue_cases {q : updateQueue} (hq : q.Valid) {repo : configuredRepo2}
    (hid : repo.ID ≠ 0) (p : priority) :
    ∃ q1 b, q.enqueue repo p = some (q1, b) ∧ q1.Valid ∧
      ((q.find repo.ID = none ∧ b = false ∧ q1.seq = (q.seq + 1) % 2 ^ 64 ∧
          q1.notifyEnqueue = notify q.notifyEnqueue ∧ q1.heap.length = q.heap.length + 1 ∧
          ∀ id, (q1.find id).map repoUpdate.core =
            if id = repo.ID then
              some { Repo := repo, Priority := p, Seq := (q.seq + 1) % 2 ^ 64,
                     Updating := false, Index := 0 }
            else (q.find id).map repoUpdate.core) ∨
       (∃ e, q.find repo.ID = some e ∧ e.Updating = true ∧ b = false ∧ q1 = q) ∨
       (∃ e x, q.find repo.ID = some e ∧ e.Updating = false ∧ p ≤ e.Priority ∧ b = true ∧
          q.index.get repo.ID = some x ∧ q1 = { q with mem := q.mem.set x { e with Repo := repo } } ∧
          ∀ id, q1.find id = if id = repo.ID then some { e with Repo := repo } else q.find id) ∨
       (∃ e, q.find repo.ID = some e ∧ e.Updating = false ∧ e.Priority < p ∧ b = true ∧
          q1.seq = (q.seq + 1) % 2 ^ 64 ∧ q1.notifyEnqueue = notify q.notifyEnqueue ∧
          q1.index = q.index ∧ q1.heap.length = q.heap.length ∧
          ∀ id, (q1.find id).map repoUpdate.core =
            if id = repo.ID then
              some ({ e with Repo := repo, Priority := p, Seq := (q.seq + 1) % 2 ^ 64 } :
                repoUpdate).core
            else (q.find id).map repoUpdate.core)) := by
  cases hfind : q.find repo.ID with
  | none =>
    obtain ⟨q1, h1, h2, h3, h4, h5, h6⟩ := enqueue_new_spec hq hid p hfind
    exact ⟨q1, false, h1, h2, Or.inl ⟨rfl, rfl, h3, h4, h5, h6⟩⟩
  | some e =>
    cases hu : e.Updating
    · by_cases hp : p ≤ e.Priority
      · obtain ⟨q1, x, h0, h1, h2, h3, h4, h5, h6, h7, h8⟩ := enqueue_same_spec hq hid p hfind hu hp
        refine ⟨q1, true, h1, h2, Or.inr (Or.inr (Or.inl ⟨e, x, rfl, hu, hp, rfl, h0, ?_, h8⟩))⟩
        cases q1
        simp only at h3 h4 h5 h6 h7
        simp only [h3, h4, h5, h6, h7]
      · have hp2 : e.Priority < p := by unfold priority at *; omega
        obtain ⟨q1, h1, h2, h3, h4, h5, h6, h7⟩ := enqueue_bump_spec hq hid p hfind hu hp2
        exact ⟨q1, true, h1, h2, Or.inr (Or.inr (Or.inr ⟨e, rfl, hu, hp2, rfl, h3, h4, h5, h6, h7⟩))⟩
    · exact ⟨q, false, enqueue_updating_spec hq.1 hid p hfind hu, hq,
        Or.inr (Or.inl ⟨e, rfl, hu, rfl, rfl⟩)⟩

theorem enqueue_valid {q q1 : updateQueue} (hq : q.Valid) {repo : configuredRepo2} {p : priority}
    {b : Bool} (h : q.enqueue repo p = some (q1, b)) : q1.Valid := by
  obtain ⟨q2, b2, h2, hv, _⟩ := enqueue_cases hq (enqueue_ne_zero h) p
  rw [h] at h2
  cases h2
  exact hv

theorem remove_valid {q q1 : updateQueue} (hq : q.Valid) {repo : configuredRepo2} {u : Bool}
    {b : Bool} (h : q.remove repo u = some (q1, b)) : q1.Valid := by
  rcases remove_spec hq (remove_ne_zero h) u with ⟨_, h1⟩ | ⟨e, _, _, h1⟩ |
    ⟨e, q2, _, _, h1, hv, _⟩
  · rw [h] at h1; cases h1; exact hq
  · rw [h] at h1; cases h1; exact hq
  · rw [h] at h1; cases h1; exact hv

theorem acquireNext_valid {q q1 : updateQueue} (hq : q.Valid) {r : Option configuredRepo2}
    (h : q.acquireNext = some (q1, r)) : q1.Valid := by
  obtain ⟨q2, r2, h2, hv, _⟩ := acquireNext_spec hq
  rw [h] at h2
  cases h2
  exact hv

theorem call_valid {q q1 : updateQueue} (hq : q.Valid) {c : queueCall}
    {r : Option configuredRepo2} (h : q.call c = some (q1, r)) : q1.Valid := by
  cases c with
  | enqueue repo p =>
    simp only [call] at h
    cases he : q.enqueue repo p with
    | none => rw [he] at h; cases h
    | some v =>
      rw [he] at h
      cases h
      exact enqueue_valid hq (b := v.2) he
  | remove repo u =>
    simp only [call] at h
    cases he : q.remove repo u with
    | none => rw [he] at h; cases h
    | some v =>
      rw [he] at h
      cases h
      exact remove_valid hq (b := v.2) he
  | acquireNext => exact acquireNext_valid hq h

theorem calls_valid : ∀ (cs : List queueCall) {q q1 : updateQueue}
    {out : List (Option configuredRepo2)}, q.Valid → q.calls cs = some (q1, out) → q1.Valid := by
  intro cs
  induction cs with
  | nil =>
    intro q q1 out hq h
    unfold calls at h
    cases h
    exact hq
  | cons c cs ih =>
    intro q q1 out hq h
    unfold calls at h
    cases hc : q.call c with
    | none => rw [hc] at h; cases h
    | some v =>
      rw [hc, Option.some_bind] at h
      cases hcs : v.1.calls cs with
      | none => rw [hcs] at h; cases h
      | some w =>
        rw [hcs] at h
        cases h
        exact ih (call_valid hq (r := v.2) hc) hcs

theorem fresh_valid : NewUpdateScheduler.updateQueue.Valid := by decide

/-- Every queue call with a non-zero repo ID returns on a valid queue. -/
theorem call_returns {q : updateQueue} (hq : q.Valid) {c : queueCall} (hc : c.nonZero) :
    ∃ q1 r, q.call c = some (q1, r) ∧ q1.Valid := by
  cases c with
  | enqueue repo p =>
    obtain ⟨q1, b, h, hv, _⟩ := enqueue_cases hq hc p
    exact ⟨q1, none, by simp only [call, h, Option.map_some'], hv⟩
  | remove repo updating =>
    rcases remove_spec hq hc updating with ⟨_, h⟩ | ⟨e, _, _, h⟩ | ⟨e, q1, _, _, h, hv, _⟩
    · exact ⟨q, none, by simp only [call, h, Option.map_some'], hq⟩
    · exact ⟨q, none, by simp only [call, h, Option.map_some'], hq⟩
    · exact ⟨q1, none, by simp only [call, h, Option.map_some'], hv⟩
  | acquireNext =>
    obtain ⟨q1, r, h, hv, _⟩ := acquireNext_spec hq
    exact ⟨q1, r, h, hv⟩

/-- Every sequence of queue calls with non-zero repo IDs returns on a valid queue. -/
theorem calls_return : ∀ (cs : List queueCall) {q : updateQueue}, q.Valid →
    (∀ c ∈ cs, c.nonZero) → ∃ q1 out, q.calls cs = some (q1, out) ∧ q1.Valid := by
  intro cs
  induction cs with
  | nil => intro q hq _; exact ⟨q, [], rfl, hq⟩
  | cons c cs ih =>
    intro q hq hall
    obtain ⟨q1, r, hc, hv1⟩ := call_returns hq (hall c (List.mem_cons_self c cs))
    obtain ⟨q2, out, hcs, hv2⟩ := ih hv1 (fun d hd => hall d (List.mem_cons_of_mem c hd))
    refine ⟨q2, r :: out, ?_, hv2⟩
    unfold calls
    rw [hc, Option.some_bind, hcs]
    rfl

theorem less_false_iff {a b : repoUpdate} (ha : a.Updating = false) (hb : b.Updating = false) :
    a.less b = false ↔ a.Priority ≤ b.Priority ∧ (a.Priority = b.Priority → b.Seq ≤ a.Seq) := by
  unfold repoUpdate.less
  rw [ha, hb]
  simp only [ne_eq, not_true_eq_false, if_false]
  by_cases hp : a.Priority = b.Priority
  · simp only [hp, not_true_eq_false, if_false, decide_eq_false_iff_not, le_refl, true_and,
      forall_const]
    omega
  · simp only [hp, not_false_eq_true, if_true, decide_eq_false_iff_not, false_imp_iff, and_true]
    unfold priority at *
    omega

/-- C2. In every queue state reachable from the empty queue by enqueue, remove and
acquireNext calls, acquireNext returns nil exactly when no entry has Updating = false, and
otherwise returns the repo of a non-updating entry of highest Priority that has, among the
non-updating entries of that priority, the smallest Seq. -/
theorem C2_acquireNext_picks_best (cs : List queueCall) (q : updateQueue)
    (out : List (Option configuredRepo2))
    (h : NewUpdateScheduler.updateQueue.calls cs = some (q, out)) :
    ∃ q1 r, q.acquireNext = some (q1, r) ∧
      (r = none ↔ ∀ e ∈ q.entries, e.Updating = true) ∧
      (∀ R, r = some R → ∃ e ∈ q.entries, e.Repo = R ∧ e.Updating = false ∧
        ∀ e1 ∈ q.entries, e1.Updating = false →
          e1.Priority ≤ e.Priority ∧ (e1.Priority = e.Priority → e.Seq ≤ e1.Seq)) := by
  have hq : q.Valid := calls_valid cs fresh_valid h
  obtain ⟨q1, r, hacq, _, _, _, _, _, _, hnone, hsome⟩ := acquireNext_spec hq
  refine ⟨q1, r, hacq, ⟨fun hr e he => (hnone hr).2 _ e ((mem_entries hq.1).mp he), ?_⟩, ?_⟩
  · intro hall
    cases hr : r with
    | none => rfl
    | some R =>
      obtain ⟨e, hfe, _, hu, _⟩ := hsome R hr
      have := hall e ((mem_entries hq.1).mpr (by rw [find_id hq.1 hfe]; exact hfe))
      rw [hu] at this
      cases this
  · intro R hr
    obtain ⟨e, hfe, hrepo, hu, hmin, _⟩ := hsome R hr
    refine ⟨e, (mem_entries hq.1).mpr (by rw [find_id hq.1 hfe]; exact hfe), hrepo, hu, ?_⟩
    intro e1 he1 hu1
    exact (less_false_iff hu1 hu).mp (hmin _ e1 ((mem_entries hq.1).mp he1))

/-- One call of the kind `follows` keeps an updating entry as it is and does not return it. -/
theorem call_keeps_updating {q : updateQueue} (hq : q.Valid) {id : Nat} {c0 : repoUpdate}
    (hf : (q.find id).map repoUpdate.core = some c0) (hu : c0.Updating = true)
    {c : queueCall} (hc : c.follows) :
    ∃ q1 r, q.call c = some (q1, r) ∧ q1.Valid ∧
      (q1.find id).map repoUpdate.core = some c0 ∧ (∀ R, r = some R → R.ID ≠ id) := by
  have hfe : ∃ e0, q.find id = some e0 ∧ e0.Updating = true := by
    cases hfi : q.find id with
    | none => rw [hfi] at hf; cases hf
    | some e0 =>
      rw [hfi] at hf
      simp only [Option.map_some', Option.some.injEq] at hf
      refine ⟨e0, rfl, ?_⟩
      rw [← hf] at hu
      exact hu
  obtain ⟨e0, hfe0, hue0⟩ := hfe
  cases c with
  | enqueue repo p =>
    obtain ⟨q1, b, henq, hv1, hcases⟩ := enqueue_cases hq hc p
    refine ⟨q1, none, by simp only [call, henq, Option.map_some'], hv1, ?_, fun R h => by cases h⟩
    rcases hcases with ⟨hn, _, _, _, _, hfr⟩ | ⟨e, _, _, _, hqq⟩ | ⟨e, x, he, hue, _, _, _, _, hfr⟩ |
      ⟨e, he, hue, _, _, _, _, _, _, hfr⟩
    · have hne : id ≠ repo.ID := by
        intro h
        rw [h, hn] at hfe0
        cases hfe0
      rw [hfr id, if_neg hne]
      exact hf
    · rw [hqq]; exact hf
    · have hne : id ≠ repo.ID := by
        intro h
        rw [h, he] at hfe0
        cases hfe0
        rw [hue] at hue0
        cases hue0
      rw [hfr id, if_neg hne]
      exact hf
    · have hne : id ≠ repo.ID := by
        intro h
        rw [h, he] at hfe0
        cases hfe0
        rw [hue] at hue0
        cases hue0
      rw [hfr id, if_neg hne]
      exact hf
  | remove repo updating =>
    obtain ⟨hid, hup⟩ := hc
    subst hup
    rcases remove_spec hq hid false with ⟨_, h1⟩ | ⟨e, _, _, h1⟩ | ⟨e, q1, he, hue, h1, hv1, _, _, _, hfr⟩
    · exact ⟨q, none, by simp only [call, h1, Option.map_some'], hq, hf, fun R h => by cases h⟩
    · exact ⟨q, none, by simp only [call, h1, Option.map_some'], hq, hf, fun R h => by cases h⟩
    · refine ⟨q1, none, by simp only [call, h1, Option.map_some'], hv1, ?_, fun R h => by cases h⟩
      have hne : id ≠ repo.ID := by
        intro h
        rw [h, he] at hfe0
        cases hfe0
        rw [hue] at hue0
        cases hue0
      rw [hfr id, if_neg hne]
      exact hf
  | acquireNext =>
    obtain ⟨q1, r, hacq, hv1, _, _, _, _, _, hnone, hsome⟩ := acquireNext_spec hq
    refine ⟨q1, r, hacq, hv1, ?_, ?_⟩
    · cases hr : r with
      | none => rw [(hnone hr).1]; exact hf
      | some R =>
        obtain ⟨e, he, _, hue, _, hfr⟩ := hsome R hr
        have hne : id ≠ R.ID := by
          intro h
          rw [h, he] at hfe0
          cases hfe0
          rw [hue] at hue0
          cases hue0
        rw [hfr id, if_neg hne]
        exact hf
    · intro R hr
      obtain ⟨e, he, _, hue, _, _⟩ := hsome R hr
      intro h
      rw [h, hfe0] at he
      cases he
      rw [hue] at hue0
      cases hue0

theorem calls_keep_updating : ∀ (cs : List queueCall) {q : updateQueue}, q.Valid →
    ∀ {id : Nat} {c0 : repoUpdate}, (q.find id).map repoUpdate.core = some c0 →
    c0.Updating = true → (∀ c ∈ cs, c.follows) →
    ∃ q1 out, q.calls cs = some (q1, out) ∧ q1.Valid ∧
      (q1.find id).map repoUpdate.core = some c0 ∧ (∀ R, some R ∈ out → R.ID ≠ id) := by
  intro cs
  induction cs with
  | nil =>
    intro q hq id c0 hf hu _
    exact ⟨q, [], rfl, hq, hf, fun R h => by cases h⟩
  | cons c cs ih =>
    intro q hq id c0 hf hu hall
    obtain ⟨q1, r, hc, hv1, hf1, hr1⟩ :=
      call_keeps_updating hq hf hu (hall c (List.mem_cons_self c cs))
    obtain ⟨q2, out, hcs, hv2, hf2, hr2⟩ :=
      ih hv1 hf1 hu (fun d hd => hall d (List.mem_cons_of_mem c hd))
    refine ⟨q2, r :: out, ?_, hv2, hf2, ?_⟩
    · unfold calls
      rw [hc, Option.some_bind, hcs]
      rfl
    · intro R hR
      rcases List.mem_cons.mp hR with h | h
      · exact hr1 R h.symm
      · exact hr2 R h

/-- C3. acquireNext only returns a repo whose entry was not Updating; once it has returned
repo R, R's entry stays in the queue, unchanged and with Updating = true, across every
sequence of enqueue, remove(_, false) and acquireNext calls, none of these acquireNext calls
returns a repo with R's ID, and remove(R, true) then removes the entry and returns true. -/
theorem C3_acquired_entry_stays_until_removed (q q1 : updateQueue) (R : configuredRepo2)
    (hq : q.Valid) (h : q.acquireNext = some (q1, some R)) :
    (∃ e ∈ q.entries, e.Repo = R ∧ e.Updating = false) ∧
    ∃ e1 ∈ q1.entries, e1.Repo = R ∧ e1.Updating = true ∧
      ∀ cs : List queueCall, (∀ c ∈ cs, c.follows) →
        ∃ q2 out, q1.calls cs = some (q2, out) ∧
          (q2.find R.ID).map repoUpdate.core = some e1.core ∧
          (∀ R2, some R2 ∈ out → R2.ID ≠ R.ID) ∧
          ∃ q3, q2.remove R true = some (q3, true) ∧ ∀ e3 ∈ q3.entries, e3.Repo.ID ≠ R.ID := by
  obtain ⟨qa, r, hacq, hv1, _, _, _, _, _, _, hsome⟩ := acquireNext_spec hq
  rw [h] at hacq
  cases hacq
  obtain ⟨e, hfe, hrepo, hue, _, hfr⟩ := hsome R rfl
  have hid : e.Repo.ID = R.ID := find_id hq.1 hfe
  have hf1 := hfr R.ID
  rw [if_pos rfl] at hf1
  cases hfe1 : q1.find R.ID with
  | none => rw [hfe1] at hf1; cases hf1
  | some e1 =>
    rw [hfe1] at hf1
    simp only [Option.map_some', Option.some.injEq] at hf1
    have hid1 : e1.Repo.ID = R.ID := find_id hv1.1 hfe1
    have hu1 : e1.Updating = true := by
      have : e1.core.Updating = true := by rw [hf1]; rfl
      exact this
    have hr1 : e1.Repo = R := by
      have : e1.core.Repo = e.Repo := by rw [hf1]; rfl
      exact this.trans hrepo
    refine ⟨⟨e, (mem_entries hq.1).mpr (by rw [hid]; exact hfe), hrepo, hue⟩,
      e1, (mem_entries hv1.1).mpr (by rw [hid1]; exact hfe1), hr1, hu1, ?_⟩
    intro cs hcs
    have hfc : (q1.find R.ID).map repoUpdate.core = some e1.core := by rw [hfe1]; rfl
    obtain ⟨q2, out, hcalls, hv2, hf2, hout⟩ := calls_keep_updating cs hv1 hfc hu1 hcs
    refine ⟨q2, out, hcalls, hf2, hout, ?_⟩
    have hRid : R.ID ≠ 0 := by
      obtain ⟨i, x, _, hx, hm, _, _⟩ := find_eq_some hq.1 hfe
      obtain ⟨e0, he0, _, hnz, _⟩ := wf_entry hq.1 hx
      rw [hm] at he0
      cases he0
      rw [← hid]
      exact hnz
    rcases remove_spec hv2 hRid true with ⟨hn, _⟩ | ⟨e2, he2, hne, _⟩ |
      ⟨e2, q3, he2, _, hrem, hv3, _, _, _, hfr3⟩
    · rw [hn] at hf2; cases hf2
    · rw [he2] at hf2
      simp only [Option.map_some', Option.some.injEq] at hf2
      have : e2.Updating = true := by
        have h2 : e2.core.Updating = e1.core.Updating := by rw [hf2]
        exact h2.trans hu1
      exact (hne this).elim
    · refine ⟨q3, hrem, ?_⟩
      intro e3 he3 hid3
      have h3 := (mem_entries hv3.1).mp he3
      have h4 := hfr3 e3.Repo.ID
      rw [if_pos hid3, h3] at h4
      cases h4

theorem entries_find {q : updateQueue} (hq : q.Wf) {e : repoUpdate} {id : Nat}
    (he : e ∈ q.entries) (hid : e.Repo.ID = id) : q.find id = some e := by
  rw [← hid]
  exact (mem_entries hq).mp he

theorem find_entries {q : updateQueue} (hq : q.Wf) {e : repoUpdate} {id : Nat}
    (h : q.find id = some e) : e ∈ q.entries ∧ e.Repo.ID = id := by
  have hid := find_id hq h
  exact ⟨(mem_entries hq).mpr (by rw [hid]; exact h), hid⟩

/-- C4. On a valid queue, remove(repo, updating) with a non-zero repo ID returns true
exactly when an entry for that ID exists with Updating equal to the argument; then that ID
has no entry afterwards and every other entry keeps its Repo, Priority, Seq and Updating;
otherwise it returns false and leaves the whole queue state unchanged. -/
theorem C4_remove_guarded_by_updating (q : updateQueue) (repo : configuredRepo2)
    (updating : Bool) (hq : q.Valid) (hid : repo.ID ≠ 0) :
    ∃ q1 removed, q.remove repo updating = some (q1, removed) ∧
      (removed = true ↔ ∃ e ∈ q.entries, e.Repo.ID = repo.ID ∧ e.Updating = updating) ∧
      (removed = true →
        q1.Valid ∧ (∀ e ∈ q1.entries, e.Repo.ID ≠ repo.ID) ∧ q1.find repo.ID = none ∧
        (∀ id, id ≠ repo.ID → (q1.find id).map repoUpdate.core = (q.find id).map repoUpdate.core) ∧
        q1.heap.length + 1 = q.heap.length ∧ q1.seq = q.seq ∧
        q1.notifyEnqueue = q.notifyEnqueue) ∧
      (removed = false → q1 = q) := by
  rcases remove_spec hq hid updating with ⟨hn, h1⟩ | ⟨e, he, hne, h1⟩ |
    ⟨e, q1, he, hue, h1, hv1, hseq, hnot, hlen, hfr⟩
  · refine ⟨q, false, h1, ⟨(fun h => by cases h), ?_⟩, (fun h => by cases h), fun _ => rfl⟩
    rintro ⟨e, he, hid1, _⟩
    rw [entries_find hq.1 he hid1] at hn
    cases hn
  · refine ⟨q, false, h1, ⟨(fun h => by cases h), ?_⟩, (fun h => by cases h), fun _ => rfl⟩
    rintro ⟨e1, he1, hid1, hu1⟩
    rw [entries_find hq.1 he1 hid1] at he
    cases he
    exact (hne hu1).elim
  · refine ⟨q1, true, h1, ⟨fun _ => ⟨e, (find_entries hq.1 he).1, (find_entries hq.1 he).2, hue⟩,
      fun _ => rfl⟩, fun _ => ⟨hv1, ?_, ?_, ?_, hlen, hseq, hnot⟩, fun h => by cases h⟩
    · intro e3 he3 hid3
      have h3 := (mem_entries hv1.1).mp he3
      have h4 := hfr e3.Repo.ID
      rw [if_pos hid3, h3] at h4
      cases h4
    · have h4 := hfr repo.ID
      rw [if_pos rfl] at h4
      cases hf : q1.find repo.ID with
      | none => rfl
      | some e3 => rw [hf] at h4; cases h4
    · intro id hne
      rw [hfr id, if_neg hne]

/-- C6. Enqueuing a queued, not updating repo at a priority that is not higher than its
current one returns true and only replaces the stored repo of its entry: heap slice, index
map, sequence counter, notification state and every other field of every entry stay as
they are; a second identical enqueue returns the same state again. -/
theorem C6_enqueue_not_higher_keeps_position (q : updateQueue) (repo : configuredRepo2)
    (p : priority) (e : repoUpdate) (hq : q.Valid) (hid : repo.ID ≠ 0) (he : e ∈ q.entries)
    (hrid : e.Repo.ID = repo.ID) (hu : e.Updating = false) (hp : p ≤ e.Priority) :
    ∃ q1 x, q.index.get repo.ID = some x ∧ q.mem[x]? = some e ∧
      q.enqueue repo p = some (q1, true) ∧
      q1.heap = q.heap ∧ q1.index = q.index ∧ q1.seq = q.seq ∧
      q1.notifyEnqueue = q.notifyEnqueue ∧ q1.mem.length = q.mem.length ∧
      (∀ y : Ptr, q1.mem[y]? = if y = x then some { e with Repo := repo } else q.mem[y]?) ∧
      q1.enqueue repo p = some (q1, true) := by
  have hfind := entries_find hq.1 he hrid
  obtain ⟨q1, x, hget, henq, hv1, hmem1, hheap1, hindex1, hseq1, hnot1, hfind1⟩ :=
    enqueue_same_spec hq hid p hfind hu hp
  obtain ⟨i, x1, hget1, hx, hm, _, _⟩ := find_eq_some hq.1 hfind
  rw [hget] at hget1
  cases hget1
  have hxl : x < q.mem.length := (List.getElem?_eq_some.mp hm).1
  refine ⟨q1, x, hget, hm, henq, hheap1, hindex1, hseq1, hnot1, by rw [hmem1]; simp, ?_, ?_⟩
  · intro y
    rw [hmem1, getElem?_set_mem _ _ _ _ hxl]
  · have hf1 : q1.find repo.ID = some { e with Repo := repo } := by
      rw [hfind1 repo.ID, if_pos rfl]
    obtain ⟨q2, x2, hget2, henq2, _, hmem2, hheap2, hindex2, hseq2, hnot2, _⟩ :=
      enqueue_same_spec hv1 hid p hf1 hu hp
    have hx2 : x2 = x := by
      rw [hindex1, hget] at hget2
      exact (Option.some.inj hget2).symm
    have hqq : q2 = q1 := by
      cases q2
      cases q1
      simp only at hmem2 hheap2 hindex2 hseq2 hnot2 hmem1
      simp only [updateQueue.mk.injEq]
      refine ⟨?_, hheap2, hindex2, hseq2, hnot2⟩
      rw [hmem2, hx2, hmem1, List.set_set]
    rw [hqq] at henq2
    exact henq2

/-- C8. Enqueuing, at any priority, a repo whose queue entry is already Updating returns
false and leaves the whole queue state unchanged. -/
theorem C8_enqueue_updating_is_noop (q : updateQueue) (repo : configuredRepo2) (p : priority)
    (e : repoUpdate) (hq : q.Valid) (hid : repo.ID ≠ 0) (he : e ∈ q.entries)
    (hrid : e.Repo.ID = repo.ID) (hu : e.Updating = true) :
    q.enqueue repo p = some (q, false) :=
  enqueue_updating_spec hq.1 hid p (entries_find hq.1 he hrid) hu

theorem acquiredBefore_cons {out : List (Option configuredRepo2)} {a b : Nat}
    {r : Option configuredRepo2} (h : AcquiredBefore out a b) (hr : ∀ R, r = some R → R.ID ≠ b) :
    AcquiredBefore (r :: out) a b := by
  intro k R hk hb
  cases k with
  | zero =>
    simp only [List.getElem?_cons_zero, Option.some.injEq] at hk
    exact (hr R hk hb).elim
  | succ k =>
    simp only [List.getElem?_cons_succ] at hk
    obtain ⟨j, R1, hj, hR1, ha⟩ := h k R hk hb
    exact ⟨j + 1, R1, by omega, by simpa using hR1, ha⟩

theorem acquiredBefore_first {out : List (Option configuredRepo2)} {a b : Nat}
    {R0 : configuredRepo2} (ha : R0.ID = a) (hab : a ≠ b) :
    AcquiredBefore (some R0 :: out) a b := by
  intro k R hk hb
  cases k with
  | zero =>
    simp only [List.getElem?_cons_zero, Option.some.injEq] at hk
    rw [← hk, ha] at hb
    exact (hab hb).elim
  | succ k => exact ⟨0, R0, by omega, by simp, ha⟩

/-- Repeated acquireNext returns an entry only after every non-updating entry that sorts
before it. -/
theorem acquire_order : ∀ (n : Nat) {q : updateQueue}, q.Valid → ∀ {a b : Nat}
    {ca cb : repoUpdate}, (q.find a).map repoUpdate.core = some ca →
    (q.find b).map repoUpdate.core = some cb → ca.Updating = false → ca.less cb = true →
    ∀ {q2 : updateQueue} {out : List (Option configuredRepo2)},
    q.calls (List.replicate n queueCall.acquireNext) = some (q2, out) →
    AcquiredBefore out a b := by
  intro n
  induction n with
  | zero =>
    intro q _ a b ca cb _ _ _ _ q2 out h
    simp only [List.replicate, calls, Option.some.injEq, Prod.mk.injEq] at h
    rw [← h.2]
    intro k R hk
    simp at hk
  | succ n ih =>
    intro q hq a b ca cb hfa hfb hua hlt q2 out h
    have hab : a ≠ b := by
      intro hab
      rw [hab, hfb] at hfa
      cases hfa
      have := lt_asymm (0, ca) (0, ca) hlt
      rw [lt_eq_less] at this
      rw [hlt] at this
      cases this
    obtain ⟨q1, r, hacq, hv1, _, _, _, _, _, hnone, hsome⟩ := acquireNext_spec hq
    simp only [List.replicate, calls] at h
    have hc : q.call queueCall.acquireNext = some (q1, r) := hacq
    rw [hc, Option.some_bind] at h
    cases hrest : q1.calls (List.replicate n queueCall.acquireNext) with
    | none => rw [hrest] at h; cases h
    | some w =>
      rw [hrest] at h
      simp only [Option.map_some', Option.some.injEq, Prod.mk.injEq] at h
      rw [← h.2]
      cases hr : r with
      | none =>
        have hqq := (hnone hr).1
        rw [hqq] at hrest
        exact acquiredBefore_cons (ih hq hfa hfb hua hlt hrest) (fun R h => by cases h)
      | some R0 =>
        obtain ⟨e0, hfe0, _, hue0, hmin, hfr⟩ := hsome R0 hr
        by_cases h0a : R0.ID = a
        · exact acquiredBefore_first h0a hab
        · have h0b : R0.ID ≠ b := by
            intro h0b
            rw [h0b] at hfe0
            rw [hfe0] at hfb
            simp only [Option.map_some', Option.some.injEq] at hfb
            cases hfa1 : q.find a with
            | none => rw [hfa1] at hfa; cases hfa
            | some ea =>
              rw [hfa1] at hfa
              simp only [Option.map_some', Option.some.injEq] at hfa
              have := hmin a ea hfa1
              rw [← less_core, hfa, hfb, hlt] at this
              cases this
          have hfa1 : (q1.find a).map repoUpdate.core = some ca := by
            rw [hfr a, if_neg (fun h => h0a h.symm)]; exact hfa
          have hfb1 : (q1.find b).map repoUpdate.core = some cb := by
            rw [hfr b, if_neg (fun h => h0b h.symm)]; exact hfb
          exact acquiredBefore_cons (ih hv1 hfa1 hfb1 hua hlt hrest)
            (fun R h => by cases h; exact h0b)

theorem find_core_some {q : updateQueue} (hq : q.Wf) {id : Nat} {c : repoUpdate}
    (h : (q.find id).map repoUpdate.core = some c) :
    ∃ e ∈ q.entries, e.Repo.ID = id ∧ q.find id = some e ∧ e.core = c := by
  cases hf : q.find id with
  | none => rw [hf] at h; cases h
  | some e =>
    rw [hf] at h
    simp only [Option.map_some', Option.some.injEq] at h
    exact ⟨e, (find_entries hq hf).1, (find_entries hq hf).2, rfl, h⟩

theorem notify_pos (ch : Nat) : 0 < notify ch := by
  unfold notify notifyChanBuffer
  split <;> omega

/-- The enqueue of a repo that is not queued, on every valid queue: enqueue(repo, p) of a
repo whose non-zero ID is not queued returns false and adds exactly one entry, holding that
repo with Priority p, Updating = false and Seq = (counter + 1) mod 2^64; this Seq is strictly
greater than every Seq already queued whenever no queued Seq exceeds the counter and the
counter is below 2^64 - 1. All existing entries keep Repo, Priority, Seq and Updating, and a
notification is pending afterwards. -/
theorem enqueue_absent_adds_entry (q : updateQueue) (repo : configuredRepo2) (p : priority)
    (hq : q.Valid) (hid : repo.ID ≠ 0) (habsent : ∀ e ∈ q.entries, e.Repo.ID ≠ repo.ID) :
    ∃ q1, q.enqueue repo p = some (q1, false) ∧ q1.Valid ∧
      (∃ e ∈ q1.entries, e.Repo = repo ∧ e.Priority = p ∧ e.Updating = false ∧
        e.Seq = (q.seq + 1) % 2 ^ 64 ∧
        (q.SeqBounded → q.seq + 1 < 2 ^ 64 → ∀ e0 ∈ q.entries, e0.Seq < e.Seq)) ∧
      (∀ id, id ≠ repo.ID → (q1.find id).map repoUpdate.core = (q.find id).map repoUpdate.core) ∧
      q1.heap.length = q.heap.length + 1 ∧ 0 < q1.notifyEnqueue := by
  have hnone : q.find repo.ID = none := by
    cases hf : q.find repo.ID with
    | none => rfl
    | some e0 => exact (habsent e0 (find_entries hq.1 hf).1 (find_entries hq.1 hf).2).elim
  obtain ⟨q1, henq, hv1, hseq1, hnot1, hlen1, hfr⟩ := enqueue_new_spec hq hid p hnone
  have hnew := hfr repo.ID
  rw [if_pos rfl] at hnew
  obtain ⟨e, he, _, _, hcore⟩ := find_core_some hv1.1 hnew
  refine ⟨q1, henq, hv1, ⟨e, he, ?_, ?_, ?_, ?_, ?_⟩, ?_, hlen1, ?_⟩
  · have : e.core.Repo = repo := by rw [hcore]
    exact this
  · have : e.core.Priority = p := by rw [hcore]
    exact this
  · have : e.core.Updating = false := by rw [hcore]
    exact this
  · have : e.core.Seq = (q.seq + 1) % 2 ^ 64 := by rw [hcore]
    exact this
  · intro hb hw e0 he0
    have h1 : e.core.Seq = (q.seq + 1) % 2 ^ 64 := by rw [hcore]
    have h2 : e.Seq = (q.seq + 1) % 2 ^ 64 := h1
    rw [h2, Nat.mod_eq_of_lt hw]
    have := hb e0 he0
    omega
  · intro id hne
    rw [hfr id, if_neg hne]
  · rw [hnot1]
    exact notify_pos _

/-- The enqueue that raises a priority, on every valid queue: enqueuing a queued, not
updating repo at a strictly higher priority p returns true, sets its entry's Priority to p, its Repo to the given repo
and its Seq to (counter + 1) mod 2^64, and changes no other entry's Repo, Priority, Seq or
Updating; repeated acquireNext then returns it before every non-updating entry of priority
lower than p. Whenever no queued Seq exceeds the counter and the counter is below 2^64 - 1,
the new Seq is strictly greater than every other entry's Seq and repeated acquireNext
returns the entry after every non-updating entry that already had priority p. -/
theorem enqueue_bump_goes_to_band_end (q : updateQueue) (repo : configuredRepo2)
    (p : priority) (e : repoUpdate) (hq : q.Valid) (hid : repo.ID ≠ 0) (he : e ∈ q.entries)
    (hrid : e.Repo.ID = repo.ID) (hu : e.Updating = false) (hp : e.Priority < p) :
    ∃ q1, q.enqueue repo p = some (q1, true) ∧ q1.Valid ∧
      (∃ e1 ∈ q1.entries, e1.Repo = repo ∧ e1.Priority = p ∧ e1.Updating = false ∧
        e1.Seq = (q.seq + 1) % 2 ^ 64) ∧
      (∀ id, id ≠ repo.ID → (q1.find id).map repoUpdate.core = (q.find id).map repoUpdate.core) ∧
      (∀ o ∈ q1.entries, o.Repo.ID ≠ repo.ID → o.Updating = false → o.Priority < p →
        ∀ n q2 out, q1.calls (List.replicate n queueCall.acquireNext) = some (q2, out) →
          AcquiredBefore out repo.ID o.Repo.ID) ∧
      (q.SeqBounded → q.seq + 1 < 2 ^ 64 →
        (∀ o ∈ q1.entries, o.Repo.ID ≠ repo.ID → o.Seq < (q.seq + 1) % 2 ^ 64) ∧
        (∀ o ∈ q1.entries, o.Repo.ID ≠ repo.ID → o.Updating = false → o.Priority = p →
          ∀ n q2 out, q1.calls (List.replicate n queueCall.acquireNext) = some (q2, out) →
            AcquiredBefore out o.Repo.ID repo.ID)) := by
  have hfind := entries_find hq.1 he hrid
  obtain ⟨q1, henq, hv1, hseq1, hnot1, hindex1, hlen1, hfr⟩ :=
    enqueue_bump_spec hq hid p hfind hu hp
  have hnew := hfr repo.ID
  rw [if_pos rfl] at hnew
  obtain ⟨e1, he1, hid1, hf1, hcore⟩ := find_core_some hv1.1 hnew
  have hr1 : e1.Repo = repo := congrArg repoUpdate.Repo hcore
  have hp1 : e1.Priority = p := congrArg repoUpdate.Priority hcore
  have hu1 : e1.Updating = false := (congrArg repoUpdate.Updating hcore).trans hu
  have hs1 : e1.Seq = (q.seq + 1) % 2 ^ 64 := congrArg repoUpdate.Seq hcore
  have hother : ∀ o ∈ q1.entries, o.Repo.ID ≠ repo.ID →
      ∃ o0 ∈ q.entries, o0.core = o.core := by
    intro o ho hne
    have h1 := (mem_entries hv1.1).mp ho
    have h2 := hfr o.Repo.ID
    rw [if_neg hne, h1] at h2
    obtain ⟨o0, ho0, _, _, hc0⟩ := find_core_some hq.1 h2.symm
    exact ⟨o0, ho0, hc0⟩
  refine ⟨q1, henq, hv1, ⟨e1, he1, hr1, hp1, hu1, hs1⟩, ?_, ?_, ?_⟩
  · intro id hne
    rw [hfr id, if_neg hne]
  · intro o ho hne huo hpo n q2 out hcalls
    have hfo : (q1.find o.Repo.ID).map repoUpdate.core = some o.core := by
      rw [(mem_entries hv1.1).mp ho]; rfl
    have hfe : (q1.find repo.ID).map repoUpdate.core = some e1.core := by rw [hf1]; rfl
    refine acquire_order n hv1 hfe hfo hu1 ?_ hcalls
    rw [less_core]
    unfold repoUpdate.less
    rw [hu1, huo, hp1]
    have hne2 : p ≠ o.Priority := by unfold priority at *; omega
    simp only [ne_eq, not_true_eq_false, if_false, hne2, not_false_eq_true, if_true,
      decide_eq_true_eq]
    exact hpo
  · intro hb hw
    have hlt : ∀ o ∈ q1.entries, o.Repo.ID ≠ repo.ID → o.Seq < (q.seq + 1) % 2 ^ 64 := by
      intro o ho hne
      obtain ⟨o0, ho0, hc0⟩ := hother o ho hne
      have h1 : o.Seq = o0.Seq := (congrArg repoUpdate.Seq hc0).symm
      have := hb o0 ho0
      rw [Nat.mod_eq_of_lt hw, h1]
      omega
    refine ⟨hlt, ?_⟩
    intro o ho hne huo hpo n q2 out hcalls
    have hfo : (q1.find o.Repo.ID).map repoUpdate.core = some o.core := by
      rw [(mem_entries hv1.1).mp ho]; rfl
    have hfe : (q1.find repo.ID).map repoUpdate.core = some e1.core := by rw [hf1]; rfl
    refine acquire_order n hv1 hfo hfe huo ?_ hcalls
    rw [less_core]
    unfold repoUpdate.less
    rw [hu1, huo, hp1, hpo, hs1]
    simp only [ne_eq, not_true_eq_false, if_false, decide_eq_true_eq]
    exact hlt o ho hne

theorem C2_witness :
    NewUpdateScheduler.updateQueue.calls
        [queueCall.enqueue repoA priorityLow, queueCall.enqueue repoB priorityLow]
      = some (exampleQueue, [none, none]) ∧
    ∃ q1 r, exampleQueue.acquireNext = some (q1, r) ∧
      (r = none ↔ ∀ e ∈ exampleQueue.entries, e.Updating = true) ∧
      (∀ R, r = some R → ∃ e ∈ exampleQueue.entries, e.Repo = R ∧ e.Updating = false ∧
        ∀ e1 ∈ exampleQueue.entries, e1.Updating = false →
          e1.Priority ≤ e.Priority ∧ (e1.Priority = e.Priority → e.Seq ≤ e1.Seq)) :=
  ⟨by decide, C2_acquireNext_picks_best
    [queueCall.enqueue repoA priorityLow, queueCall.enqueue repoB priorityLow]
    exampleQueue [none, none] (by decide)⟩

theorem C3_witness :
    exampleQueue.Valid ∧ exampleQueue.acquireNext = some (exampleQueueAcquired, some repoA) ∧
    ∃ e ∈ exampleQueue.entries, e.Repo = repoA ∧ e.Updating = false :=
  ⟨by decide, by decide,
    (C3_acquired_entry_stays_until_removed exampleQueue exampleQueueAcquired repoA
      (by decide) (by decide)).1⟩

theorem C4_witness :
    exampleQueue.Valid ∧ repoA.ID ≠ 0 ∧
    ∃ q1 removed, exampleQueue.remove repoA false = some (q1, removed) ∧
      (removed = true ↔
        ∃ e ∈ exampleQueue.entries, e.Repo.ID = repoA.ID ∧ e.Updating = false) ∧
      (removed = true →
        q1.Valid ∧ (∀ e ∈ q1.entries, e.Repo.ID ≠ repoA.ID) ∧ q1.find repoA.ID = none ∧
        (∀ id, id ≠ repoA.ID →
          (q1.find id).map repoUpdate.core = (exampleQueue.find id).map repoUpdate.core) ∧
        q1.heap.length + 1 = exampleQueue.heap.length ∧ q1.seq = exampleQueue.seq ∧
        q1.notifyEnqueue = exampleQueue.notifyEnqueue) ∧
      (removed = false → q1 = exampleQueue) :=
  ⟨by decide, by decide,
    C4_remove_guarded_by_updating exampleQueue repoA false (by decide) (by decide)⟩

/-- The enqueue of `repoC` on `exampleQueue`, which holds `repoA` and `repoB`: the new entry
has Seq 3, above both. -/
theorem enqueue_absent_adds_entry_example :
    exampleQueue.Valid ∧ repoC.ID ≠ 0 ∧
    (∀ e ∈ exampleQueue.entries, e.Repo.ID ≠ repoC.ID) ∧
    exampleQueue.SeqBounded ∧ exampleQueue.seq + 1 < 2 ^ 64 ∧
    ∃ q1, exampleQueue.enqueue repoC priorityLow = some (q1, false) ∧ q1.Valid ∧
      (∃ e ∈ q1.entries, e.Repo = repoC ∧ e.Seq = 3 ∧
        ∀ e0 ∈ exampleQueue.entries, e0.Seq < e.Seq) ∧
      q1.heap.length = exampleQueue.heap.length + 1 ∧ 0 < q1.notifyEnqueue := by
  refine ⟨by decide, by decide, by decide, by decide, by decide, ?_⟩
  obtain ⟨q1, h1, h2, ⟨e, he, h3, _, _, h4, h5⟩, _, h6, h7⟩ :=
    enqueue_absent_adds_entry exampleQueue repoC priorityLow (by decide) (by decide)
      (by decide)
  exact ⟨q1, h1, h2, ⟨e, he, h3, h4, h5 (by decide) (by decide)⟩, h6, h7⟩

theorem C6_witness :
    exampleQueue.Valid ∧ repoB.ID ≠ 0 ∧
    (⟨repoB, priorityLow, 2, false, 1⟩ : repoUpdate) ∈ exampleQueue.entries ∧
    ∃ q1, exampleQueue.enqueue repoB priorityLow = some (q1, true) ∧
      q1.heap = exampleQueue.heap ∧ q1.seq = exampleQueue.seq ∧
      q1.enqueue repoB priorityLow = some (q1, true) := by
  refine ⟨by decide, by decide, by decide, ?_⟩
  obtain ⟨q1, x, _, _, h3, h4, _, h6, _, _, _, h10⟩ :=
    C6_enqueue_not_higher_keeps_position exampleQueue repoB priorityLow
      ⟨repoB, priorityLow, 2, false, 1⟩ (by decide) (by decide) (by decide) (by decide)
      (by decide) (by decide)
  exact ⟨q1, h3, h4, h6, h10⟩

theorem enqueue_bump_goes_to_band_end_example :
    exampleQueue.Valid ∧ repoB.ID ≠ 0 ∧
    (⟨repoB, priorityLow, 2, false, 1⟩ : repoUpdate) ∈ exampleQueue.entries ∧
    ∃ q1, exampleQueue.enqueue repoB priorityHigh = some (q1, true) ∧ q1.Valid ∧
      ∃ e1 ∈ q1.entries, e1.Repo = repoB ∧ e1.Priority = priorityHigh ∧
        e1.Updating = false ∧ e1.Seq = (exampleQueue.seq + 1) % 2 ^ 64 := by
  refine ⟨by decide, by decide, by decide, ?_⟩
  obtain ⟨q1, h1, h2, h3, _⟩ :=
    enqueue_bump_goes_to_band_end exampleQueue repoB priorityHigh
      ⟨repoB, priorityLow, 2, false, 1⟩ (by decide) (by decide) (by decide) (by decide)
      (by decide) (by decide)
  exact ⟨q1, h1, h2, h3⟩

theorem C8_witness :
    exampleQueueAcquired.Valid ∧ repoA.ID ≠ 0 ∧
    (⟨repoA, priorityLow, 1, true, 1⟩ : repoUpdate) ∈ exampleQueueAcquired.entries ∧
    exampleQueueAcquired.enqueue repoA priorityHigh = some (exampleQueueAcquired, false) :=
  ⟨by decide, by decide, by decide,
    C8_enqueue_updating_is_noop exampleQueueAcquired repoA priorityHigh
      ⟨repoA, priorityLow, 1, true, 1⟩ (by decide) (by decide) (by decide) (by decide)
      (by decide)⟩

end updateQueue

/-! ## Due-Schedule: the heap interface keeps the representation invariant -/

namespace schedule

theorem wf_entry_sch {q : schedule} (hq : q.Wf) {i : Nat} {x : Ptr} (h : q.heap[i]? = some x) :
    ∃ e, q.mem[x]? = some e ∧ e.Index = (i : Int) ∧ e.Repo.ID ≠ 0 ∧
      q.index.get e.Repo.ID = some x := by
  obtain ⟨hlt, hx⟩ := List.getElem?_eq_some.mp h
  have h1 := hq.1 i hlt
  simp only [List.get_eq_getElem, hx] at h1
  unfold EntryOk at h1
  cases hm : q.mem[x]? with
  | none => rw [hm] at h1; exact h1.elim
  | some e => rw [hm] at h1; exact ⟨e, rfl, h1⟩

theorem wf_index_sch {q : schedule} (hq : q.Wf) {id : Nat} {x : Ptr}
    (h : q.index.get id = some x) :
    ∃ (i : Nat) (e : scheduledRepoUpdate), q.heap[i]? = some x ∧ q.mem[x]? = some e ∧ e.Repo.ID = id := by
  have h1 := hq.2.1 (id, x) (IndexMap.get_eq_some h)
  unfold KeyOk at h1
  obtain ⟨hmem, h2⟩ := h1
  obtain ⟨i, hi⟩ := List.mem_iff_getElem?.mp hmem
  cases hm : q.mem[x]? with
  | none => simp only [hm] at h2
  | some e =>
    simp only [hm] at h2
    exact ⟨i, e, hi, rfl, h2⟩

theorem wf_intro_sch {q : schedule}
    (h1 : ∀ (i : Nat) (x : Ptr), q.heap[i]? = some x → ∃ e, q.mem[x]? = some e ∧ e.Index = (i : Int) ∧
      e.Repo.ID ≠ 0 ∧ q.index.get e.Repo.ID = some x)
    (h2 : ∀ id x, q.index.get id = some x → x ∈ q.heap ∧ ∃ e, q.mem[x]? = some e ∧ e.Repo.ID = id)
    (h3 : (q.index.map Prod.fst).Nodup) : q.Wf := by
  refine ⟨?_, ?_, h3⟩
  · intro i hlt
    obtain ⟨e, he, hrest⟩ := h1 i (q.heap.get ⟨i, hlt⟩) (by simp)
    unfold EntryOk
    rw [he]
    exact hrest
  · intro e he
    obtain ⟨hmem, u, hu, hid⟩ := h2 e.1 e.2 (IndexMap.get_of_mem h3 he)
    unfold KeyOk
    rw [hu]
    exact ⟨hmem, hid⟩

theorem modify_eq_sch {q : schedule} {x : Ptr} {e : scheduledRepoUpdate} (f : scheduledRepoUpdate → scheduledRepoUpdate)
    (h : q.mem[x]? = some e) : q.modify x f = some { q with mem := q.mem.set x (f e) } := by
  simp [modify, h]

theorem wf_heap_inj_sch {q : schedule} (hq : q.Wf) {i j : Nat} {x : Ptr}
    (hi : q.heap[i]? = some x) (hj : q.heap[j]? = some x) : i = j := by
  obtain ⟨e, he, hidx, _⟩ := wf_entry_sch hq hi
  obtain ⟨e1, he1, hidx1, _⟩ := wf_entry_sch hq hj
  rw [he] at he1
  cases he1
  omega

theorem Swap_eq_sch {q : schedule} {i j : Nat} {hi hj : Ptr} {ei ej : scheduledRepoUpdate}
    (h1 : q.heap[i]? = some hi) (h2 : q.heap[j]? = some hj)
    (m1 : q.mem[hi]? = some ei) (m2 : q.mem[hj]? = some ej) (hne : i ≠ j → hi ≠ hj) :
    ∃ q1, q.Swap i j = some q1 ∧ q1.index = q.index ∧ q1.timer = q.timer ∧
      q1.wakeup = q.wakeup ∧ q1.mem.length = q.mem.length ∧
      (∀ k, q1.heap[k]? = heap.swapF (fun k => q.heap[k]?) i j k) ∧
      (∀ y : Ptr, q1.mem[y]? = if y = hi then some { ei with Index := j }
        else if y = hj then some { ej with Index := i } else q.mem[y]?) := by
  have hil : i < q.heap.length := (List.getElem?_eq_some.mp h1).1
  have hjl : j < q.heap.length := (List.getElem?_eq_some.mp h2).1
  have hxi : hi < q.mem.length := (List.getElem?_eq_some.mp m1).1
  have hxj : hj < q.mem.length := (List.getElem?_eq_some.mp m2).1
  have hsw := getElem?_swap q.heap i j hi hj h1 h2
  have hswi : ((q.heap.set i hj).set j hi)[i]? = some hj := by
    rw [hsw, heap.swapF_left]; exact h2
  have hswj : ((q.heap.set i hj).set j hi)[j]? = some hi := by
    rw [hsw, heap.swapF_right]; exact h1
  unfold Swap
  simp only [h1, h2]
  simp only [hswi, Option.some_bind]
  rw [modify_eq_sch _ (by simpa using m2)]
  simp only [Option.some_bind, hswj]
  by_cases hij : i = j
  · subst hij
    have hhh : hi = hj := by rw [h1] at h2; exact Option.some.inj h2
    subst hhh
    have hee : ei = ej := by rw [m1] at m2; exact Option.some.inj m2
    subst hee
    rw [modify_eq_sch (e := { ei with Index := i }) _ (by simp [hxi])]
    refine ⟨_, rfl, rfl, rfl, rfl, by simp, fun k => hsw k, ?_⟩
    intro y
    by_cases hy : y = hi
    · subst hy; simp [hxi]
    · have hy2 : ¬ hi = y := fun e => hy e.symm
      simp [hy, hy2, List.getElem?_set]
  · have hhne : hi ≠ hj := hne hij
    have hhne2 : ¬ hj = hi := fun e => hhne e.symm
    rw [modify_eq_sch (e := ei) _ (by simp [List.getElem?_set, hhne2, m1])]
    refine ⟨_, rfl, rfl, rfl, rfl, by simp, fun k => hsw k, ?_⟩
    intro y
    by_cases hy : y = hi
    · subst hy; simp [hxi]
    · have hy2 : ¬ hi = y := fun e => hy e.symm
      by_cases hy3 : y = hj
      · subst hy3; simp [hy, hy2, List.getElem?_set, hxj]
      · have hy4 : ¬ hj = y := fun e => hy3 e.symm
        simp [hy, hy2, hy3, hy4, List.getElem?_set]

theorem rel_refl_sch (q : schedule) : rel q q :=
  ⟨rfl, rfl, rfl, rfl, fun _ => rfl, fun _ => Iff.rfl⟩

theorem rel_trans_sch (a b c : schedule) (h1 : rel a b) (h2 : rel b c) : rel a c := by
  unfold rel at *
  refine ⟨h2.1.trans h1.1, h2.2.1.trans h1.2.1, h2.2.2.1.trans h1.2.2.1,
    h2.2.2.2.1.trans h1.2.2.2.1, fun y => ?_, fun x => ?_⟩
  · exact (h2.2.2.2.2.1 y).trans (h1.2.2.2.2.1 y)
  · exact (h2.2.2.2.2.2 x).trans (h1.2.2.2.2.2 x)

theorem slot_eq_some_sch {q : schedule} {i : Nat} {a : Ptr × scheduledRepoUpdate} :
    q.slot i = some a ↔ ∃ e, q.heap[i]? = some a.1 ∧ q.mem[a.1]? = some e ∧ a.2 = e.core := by
  unfold slot
  constructor
  · intro h
    cases hx : q.heap[i]? with
    | none => rw [hx] at h; cases h
    | some x =>
      rw [hx] at h
      simp only [Option.some_bind] at h
      cases hm : q.mem[x]? with
      | none => rw [hm] at h; cases h
      | some e =>
        rw [hm] at h
        simp only [Option.map_some', Option.some.injEq] at h
        subst h
        exact ⟨e, rfl, hm, rfl⟩
  · rintro ⟨e, h1, h2, h3⟩
    rw [h1]
    simp only [Option.some_bind, h2, Option.map_some', Option.some.injEq]
    rw [← h3]

theorem slot_of_sch {q : schedule} {i : Nat} {x : Ptr} {e : scheduledRepoUpdate}
    (h1 : q.heap[i]? = some x) (h2 : q.mem[x]? = some e) : q.slot i = some (x, e.core) :=
  slot_eq_some_sch.mpr ⟨e, h1, h2, rfl⟩

theorem slot_some_sch (q : schedule) (i : Nat) (hq : q.Wf) (hi : i < q.heap.length) :
    ∃ a, q.slot i = some a := by
  have hx : q.heap[i]? = some q.heap[i] := List.getElem?_eq_getElem hi
  obtain ⟨e, he, _⟩ := wf_entry_sch hq hx
  exact ⟨(q.heap[i], e.core), slot_eq_some_sch.mpr ⟨e, hx, he, rfl⟩⟩

theorem lt_asymm_sch (a b : Ptr × scheduledRepoUpdate) (h : lt a b = true) : lt b a = false := by
  unfold lt Time.Before at *
  simp only [decide_eq_true_eq, decide_eq_false_iff_not] at *
  unfold Time at *
  omega

theorem lt_trans_sch (a b c : Ptr × scheduledRepoUpdate) (h1 : lt b a = false)
    (h2 : lt c b = false) : lt c a = false := by
  unfold lt Time.Before at *
  simp only [decide_eq_false_iff_not] at *
  unfold Time at *
  omega

theorem Less_eq_sch (q : schedule) (i j : Nat) (a b : Ptr × scheduledRepoUpdate)
    (ha : q.slot i = some a) (hb : q.slot j = some b) : q.Less i j = some (lt a b) := by
  obtain ⟨ea, h1, h2, h3⟩ := slot_eq_some_sch.mp ha
  obtain ⟨eb, h4, h5, h6⟩ := slot_eq_some_sch.mp hb
  have e1 : q.entry i = some ea := by simp [entry, h1, h2]
  have e2 : q.entry j = some eb := by simp [entry, h4, h5]
  unfold Less lt
  rw [e1, e2, h3, h6]
  rfl

theorem Swap_spec_sch (q : schedule) (i j : Nat) (hq : q.Wf) (hi : i < q.heap.length)
    (hj : j < q.heap.length) :
    ∃ q1, q.Swap i j = some q1 ∧ q1.Wf ∧ rel q q1 ∧ q1.heap.length = q.heap.length ∧
      q1.slot = heap.swapF q.slot i j := by
  have hxi : q.heap[i]? = some q.heap[i] := List.getElem?_eq_getElem hi
  have hxj : q.heap[j]? = some q.heap[j] := List.getElem?_eq_getElem hj
  obtain ⟨ei, hei, hidxi, hidi, hgeti⟩ := wf_entry_sch hq hxi
  obtain ⟨ej, hej, hidxj, hidj, hgetj⟩ := wf_entry_sch hq hxj
  obtain ⟨q1, hs, hindex, hseq, hnot, hlen, hheap, hmem⟩ :=
    Swap_eq_sch hxi hxj hei hej (fun hne he => hne (wf_heap_inj_sch hq hxi (he ▸ hxj)))
  have hmemiff : ∀ x, x ∈ q1.heap ↔ x ∈ q.heap := by
    intro x
    rw [List.mem_iff_getElem?, List.mem_iff_getElem?]
    simp only [hheap]
    exact swapF_exists _ i j x
  have hcore : ∀ y : Ptr, (q1.mem[y]?).map scheduledRepoUpdate.core = (q.mem[y]?).map scheduledRepoUpdate.core := by
    intro y
    rw [hmem y]
    by_cases hy : y = q.heap[i]
    · subst hy; simp [hei, scheduledRepoUpdate.core]
    · by_cases hy2 : y = q.heap[j]
      · subst hy2; simp [hy, hej, scheduledRepoUpdate.core]
      · simp [hy, hy2]
  have hlenh : q1.heap.length = q.heap.length := by
    apply Nat.le_antisymm
    · by_contra hc
      have h1 : q.heap.length < q1.heap.length := by omega
      have h2 := hheap q.heap.length
      rw [heap.swapF_other (by omega) (by omega), List.getElem?_eq_getElem h1] at h2
      simp at h2
    · by_contra hc
      have h1 : q1.heap.length < q.heap.length := by omega
      have h2 := hheap q1.heap.length
      by_cases hk1 : q1.heap.length = j
      · rw [hk1, heap.swapF_right] at h2
        have h3 : q1.heap[j]? = none := List.getElem?_eq_none (by omega)
        rw [h3, hxi] at h2; cases h2
      · by_cases hk2 : q1.heap.length = i
        · rw [hk2, heap.swapF_left] at h2
          have h3 : q1.heap[i]? = none := List.getElem?_eq_none (by omega)
          rw [h3, hxj] at h2; cases h2
        · rw [heap.swapF_other hk2 hk1, List.getElem?_eq_getElem h1] at h2
          simp at h2
  have hslot : q1.slot = heap.swapF q.slot i j := by
    funext k
    by_cases hkj : k = j
    · subst hkj
      rw [heap.swapF_right, slot_of_sch hxi hei]
      exact slot_of_sch (e := { ei with Index := k }) (by rw [hheap, heap.swapF_right]; exact hxi)
        (by rw [hmem]; simp)
    · by_cases hki : k = i
      · subst hki
        have hh : ¬ q.heap[j] = q.heap[k] := fun e => hkj (wf_heap_inj_sch hq hxi (e ▸ hxj))
        rw [heap.swapF_left, slot_of_sch hxj hej]
        exact slot_of_sch (e := { ej with Index := k }) (by rw [hheap, heap.swapF_left]; exact hxj)
          (by rw [hmem]; simp [hh])
      · rw [heap.swapF_other hki hkj]
        unfold slot
        rw [hheap k, heap.swapF_other hki hkj]
        cases hx : q.heap[k]? with
        | none => rfl
        | some x =>
          have hne1 : x ≠ q.heap[i] := fun e => hki (wf_heap_inj_sch hq hx (e ▸ hxi))
          have hne2 : x ≠ q.heap[j] := fun e => hkj (wf_heap_inj_sch hq hx (e ▸ hxj))
          simp [hmem, hne1, hne2]
  refine ⟨q1, hs, ?_, ⟨hindex, hseq, hnot, hlen, hcore, hmemiff⟩, hlenh, hslot⟩
  apply wf_intro_sch
  · intro k x hk
    rw [hheap k] at hk
    rw [hindex]
    by_cases hkj : k = j
    · subst hkj
      rw [heap.swapF_right, hxi] at hk
      have hx := Option.some.inj hk
      subst hx
      exact ⟨{ ei with Index := k }, by rw [hmem]; simp, rfl, hidi, hgeti⟩
    · by_cases hki : k = i
      · subst hki
        rw [heap.swapF_left, hxj] at hk
        have hx := Option.some.inj hk
        subst hx
        have hh : ¬ q.heap[j] = q.heap[k] := fun e => hkj (wf_heap_inj_sch hq hxi (e ▸ hxj))
        exact ⟨{ ej with Index := k }, by rw [hmem]; simp [hh], rfl, hidj, hgetj⟩
      · rw [heap.swapF_other hki hkj] at hk
        have hne1 : x ≠ q.heap[i] := fun e => hki (wf_heap_inj_sch hq hk (e ▸ hxi))
        have hne2 : x ≠ q.heap[j] := fun e => hkj (wf_heap_inj_sch hq hk (e ▸ hxj))
        obtain ⟨e, he, hrest⟩ := wf_entry_sch hq hk
        exact ⟨e, by rw [hmem]; simp [hne1, hne2, he], hrest⟩
  · intro id x hget
    rw [hindex] at hget
    obtain ⟨k, e, hk, he, hid⟩ := wf_index_sch hq hget
    refine ⟨(hmemiff x).mpr (List.mem_iff_getElem?.mpr ⟨k, hk⟩), ?_⟩
    have hc := hcore x
    rw [he] at hc
    cases hm : q1.mem[x]? with
    | none => rw [hm] at hc; cases hc
    | some e1 =>
      rw [hm] at hc
      simp only [Option.map_some', Option.some.injEq] at hc
      refine ⟨e1, rfl, ?_⟩
      have : e1.core.Repo.ID = e.core.Repo.ID := by rw [hc]
      simpa [scheduledRepoUpdate.core, hid] using this
  · rw [hindex]; exact hq.2.2

/-- The Due-Schedule as a lawful heap. -/
theorem lawful_sch : heap.Lawful iface Wf slot lt rel where
  rel_refl := rel_refl_sch
  rel_trans := rel_trans_sch
  asymm := lt_asymm_sch
  trans := lt_trans_sch
  slot_some := fun s i hq hi => slot_some_sch s i hq hi
  Less_eq := fun s i j a b _ ha hb => Less_eq_sch s i j a b ha hb
  Swap_eq := fun s i j hq hi hj => Swap_spec_sch s i j hq hi hj

theorem Push_eq_sch {q : schedule} {x : Ptr} {e : scheduledRepoUpdate} (h : q.mem[x]? = some e) :
    q.Push x = some
      { mem := q.mem.set x { e with Index := q.heap.length },
        heap := q.heap ++ [x],
        index := q.index.set e.Repo.ID x,
        timer := q.timer,
        wakeup := q.wakeup } := by
  have hx : x < q.mem.length := (List.getElem?_eq_some.mp h).1
  unfold Push
  simp [modify, h, hx]

theorem Pop_eq_sch {q : schedule} {x : Ptr} {e : scheduledRepoUpdate}
    (h1 : q.heap[q.heap.length - 1]? = some x) (h2 : q.mem[x]? = some e) :
    q.Pop = some
      ({ mem := q.mem.set x { e with Index := -1 },
         heap := q.heap.take (q.heap.length - 1),
         index := q.index.delete e.Repo.ID,
         timer := q.timer,
         wakeup := q.wakeup }, x) := by
  have hx : x < q.mem.length := (List.getElem?_eq_some.mp h2).1
  unfold Pop
  simp [modify, h1, h2, hx]

/-- The effect of the method `Push` on a well-formed schedule, for a fresh entry `x`. -/
theorem Push_spec_sch {q : schedule} (hq : q.Wf) {x : Ptr} {e : scheduledRepoUpdate}
    (hx : q.mem[x]? = some e) (hfresh : x ∉ q.heap) (hid : e.Repo.ID ≠ 0)
    (hget : q.index.get e.Repo.ID = none) :
    ∃ q1, q.Push x = some q1 ∧ q1.Wf ∧ q1.heap = q.heap ++ [x] ∧
      q1.timer = q.timer ∧ q1.wakeup = q.wakeup ∧
      q1.index = q.index.set e.Repo.ID x ∧
      q1.mem = q.mem.set x { e with Index := q.heap.length } ∧
      (∀ k, k < q.heap.length → q1.slot k = q.slot k) := by
  have hxl : x < q.mem.length := (List.getElem?_eq_some.mp hx).1
  refine ⟨_, Push_eq_sch hx, ?_, rfl, rfl, rfl, rfl, rfl, ?_⟩
  · apply wf_intro_sch
    · intro k y hk
      simp only [getElem?_append_one] at hk
      by_cases hkl : k < q.heap.length
      · simp only [hkl, if_true] at hk
        have hyx : y ≠ x := fun h => hfresh (h ▸ List.mem_iff_getElem?.mpr ⟨k, hk⟩)
        obtain ⟨e1, he1, hidx, hid1, hget1⟩ := wf_entry_sch hq hk
        refine ⟨e1, by simp only [getElem?_set_mem _ _ _ _ hxl, hyx, if_false]; exact he1,
          hidx, hid1, ?_⟩
        simp only [IndexMap.get_set]
        have : e1.Repo.ID ≠ e.Repo.ID := by
          intro h
          rw [h, hget] at hget1
          cases hget1
        simp only [this, if_false]
        exact hget1
      · by_cases hkn : k = q.heap.length
        · simp only [hkl, hkn, if_true, if_false, lt_irrefl, Option.some.injEq] at hk
          subst hk
          refine ⟨{ e with Index := q.heap.length },
            by simp only [getElem?_set_mem _ _ _ _ hxl, if_true], by simp [hkn], hid, ?_⟩
          simp [IndexMap.get_set]
        · simp only [hkl, hkn, if_false] at hk
          cases hk
    · intro id y hgety
      simp only [IndexMap.get_set] at hgety
      by_cases hidd : id = e.Repo.ID
      · simp only [hidd, if_true, Option.some.injEq] at hgety
        subst hgety
        refine ⟨by simp, { e with Index := q.heap.length },
          by simp only [getElem?_set_mem _ _ _ _ hxl, if_true], hidd.symm⟩
      · simp only [hidd, if_false] at hgety
        obtain ⟨k, e1, hk, he1, hid1⟩ := wf_index_sch hq hgety
        have hyx : y ≠ x := fun h => hfresh (h ▸ List.mem_iff_getElem?.mpr ⟨k, hk⟩)
        refine ⟨by simp [List.mem_iff_getElem?.mpr ⟨k, hk⟩], e1, ?_, hid1⟩
        simp only [getElem?_set_mem _ _ _ _ hxl, hyx, if_false]
        exact he1
    · exact IndexMap.keys_set _ _ hq.2.2
  · intro k hk
    unfold slot
    simp only [getElem?_append_one, hk, if_true]
    cases hy : q.heap[k]? with
    | none => rfl
    | some y =>
      have hyx : y ≠ x := fun h => hfresh (h ▸ List.mem_iff_getElem?.mpr ⟨k, hy⟩)
      simp only [Option.some_bind, getElem?_set_mem _ _ _ _ hxl, hyx, if_false]

/-- The effect of the method `Pop` on a well-formed, non-empty schedule. -/
theorem Pop_spec_sch {q : schedule} (hq : q.Wf) {x : Ptr}
    (h1 : q.heap[q.heap.length - 1]? = some x) :
    ∃ q1 e, q.mem[x]? = some e ∧ q.Pop = some (q1, x) ∧ q1.Wf ∧
      q1.heap = q.heap.take (q.heap.length - 1) ∧
      q1.timer = q.timer ∧ q1.wakeup = q.wakeup ∧
      q1.index = q.index.delete e.Repo.ID ∧
      q1.mem = q.mem.set x { e with Index := -1 } ∧
      (∀ k, k < q.heap.length - 1 → q1.slot k = q.slot k) := by
  obtain ⟨e, he, hidx, hid, hget⟩ := wf_entry_sch hq h1
  have hxl : x < q.mem.length := (List.getElem?_eq_some.mp he).1
  have hnl : q.heap.length - 1 < q.heap.length := (List.getElem?_eq_some.mp h1).1
  refine ⟨_, e, he, Pop_eq_sch h1 he, ?_, rfl, rfl, rfl, rfl, rfl, ?_⟩
  · apply wf_intro_sch
    · intro k y hk
      simp only [List.getElem?_take] at hk
      by_cases hkl : k < q.heap.length - 1
      · simp only [hkl, if_true] at hk
        have hyx : y ≠ x := fun h => by
          have := wf_heap_inj_sch hq hk (h ▸ h1)
          omega
        obtain ⟨e1, he1, hidx1, hid1, hget1⟩ := wf_entry_sch hq hk
        refine ⟨e1, by simp only [getElem?_set_mem _ _ _ _ hxl, hyx, if_false]; exact he1,
          hidx1, hid1, ?_⟩
        simp only [IndexMap.get_delete]
        have : e1.Repo.ID ≠ e.Repo.ID := by
          intro h
          rw [h, hget] at hget1
          exact hyx (Option.some.inj hget1).symm
        simp only [this, if_false]
        exact hget1
      · simp only [hkl, if_false] at hk
        cases hk
    · intro id y hgety
      simp only [IndexMap.get_delete] at hgety
      by_cases hidd : id = e.Repo.ID
      · simp only [hidd, if_true] at hgety
        cases hgety
      · simp only [hidd, if_false] at hgety
        obtain ⟨k, e1, hk, he1, hid1⟩ := wf_index_sch hq hgety
        have hyx : y ≠ x := by
          intro h
          rw [h, he] at he1
          exact hidd ((Option.some.inj he1) ▸ hid1).symm
        have hkl : k < q.heap.length - 1 := by
          have hk1 : k < q.heap.length := (List.getElem?_eq_some.mp hk).1
          by_contra hc
          have : k = q.heap.length - 1 := by omega
          rw [this, h1] at hk
          exact hyx (Option.some.inj hk).symm
        refine ⟨List.mem_iff_getElem?.mpr ⟨k, by
          rw [List.getElem?_take, if_pos hkl]; exact hk⟩, e1, ?_, hid1⟩
        simp only [getElem?_set_mem _ _ _ _ hxl, hyx, if_false]
        exact he1
    · exact IndexMap.keys_delete _ hq.2.2
  · intro k hk
    unfold slot
    simp only [List.getElem?_take, hk, if_true]
    cases hy : q.heap[k]? with
    | none => rfl
    | some y =>
      have hyx : y ≠ x := fun h => by
        have := wf_heap_inj_sch hq hy (h ▸ h1)
        omega
      simp only [Option.some_bind, getElem?_set_mem _ _ _ _ hxl, hyx, if_false]

theorem heapFix_spec_sch {q : schedule} (hq : q.Wf) {i : Nat} (hi : i < q.heap.length)
    (hh : heap.Hole lt q.slot q.heap.length i) :
    ∃ q1, heap.Fix iface q i = some q1 ∧ q1.Valid ∧ rel q q1 ∧
      q1.heap.length = q.heap.length := by
  obtain ⟨q1, h1, hwf, hrel, hlen, hheap⟩ := heap.Fix_spec lawful_sch q i hq hi
  refine ⟨q1, h1, ⟨hwf, ?_⟩, hrel, hlen⟩
  unfold Ordered
  have hl : q1.heap.length = q.heap.length := hlen
  rw [hl]
  exact hheap hh

theorem heapPush_spec_sch {q : schedule} (hq : q.Valid) {x : Ptr} {e : scheduledRepoUpdate}
    (hx : q.mem[x]? = some e) (hfresh : x ∉ q.heap) (hid : e.Repo.ID ≠ 0)
    (hget : q.index.get e.Repo.ID = none) :
    ∃ q1, heap.Push iface q x = some q1 ∧ q1.Valid ∧
      q1.timer = q.timer ∧ q1.wakeup = q.wakeup ∧
      q1.index = q.index.set e.Repo.ID x ∧ q1.mem.length = q.mem.length ∧
      (∀ y : Ptr, (q1.mem[y]?).map scheduledRepoUpdate.core = (q.mem[y]?).map scheduledRepoUpdate.core) ∧
      (∀ y, y ∈ q1.heap ↔ y ∈ q.heap ∨ y = x) ∧ q1.heap.length = q.heap.length + 1 := by
  obtain ⟨qa, hpush, hwfa, hheapa, hseqa, hnota, hindexa, hmema, hslota⟩ :=
    Push_spec_sch hq.1 hx hfresh hid hget
  have hxl : x < q.mem.length := (List.getElem?_eq_some.mp hx).1
  have hlena : qa.heap.length = q.heap.length + 1 := by rw [hheapa]; simp
  obtain ⟨q1, hup, hwf1, hrel1, hlen1, _, hheap1⟩ :=
    heap.up_spec lawful_sch qa q.heap.length hwfa (by show q.heap.length < qa.heap.length; omega)
  obtain ⟨r1, r2, r3, r4, r5, r6⟩ := hrel1
  have hlen1h : q1.heap.length = qa.heap.length := hlen1
  refine ⟨q1, ?_, ⟨hwf1, ?_⟩, r2.trans hseqa, r3.trans hnota, r1.trans hindexa, ?_, ?_, ?_,
    by omega⟩
  · unfold heap.Push
    show ((q.Push x).bind fun s1 => heap.up iface s1 (s1.heap.length - 1)) = some q1
    rw [hpush, Option.some_bind, hlena, Nat.add_sub_cancel]
    exact hup
  · unfold Ordered
    rw [hlen1h, hlena]
    apply hheap1
    constructor
    · intro k a b hk hkn hkne ha hb
      have h1 : k < q.heap.length := by omega
      have ha1 : q.slot ((k - 1) / 2) = some a := by
        rw [← hslota _ (by omega)]; exact ha
      have hb1 : q.slot k = some b := by
        rw [← hslota _ h1]; exact hb
      exact hq.2 k a b hk h1 ha1 hb1
    · intro c a b hj hc hcn hpc _ _
      omega
  · rw [r4, hmema]; simp
  · intro y
    rw [r5 y, hmema]
    by_cases hy : y = x
    · subst hy
      simp [getElem?_set_mem _ _ _ _ hxl, hx, scheduledRepoUpdate.core]
    · simp [getElem?_set_mem _ _ _ _ hxl, hy]
  · intro y
    rw [r6 y, hheapa]
    simp

theorem mem_take_last_sch {q : schedule} (hq : q.Wf) {x : Ptr}
    (h1 : q.heap[q.heap.length - 1]? = some x) (y : Ptr) :
    y ∈ q.heap.take (q.heap.length - 1) ↔ y ∈ q.heap ∧ y ≠ x := by
  rw [List.mem_iff_getElem?, List.mem_iff_getElem?]
  constructor
  · rintro ⟨k, hk⟩
    rw [List.getElem?_take] at hk
    by_cases hkl : k < q.heap.length - 1
    · rw [if_pos hkl] at hk
      refine ⟨⟨k, hk⟩, fun h => ?_⟩
      have := wf_heap_inj_sch hq hk (h ▸ h1)
      omega
    · rw [if_neg hkl] at hk
      cases hk
  · rintro ⟨⟨k, hk⟩, hne⟩
    have hk1 : k < q.heap.length := (List.getElem?_eq_some.mp hk).1
    have hkl : k < q.heap.length - 1 := by
      by_contra hc
      have : k = q.heap.length - 1 := by omega
      rw [this, h1] at hk
      exact hne (Option.some.inj hk).symm
    exact ⟨k, by rw [List.getElem?_take, if_pos hkl]; exact hk⟩

/-- The function `heap.Remove` on a valid schedule: the entry at position `i` leaves, the rest
stays and the heap condition holds again. -/
theorem heapRemove_spec_sch {q : schedule} (hq : q.Valid) {i : Nat} {x : Ptr}
    (hx : q.heap[i]? = some x) :
    ∃ q1 e, q.mem[x]? = some e ∧ heap.Remove iface q i = some (q1, x) ∧ q1.Valid ∧
      q1.timer = q.timer ∧ q1.wakeup = q.wakeup ∧
      q1.index = q.index.delete e.Repo.ID ∧ q1.mem.length = q.mem.length ∧
      (∀ y : Ptr, y ≠ x → (q1.mem[y]?).map scheduledRepoUpdate.core = (q.mem[y]?).map scheduledRepoUpdate.core) ∧
      (∀ y, y ∈ q1.heap ↔ y ∈ q.heap ∧ y ≠ x) ∧ q1.heap.length + 1 = q.heap.length := by
  have hil : i < q.heap.length := (List.getElem?_eq_some.mp hx).1
  obtain ⟨e, he, _, _, _⟩ := wf_entry_sch hq.1 hx
  by_cases hni : q.heap.length - 1 = i
  · have h1 : q.heap[q.heap.length - 1]? = some x := by rw [hni]; exact hx
    obtain ⟨q1, e1, he1, hpop, hwf1, hheap1, hseq1, hnot1, hindex1, hmem1, hslot1⟩ :=
      Pop_spec_sch hq.1 h1
    have hee : e1 = e := by rw [he] at he1; exact (Option.some.inj he1).symm
    subst hee
    have hxl : x < q.mem.length := (List.getElem?_eq_some.mp he).1
    refine ⟨q1, e1, he, ?_, ⟨hwf1, ?_⟩, hseq1, hnot1, hindex1, by rw [hmem1]; simp, ?_, ?_,
      by rw [hheap1, List.length_take]; omega⟩
    · unfold heap.Remove
      show ((if q.heap.length - 1 ≠ i then _ else some q).bind Pop) = _
      rw [if_neg (by simpa using hni), Option.some_bind]
      exact hpop
    · unfold Ordered
      rw [hheap1, List.length_take, Nat.min_eq_left (by omega)]
      exact heap.heapOn_congr (heap.heapOn_mono hq.2 (by omega)) hslot1
    · intro y hy
      rw [hmem1, getElem?_set_mem _ _ _ _ hxl, if_neg hy]
    · intro y
      rw [hheap1]
      exact mem_take_last_sch hq.1 h1 y
  · have hin : i < q.heap.length - 1 := by omega
    obtain ⟨qa, hswap, hwfa, hrela, hlena, hslota⟩ :=
      Swap_spec_sch q i (q.heap.length - 1) hq.1 hil (by omega)
    obtain ⟨qb, hdu, hwfb, hrelb, hlenb, hslotb, hheapb⟩ :=
      heap.down_up_spec lawful_sch qa i (q.heap.length - 1) hwfa hin
        (by show q.heap.length - 1 ≤ qa.heap.length; omega)
    have hlenbh : qb.heap.length = q.heap.length := by
      have : qb.heap.length = qa.heap.length := hlenb
      omega
    have hsl : qb.slot (q.heap.length - 1) = some (x, e.core) := by
      have h2 : slot qb (q.heap.length - 1) = slot qa (q.heap.length - 1) :=
        hslotb _ (Nat.le_refl _)
      show slot qb (q.heap.length - 1) = _
      rw [h2]
      show qa.slot (q.heap.length - 1) = _
      rw [hslota, heap.swapF_right]
      exact slot_of_sch hx he
    obtain ⟨eb, hb1, hb2, hb3⟩ := slot_eq_some_sch.mp hsl
    simp only at hb1 hb2 hb3
    have hlast : qb.heap[qb.heap.length - 1]? = some x := by rw [hlenbh]; exact hb1
    obtain ⟨q1, e1, he1, hpop, hwf1, hheap1, hseq1, hnot1, hindex1, hmem1, hslot1⟩ :=
      Pop_spec_sch hwfb hlast
    have hee : e1 = eb := by rw [hb2] at he1; exact (Option.some.inj he1).symm
    subst hee
    have hxl : x < qb.mem.length := (List.getElem?_eq_some.mp hb2).1
    obtain ⟨a1, a2, a3, a4, a5, a6⟩ := hrela
    obtain ⟨b1, b2, b3, b4, b5, b6⟩ := hrelb
    have hidb : e1.Repo.ID = e.Repo.ID := by
      have : e.core.Repo.ID = e1.core.Repo.ID := by rw [hb3]
      simpa [scheduledRepoUpdate.core] using this.symm
    refine ⟨q1, e, he, ?_, ⟨hwf1, ?_⟩, by rw [hseq1, b2, a2], by rw [hnot1, b3, a3],
      by rw [hindex1, b1, a1, hidb], by rw [hmem1]; simp; omega, ?_, ?_,
      by rw [hheap1, List.length_take]; omega⟩
    · unfold heap.Remove
      show ((if q.heap.length - 1 ≠ i then
        (q.Swap i (q.heap.length - 1)).bind (fun s1 =>
          (heap.down iface s1 i (q.heap.length - 1)).bind
            (fun r => if r.2 then some r.1 else heap.up iface r.1 i))
        else some q).bind Pop) = _
      rw [if_pos hni, hswap, Option.some_bind, hdu, Option.some_bind]
      exact hpop
    · unfold Ordered
      rw [hheap1, List.length_take, Nat.min_eq_left (by omega), hlenbh]
      have hhole : heap.Hole lt qa.slot (q.heap.length - 1) i := by
        apply heap.heapOn_modify lt_trans_sch (heap.heapOn_mono hq.2 (Nat.sub_le _ _))
        · intro k hk hki
          rw [hslota, heap.swapF_other hki (by omega)]
        · intro _
          exact slot_some_sch q i hq.1 hil
      refine heap.heapOn_congr (hheapb hhole) ?_
      intro k hk
      exact hslot1 k (by rw [hlenbh]; exact hk)
    · intro y hy
      rw [hmem1, getElem?_set_mem _ _ _ _ hxl, if_neg hy, b5, a5]
    · intro y
      rw [hheap1, mem_take_last_sch hwfb hlast y, b6, a6]

end schedule

/-! ## Due-Schedule: effect of the methods -/

namespace schedule

theorem find_eq_some_sch {q : schedule} (hq : q.Wf) {id : Nat} {e : scheduledRepoUpdate}
    (h : q.find id = some e) :
    ∃ (i : Nat) (x : Ptr), q.index.get id = some x ∧ q.heap[i]? = some x ∧ q.mem[x]? = some e ∧
      e.Repo.ID = id ∧ e.Index = (i : Int) := by
  unfold find at h
  cases hg : q.index.get id with
  | none => rw [hg] at h; cases h
  | some x =>
    rw [hg, Option.some_bind] at h
    obtain ⟨i, e1, hi, he1, hid⟩ := wf_index_sch hq hg
    rw [h] at he1
    cases he1
    obtain ⟨e2, he2, hidx, _⟩ := wf_entry_sch hq hi
    rw [h] at he2
    cases he2
    exact ⟨i, x, rfl, hi, h, hid, hidx⟩

theorem find_of_heap_sch {q : schedule} (hq : q.Wf) {i : Nat} {x : Ptr} {e : scheduledRepoUpdate}
    (hx : q.heap[i]? = some x) (he : q.mem[x]? = some e) : q.find e.Repo.ID = some e := by
  obtain ⟨e1, he1, _, _, hget⟩ := wf_entry_sch hq hx
  rw [he] at he1
  cases he1
  unfold find
  rw [hget, Option.some_bind, he]

/-- In a valid schedule no entry is due before the entry at the heap root. -/
theorem root_min_sch {q : schedule} (hq : q.Valid) {x : Ptr} {e : scheduledRepoUpdate}
    (hx : q.heap[0]? = some x) (he : q.mem[x]? = some e) {id : Nat} {e1 : scheduledRepoUpdate}
    (h1 : q.find id = some e1) : e.Due ≤ e1.Due := by
  obtain ⟨i, y, _, hy, hm, _, _⟩ := find_eq_some_sch hq.1 h1
  have hi : i < q.heap.length := (List.getElem?_eq_some.mp hy).1
  have := heap.heapOn_root_min lt_asymm_sch lt_trans_sch hq.2
    (fun k hk => slot_some_sch q k hq.1 hk)
    i (x, e.core) (y, e1.core) hi (slot_of_sch hx he) (slot_of_sch hy hm)
  unfold lt Time.Before at this
  simp only [decide_eq_false_iff_not] at this
  have h2 : ¬ e1.Due < e.Due := this
  unfold Time at *
  omega

theorem find_rel_sch {q q1 : schedule} (h : rel q q1) (id : Nat) :
    (q1.find id).map scheduledRepoUpdate.core = (q.find id).map scheduledRepoUpdate.core := by
  obtain ⟨h1, _, _, _, h5, _⟩ := h
  unfold find
  rw [h1]
  cases q.index.get id with
  | none => rfl
  | some x => simp only [Option.some_bind]; exact h5 x

/-- Assignment to fields of the entry at heap position `i`, other than its position and
repo ID, keeps the schedule well formed and touches only slot `i`. -/
theorem modify_spec_sch {q : schedule} (hq : q.Wf) {i : Nat} {x : Ptr} {e : scheduledRepoUpdate}
    (hx : q.heap[i]? = some x) (he : q.mem[x]? = some e) (f : scheduledRepoUpdate → scheduledRepoUpdate)
    (hf1 : (f e).Index = e.Index) (hf2 : (f e).Repo.ID = e.Repo.ID) :
    q.modify x f = some { q with mem := q.mem.set x (f e) } ∧
    ({ q with mem := q.mem.set x (f e) } : schedule).Wf ∧
    (∀ k, k ≠ i → ({ q with mem := q.mem.set x (f e) } : schedule).slot k = q.slot k) ∧
    ({ q with mem := q.mem.set x (f e) } : schedule).slot i = some (x, (f e).core) ∧
    (∀ id, ({ q with mem := q.mem.set x (f e) } : schedule).find id =
      if id = e.Repo.ID then some (f e) else q.find id) := by
  have hxl : x < q.mem.length := (List.getElem?_eq_some.mp he).1
  obtain ⟨e0, he0, hidx, hid, hget⟩ := wf_entry_sch hq hx
  rw [he] at he0
  cases he0
  refine ⟨modify_eq_sch f he, ?_, ?_, ?_, ?_⟩
  · apply wf_intro_sch
    · intro k y hk
      simp only at hk ⊢
      obtain ⟨e1, he1, hidx1, hid1, hget1⟩ := wf_entry_sch hq hk
      by_cases hy : y = x
      · subst hy
        rw [he] at he1
        cases he1
        exact ⟨f e, by rw [getElem?_set_mem _ _ _ _ hxl, if_pos rfl], by rw [hf1]; exact hidx1,
          by rw [hf2]; exact hid1, by rw [hf2]; exact hget1⟩
      · exact ⟨e1, by rw [getElem?_set_mem _ _ _ _ hxl, if_neg hy]; exact he1, hidx1, hid1, hget1⟩
    · intro id y hg
      simp only at hg ⊢
      obtain ⟨k, e1, hk, he1, hid1⟩ := wf_index_sch hq hg
      refine ⟨List.mem_iff_getElem?.mpr ⟨k, hk⟩, ?_⟩
      by_cases hy : y = x
      · subst hy
        rw [he] at he1
        cases he1
        exact ⟨f e, by rw [getElem?_set_mem _ _ _ _ hxl, if_pos rfl], by rw [hf2]; exact hid1⟩
      · exact ⟨e1, by rw [getElem?_set_mem _ _ _ _ hxl, if_neg hy]; exact he1, hid1⟩
    · exact hq.2.2
  · intro k hk
    unfold slot
    simp only
    cases hy : q.heap[k]? with
    | none => rfl
    | some y =>
      have hyx : y ≠ x := fun h => hk (wf_heap_inj_sch hq hy (h ▸ hx))
      simp only [Option.some_bind, getElem?_set_mem _ _ _ _ hxl, hyx, if_false]
  · exact slot_of_sch (q := { q with mem := q.mem.set x (f e) }) hx
      (by simp only [getElem?_set_mem _ _ _ _ hxl, if_true])
  · intro id
    unfold find
    simp only
    by_cases hidd : id = e.Repo.ID
    · rw [if_pos hidd, hidd, hget, Option.some_bind, getElem?_set_mem _ _ _ _ hxl, if_pos rfl]
    · rw [if_neg hidd]
      cases hg : q.index.get id with
      | none => rfl
      | some y =>
        have hyx : y ≠ x := by
          intro h
          obtain ⟨k, e1, _, he1, hid1⟩ := wf_index_sch hq hg
          rw [h, he] at he1
          cases he1
          exact hidd hid1.symm
        rw [Option.some_bind, Option.some_bind, getElem?_set_mem _ _ _ _ hxl, if_neg hyx]

theorem modify_ex_sch {q : schedule} (hq : q.Wf) {i : Nat} {x : Ptr} {e : scheduledRepoUpdate}
    (hx : q.heap[i]? = some x) (he : q.mem[x]? = some e) (f : scheduledRepoUpdate → scheduledRepoUpdate)
    (hf1 : (f e).Index = e.Index) (hf2 : (f e).Repo.ID = e.Repo.ID) :
    ∃ q1, q.modify x f = some q1 ∧ q1.Wf ∧ q1.mem = q.mem.set x (f e) ∧ q1.heap = q.heap ∧
      q1.index = q.index ∧ q1.timer = q.timer ∧ q1.wakeup = q.wakeup ∧
      q1.mem[x]? = some (f e) ∧
      (∀ k, k ≠ i → q1.slot k = q.slot k) ∧ q1.slot i = some (x, (f e).core) ∧
      (∀ id, q1.find id = if id = e.Repo.ID then some (f e) else q.find id) := by
  obtain ⟨h1, h2, h3, h4, h5⟩ := modify_spec_sch hq hx he f hf1 hf2
  have hxl : x < q.mem.length := (List.getElem?_eq_some.mp he).1
  exact ⟨_, h1, h2, rfl, rfl, rfl, rfl, rfl,
    by simp only [getElem?_set_mem _ _ _ _ hxl, if_true], h3, h4, h5⟩

theorem wf_ptr_lt_sch {q : schedule} (hq : q.Wf) {x : Ptr} (hx : x ∈ q.heap) :
    x < q.mem.length := by
  obtain ⟨i, hi⟩ := List.mem_iff_getElem?.mp hx
  obtain ⟨e, he, _⟩ := wf_entry_sch hq hi
  exact (List.getElem?_eq_some.mp he).1

/-- Allocation of a new entry object leaves the schedule as it is. -/
theorem alloc_spec_sch {q : schedule} (hq : q.Valid) (v : scheduledRepoUpdate) :
    ({ q with mem := q.mem ++ [v] } : schedule).Valid ∧
    ({ q with mem := q.mem ++ [v] } : schedule).mem[q.mem.length]? = some v ∧
    q.mem.length ∉ q.heap ∧
    (∀ id, ({ q with mem := q.mem ++ [v] } : schedule).find id = q.find id) := by
  have hslot : ∀ k, ({ q with mem := q.mem ++ [v] } : schedule).slot k = q.slot k := by
    intro k
    unfold slot
    simp only
    cases hy : q.heap[k]? with
    | none => rfl
    | some y =>
      have := wf_ptr_lt_sch hq.1 (List.mem_iff_getElem?.mpr ⟨k, hy⟩)
      simp only [Option.some_bind, getElem?_append_lt _ _ this]
  refine ⟨⟨?_, ?_⟩, by simp, fun h => Nat.lt_irrefl _ (wf_ptr_lt_sch hq.1 h), ?_⟩
  · apply wf_intro_sch
    · intro k y hk
      simp only at hk ⊢
      obtain ⟨e1, he1, hrest⟩ := wf_entry_sch hq.1 hk
      have := (List.getElem?_eq_some.mp he1).1
      exact ⟨e1, by rw [getElem?_append_lt _ _ this]; exact he1, hrest⟩
    · intro id y hg
      simp only at hg ⊢
      obtain ⟨k, e1, hk, he1, hid1⟩ := wf_index_sch hq.1 hg
      have := (List.getElem?_eq_some.mp he1).1
      exact ⟨List.mem_iff_getElem?.mpr ⟨k, hk⟩, e1,
        by rw [getElem?_append_lt _ _ this]; exact he1, hid1⟩
    · exact hq.1.2.2
  · unfold Ordered
    have : ({ q with mem := q.mem ++ [v] } : schedule).slot = q.slot := funext hslot
    rw [this]
    exact hq.2
  · intro id
    unfold find
    simp only
    cases hg : q.index.get id with
    | none => rfl
    | some y =>
      obtain ⟨k, e1, hk, he1, hid1⟩ := wf_index_sch hq.1 hg
      have := (List.getElem?_eq_some.mp he1).1
      simp only [Option.some_bind, getElem?_append_lt _ _ this]

theorem find_eq_none_sch {q : schedule} (hq : q.Wf) {id : Nat} :
    q.find id = none ↔ q.index.get id = none := by
  unfold find
  constructor
  · intro h
    cases hg : q.index.get id with
    | none => rfl
    | some x =>
      obtain ⟨k, e1, hk, he1, hid1⟩ := wf_index_sch hq hg
      rw [hg, Option.some_bind, he1] at h
      cases h
  · intro h
    rw [h]
    rfl

theorem alloc_ex_sch {q : schedule} (hq : q.Valid) (v : scheduledRepoUpdate) :
    ∃ qa : schedule, qa = { q with mem := q.mem ++ [v] } ∧ qa.Valid ∧
      qa.mem[q.mem.length]? = some v ∧ q.mem.length ∉ qa.heap ∧ qa.index = q.index ∧
      qa.timer = q.timer ∧ qa.wakeup = q.wakeup ∧ qa.heap = q.heap ∧
      qa.mem.length = q.mem.length + 1 ∧
      (∀ y, y < q.mem.length → qa.mem[y]? = q.mem[y]?) := by
  obtain ⟨h1, h2, h3, _⟩ := alloc_spec_sch hq v
  exact ⟨_, rfl, h1, h2, h3, rfl, rfl, rfl, rfl, by simp,
    fun y hy => getElem?_append_lt _ _ hy⟩

theorem mem_entries_sch {q : schedule} (hq : q.Wf) {e : scheduledRepoUpdate} :
    e ∈ q.entries ↔ q.find e.Repo.ID = some e := by
  unfold entries
  rw [List.mem_filterMap]
  constructor
  · rintro ⟨x, hx, he⟩
    obtain ⟨i, hi⟩ := List.mem_iff_getElem?.mp hx
    exact find_of_heap_sch hq hi he
  · intro h
    obtain ⟨i, x, _, hx, he, _⟩ := find_eq_some_sch hq h
    exact ⟨x, List.mem_iff_getElem?.mpr ⟨i, hx⟩, he⟩

theorem find_id_sch {q : schedule} (hq : q.Wf) {id : Nat} {e : scheduledRepoUpdate}
    (h : q.find id = some e) : e.Repo.ID = id := by
  obtain ⟨_, _, _, _, _, hid, _⟩ := find_eq_some_sch hq h
  exact hid

theorem entries_find_sch {q : schedule} (hq : q.Wf) {e : scheduledRepoUpdate} {id : Nat}
    (he : e ∈ q.entries) (hid : e.Repo.ID = id) : q.find id = some e := by
  rw [← hid]
  exact (mem_entries_sch hq).mp he

theorem find_entries_sch {q : schedule} (hq : q.Wf) {e : scheduledRepoUpdate} {id : Nat}
    (h : q.find id = some e) : e ∈ q.entries ∧ e.Repo.ID = id := by
  have hid := find_id_sch hq h
  exact ⟨(mem_entries_sch hq).mpr (by rw [hid]; exact h), hid⟩

theorem find_core_some_sch {q : schedule} (hq : q.Wf) {id : Nat} {c : scheduledRepoUpdate}
    (h : (q.find id).map scheduledRepoUpdate.core = some c) :
    ∃ e ∈ q.entries, e.Repo.ID = id ∧ q.find id = some e ∧ e.core = c := by
  cases hf : q.find id with
  | none => rw [hf] at h; cases h
  | some e =>
    rw [hf] at h
    simp only [Option.map_some', Option.some.injEq] at h
    exact ⟨e, (find_entries_sch hq hf).1, (find_entries_sch hq hf).2, rfl, h⟩

end schedule

theorem heap.heapOn_equiv {β : Type} {lt : β → β → Bool} {f g : Nat → Option β} {n : Nat}
    (h : heap.HeapOn lt f n)
    (hfg : ∀ k c, g k = some c → ∃ d, f k = some d ∧ ∀ z, lt c z = lt d z ∧ lt z c = lt z d) :
    heap.HeapOn lt g n := by
  intro k a b hk hkn ha hb
  obtain ⟨a1, ha1, hza⟩ := hfg _ a ha
  obtain ⟨b1, hb1, hzb⟩ := hfg _ b hb
  rw [(hzb a).1, (hza b1).2]
  exact h k a1 b1 hk hkn ha1 hb1

namespace schedule

theorem valid_of_eq {s s1 : schedule} (h1 : s1.mem = s.mem) (h2 : s1.heap = s.heap)
    (h3 : s1.index = s.index) (hv : s.Valid) : s1.Valid := by
  cases s
  cases s1
  simp only at h1 h2 h3
  subst h1 h2 h3
  exact hv

theorem find_of_eq {s s1 : schedule} (h1 : s1.mem = s.mem) (h3 : s1.index = s.index)
    (id : Nat) : s1.find id = s.find id := by
  unfold find
  rw [h1, h3]

theorem entries_of_eq {s s1 : schedule} (h1 : s1.mem = s.mem) (h2 : s1.heap = s.heap) :
    s1.entries = s.entries := by
  unfold entries
  rw [h1, h2]

/-- The method `rescheduleTimer` on a well-formed schedule only sets the timer: it is armed
exactly when the heap is not empty, for the instant `now + (root.Due - now)`. -/
theorem rescheduleTimer_spec {s : schedule} (hs : s.Wf) (now : Time) :
    ∃ s1, s.rescheduleTimer now = some s1 ∧ s1.mem = s.mem ∧ s1.heap = s.heap ∧
      s1.index = s.index ∧ s1.wakeup = s.wakeup ∧
      (s.heap = [] → s1.timer = none) ∧
      (∀ root, s.entry 0 = some root →
        s1.timer = some (timeAfterFunc now (Time.Sub root.Due now))) := by
  unfold rescheduleTimer
  by_cases hlen : s.heap.length > 0
  · have hx : s.heap[0]? = some s.heap[0] := List.getElem?_eq_getElem hlen
    obtain ⟨e, he, _⟩ := wf_entry_sch hs hx
    have hent : s.entry 0 = some e := by simp [entry, hx, he]
    have hent2 : ({ s with timer := none } : schedule).entry 0 = some e := hent
    simp only [hlen, if_true, hent2, Option.map_some']
    refine ⟨_, rfl, rfl, rfl, rfl, rfl, ?_, ?_⟩
    · intro h
      rw [h] at hlen
      simp at hlen
    · intro root hr
      rw [hent] at hr
      cases hr
      rfl
  · simp only [hlen, if_false]
    refine ⟨_, rfl, rfl, rfl, rfl, rfl, fun _ => rfl, ?_⟩
    intro root hr
    have h0 : s.heap = [] := by
      cases hh : s.heap with
      | nil => rfl
      | cons a l => rw [hh] at hlen; simp at hlen
    simp [entry, h0] at hr

/-- The method `upsert` for a repo that is already scheduled: only the stored repo changes. -/
theorem upsert_present_spec {s : schedule} (hs : s.Valid) {repo : configuredRepo2}
    (hid : repo.ID ≠ 0) (clock : Clock) {e : scheduledRepoUpdate}
    (hfind : s.find repo.ID = some e) :
    ∃ s1 x, s.index.get repo.ID = some x ∧ s.upsert repo clock = some (s1, true) ∧ s1.Valid ∧
      s1.mem = s.mem.set x { e with Repo := repo } ∧ s1.heap = s.heap ∧ s1.index = s.index ∧
      s1.timer = s.timer ∧ s1.wakeup = s.wakeup ∧
      (∀ id, s1.find id = if id = repo.ID then some { e with Repo := repo } else s.find id) := by
  obtain ⟨i, x, hget, hx, he, heid, _⟩ := find_eq_some_sch hs.1 hfind
  obtain ⟨s1, hmod, hwf1, hmem1, hheap1, hindex1, htimer1, hwake1, hmx, hslot1, hsloti, hfind1⟩ :=
    modify_ex_sch hs.1 hx he (fun e => { e with Repo := repo }) rfl heid.symm
  refine ⟨s1, x, hget, ?_, ⟨hwf1, ?_⟩, hmem1, hheap1, hindex1, htimer1, hwake1, ?_⟩
  · unfold upsert
    rw [if_neg hid, hget]
    simp only
    rw [hmod]
    rfl
  · unfold Ordered
    rw [hheap1]
    refine heap.heapOn_equiv hs.2 (fun k c hc => ?_)
    by_cases hk : k = i
    · subst hk
      rw [hsloti] at hc
      cases hc
      exact ⟨(x, e.core), slot_of_sch hx he, fun z => ⟨rfl, rfl⟩⟩
    · rw [hslot1 k hk] at hc
      exact ⟨c, hc, fun z => ⟨rfl, rfl⟩⟩
  · intro id
    rw [hfind1 id, heid]

/-- The method `upsert` for a repo that is not scheduled. -/
theorem upsert_absent_spec {s : schedule} (hs : s.Valid) {repo : configuredRepo2}
    (hid : repo.ID ≠ 0) (clock : Clock) (hnone : s.find repo.ID = none) :
    ∃ s1, s.upsert repo clock = some (s1, false) ∧ s1.Valid ∧ s1.wakeup = s.wakeup ∧
      s1.heap.length = s.heap.length + 1 ∧
      (∀ id, (s1.find id).map scheduledRepoUpdate.core =
        if id = repo.ID then
          some { Repo := repo, Interval := minDelay, Due := Time.Add (clock 0) minDelay,
                 Index := 0 }
        else (s.find id).map scheduledRepoUpdate.core) := by
  have hget : s.index.get repo.ID = none := (find_eq_none_sch hs.1).mp hnone
  obtain ⟨sa, hsa, hva, hma, hfresh, hindexa, htimera, hwakea, hheapa, hlena, hmema⟩ :=
    alloc_ex_sch hs
      { Repo := repo, Interval := minDelay, Due := Time.Add (clock 0) minDelay, Index := 0 }
  obtain ⟨s2, hpush, hv2, htimer2, hwake2, hindex2, hlen2, hcore2, hmem2, hhl2⟩ :=
    heapPush_spec_sch hva hma hfresh hid (by rw [hindexa]; exact hget)
  obtain ⟨s3, hres, hmem3, hheap3, hindex3, hwake3, _, _⟩ := rescheduleTimer_spec hv2.1 (clock 1)
  refine ⟨s3, ?_, valid_of_eq hmem3 hheap3 hindex3 hv2, by rw [hwake3, hwake2, hwakea],
    by rw [hheap3, hhl2, hheapa], ?_⟩
  · unfold upsert
    rw [if_neg hid, hget]
    simp only
    rw [← hsa, hpush, Option.some_bind, hres]
    rfl
  · intro id
    rw [find_of_eq hmem3 hindex3 id]
    unfold find
    rw [hindex2, hindexa]
    simp only [IndexMap.get_set]
    by_cases hidd : id = repo.ID
    · simp only [hidd, if_true, Option.some_bind]
      rw [hcore2, hma]
      rfl
    · simp only [hidd, if_false]
      cases hg : s.index.get id with
      | none => rfl
      | some y =>
        obtain ⟨k, e1, hk, he1, hid1⟩ := wf_index_sch hs.1 hg
        have hy := (List.getElem?_eq_some.mp he1).1
        simp only [Option.some_bind]
        rw [hcore2, hmema y hy]

/-- The method `updateInterval` on a valid schedule. -/
theorem updateInterval_spec {s : schedule} (hs : s.Valid) {repo : configuredRepo2}
    (hid : repo.ID ≠ 0) (interval : Duration) (clock : Clock) :
    (s.find repo.ID = none ∧ s.updateInterval repo interval clock = some s) ∨
    (∃ e s1, s.find repo.ID = some e ∧ s.updateInterval repo interval clock = some s1 ∧
      s1.Valid ∧ s1.index = s.index ∧ s1.wakeup = s.wakeup ∧ s1.heap.length = s.heap.length ∧
      (∀ id, (s1.find id).map scheduledRepoUpdate.core =
        if id = repo.ID then
          some ({ e with Interval := clampInterval interval,
                         Due := Time.Add (clock 0) (clampInterval interval) } :
            scheduledRepoUpdate).core
        else (s.find id).map scheduledRepoUpdate.core)) := by
  cases hfind : s.find repo.ID with
  | none =>
    left
    refine ⟨rfl, ?_⟩
    unfold updateInterval
    rw [if_neg hid, (find_eq_none_sch hs.1).mp hfind]
  | some e =>
    right
    obtain ⟨i, x, hget, hx, he, heid, hidx⟩ := find_eq_some_sch hs.1 hfind
    obtain ⟨s1, hmod1, hwf1, hmem1, hheap1, hindex1, htimer1, hwake1, hmx1, hslot1, _, hfind1⟩ :=
      modify_ex_sch hs.1 hx he (fun e => { e with Interval := clampInterval interval }) rfl rfl
    obtain ⟨s2, hmod2, hwf2, hmem2, hheap2, hindex2, htimer2, hwake2, hmx2, hslot2, _, hfind2⟩ :=
      modify_ex_sch hwf1 (by rw [hheap1]; exact hx) hmx1
        (fun e => { e with Due := Time.Add (clock 0) e.Interval }) rfl rfl
    have hh2 : s2.heap = s.heap := by rw [hheap2, hheap1]
    have hil : i < s.heap.length := (List.getElem?_eq_some.mp hx).1
    have hhole : heap.Hole lt s2.slot s2.heap.length i := by
      rw [hh2]
      refine heap.heapOn_modify lt_trans_sch hs.2 (fun k _ hk => ?_)
        (fun h => slot_some_sch s i hs.1 h)
      rw [hslot2 k hk, hslot1 k hk]
    obtain ⟨s3, hfix, hv3, hrel3, hlen3⟩ :=
      heapFix_spec_sch hwf2 (i := i) (by rw [hh2]; exact hil) hhole
    obtain ⟨s4, hres, hmem4, hheap4, hindex4, hwake4, _, _⟩ :=
      rescheduleTimer_spec hv3.1 (clock 2)
    have hr := hrel3
    obtain ⟨r1, r2, r3, r4, r5, r6⟩ := hrel3
    refine ⟨e, s4, rfl, ?_, valid_of_eq hmem4 hheap4 hindex4 hv3,
      by rw [hindex4, r1, hindex2, hindex1], by rw [hwake4, r3, hwake2, hwake1],
      by rw [hheap4, hlen3, hh2], ?_⟩
    · unfold updateInterval
      rw [if_neg hid, hget]
      simp only
      have hm1 : s.modify x (fun e => { e with Interval :=
          if interval > maxDelay then maxDelay
          else if interval < minDelay then minDelay
          else interval }) = some s1 := hmod1
      rw [hm1, Option.some_bind, hmod2, Option.some_bind, hmx2, Option.some_bind]
      have hti : heap.FixAt iface s2 ({ ({ e with Interval := clampInterval interval } :
          scheduledRepoUpdate) with Due := Time.Add (clock 0) (clampInterval interval) } :
          scheduledRepoUpdate).Index = heap.Fix iface s2 i := by
        show heap.FixAt iface s2 e.Index = _
        rw [hidx]
        exact heap.FixAt_natCast _ _ i
      rw [hti, hfix, Option.some_bind, hres]
    · intro id
      rw [find_of_eq hmem4 hindex4 id, find_rel_sch hr id]
      have h2 : s2.find id = if id = repo.ID then
          some ({ e with Interval := clampInterval interval,
                         Due := Time.Add (clock 0) (clampInterval interval) } :
            scheduledRepoUpdate)
          else s1.find id := by
        have h0 : s2.find id = if id = e.Repo.ID then
            some ({ e with Interval := clampInterval interval,
                           Due := Time.Add (clock 0) (clampInterval interval) } :
              scheduledRepoUpdate)
            else s1.find id := hfind2 id
        rw [h0, heid]
      have h1 : s1.find id = if id = repo.ID then
          some ({ e with Interval := clampInterval interval } : scheduledRepoUpdate)
          else s.find id := by rw [hfind1 id, heid]
      rw [h2]
      by_cases hidd : id = repo.ID
      · rw [if_pos hidd, if_pos hidd]
        rfl
      · rw [if_neg hidd, if_neg hidd, h1, if_neg hidd]

/-- The method `remove` on a valid schedule. -/
theorem remove_spec_sch {s : schedule} (hs : s.Valid) {repo : configuredRepo2}
    (hid : repo.ID ≠ 0) (clock : Clock) :
    (s.find repo.ID = none ∧ s.remove repo clock = some (s, false)) ∨
    (∃ e s1, s.find repo.ID = some e ∧ s.remove repo clock = some (s1, true) ∧ s1.Valid ∧
      s1.wakeup = s.wakeup ∧ s1.heap.length + 1 = s.heap.length ∧
      (∀ id, (s1.find id).map scheduledRepoUpdate.core =
        if id = repo.ID then none else (s.find id).map scheduledRepoUpdate.core)) := by
  cases hfind : s.find repo.ID with
  | none =>
    left
    refine ⟨rfl, ?_⟩
    unfold remove
    rw [if_neg hid, (find_eq_none_sch hs.1).mp hfind]
  | some e =>
    right
    obtain ⟨i, x, hget, hx, he, heid, hidx⟩ := find_eq_some_sch hs.1 hfind
    obtain ⟨s1, e1, he1, hrem, hv1, htimer1, hwake1, hindex1, hlen1, hcore1, hmem1, hhl1⟩ :=
      heapRemove_spec_sch hs hx
    have hee : e1 = e := by rw [he] at he1; exact (Option.some.inj he1).symm
    subst hee
    have hframe : ∀ id, (s1.find id).map scheduledRepoUpdate.core =
        if id = repo.ID then none else (s.find id).map scheduledRepoUpdate.core := by
      intro id
      unfold find
      rw [hindex1, IndexMap.get_delete, heid]
      by_cases hidd : id = repo.ID
      · simp only [hidd, if_true]
        rfl
      · simp only [hidd, if_false]
        cases hg : s.index.get id with
        | none => rfl
        | some y =>
          have hyx : y ≠ x := by
            intro h
            obtain ⟨k, e2, _, he2, hid2⟩ := wf_index_sch hs.1 hg
            rw [h, he] at he2
            cases he2
            exact hidd (hid2.symm.trans heid)
          simp only [Option.some_bind]
          exact hcore1 y hyx
    by_cases hroot : e1.Index = 0
    · obtain ⟨s2, hres, hmem2, hheap2, hindex2, hwake2, _, _⟩ :=
        rescheduleTimer_spec hv1.1 (clock 0)
      refine ⟨e1, s2, rfl, ?_, valid_of_eq hmem2 hheap2 hindex2 hv1, by rw [hwake2, hwake1],
        by rw [hheap2]; exact hhl1, ?_⟩
      · unfold remove
        rw [if_neg hid, hget]
        simp only
        rw [he, Option.some_bind, hidx, toIndex_natCast, Option.some_bind, hrem, Option.some_bind]
        rw [hidx] at hroot
        simp only [hroot, decide_True, if_true, hres, Option.map_some']
      · intro id
        rw [find_of_eq hmem2 hindex2 id]
        exact hframe id
    · refine ⟨e1, s1, rfl, ?_, hv1, hwake1, hhl1, hframe⟩
      unfold remove
      rw [if_neg hid, hget]
      simp only
      rw [he, Option.some_bind, hidx, toIndex_natCast, Option.some_bind, hrem, Option.some_bind]
      rw [hidx] at hroot
      simp only [hroot, decide_False, Bool.false_eq_true, if_false]

theorem reset_valid (s : schedule) : s.reset.Valid ∧ s.reset.entries = [] := by
  refine ⟨⟨⟨?_, ?_, ?_⟩, ?_⟩, ?_⟩
  · intro i hi
    simp [reset] at hi
  · intro e he
    simp [reset] at he
  · simp [reset]
  · intro k a b _ hkn
    simp [reset] at hkn
  · simp [reset, entries]

end schedule

/-! ## Due-Schedule: call sequences -/

namespace schedule

/-- The interval bounds carry over when every entry of `s1` has the interval of the entry
of `s` with the same repo ID, or an interval within the bounds. -/
theorem intervalOk_of_frame {s s1 : schedule} (hs : s.Wf) (hs1 : s1.Wf) (hi : s.IntervalOk)
    (h : ∀ id c, (s1.find id).map scheduledRepoUpdate.core = some c →
      (∃ c0, (s.find id).map scheduledRepoUpdate.core = some c0 ∧ c0.Interval = c.Interval) ∨
      (minDelay ≤ c.Interval ∧ c.Interval ≤ maxDelay)) : s1.IntervalOk := by
  intro e he
  have hf := (mem_entries_sch hs1).mp he
  have hc : (s1.find e.Repo.ID).map scheduledRepoUpdate.core = some e.core := by rw [hf]; rfl
  rcases h e.Repo.ID e.core hc with ⟨c0, hc0, hiv⟩ | hb
  · obtain ⟨e0, he0, _, _, hcore0⟩ := find_core_some_sch hs hc0
    have h1 : e0.core.Interval = c0.Interval := congrArg scheduledRepoUpdate.Interval hcore0
    have h3 : e0.Interval = c0.Interval := h1
    have h2 : e.Interval = c0.Interval := hiv.symm
    rw [h2, ← h3]
    exact hi e0 he0
  · exact hb

theorem minDelay_le_maxDelay : minDelay ≤ maxDelay := by decide

theorem clampInterval_bounds (d : Duration) :
    minDelay ≤ clampInterval d ∧ clampInterval d ≤ maxDelay := by
  have h := minDelay_le_maxDelay
  unfold clampInterval
  unfold Duration at *
  split_ifs <;> constructor <;> omega

theorem upsert_inv {s s1 : schedule} {repo : configuredRepo2} {clock : Clock} {b : Bool}
    (hs : s.Valid) (hi : s.IntervalOk) (h : s.upsert repo clock = some (s1, b)) :
    s1.Valid ∧ s1.IntervalOk := by
  have hid : repo.ID ≠ 0 := by
    intro h0
    unfold upsert at h
    rw [if_pos h0] at h
    cases h
  cases hfind : s.find repo.ID with
  | none =>
    obtain ⟨s2, h2, hv2, _, _, hfr⟩ := upsert_absent_spec hs hid clock hfind
    rw [h] at h2
    cases h2
    refine ⟨hv2, intervalOk_of_frame hs.1 hv2.1 hi ?_⟩
    intro id c hc
    rw [hfr id] at hc
    by_cases hidd : id = repo.ID
    · rw [if_pos hidd] at hc
      cases hc
      exact Or.inr ⟨Int.le_refl _, minDelay_le_maxDelay⟩
    · rw [if_neg hidd] at hc
      exact Or.inl ⟨c, hc, rfl⟩
  | some e =>
    obtain ⟨s2, x, _, h2, hv2, _, _, _, _, _, hfr⟩ := upsert_present_spec hs hid clock hfind
    rw [h] at h2
    cases h2
    refine ⟨hv2, intervalOk_of_frame hs.1 hv2.1 hi ?_⟩
    intro id c hc
    rw [hfr id] at hc
    by_cases hidd : id = repo.ID
    · rw [if_pos hidd] at hc
      simp only [Option.map_some', Option.some.injEq] at hc
      refine Or.inl ⟨e.core, by rw [hidd, hfind]; rfl, ?_⟩
      rw [← hc]
      rfl
    · rw [if_neg hidd] at hc
      exact Or.inl ⟨c, hc, rfl⟩

theorem updateInterval_inv {s s1 : schedule} {repo : configuredRepo2} {d : Duration}
    {clock : Clock} (hs : s.Valid) (hi : s.IntervalOk)
    (h : s.updateInterval repo d clock = some s1) : s1.Valid ∧ s1.IntervalOk := by
  have hid : repo.ID ≠ 0 := by
    intro h0
    unfold updateInterval at h
    rw [if_pos h0] at h
    cases h
  rcases updateInterval_spec hs hid d clock with ⟨_, h2⟩ | ⟨e, s2, _, h2, hv2, _, _, _, hfr⟩
  · rw [h] at h2
    cases h2
    exact ⟨hs, hi⟩
  · rw [h] at h2
    cases h2
    refine ⟨hv2, intervalOk_of_frame hs.1 hv2.1 hi ?_⟩
    intro id c hc
    rw [hfr id] at hc
    by_cases hidd : id = repo.ID
    · rw [if_pos hidd] at hc
      cases hc
      exact Or.inr (clampInterval_bounds d)
    · rw [if_neg hidd] at hc
      exact Or.inl ⟨c, hc, rfl⟩

theorem remove_inv {s s1 : schedule} {repo : configuredRepo2} {clock : Clock} {b : Bool}
    (hs : s.Valid) (hi : s.IntervalOk) (h : s.remove repo clock = some (s1, b)) :
    s1.Valid ∧ s1.IntervalOk := by
  have hid : repo.ID ≠ 0 := by
    intro h0
    unfold remove at h
    rw [if_pos h0] at h
    cases h
  rcases remove_spec_sch hs hid clock with ⟨_, h2⟩ | ⟨e, s2, _, h2, hv2, _, _, hfr⟩
  · rw [h] at h2
    cases h2
    exact ⟨hs, hi⟩
  · rw [h] at h2
    cases h2
    refine ⟨hv2, intervalOk_of_frame hs.1 hv2.1 hi ?_⟩
    intro id c hc
    rw [hfr id] at hc
    by_cases hidd : id = repo.ID
    · rw [if_pos hidd] at hc
      cases hc
    · rw [if_neg hidd] at hc
      exact Or.inl ⟨c, hc, rfl⟩

theorem rescheduleTimer_inv {s s1 : schedule} {now : Time} (hs : s.Valid) (hi : s.IntervalOk)
    (h : s.rescheduleTimer now = some s1) : s1.Valid ∧ s1.IntervalOk := by
  obtain ⟨s2, h2, hmem, hheap, hindex, _⟩ := rescheduleTimer_spec hs.1 now
  rw [h] at h2
  cases h2
  refine ⟨valid_of_eq hmem hheap hindex hs, ?_⟩
  unfold IntervalOk
  rw [entries_of_eq hmem hheap]
  exact hi

end schedule

namespace updateScheduler

/-- One round of the loop of `runSchedule` on the schedule: the root entry's `Due` is set to
`now + Interval` and the heap is fixed. -/
theorem runSchedule_round {sch : repos.schedule} (hs : sch.Valid) (hi : sch.IntervalOk) {x : Ptr}
    {e : scheduledRepoUpdate} (hx : sch.heap[0]? = some x) (he : sch.mem[x]? = some e)
    (now : Time) :
    ∃ sch1 sch2, sch.modify x (fun e => { e with Due := Time.Add now e.Interval }) = some sch1 ∧
      heap.Fix schedule.iface sch1 0 = some sch2 ∧ sch2.Valid ∧ sch2.IntervalOk ∧
      sch2.index = sch.index ∧ sch2.timer = sch.timer ∧ sch2.wakeup = sch.wakeup ∧
      sch2.heap.length = sch.heap.length ∧
      (∀ id, (sch2.find id).map scheduledRepoUpdate.core =
        if id = e.Repo.ID then
          some ({ e with Due := Time.Add now e.Interval } : scheduledRepoUpdate).core
        else (sch.find id).map scheduledRepoUpdate.core) := by
  obtain ⟨sch1, hmod1, hwf1, hmem1, hheap1, hindex1, htimer1, hwake1, hmx1, hslot1, _, hfind1⟩ :=
    schedule.modify_ex_sch hs.1 hx he (fun e => { e with Due := Time.Add now e.Interval }) rfl rfl
  have hil : 0 < sch.heap.length := (List.getElem?_eq_some.mp hx).1
  have hhole : heap.Hole schedule.lt sch1.slot sch1.heap.length 0 := by
    rw [hheap1]
    exact heap.heapOn_modify schedule.lt_trans_sch hs.2 (fun k _ hk => hslot1 k hk)
      (fun h => schedule.slot_some_sch sch 0 hs.1 h)
  obtain ⟨sch2, hfix, hv2, hrel2, hlen2⟩ :=
    schedule.heapFix_spec_sch hwf1 (i := 0) (by rw [hheap1]; exact hil) hhole
  have hr := hrel2
  obtain ⟨r1, r2, r3, r4, r5, r6⟩ := hrel2
  have hframe : ∀ id, (sch2.find id).map scheduledRepoUpdate.core =
      if id = e.Repo.ID then
        some ({ e with Due := Time.Add now e.Interval } : scheduledRepoUpdate).core
      else (sch.find id).map scheduledRepoUpdate.core := by
    intro id
    rw [schedule.find_rel_sch hr id, hfind1 id]
    by_cases hidd : id = e.Repo.ID
    · rw [if_pos hidd, if_pos hidd]
      rfl
    · rw [if_neg hidd, if_neg hidd]
  refine ⟨sch1, sch2, hmod1, hfix, hv2, ?_, r1.trans hindex1, r2.trans htimer1,
    r3.trans hwake1, by rw [hlen2, hheap1], hframe⟩
  refine schedule.intervalOk_of_frame hs.1 hv2.1 hi ?_
  intro id c hc
  rw [hframe id] at hc
  by_cases hidd : id = e.Repo.ID
  · rw [if_pos hidd] at hc
    simp only [Option.some.injEq] at hc
    refine Or.inl ⟨e.core, ?_, ?_⟩
    · rw [hidd, schedule.find_of_heap_sch hs.1 hx he]
      rfl
    · rw [← hc]
      rfl
  · rw [if_neg hidd] at hc
    exact Or.inl ⟨c, hc, rfl⟩

theorem runScheduleFor_inv (clock : Clock) : ∀ (fuel k : Nat) (s s1 : updateScheduler) (k1 : Nat),
    s.schedule.Valid → s.schedule.IntervalOk → runScheduleFor clock fuel k s = some (s1, k1) →
    s1.schedule.Valid ∧ s1.schedule.IntervalOk := by
  intro fuel
  induction fuel with
  | zero =>
    intro k s s1 k1 _ _ h
    unfold runScheduleFor at h
    cases h
  | succ fuel ih =>
    intro k s s1 k1 hs hi h
    unfold runScheduleFor at h
    by_cases hlen : s.schedule.heap.length = 0
    · rw [if_pos hlen] at h
      cases h
      exact ⟨hs, hi⟩
    · rw [if_neg hlen] at h
      have hx : s.schedule.heap[0]? = some s.schedule.heap[0] :=
        List.getElem?_eq_getElem (by omega)
      obtain ⟨e, he, _⟩ := schedule.wf_entry_sch hs.1 hx
      rw [hx, Option.some_bind, he, Option.some_bind] at h
      by_cases hdue : Time.Before e.Due (Time.Add (clock k) time.Millisecond) = true
      · simp only [hdue, Bool.not_true, Bool.false_eq_true, if_false] at h
        cases henq : s.updateQueue.enqueue e.Repo priorityLow with
        | none => rw [henq] at h; cases h
        | some r =>
          obtain ⟨sch1, sch2, hmod, hfix, hv2, hi2, _⟩ :=
            runSchedule_round hs hi hx he (clock (k + 1))
          rw [henq, Option.some_bind, hmod, Option.some_bind, hfix, Option.some_bind] at h
          exact ih (k + 2) _ s1 k1 hv2 hi2 h
      · simp only [hdue, Bool.not_false, if_true] at h
        cases h
        exact ⟨hs, hi⟩

theorem runSchedule_inv {s s1 : updateScheduler} {fuel : Nat} {clock : Clock}
    (hs : s.schedule.Valid) (hi : s.schedule.IntervalOk)
    (h : s.runSchedule fuel clock = some s1) : s1.schedule.Valid ∧ s1.schedule.IntervalOk := by
  unfold runSchedule at h
  cases hf : runScheduleFor clock fuel 0 s with
  | none => rw [hf] at h; cases h
  | some r =>
    rw [hf, Option.some_bind] at h
    obtain ⟨hv, hi1⟩ := runScheduleFor_inv clock fuel 0 s r.1 r.2 hs hi hf
    cases hr : r.1.schedule.rescheduleTimer (clock r.2) with
    | none => rw [hr] at h; cases h
    | some sch =>
      rw [hr] at h
      cases h
      exact schedule.rescheduleTimer_inv hv hi1 hr

theorem scheduleCall_inv {s s1 : updateScheduler} {c : repos.scheduleCall}
    (hs : s.schedule.Valid) (hi : s.schedule.IntervalOk) (h : s.scheduleCall c = some s1) :
    s1.schedule.Valid ∧ s1.schedule.IntervalOk := by
  cases c with
  | upsert repo clock =>
    simp only [scheduleCall] at h
    cases hu : s.schedule.upsert repo clock with
    | none => rw [hu] at h; cases h
    | some r =>
      rw [hu] at h
      cases h
      exact schedule.upsert_inv hs hi (b := r.2) hu
  | updateInterval repo d clock =>
    simp only [scheduleCall] at h
    cases hu : s.schedule.updateInterval repo d clock with
    | none => rw [hu] at h; cases h
    | some r =>
      rw [hu] at h
      cases h
      exact schedule.updateInterval_inv hs hi hu
  | remove repo clock =>
    simp only [scheduleCall] at h
    cases hu : s.schedule.remove repo clock with
    | none => rw [hu] at h; cases h
    | some r =>
      rw [hu] at h
      cases h
      exact schedule.remove_inv hs hi (b := r.2) hu
  | runSchedule fuel clock =>
    simp only [scheduleCall] at h
    exact runSchedule_inv hs hi h
  | reset =>
    simp only [scheduleCall, Option.some.injEq] at h
    rw [← h]
    refine ⟨(schedule.reset_valid s.schedule).1, ?_⟩
    intro e he
    rw [(schedule.reset_valid s.schedule).2] at he
    cases he

theorem scheduleCalls_inv : ∀ (cs : List repos.scheduleCall) {s s1 : updateScheduler},
    s.schedule.Valid → s.schedule.IntervalOk → s.scheduleCalls cs = some s1 →
    s1.schedule.Valid ∧ s1.schedule.IntervalOk := by
  intro cs
  induction cs with
  | nil =>
    intro s s1 hs hi h
    unfold scheduleCalls at h
    cases h
    exact ⟨hs, hi⟩
  | cons c cs ih =>
    intro s s1 hs hi h
    unfold scheduleCalls at h
    cases hc : s.scheduleCall c with
    | none => rw [hc] at h; cases h
    | some s2 =>
      rw [hc, Option.some_bind] at h
      obtain ⟨hv2, hi2⟩ := scheduleCall_inv hs hi hc
      exact ih hv2 hi2 h

theorem empty_schedule_inv {s0 : updateScheduler} (h0 : s0.schedule.heap = [])
    (h0i : s0.schedule.index = []) : s0.schedule.Valid ∧ s0.schedule.IntervalOk := by
  refine ⟨⟨⟨?_, ?_, ?_⟩, ?_⟩, ?_⟩
  · intro i hi
    rw [h0] at hi
    simp at hi
  · intro e he
    rw [h0i] at he
    cases he
  · rw [h0i]
    simp
  · intro k a b _ hkn
    rw [h0] at hkn
    simp at hkn
  · intro e he
    unfold schedule.entries at he
    rw [h0] at he
    simp at he

end updateScheduler

theorem countP_lt_of {α : Type} (p q : α → Bool) : ∀ (l : List α) (a : α), a ∈ l →
    p a = true → q a = false → (∀ b ∈ l, q b = true → p b = true) →
    l.countP q < l.countP p := by
  intro l
  induction l with
  | nil => intro a ha; cases ha
  | cons b l ih =>
    intro a ha hp hq hall
    have hmono : l.countP q ≤ l.countP p :=
      List.countP_mono_left (fun x hx h => hall x (List.mem_cons_of_mem b hx) h)
    rw [List.countP_cons, List.countP_cons]
    rcases List.mem_cons.mp ha with h | h
    · rw [← h, hp, hq]
      simp only [if_true, Bool.false_eq_true, if_false]
      omega
    · have hlt := ih a h hp hq (fun x hx => hall x (List.mem_cons_of_mem b hx))
      have hb := hall b (List.mem_cons_self b l)
      by_cases hqb : q b = true
      · rw [hqb, hb hqb]
        simp only [if_true]
        omega
      · simp only [hqb, Bool.false_eq_true, if_false]
        split_ifs <;> omega

namespace schedule

/-- The index map has one binding per heap position. -/
theorem index_length_sch {q : schedule} (hq : q.Wf) : q.index.length = q.heap.length := by
  have hndi : q.index.Nodup := List.Nodup.of_map _ hq.2.2
  have hnd1 : (q.index.map Prod.snd).Nodup := by
    refine List.Nodup.map_on ?_ hndi
    intro a ha b hb hab
    obtain ⟨_, ea, _, hma, hida⟩ := wf_index_sch hq (IndexMap.get_of_mem hq.2.2 ha)
    obtain ⟨_, eb, _, hmb, hidb⟩ := wf_index_sch hq (IndexMap.get_of_mem hq.2.2 hb)
    rw [hab, hmb] at hma
    cases hma
    exact Prod.ext (hida.symm.trans hidb) hab
  have hnd2 : q.heap.Nodup := by
    rw [List.nodup_iff_getElem?_ne_getElem?]
    intro i j hij hj h
    have hjx : q.heap[j]? = some q.heap[j] := List.getElem?_eq_getElem hj
    have := wf_heap_inj_sch hq (h.trans hjx) hjx
    omega
  have hperm : List.Perm (q.index.map Prod.snd) q.heap := by
    rw [List.perm_ext_iff_of_nodup hnd1 hnd2]
    intro x
    constructor
    · intro hx
      obtain ⟨a, ha, hax⟩ := List.mem_map.mp hx
      obtain ⟨i, _, hi, _⟩ := wf_index_sch hq (IndexMap.get_of_mem hq.2.2 ha)
      rw [← hax]
      exact List.mem_iff_getElem?.mpr ⟨i, hi⟩
    · intro hx
      obtain ⟨i, hi⟩ := List.mem_iff_getElem?.mp hx
      obtain ⟨e, _, _, _, hget⟩ := wf_entry_sch hq hi
      exact List.mem_map.mpr ⟨(e.Repo.ID, x), IndexMap.get_eq_some hget, rfl⟩
  have := hperm.length_eq
  rw [List.length_map] at this
  exact this

end schedule

namespace updateScheduler

/-- The loop of `runSchedule` ends: when the clock readings lie in a window shorter than
`minDelay`, every round moves one entry out of the entries due before `B`. -/
theorem runScheduleFor_returns (clock : Clock) (B : Time) (hB : clockWithin clock B) :
    ∀ (fuel k : Nat) (s : updateScheduler), s.schedule.Valid → s.schedule.IntervalOk →
    s.updateQueue.Valid → s.schedule.pending B < fuel →
    ∃ s1 k1, runScheduleFor clock fuel k s = some (s1, k1) ∧ s1.schedule.Valid ∧
      s1.schedule.IntervalOk ∧ s1.updateQueue.Valid ∧
      s1.schedule.heap.length = s.schedule.heap.length := by
  intro fuel
  induction fuel with
  | zero => intro k s _ _ _ h; omega
  | succ fuel ih =>
    intro k s hs hi hq hfuel
    unfold runScheduleFor
    by_cases hlen : s.schedule.heap.length = 0
    · rw [if_pos hlen]
      exact ⟨s, k, rfl, hs, hi, hq, rfl⟩
    · rw [if_neg hlen]
      have hx : s.schedule.heap[0]? = some s.schedule.heap[0] :=
        List.getElem?_eq_getElem (by omega)
      obtain ⟨e, he, _, hnz, hget⟩ := schedule.wf_entry_sch hs.1 hx
      rw [hx, Option.some_bind, he, Option.some_bind]
      by_cases hdue : Time.Before e.Due (Time.Add (clock k) time.Millisecond) = true
      · simp only [hdue, Bool.not_true, Bool.false_eq_true, if_false]
        obtain ⟨q1, b, henq, hq1, _⟩ := updateQueue.enqueue_cases hq hnz priorityLow
        obtain ⟨sch1, sch2, hmod, hfix, hv2, hi2, hindex2, _, _, hlen2, hframe⟩ :=
          runSchedule_round hs hi hx he (clock (k + 1))
        rw [henq, Option.some_bind, hmod, Option.some_bind, hfix, Option.some_bind]
        have hfind : s.schedule.find e.Repo.ID = some e := schedule.find_of_heap_sch hs.1 hx he
        have hint := (hi e ((schedule.mem_entries_sch hs.1).mpr hfind)).1
        have hint2 := (hi e ((schedule.mem_entries_sch hs.1).mpr hfind)).2
        have hB1 := (hB k).1
        have hB2 := (hB (k + 1)).2.1
        have ha2 : Time.Add (clock (k + 1)) e.Interval = clock (k + 1) + e.Interval :=
          clockWithin_add hB (k + 1) (le_trans (by decide : (0 : Duration) ≤ minDelay) hint) hint2
        have hdue1 : e.Due < clock k + time.Millisecond := by
          rw [← clockWithin_millisecond hB k]
          unfold Time.Before at hdue
          exact of_decide_eq_true hdue
        have hdec : sch2.pending B < s.schedule.pending B := by
          unfold schedule.pending
          rw [hindex2]
          refine countP_lt_of _ _ _ e.Repo.ID ?_ ?_ ?_ ?_
          · exact List.mem_map.mpr ⟨(e.Repo.ID, s.schedule.heap[0]), IndexMap.get_eq_some hget, rfl⟩
          · rw [hfind]
            simp only [Option.map_some', dueBefore, scheduledRepoUpdate.core, decide_eq_true_eq]
            unfold Time at *
            omega
          · rw [hframe e.Repo.ID, if_pos rfl]
            simp only [dueBefore, scheduledRepoUpdate.core, decide_eq_false_iff_not]
            rw [ha2]
            unfold Time Duration at *
            omega
          · intro id _ hid
            rw [hframe id] at hid
            by_cases hidd : id = e.Repo.ID
            · rw [if_pos hidd] at hid
              simp only [dueBefore, scheduledRepoUpdate.core, decide_eq_true_eq] at hid
              rw [ha2] at hid
              unfold Time Duration at *
              omega
            · rw [if_neg hidd] at hid
              exact hid
        obtain ⟨s1, k1, hrun, hv1, hi1, hq2, hl1⟩ :=
          ih (k + 2) { s with updateQueue := q1, schedule := sch2 } hv2 hi2 hq1
            (show sch2.pending B < fuel by omega)
        exact ⟨s1, k1, hrun, hv1, hi1, hq2, hl1.trans hlen2⟩
      · simp only [hdue, Bool.not_false, if_true]
        exact ⟨s, k + 1, rfl, hs, hi, hq, rfl⟩

/-- Every call of the kind `returnsWithin n` returns on a state whose schedule holds at most
`n` entries, keeps the invariants of both heaps and adds at most one entry. -/
theorem scheduleCall_returns {s : updateScheduler} (hs : s.schedule.Valid)
    (hi : s.schedule.IntervalOk) (hq : s.updateQueue.Valid) {c : repos.scheduleCall} {n : Nat}
    (hn : s.schedule.heap.length ≤ n) (hc : c.returnsWithin n) :
    ∃ s1, s.scheduleCall c = some s1 ∧ s1.schedule.Valid ∧ s1.schedule.IntervalOk ∧
      s1.updateQueue.Valid ∧ s1.schedule.heap.length ≤ s.schedule.heap.length + 1 := by
  have key : ∀ s1, s.scheduleCall c = some s1 → s1.updateQueue.Valid →
      s1.schedule.heap.length ≤ s.schedule.heap.length + 1 →
      ∃ s1, s.scheduleCall c = some s1 ∧ s1.schedule.Valid ∧ s1.schedule.IntervalOk ∧
        s1.updateQueue.Valid ∧ s1.schedule.heap.length ≤ s.schedule.heap.length + 1 :=
    fun s1 h hq1 hl =>
      ⟨s1, h, (scheduleCall_inv hs hi h).1, (scheduleCall_inv hs hi h).2, hq1, hl⟩
  cases c with
  | upsert repo clock =>
    have hid : repo.ID ≠ 0 := hc
    cases hfind : s.schedule.find repo.ID with
    | none =>
      obtain ⟨s2, h2, _, _, hl, _⟩ := schedule.upsert_absent_spec hs hid clock hfind
      exact key { s with schedule := s2 } (by simp only [scheduleCall, h2, Option.map_some']) hq
        (by show s2.heap.length ≤ _; omega)
    | some e =>
      obtain ⟨s2, x, _, h2, _, _, hl, _⟩ := schedule.upsert_present_spec hs hid clock hfind
      exact key { s with schedule := s2 } (by simp only [scheduleCall, h2, Option.map_some']) hq
        (by show s2.heap.length ≤ _; rw [hl]; omega)
  | updateInterval repo d clock =>
    have hid : repo.ID ≠ 0 := hc
    rcases schedule.updateInterval_spec hs hid d clock with ⟨_, h2⟩ | ⟨e, s2, _, h2, _, _, _, hl, _⟩
    · exact key { s with schedule := s.schedule }
        (by simp only [scheduleCall, h2, Option.map_some']) hq (by show s.schedule.heap.length ≤ _; omega)
    · exact key { s with schedule := s2 } (by simp only [scheduleCall, h2, Option.map_some']) hq
        (by show s2.heap.length ≤ _; omega)
  | remove repo clock =>
    have hid : repo.ID ≠ 0 := hc
    rcases schedule.remove_spec_sch hs hid clock with ⟨_, h2⟩ | ⟨e, s2, _, h2, _, _, hl, _⟩
    · exact key { s with schedule := s.schedule }
        (by simp only [scheduleCall, h2, Option.map_some']) hq (by show s.schedule.heap.length ≤ _; omega)
    · exact key { s with schedule := s2 } (by simp only [scheduleCall, h2, Option.map_some']) hq
        (by show s2.heap.length ≤ _; omega)
  | runSchedule fuel clock =>
    obtain ⟨hfuel, B, hB⟩ := hc
    have hp : s.schedule.pending B < fuel := by
      have h1 : s.schedule.pending B ≤ (s.schedule.index.map Prod.fst).length :=
        List.countP_le_length _
      rw [List.length_map, schedule.index_length_sch hs.1] at h1
      omega
    obtain ⟨s1, k1, hrun, hv1, hi1, hq1, hl1⟩ :=
      runScheduleFor_returns clock B hB fuel 0 s hs hi hq hp
    obtain ⟨sch, hr, hmem, hheap, hindex, _⟩ := schedule.rescheduleTimer_spec hv1.1 (clock k1)
    refine key { s1 with schedule := sch } ?_ hq1 (by show sch.heap.length ≤ _; rw [hheap]; omega)
    simp only [scheduleCall, runSchedule, hrun, Option.some_bind, hr, Option.map_some']
  | reset =>
    exact key { s with schedule := s.schedule.reset } (by simp only [scheduleCall]) hq
      (by simp [schedule.reset])

/-- Every sequence of calls with non-zero repo IDs returns on a scheduler whose heaps satisfy
their invariants, provided each `runSchedule` pass reads its clock within a window shorter
than `minDelay` and has more fuel than the schedule can hold entries by then. -/
theorem scheduleCalls_return : ∀ (cs : List repos.scheduleCall) {s : updateScheduler} {n : Nat},
    s.schedule.Valid → s.schedule.IntervalOk → s.updateQueue.Valid →
    s.schedule.heap.length + cs.length ≤ n → (∀ c ∈ cs, c.returnsWithin n) →
    ∃ s1, s.scheduleCalls cs = some s1 ∧ s1.schedule.Valid ∧ s1.schedule.IntervalOk ∧
      s1.updateQueue.Valid := by
  intro cs
  induction cs with
  | nil => intro s n hs hi hq _ _; exact ⟨s, rfl, hs, hi, hq⟩
  | cons c cs ih =>
    intro s n hs hi hq hn hall
    simp only [List.length_cons] at hn
    obtain ⟨s1, hc, hv1, hi1, hq1, hl1⟩ :=
      scheduleCall_returns hs hi hq (show s.schedule.heap.length ≤ n by omega)
        (hall c (List.mem_cons_self c cs))
    obtain ⟨s2, hcs, hv2, hi2, hq2⟩ :=
      ih hv1 hi1 hq1 (show s1.schedule.heap.length + cs.length ≤ n by omega)
        (fun d hd => hall d (List.mem_cons_of_mem c hd))
    refine ⟨s2, ?_, hv2, hi2, hq2⟩
    unfold scheduleCalls
    rw [hc, Option.some_bind, hcs]

/-- C1. After every sequence of upsert, updateInterval, remove, runSchedule (and reset)
calls that completes on a scheduler whose Due-Schedule was empty, with any clock readings
(a zero repo ID makes a call panic, so the sequence does not complete), a non-empty schedule
has an entry at heap position 0 and its Due is not after the Due of any entry of the
schedule. -/
theorem C1_schedule_root_has_earliest_due (s0 : updateScheduler) (cs : List repos.scheduleCall)
    (s : updateScheduler) (h0 : s0.schedule.heap = []) (h0i : s0.schedule.index = [])
    (h : s0.scheduleCalls cs = some s) :
    (s.schedule.heap ≠ [] → ∃ root, s.schedule.entry 0 = some root) ∧
    ∀ root, s.schedule.entry 0 = some root → ∀ e ∈ s.schedule.entries, root.Due ≤ e.Due := by
  obtain ⟨hv0, hi0⟩ := empty_schedule_inv h0 h0i
  obtain ⟨hv, _⟩ := scheduleCalls_inv cs hv0 hi0 h
  constructor
  · intro hne
    have hlen : 0 < s.schedule.heap.length := by
      cases hh : s.schedule.heap with
      | nil => exact (hne hh).elim
      | cons a l => simp
    have hx : s.schedule.heap[0]? = some s.schedule.heap[0] := List.getElem?_eq_getElem hlen
    obtain ⟨e, he, _⟩ := schedule.wf_entry_sch hv.1 hx
    exact ⟨e, by simp [schedule.entry, hx, he]⟩
  · intro root hroot e he
    unfold schedule.entry at hroot
    cases hx : s.schedule.heap[0]? with
    | none => rw [hx] at hroot; cases hroot
    | some x =>
      rw [hx, Option.some_bind] at hroot
      exact schedule.root_min_sch hv hx hroot ((schedule.mem_entries_sch hv.1).mp he)

theorem C1_witness :
    NewUpdateScheduler.schedule.heap = [] ∧ NewUpdateScheduler.schedule.index = [] ∧
    NewUpdateScheduler.scheduleCalls exampleCalls = some exampleScheduler ∧
    (exampleScheduler.schedule.heap ≠ [] → ∃ root, exampleScheduler.schedule.entry 0 = some root) ∧
    ∀ root, exampleScheduler.schedule.entry 0 = some root →
      ∀ e ∈ exampleScheduler.schedule.entries, root.Due ≤ e.Due :=
  ⟨by decide, by decide, by decide,
    C1_schedule_root_has_earliest_due NewUpdateScheduler exampleCalls exampleScheduler
      (by decide) (by decide) (by decide)⟩

/-- C10. After every sequence of upsert, updateInterval, remove, runSchedule and reset
calls that completes on a scheduler whose Due-Schedule was empty, every entry's Interval
lies between 45 seconds and 8 hours (in nanoseconds). -/
theorem C10_interval_between_minDelay_and_maxDelay (s0 : updateScheduler)
    (cs : List repos.scheduleCall) (s : updateScheduler) (h0 : s0.schedule.heap = [])
    (h0i : s0.schedule.index = []) (h : s0.scheduleCalls cs = some s) :
    ∀ e ∈ s.schedule.entries, 45 * 1000000000 ≤ e.Interval ∧ e.Interval ≤ 8 * 3600 * 1000000000 := by
  obtain ⟨hv0, hi0⟩ := empty_schedule_inv h0 h0i
  obtain ⟨_, hi⟩ := scheduleCalls_inv cs hv0 hi0 h
  intro e he
  have := hi e he
  have h1 : minDelay = 45 * 1000000000 := by decide
  have h2 : maxDelay = 8 * 3600 * 1000000000 := by decide
  rw [h1, h2] at this
  exact this

theorem C10_witness :
    NewUpdateScheduler.schedule.heap = [] ∧ NewUpdateScheduler.schedule.index = [] ∧
    NewUpdateScheduler.scheduleCalls exampleCalls = some exampleScheduler ∧
    ∀ e ∈ exampleScheduler.schedule.entries,
      45 * 1000000000 ≤ e.Interval ∧ e.Interval ≤ 8 * 3600 * 1000000000 :=
  ⟨by decide, by decide, by decide,
    C10_interval_between_minDelay_and_maxDelay NewUpdateScheduler exampleCalls exampleScheduler
      (by decide) (by decide) (by decide)⟩

end updateScheduler

namespace schedule

/-- C9, counterexample. Ten seconds before the end of the range of `time.Time`,
updateInterval(repoA, 7ns) stores the Interval 45s and the Due `now.Add(45s)`, which is the
last second of the range: ten seconds after `now`, not 45. -/
theorem C9_counterexample_due_saturates :
    exampleSchedule.Valid ∧
    (⟨repoA, 45000000000, 45000000000, 0⟩ : scheduledRepoUpdate) ∈ exampleSchedule.entries ∧
    ((9223372036854775797000000000 : Time) ≤ time.maxTime) ∧
    (exampleSchedule.updateInterval repoA 7 (fun _ => 9223372036854775797000000000)).map
      (fun s1 => (s1.find repoA.ID).map (fun e => (e.Interval, e.Due))) =
        some (some (45000000000, 9223372036854775797000000000 + 10000000000)) := by
  decide

/-- C9, amended. For an existing schedule entry and any duration d, updateInterval(repo, d)
whose first clock reading is `now` stores Interval = 45s if d < 45s, 8h if d > 8h and d
otherwise, sets the entry's Due to `now.Add` of the stored Interval, which is now + the
stored Interval whenever that sum does not pass the end of the range of `time.Time`, and
leaves every other entry's Repo, Interval and Due as they are. -/
theorem C9_updateInterval_clamps_and_sets_due (s : schedule) (repo : configuredRepo2)
    (d : Duration) (clock : Clock) (e : scheduledRepoUpdate) (hs : s.Valid) (hid : repo.ID ≠ 0)
    (he : e ∈ s.entries) (hrid : e.Repo.ID = repo.ID) :
    ∃ s1, s.updateInterval repo d clock = some s1 ∧ s1.Valid ∧
      (∃ e1 ∈ s1.entries, e1.Repo = e.Repo ∧
        e1.Interval = (if d < 45 * 1000000000 then 45 * 1000000000
          else if d > 8 * 3600 * 1000000000 then 8 * 3600 * 1000000000 else d) ∧
        e1.Due = Time.Add (clock 0) e1.Interval ∧
        (clock 0 + e1.Interval ≤ time.maxTime → e1.Due = clock 0 + e1.Interval)) ∧
      (∀ id, id ≠ repo.ID →
        (s1.find id).map scheduledRepoUpdate.core = (s.find id).map scheduledRepoUpdate.core) ∧
      s1.heap.length = s.heap.length := by
  have hfind := entries_find_sch hs.1 he hrid
  rcases updateInterval_spec hs hid d clock with ⟨hn, _⟩ | ⟨e0, s1, he0, hupd, hv1, _, _, hlen, hfr⟩
  · rw [hfind] at hn
    cases hn
  · rw [hfind] at he0
    cases he0
    have hnew := hfr repo.ID
    rw [if_pos rfl] at hnew
    obtain ⟨e1, he1, _, _, hcore⟩ := find_core_some_sch hv1.1 hnew
    have hr1 : e1.Repo = e.Repo := by
      have := congrArg scheduledRepoUpdate.Repo hcore
      exact this
    have hi2 : e1.Interval = clampInterval d := by
      have := congrArg scheduledRepoUpdate.Interval hcore
      exact this
    have hd2 : e1.Due = Time.Add (clock 0) (clampInterval d) := by
      have := congrArg scheduledRepoUpdate.Due hcore
      exact this
    have h0 : (0 : Duration) ≤ clampInterval d :=
      le_trans (by decide : (0 : Duration) ≤ minDelay) (clampInterval_bounds d).1
    refine ⟨s1, hupd, hv1, ⟨e1, he1, hr1, ?_, by rw [hd2, hi2], ?_⟩, ?_, hlen⟩
    · rw [hi2]
      unfold clampInterval
      have h1 : minDelay = 45 * 1000000000 := by decide
      have h2 : maxDelay = 8 * 3600 * 1000000000 := by decide
      rw [h1, h2]
      unfold Duration at *
      split_ifs <;> omega
    · intro hle
      rw [hi2] at hle
      rw [hd2, hi2]
      exact Time.Add_eq_of_le h0 hle
    · intro id hne
      rw [hfr id, if_neg hne]

theorem C9_witness :
    exampleSchedule.Valid ∧ repoA.ID ≠ 0 ∧
    (⟨repoA, 45000000000, 45000000000, 0⟩ : scheduledRepoUpdate) ∈ exampleSchedule.entries ∧
    ∃ s1, exampleSchedule.updateInterval repoA 7 (fun _ => 100) = some s1 ∧ s1.Valid ∧
      (∃ e1 ∈ s1.entries, e1.Repo = repoA ∧
        e1.Interval = (if (7 : Duration) < 45 * 1000000000 then 45 * 1000000000
          else if (7 : Duration) > 8 * 3600 * 1000000000 then 8 * 3600 * 1000000000 else 7) ∧
        e1.Due = Time.Add 100 e1.Interval ∧
        (100 + e1.Interval ≤ time.maxTime → e1.Due = 100 + e1.Interval)) ∧
      (∀ id, id ≠ repoA.ID →
        (s1.find id).map scheduledRepoUpdate.core =
          (exampleSchedule.find id).map scheduledRepoUpdate.core) ∧
      s1.heap.length = exampleSchedule.heap.length :=
  ⟨by decide, by decide, by decide,
    C9_updateInterval_clamps_and_sets_due exampleSchedule repoA 7 (fun _ => 100)
      ⟨repoA, 45000000000, 45000000000, 0⟩ (by decide) (by decide) (by decide) (by decide)⟩

end schedule

theorem set_same {α : Type} {l : List α} {x : Nat} {a : α} (h : l[x]? = some a) :
    l.set x a = l := by
  apply List.ext_getElem?
  intro y
  rw [getElem?_set_mem l x y a (List.getElem?_eq_some.mp h).1]
  by_cases hy : y = x
  · rw [if_pos hy, hy, h]
  · rw [if_neg hy]

namespace schedule

/-- A second `upsert` of the repo an entry already holds returns the same state. -/
theorem upsert_again {s : schedule} (hs : s.Valid) {repo : configuredRepo2} (hid : repo.ID ≠ 0)
    {e : scheduledRepoUpdate} (hfind : s.find repo.ID = some e) (hrepo : e.Repo = repo)
    (clock : Clock) : s.upsert repo clock = some (s, true) := by
  obtain ⟨s1, x, hget, hup, _, hmem, hheap, hindex, htimer, hwake, _⟩ :=
    upsert_present_spec hs hid clock hfind
  have hx : s.mem[x]? = some e := by
    unfold find at hfind
    rw [hget, Option.some_bind] at hfind
    exact hfind
  have he : ({ e with Repo := repo } : scheduledRepoUpdate) = e := by
    rw [← hrepo]
  rw [he, set_same hx] at hmem
  have hss : s1 = s := by
    cases s1
    cases s
    simp only at hmem hheap hindex htimer hwake
    simp only [schedule.mk.injEq]
    exact ⟨hmem, hheap, hindex, htimer, hwake⟩
  rw [hss] at hup
  exact hup

/-- C11, counterexample. Ten seconds before the end of the range of `time.Time`, at
`time.Unix(9223371974719178997, 0)`, the upsert of `repoC`, which has no entry, adds an entry
with Interval 45s and the Due `now.Add(45s)`, which is the last second of the range: ten
seconds after `now`, not 45. -/
theorem C11_counterexample_due_saturates :
    exampleSchedule.Valid ∧ (∀ e ∈ exampleSchedule.entries, e.Repo.ID ≠ repoC.ID) ∧
    ((9223372036854775797000000000 : Time) ≤ time.maxTime) ∧
    (exampleSchedule.upsert repoC (fun _ => 9223372036854775797000000000)).map
      (fun r => (r.2, (r.1.find repoC.ID).map (fun e => (e.Interval, e.Due)))) =
        some (false, some (45000000000, 9223372036854775797000000000 + 10000000000)) := by
  decide

/-- C11, amended. On a valid schedule, upsert(repo) with a non-zero ID whose first clock
reading is `now`: when the ID has no entry it returns false and adds one entry holding the
repo with Interval = 45s and Due = `now.Add(45s)`, which is now + 45s whenever that sum does
not pass the end of the range of `time.Time`, every other entry keeping its Repo, Interval
and Due; when the ID has an entry it returns true and only replaces the repo stored in that
entry (heap slice, index map, timer and every other field of every entry stay as they are).
In both cases a second upsert of the same repo returns true and the same state. -/
theorem C11_upsert_adds_or_refreshes (s : schedule) (repo : configuredRepo2) (clock : Clock)
    (hs : s.Valid) (hid : repo.ID ≠ 0) :
    ((∀ e ∈ s.entries, e.Repo.ID ≠ repo.ID) →
      ∃ s1, s.upsert repo clock = some (s1, false) ∧ s1.Valid ∧
        s1.heap.length = s.heap.length + 1 ∧
        (∃ e ∈ s1.entries, e.Repo = repo ∧ e.Interval = 45 * 1000000000 ∧
          e.Due = Time.Add (clock 0) (45 * 1000000000) ∧
          (clock 0 + 45 * 1000000000 ≤ time.maxTime → e.Due = clock 0 + 45 * 1000000000)) ∧
        (∀ id, id ≠ repo.ID →
          (s1.find id).map scheduledRepoUpdate.core = (s.find id).map scheduledRepoUpdate.core) ∧
        ∀ clock2, s1.upsert repo clock2 = some (s1, true)) ∧
    (∀ e ∈ s.entries, e.Repo.ID = repo.ID →
      ∃ s1 x, s.index.get repo.ID = some x ∧ s.mem[x]? = some e ∧
        s.upsert repo clock = some (s1, true) ∧
        s1.heap = s.heap ∧ s1.index = s.index ∧ s1.timer = s.timer ∧ s1.wakeup = s.wakeup ∧
        s1.mem.length = s.mem.length ∧
        (∀ y : Ptr, s1.mem[y]? = if y = x then some { e with Repo := repo } else s.mem[y]?) ∧
        ∀ clock2, s1.upsert repo clock2 = some (s1, true)) := by
  constructor
  · intro habsent
    have hnone : s.find repo.ID = none := by
      cases hf : s.find repo.ID with
      | none => rfl
      | some e0 =>
        exact (habsent e0 (find_entries_sch hs.1 hf).1 (find_entries_sch hs.1 hf).2).elim
    obtain ⟨s1, hup, hv1, _, hlen, hfr⟩ := upsert_absent_spec hs hid clock hnone
    have hnew := hfr repo.ID
    rw [if_pos rfl] at hnew
    obtain ⟨e, he, _, hfe, hcore⟩ := find_core_some_sch hv1.1 hnew
    have hr : e.Repo = repo := by
      have := congrArg scheduledRepoUpdate.Repo hcore
      exact this
    have hi : e.Interval = minDelay := by
      have := congrArg scheduledRepoUpdate.Interval hcore
      exact this
    have hd : e.Due = Time.Add (clock 0) minDelay := by
      have := congrArg scheduledRepoUpdate.Due hcore
      exact this
    have hmin : minDelay = 45 * 1000000000 := by decide
    refine ⟨s1, hup, hv1, hlen, ⟨e, he, hr, by rw [hi, hmin], by rw [hd, hmin], ?_⟩, ?_, ?_⟩
    · intro hle
      rw [hd, hmin]
      exact Time.Add_eq_of_le (by decide) hle
    · intro id hne
      rw [hfr id, if_neg hne]
    · intro clock2
      exact upsert_again hv1 hid hfe hr clock2
  · intro e he hrid
    have hfind := entries_find_sch hs.1 he hrid
    obtain ⟨s1, x, hget, hup, hv1, hmem, hheap, hindex, htimer, hwake, hfr⟩ :=
      upsert_present_spec hs hid clock hfind
    have hx : s.mem[x]? = some e := by
      unfold find at hfind
      rw [hget, Option.some_bind] at hfind
      exact hfind
    have hxl : x < s.mem.length := (List.getElem?_eq_some.mp hx).1
    refine ⟨s1, x, hget, hx, hup, hheap, hindex, htimer, hwake, by rw [hmem]; simp, ?_, ?_⟩
    · intro y
      rw [hmem, getElem?_set_mem _ _ _ _ hxl]
    · intro clock2
      have hf1 : s1.find repo.ID = some { e with Repo := repo } := by
        rw [hfr repo.ID, if_pos rfl]
      exact upsert_again hv1 hid hf1 rfl clock2

/-- C12. On a valid schedule, remove(repo) with a non-zero ID returns false and the very
same state when the ID has no entry; when it has one, remove returns true, afterwards no
heap entry and no index binding has the ID, and every other ID keeps its entry with the same
Repo, Interval and Due. -/
theorem C12_remove_deletes_only_that_entry (s : schedule) (repo : configuredRepo2)
    (clock : Clock) (hs : s.Valid) (hid : repo.ID ≠ 0) :
    ((∀ e ∈ s.entries, e.Repo.ID ≠ repo.ID) → s.remove repo clock = some (s, false)) ∧
    (∀ e ∈ s.entries, e.Repo.ID = repo.ID →
      ∃ s1, s.remove repo clock = some (s1, true) ∧ s1.Valid ∧
        (∀ e1 ∈ s1.entries, e1.Repo.ID ≠ repo.ID) ∧ s1.index.get repo.ID = none ∧
        s1.heap.length + 1 = s.heap.length ∧
        (∀ id, id ≠ repo.ID →
          (s1.find id).map scheduledRepoUpdate.core =
            (s.find id).map scheduledRepoUpdate.core)) := by
  constructor
  · intro habsent
    rcases remove_spec_sch hs hid clock with ⟨_, h⟩ | ⟨e, _, hfe, _⟩
    · exact h
    · exact (habsent e (find_entries_sch hs.1 hfe).1 (find_entries_sch hs.1 hfe).2).elim
  · intro e he hrid
    have hfind := entries_find_sch hs.1 he hrid
    rcases remove_spec_sch hs hid clock with ⟨hn, _⟩ | ⟨e0, s1, _, hrem, hv1, _, hlen, hfr⟩
    · rw [hfind] at hn
      cases hn
    · have hnone : s1.find repo.ID = none := by
        have h4 := hfr repo.ID
        rw [if_pos rfl] at h4
        cases hf : s1.find repo.ID with
        | none => rfl
        | some e3 => rw [hf] at h4; cases h4
      refine ⟨s1, hrem, hv1, ?_, (find_eq_none_sch hv1.1).mp hnone, hlen, ?_⟩
      · intro e1 he1 hid1
        rw [entries_find_sch hv1.1 he1 hid1] at hnone
        cases hnone
      · intro id hne
        rw [hfr id, if_neg hne]

/-- C13. updateInterval(repo, d) for a non-zero repo ID that has no binding in the index map
(on a valid schedule: no entry in the heap) returns the very same state: heap slice, index
map, timer and every entry are as before and no entry is created. -/
theorem C13_updateInterval_absent_is_noop (s : schedule) (repo : configuredRepo2)
    (d : Duration) (clock : Clock) (hid : repo.ID ≠ 0)
    (h : s.index.get repo.ID = none ∨ (s.Valid ∧ ∀ e ∈ s.entries, e.Repo.ID ≠ repo.ID)) :
    s.updateInterval repo d clock = some s := by
  have hget : s.index.get repo.ID = none := by
    rcases h with h | ⟨hs, habsent⟩
    · exact h
    · apply (find_eq_none_sch hs.1).mp
      cases hf : s.find repo.ID with
      | none => rfl
      | some e0 =>
        exact (habsent e0 (find_entries_sch hs.1 hf).1 (find_entries_sch hs.1 hf).2).elim
  unfold updateInterval
  rw [if_neg hid, hget]

/-- The theorem at `exampleSchedule`: the upsert of `repoC`, which has no entry, at the
instant 5, and the upsert of `repoA`, which has one. -/
theorem C11_witness :
    exampleSchedule.Valid ∧ repoC.ID ≠ 0 ∧ repoA.ID ≠ 0 ∧
    (∀ e ∈ exampleSchedule.entries, e.Repo.ID ≠ repoC.ID) ∧
    (⟨repoA, 45000000000, 45000000000, 0⟩ : scheduledRepoUpdate) ∈ exampleSchedule.entries ∧
    (∃ s1, exampleSchedule.upsert repoC (fun _ => 5) = some (s1, false) ∧
      s1.heap.length = exampleSchedule.heap.length + 1 ∧
      ∃ e ∈ s1.entries, e.Repo = repoC ∧ e.Interval = 45 * 1000000000 ∧
        e.Due = 5 + 45 * 1000000000) ∧
    ∃ s1 x, exampleSchedule.index.get repoA.ID = some x ∧
      exampleSchedule.upsert repoA (fun _ => 5) = some (s1, true) ∧
      s1.heap = exampleSchedule.heap ∧ s1.index = exampleSchedule.index ∧
      s1.timer = exampleSchedule.timer := by
  refine ⟨by decide, by decide, by decide, by decide, by decide, ?_, ?_⟩
  · obtain ⟨s1, h1, _, h3, ⟨e, he, h4, h5, _, h7⟩, _⟩ :=
      (C11_upsert_adds_or_refreshes exampleSchedule repoC (fun _ => 5) (by decide)
        (by decide)).1 (by decide)
    exact ⟨s1, h1, h3, e, he, h4, h5, h7 (by decide)⟩
  · obtain ⟨s1, x, h1, _, h3, h4, h5, h6, _⟩ :=
      (C11_upsert_adds_or_refreshes exampleSchedule repoA (fun _ => 5) (by decide)
        (by decide)).2 ⟨repoA, 45000000000, 45000000000, 0⟩ (by decide) (by decide)
    exact ⟨s1, x, h1, h3, h4, h5, h6⟩

theorem C12_witness :
    exampleSchedule.Valid ∧ repoA.ID ≠ 0 ∧ repoC.ID ≠ 0 ∧
    (⟨repoA, 45000000000, 45000000000, 0⟩ : scheduledRepoUpdate) ∈ exampleSchedule.entries ∧
    (∀ e ∈ exampleSchedule.entries, e.Repo.ID ≠ repoC.ID) ∧
    (∃ s1, exampleSchedule.remove repoA (fun _ => 5) = some (s1, true) ∧ s1.Valid ∧
      (∀ e1 ∈ s1.entries, e1.Repo.ID ≠ repoA.ID) ∧ s1.index.get repoA.ID = none ∧
      s1.heap.length + 1 = exampleSchedule.heap.length ∧
      (s1.find repoB.ID).map scheduledRepoUpdate.core =
        (exampleSchedule.find repoB.ID).map scheduledRepoUpdate.core) ∧
    exampleSchedule.remove repoC (fun _ => 5) = some (exampleSchedule, false) := by
  refine ⟨by decide, by decide, by decide, by decide, by decide, ?_, ?_⟩
  · obtain ⟨s1, h1, h2, h3, h4, h5, h6⟩ :=
      (C12_remove_deletes_only_that_entry exampleSchedule repoA (fun _ => 5) (by decide)
        (by decide)).2 ⟨repoA, 45000000000, 45000000000, 0⟩ (by decide) (by decide)
    exact ⟨s1, h1, h2, h3, h4, h5, h6 repoB.ID (by decide)⟩
  · exact (C12_remove_deletes_only_that_entry exampleSchedule repoC (fun _ => 5) (by decide)
      (by decide)).1 (by decide)

theorem C13_witness :
    repoC.ID ≠ 0 ∧ exampleSchedule.index.get repoC.ID = none ∧
    exampleSchedule.updateInterval repoC 7 (fun _ => 5) = some exampleSchedule :=
  ⟨by decide, by decide,
    C13_updateInterval_absent_is_noop exampleSchedule repoC 7 (fun _ => 5) (by decide)
      (Or.inl (by decide))⟩

end schedule

namespace updateQueue

theorem has_iff {q : updateQueue} (hq : q.Wf) {id : Nat} :
    q.has id ↔ ∃ c, (q.find id).map repoUpdate.core = some c := by
  constructor
  · rintro ⟨e, he, hid⟩
    exact ⟨e.core, by rw [entries_find hq he hid]; rfl⟩
  · rintro ⟨c, hc⟩
    obtain ⟨e, he, hid, _⟩ := find_core_some hq hc
    exact ⟨e, he, hid⟩

/-- The effect of `enqueue` on the entries, by repo ID. -/
theorem enqueue_frame {q : updateQueue} (hq : q.Valid) {repo : configuredRepo2}
    (hid : repo.ID ≠ 0) (p : priority) :
    ∃ q1 b, q.enqueue repo p = some (q1, b) ∧ q1.Valid ∧
      (∀ id, id ≠ repo.ID → (q1.find id).map repoUpdate.core = (q.find id).map repoUpdate.core) ∧
      ∃ c, (q1.find repo.ID).map repoUpdate.core = some c ∧
        (q.find repo.ID = none → c.Repo = repo ∧ c.Priority = p ∧ c.Updating = false) ∧
        (∀ e, q.find repo.ID = some e → c.Updating = e.Updating ∧
          (e.Updating = true → c = e.core)) := by
  obtain ⟨q1, b, henq, hv1, hcases⟩ := enqueue_cases hq hid p
  refine ⟨q1, b, henq, hv1, ?_⟩
  rcases hcases with ⟨hn, _, _, _, _, hfr⟩ | ⟨e, he, hue, _, hqq⟩ |
    ⟨e, x, he, hue, _, _, _, _, hfr⟩ | ⟨e, he, hue, _, _, _, _, _, _, hfr⟩
  · refine ⟨fun id hne => by rw [hfr id, if_neg hne], _, by rw [hfr repo.ID, if_pos rfl],
      fun _ => ⟨rfl, rfl, rfl⟩, ?_⟩
    intro e he
    rw [hn] at he
    cases he
  · rw [hqq]
    refine ⟨fun id _ => rfl, e.core, by rw [he]; rfl, ?_, ?_⟩
    · intro hn
      rw [hn] at he
      cases he
    · intro e1 he1
      rw [he] at he1
      cases he1
      exact ⟨rfl, fun _ => rfl⟩
  · refine ⟨fun id hne => by rw [hfr id, if_neg hne],
      ({ e with Repo := repo } : repoUpdate).core, by rw [hfr repo.ID, if_pos rfl]; rfl, ?_, ?_⟩
    · intro hn
      rw [hn] at he
      cases he
    · intro e1 he1
      rw [he] at he1
      cases he1
      refine ⟨rfl, fun h => ?_⟩
      rw [hue] at h
      cases h
  · refine ⟨fun id hne => by rw [hfr id, if_neg hne], _, by rw [hfr repo.ID, if_pos rfl], ?_, ?_⟩
    · intro hn
      rw [hn] at he
      cases he
    · intro e1 he1
      rw [he] at he1
      cases he1
      refine ⟨rfl, fun h => ?_⟩
      rw [hue] at h
      cases h

/-- The effect of `remove` on the entries, by repo ID. -/
theorem remove_frame {q : updateQueue} (hq : q.Valid) {repo : configuredRepo2}
    (hid : repo.ID ≠ 0) (updating : Bool) :
    ∃ q1 b, q.remove repo updating = some (q1, b) ∧ q1.Valid ∧
      (∀ id, id ≠ repo.ID → (q1.find id).map repoUpdate.core = (q.find id).map repoUpdate.core) ∧
      (q1.find repo.ID).map repoUpdate.core =
        ((q.find repo.ID).map repoUpdate.core).filter (fun c => c.Updating != updating) := by
  rcases remove_spec hq hid updating with ⟨hn, h⟩ | ⟨e, he, hne, h⟩ |
    ⟨e, q1, he, hue, h, hv1, _, _, _, hfr⟩
  · refine ⟨q, false, h, hq, fun _ _ => rfl, ?_⟩
    rw [hn]
    rfl
  · refine ⟨q, false, h, hq, fun _ _ => rfl, ?_⟩
    rw [he]
    have : (e.core.Updating != updating) = true := by
      show (e.Updating != updating) = true
      cases hu : e.Updating <;> cases updating <;> simp_all
    simp only [Option.map_some', Option.filter, this, if_true]
  · refine ⟨q1, true, h, hv1, fun id hne => by rw [hfr id, if_neg hne], ?_⟩
    rw [hfr repo.ID, if_pos rfl, he]
    have : (e.core.Updating != updating) = false := by
      show (e.Updating != updating) = false
      rw [hue]
      cases updating <;> rfl
    simp only [Option.map_some', Option.filter, this, Bool.false_eq_true, if_false]

end updateQueue

namespace schedule

theorem has_iff_sch {s : schedule} (hs : s.Wf) {id : Nat} :
    s.has id ↔ ∃ c, (s.find id).map scheduledRepoUpdate.core = some c := by
  constructor
  · rintro ⟨e, he, hid⟩
    exact ⟨e.core, by rw [entries_find_sch hs he hid]; rfl⟩
  · rintro ⟨c, hc⟩
    obtain ⟨e, he, hid, _⟩ := find_core_some_sch hs hc
    exact ⟨e, he, hid⟩

/-- The effect of `upsert` on the entries, by repo ID. -/
theorem upsert_frame {s : schedule} (hs : s.Valid) (hi : s.IntervalOk) {repo : configuredRepo2}
    (hid : repo.ID ≠ 0) (clock : Clock) :
    ∃ s1 b, s.upsert repo clock = some (s1, b) ∧ s1.Valid ∧ s1.IntervalOk ∧
      (∀ id, id ≠ repo.ID →
        (s1.find id).map scheduledRepoUpdate.core = (s.find id).map scheduledRepoUpdate.core) ∧
      ∃ c, (s1.find repo.ID).map scheduledRepoUpdate.core = some c ∧ c.Repo = repo ∧
        (s.find repo.ID = none →
          c.Interval = minDelay ∧ c.Due = Time.Add (clock 0) minDelay) ∧
        (∀ e, s.find repo.ID = some e → c.Interval = e.Interval ∧ c.Due = e.Due) := by
  cases hfind : s.find repo.ID with
  | none =>
    obtain ⟨s1, hup, _, _, _, hfr⟩ := upsert_absent_spec hs hid clock hfind
    obtain ⟨hv1, hi1⟩ := upsert_inv hs hi hup
    refine ⟨s1, false, hup, hv1, hi1, fun id hne => by rw [hfr id, if_neg hne], _,
      by rw [hfr repo.ID, if_pos rfl], rfl, fun _ => ⟨rfl, rfl⟩, ?_⟩
    intro e he
    cases he
  | some e =>
    obtain ⟨s1, x, _, hup, _, _, _, _, _, _, hfr⟩ := upsert_present_spec hs hid clock hfind
    obtain ⟨hv1, hi1⟩ := upsert_inv hs hi hup
    refine ⟨s1, true, hup, hv1, hi1, fun id hne => by rw [hfr id, if_neg hne],
      ({ e with Repo := repo } : scheduledRepoUpdate).core,
      by rw [hfr repo.ID, if_pos rfl]; rfl, rfl, ?_, ?_⟩
    · intro h
      cases h
    · intro e1 he1
      cases he1
      exact ⟨rfl, rfl⟩

/-- The effect of `remove` on the entries, by repo ID. -/
theorem remove_frame_sch {s : schedule} (hs : s.Valid) (hi : s.IntervalOk)
    {repo : configuredRepo2} (hid : repo.ID ≠ 0) (clock : Clock) :
    ∃ s1 b, s.remove repo clock = some (s1, b) ∧ s1.Valid ∧ s1.IntervalOk ∧
      (∀ id, id ≠ repo.ID →
        (s1.find id).map scheduledRepoUpdate.core = (s.find id).map scheduledRepoUpdate.core) ∧
      s1.find repo.ID = none := by
  rcases remove_spec_sch hs hid clock with ⟨hn, h⟩ | ⟨e, s1, _, h, _, _, _, hfr⟩
  · exact ⟨s, false, h, hs, hi, fun _ _ => rfl, hn⟩
  · obtain ⟨hv1, hi1⟩ := remove_inv hs hi h
    refine ⟨s1, true, h, hv1, hi1, fun id hne => by rw [hfr id, if_neg hne], ?_⟩
    have h4 := hfr repo.ID
    rw [if_pos rfl] at h4
    cases hf : s1.find repo.ID with
    | none => rfl
    | some e3 => rw [hf] at h4; cases h4

end schedule

namespace updateScheduler

theorem dispatch_eq (s : updateScheduler) (repo : configuredRepo2)
    (resp : Option RepoUpdateResponse) (err : Bool) (clock : Clock) :
    s.dispatch repo resp err clock =
      (match newInterval resp with
       | some d => s.schedule.updateInterval repo d clock
       | none => some s.schedule).bind (fun sch =>
        (s.updateQueue.remove repo true).map (fun (b : repos.updateQueue × Bool) =>
          { s with schedule := sch, updateQueue := b.1 })) := by
  unfold dispatch newInterval
  cases resp with
  | none => rfl
  | some r =>
    obtain ⟨lf, lc⟩ := r
    cases lf <;> cases lc <;> rfl

/-- The dispatch goroutine returns on every state with the heap invariants: its schedule
step is `updateInterval` with `newInterval resp`, or nothing, and its queue step is
`remove(repo, true)`. -/
theorem dispatch_spec {s : updateScheduler} (hs : s.Inv) {repo : configuredRepo2}
    (hid : repo.ID ≠ 0) (resp : Option RepoUpdateResponse) (err : Bool) (clock : Clock) :
    ∃ s1 b, s.dispatch repo resp err clock = some s1 ∧ s1.Inv ∧
      s1.sourceRepos = s.sourceRepos ∧
      s.updateQueue.remove repo true = some (s1.updateQueue, b) ∧
      (∀ d, newInterval resp = some d →
        s.schedule.updateInterval repo d clock = some s1.schedule) ∧
      (newInterval resp = none → s1.schedule = s.schedule) := by
  obtain ⟨hv, hi, hq⟩ := hs
  obtain ⟨q1, b, hrem, hq1, _⟩ := updateQueue.remove_frame hq hid true
  rw [dispatch_eq]
  cases hni : newInterval resp with
  | none =>
    refine ⟨{ s with updateQueue := q1 }, b, ?_, ⟨hv, hi, hq1⟩, rfl, hrem, ?_, fun _ => rfl⟩
    · simp only [Option.some_bind, hrem, Option.map_some']
    · intro d hd
      cases hd
  | some d =>
    have hex : ∃ sch, s.schedule.updateInterval repo d clock = some sch := by
      rcases schedule.updateInterval_spec hv hid d clock with ⟨_, h⟩ | ⟨_, sch, _, h, _⟩
      · exact ⟨_, h⟩
      · exact ⟨_, h⟩
    obtain ⟨sch, hsch⟩ := hex
    obtain ⟨hv1, hi1⟩ := schedule.updateInterval_inv hv hi hsch
    refine ⟨{ s with schedule := sch, updateQueue := q1 }, b, ?_, ⟨hv1, hi1, hq1⟩, rfl, hrem,
      ?_, ?_⟩
    · simp only [hsch, Option.some_bind, hrem, Option.map_some']
    · intro d1 hd1
      cases hd1
      exact hsch
    · intro h
      cases h

theorem sub_exact {t u : Time} (h1 : time.minDuration ≤ t - u) (h2 : t - u ≤ time.maxDuration) :
    Time.Sub t u = t - u := by
  unfold Time.Sub
  unfold Time Duration at *
  split_ifs <;> omega

/-- C14. On a state with the heap invariants in which the dispatched repo is scheduled, a
response with both timestamps makes the dispatch goroutine call updateInterval with
`LastFetched.Sub(LastChanged)` divided by 2 (truncated); `Sub` is the plain difference when
that fits a Duration. For a difference of 10h the stored Interval is 5h, for 8h it is 4h and
for 12h it is 6h. -/
theorem C14_dispatch_halves_elapsed_time (s : updateScheduler) (repo : configuredRepo2)
    (lastFetched lastChanged : Time) (err : Bool) (clock : Clock) (e : scheduledRepoUpdate)
    (hs : s.Inv) (hid : repo.ID ≠ 0) (he : e ∈ s.schedule.entries)
    (hrid : e.Repo.ID = repo.ID) :
    ∃ s1, s.dispatch repo (some ⟨some lastFetched, some lastChanged⟩) err clock = some s1 ∧
      s1.Inv ∧
      s.schedule.updateInterval repo ((Time.Sub lastFetched lastChanged).tdiv 2) clock =
        some s1.schedule ∧
      (time.minDuration ≤ lastFetched - lastChanged →
        lastFetched - lastChanged ≤ time.maxDuration →
        Time.Sub lastFetched lastChanged = lastFetched - lastChanged) ∧
      ∃ e1 ∈ s1.schedule.entries, e1.Repo.ID = repo.ID ∧
        (lastFetched - lastChanged = 10 * time.Hour → e1.Interval = 5 * time.Hour) ∧
        (lastFetched - lastChanged = 8 * time.Hour → e1.Interval = 4 * time.Hour) ∧
        (lastFetched - lastChanged = 12 * time.Hour → e1.Interval = 6 * time.Hour) := by
  obtain ⟨s1, b, hd, hinv1, _, _, hupd, _⟩ :=
    dispatch_spec hs hid (some ⟨some lastFetched, some lastChanged⟩) err clock
  have hu := hupd _ rfl
  refine ⟨s1, hd, hinv1, hu, fun h1 h2 => sub_exact h1 h2, ?_⟩
  have hfind := schedule.entries_find_sch hs.1.1 he hrid
  rcases schedule.updateInterval_spec hs.1 hid ((Time.Sub lastFetched lastChanged).tdiv 2) clock
    with ⟨hn, _⟩ | ⟨e0, sch, he0, hupd2, hv1, _, _, _, hfr⟩
  · rw [hfind] at hn
    cases hn
  · rw [hu] at hupd2
    cases hupd2
    have hnew := hfr repo.ID
    rw [if_pos rfl] at hnew
    obtain ⟨e1, he1, hid1, _, hcore⟩ := schedule.find_core_some_sch hv1.1 hnew
    have hi1 : e1.Interval =
        schedule.clampInterval ((Time.Sub lastFetched lastChanged).tdiv 2) := by
      have := congrArg scheduledRepoUpdate.Interval hcore
      exact this
    refine ⟨e1, he1, hid1, ?_, ?_, ?_⟩
    · intro h
      have hsub : Time.Sub lastFetched lastChanged = 10 * time.Hour := by
        rw [← h]
        exact sub_exact (by rw [h]; decide) (by rw [h]; decide)
      rw [hi1, hsub]
      decide
    · intro h
      have hsub : Time.Sub lastFetched lastChanged = 8 * time.Hour := by
        rw [← h]
        exact sub_exact (by rw [h]; decide) (by rw [h]; decide)
      rw [hi1, hsub]
      decide
    · intro h
      have hsub : Time.Sub lastFetched lastChanged = 12 * time.Hour := by
        rw [← h]
        exact sub_exact (by rw [h]; decide) (by rw [h]; decide)
      rw [hi1, hsub]
      decide

/-- C15, counterexample. The dispatch of `repoA` completes with an error and a response
that carries both timestamps: `updateInterval` is called all the same, and the Interval and
Due of `repoA` in the schedule change. -/
theorem C15_counterexample_error_with_timestamps :
    inFlightScheduler.Inv ∧ repoA.ID ≠ 0 ∧
    inFlightScheduler.dispatch repoA (some ⟨some 36000000000000, some 0⟩) true (fun _ => 100) =
      some inFlightSchedulerAfter ∧
    ∃ e ∈ inFlightScheduler.schedule.entries, e.Repo.ID = repoA.ID ∧
      ∃ e1 ∈ inFlightSchedulerAfter.schedule.entries, e1.Repo.ID = repoA.ID ∧
        e1.Interval ≠ e.Interval ∧ e1.Due ≠ e.Due := by
  set_option maxRecDepth 8000 in decide

/-- C15, amended. On a state with the heap invariants the dispatch goroutine returns, and
its result does not depend on whether the request returned an error. updateInterval is
called exactly when the response is present and carries both timestamps; when the response
is missing or lacks a timestamp the whole Due-Schedule is left as it is. In every outcome an
entry of the repo that is Updating is removed from the Update Queue, and the entries of
other repos stay. -/
theorem C15_dispatch_recomputes_iff_both_timestamps (s : updateScheduler)
    (repo : configuredRepo2) (resp : Option RepoUpdateResponse) (err : Bool) (clock : Clock)
    (hs : s.Inv) (hid : repo.ID ≠ 0) :
    ∃ s1, s.dispatch repo resp err clock = some s1 ∧ s1.Inv ∧
      (∀ err2, s.dispatch repo resp err2 clock = some s1) ∧
      ((resp = none ∨ ∃ r, resp = some r ∧ (r.LastFetched = none ∨ r.LastChanged = none)) →
        s1.schedule = s.schedule) ∧
      (∀ r lastFetched lastChanged, resp = some r → r.LastFetched = some lastFetched →
        r.LastChanged = some lastChanged →
        s.schedule.updateInterval repo ((Time.Sub lastFetched lastChanged).tdiv 2) clock =
          some s1.schedule) ∧
      (∀ e ∈ s.updateQueue.entries, e.Repo.ID = repo.ID → e.Updating = true →
        ¬ s1.updateQueue.has repo.ID) ∧
      (∀ id, id ≠ repo.ID →
        (s1.updateQueue.find id).map repoUpdate.core =
          (s.updateQueue.find id).map repoUpdate.core) := by
  obtain ⟨s1, b, hd, hinv1, _, hrem, hupd, hsame⟩ := dispatch_spec hs hid resp err clock
  obtain ⟨q1, b1, hrem1, _, hfr, hself⟩ := updateQueue.remove_frame hs.2.2 hid true
  rw [hrem] at hrem1
  cases hrem1
  refine ⟨s1, hd, hinv1, ?_, ?_, ?_, ?_, hfr⟩
  · intro err2
    rw [dispatch_eq] at hd ⊢
    exact hd
  · intro h
    apply hsame
    rcases h with h | ⟨r, h, hr⟩
    · rw [h]
      rfl
    · rw [h]
      obtain ⟨lf, lc⟩ := r
      rcases hr with hr | hr
      · simp only at hr
        rw [hr]
        rfl
      · simp only at hr
        rw [hr]
        cases lf <;> rfl
  · intro r lf lc hr hlf hlc
    apply hupd
    rw [hr]
    obtain ⟨lf0, lc0⟩ := r
    simp only at hlf hlc
    rw [hlf, hlc]
    rfl
  · intro e he heid hu hhas
    obtain ⟨c, hc⟩ := (updateQueue.has_iff hinv1.2.2.1).mp hhas
    rw [hself, updateQueue.entries_find hs.2.2.1 he heid] at hc
    have hcu : (e.core.Updating != true) = false := by
      show (e.Updating != true) = false
      rw [hu]
      rfl
    simp only [Option.map_some', Option.filter, hcu, Bool.false_eq_true, if_false] at hc
    cases hc

theorem C14_witness :
    inFlightScheduler.Inv ∧ repoA.ID ≠ 0 ∧
    (⟨repoA, 45000000000, 45000000000, 0⟩ : scheduledRepoUpdate) ∈
      inFlightScheduler.schedule.entries ∧
    ∃ s1, inFlightScheduler.dispatch repoA (some ⟨some 36000000000000, some 0⟩) false
        (fun _ => 100) = some s1 ∧
      ∃ e1 ∈ s1.schedule.entries, e1.Repo.ID = repoA.ID ∧
        ((36000000000000 : Time) - 0 = 10 * time.Hour → e1.Interval = 5 * time.Hour) := by
  refine ⟨by decide, by decide, by decide, ?_⟩
  obtain ⟨s1, h1, _, _, _, e1, he1, hid1, h10, _⟩ :=
    C14_dispatch_halves_elapsed_time inFlightScheduler repoA 36000000000000 0 false
      (fun _ => 100) ⟨repoA, 45000000000, 45000000000, 0⟩ (by decide) (by decide) (by decide)
      (by decide)
  exact ⟨s1, h1, e1, he1, hid1, h10⟩

theorem C15_witness :
    inFlightScheduler.Inv ∧ repoA.ID ≠ 0 ∧
    ∃ s1, inFlightScheduler.dispatch repoA (some ⟨some 5, none⟩) true (fun _ => 100) = some s1 ∧
      s1.schedule = inFlightScheduler.schedule ∧ ¬ s1.updateQueue.has repoA.ID := by
  refine ⟨by decide, by decide, ?_⟩
  obtain ⟨s1, h1, _, _, h4, _, h6, _⟩ :=
    C15_dispatch_recomputes_iff_both_timestamps inFlightScheduler repoA (some ⟨some 5, none⟩)
      true (fun _ => 100) (by decide) (by decide)
  exact ⟨s1, h1, h4 (Or.inr ⟨_, rfl, Or.inr rfl⟩),
    h6 ⟨repoA, priorityLow, 1, true, 1⟩ (by decide) (by decide) (by decide)⟩

/-- One round of the loop of `runSchedule`, for a root entry that is due under a clock
within a window shorter than `minDelay`: the entry is not due before `B` afterwards, so one
entry fewer is. -/
theorem pending_round {sch sch2 : repos.schedule} (hs : sch.Valid) (hi : sch.IntervalOk)
    {x : Ptr} {e : scheduledRepoUpdate} (hx : sch.heap[0]? = some x)
    (he : sch.mem[x]? = some e) {B now : Time} (hdue : e.Due < B)
    (hB : B ≤ now + minDelay) (ha : Time.Add now e.Interval = now + e.Interval)
    (hindex : sch2.index = sch.index)
    (hframe : ∀ id, (sch2.find id).map scheduledRepoUpdate.core =
      if id = e.Repo.ID then
        some ({ e with Due := Time.Add now e.Interval } : scheduledRepoUpdate).core
      else (sch.find id).map scheduledRepoUpdate.core) :
    sch2.pending B < sch.pending B := by
  obtain ⟨e0, he0, _, _, hget⟩ := schedule.wf_entry_sch hs.1 hx
  rw [he] at he0
  cases he0
  have hfind : sch.find e.Repo.ID = some e := schedule.find_of_heap_sch hs.1 hx he
  have hint := (hi e ((schedule.mem_entries_sch hs.1).mpr hfind)).1
  unfold schedule.pending
  rw [hindex]
  refine countP_lt_of _ _ _ e.Repo.ID ?_ ?_ ?_ ?_
  · exact List.mem_map.mpr ⟨(e.Repo.ID, x), IndexMap.get_eq_some hget, rfl⟩
  · rw [hfind]
    simp only [Option.map_some', dueBefore, scheduledRepoUpdate.core, decide_eq_true_eq]
    exact hdue
  · rw [hframe e.Repo.ID, if_pos rfl]
    simp only [dueBefore, scheduledRepoUpdate.core, decide_eq_false_iff_not]
    rw [ha]
    unfold Time Duration at *
    omega
  · intro id _ hid
    rw [hframe id] at hid
    by_cases hidd : id = e.Repo.ID
    · rw [if_pos hidd] at hid
      simp only [dueBefore, scheduledRepoUpdate.core, decide_eq_true_eq] at hid
      rw [ha] at hid
      unfold Time Duration at *
      omega
    · rw [if_neg hidd] at hid
      exact hid

/-- The loop of `runSchedule` is the loop with the log, the log left out. -/
theorem runScheduleLog_eq (clock : Clock) : ∀ (fuel k : Nat) (s : updateScheduler),
    runScheduleFor clock fuel k s =
      (runScheduleLog clock fuel k s).map (fun r => (r.1, r.2.1)) := by
  intro fuel
  induction fuel with
  | zero => intro k s; rfl
  | succ fuel ih =>
    intro k s
    unfold runScheduleFor runScheduleLog
    by_cases hlen : s.schedule.heap.length = 0
    · rw [if_pos hlen, if_pos hlen]
      rfl
    · rw [if_neg hlen, if_neg hlen]
      cases hx : s.schedule.heap[0]? with
      | none => rfl
      | some x =>
        simp only [Option.some_bind]
        cases he : s.schedule.mem[x]? with
        | none => rfl
        | some e =>
          simp only [Option.some_bind]
          by_cases hdue : Time.Before e.Due (Time.Add (clock k) time.Millisecond) = true
          · simp only [hdue, Bool.not_true, Bool.false_eq_true, if_false]
            cases henq : s.updateQueue.enqueue e.Repo priorityLow with
            | none => rfl
            | some r =>
              simp only [Option.some_bind]
              cases hmod : s.schedule.modify x
                  (fun e => { e with Due := Time.Add (clock (k + 1)) e.Interval }) with
              | none => rfl
              | some sch1 =>
                simp only [Option.some_bind]
                cases hfix : heap.Fix schedule.iface sch1 0 with
                | none => rfl
                | some sch2 =>
                  simp only [Option.some_bind]
                  rw [ih (k + 2) _, Option.map_map]
                  rfl
          · simp only [hdue, Bool.not_false, if_true]
            rfl

theorem runScheduleFor_of_log {clock : Clock} {fuel k : Nat} {s s1 : updateScheduler}
    {k1 : Nat} {L : List (configuredRepo2 × Nat)}
    (h : runScheduleLog clock fuel k s = some (s1, k1, L)) :
    runScheduleFor clock fuel k s = some (s1, k1) := by
  rw [runScheduleLog_eq, h]
  rfl

/-- The loop of `runSchedule` under a clock within a window shorter than `minDelay`. It
returns; its log `L` lists the repos it enqueues, one for each round, each with the number of
the clock reading that set the new Due of its entry. Every listed repo is that of an entry
that was due at the reading before, is listed once, and its entry only changes Due; the
other entries do not change; no entry is due at the last reading of the loop. -/
theorem runScheduleLog_moves (clock : Clock) (B : Time) (hB : clockWithin clock B) :
    ∀ (fuel k : Nat) (s : updateScheduler), s.Inv → s.schedule.pending B < fuel →
    ∃ s1 k1, ∃ L : List (configuredRepo2 × Nat),
      runScheduleLog clock fuel k s = some (s1, k1, L) ∧ s1.Inv ∧
      s1.sourceRepos = s.sourceRepos ∧ s1.schedule.index = s.schedule.index ∧
      s1.schedule.timer = s.schedule.timer ∧ s1.schedule.wakeup = s.schedule.wakeup ∧
      s1.schedule.heap.length = s.schedule.heap.length ∧
      s.updateQueue.calls (L.map (fun m => queueCall.enqueue m.1 priorityLow)) =
        some (s1.updateQueue, L.map (fun _ => none)) ∧
      (L.map (fun m => m.1.ID)).Nodup ∧
      (∀ m ∈ L, ∃ c, (s.schedule.find m.1.ID).map scheduledRepoUpdate.core = some c ∧
        c.Repo = m.1 ∧ k < m.2 ∧
        Time.Before c.Due (Time.Add (clock (m.2 - 1)) time.Millisecond) = true ∧
        (s1.schedule.find m.1.ID).map scheduledRepoUpdate.core =
          some { c with Due := Time.Add (clock m.2) c.Interval }) ∧
      (∀ id, id ∉ L.map (fun m => m.1.ID) →
        (s1.schedule.find id).map scheduledRepoUpdate.core =
          (s.schedule.find id).map scheduledRepoUpdate.core) ∧
      k1 = k + 2 * L.length + (if s.schedule.heap.length = 0 then 0 else 1) ∧
      (∀ e ∈ s1.schedule.entries, 0 < k1 ∧
        Time.Before e.Due (Time.Add (clock (k1 - 1)) time.Millisecond) = false) := by
  intro fuel
  induction fuel with
  | zero => intro k s _ h; omega
  | succ fuel ih =>
    intro k s hinv hfuel
    obtain ⟨hs, hi, hq⟩ := hinv
    unfold runScheduleLog
    by_cases hlen : s.schedule.heap.length = 0
    · rw [if_pos hlen]
      refine ⟨s, k, [], rfl, ⟨hs, hi, hq⟩, rfl, rfl, rfl, rfl, rfl, rfl, List.nodup_nil,
        (fun m hm => by cases hm), fun _ _ => rfl, by rw [if_pos hlen]; rfl, ?_⟩
      intro e he
      unfold schedule.entries at he
      rw [List.length_eq_zero.mp hlen] at he
      cases he
    · rw [if_neg hlen]
      have hx : s.schedule.heap[0]? = some s.schedule.heap[0] :=
        List.getElem?_eq_getElem (by omega)
      obtain ⟨e, he, _, hnz, hget⟩ := schedule.wf_entry_sch hs.1 hx
      rw [hx, Option.some_bind, he, Option.some_bind]
      have hfind : s.schedule.find e.Repo.ID = some e := schedule.find_of_heap_sch hs.1 hx he
      by_cases hdue : Time.Before e.Due (Time.Add (clock k) time.Millisecond) = true
      · simp only [hdue, Bool.not_true, Bool.false_eq_true, if_false]
        obtain ⟨q1, b, henq, hq1, _⟩ := updateQueue.enqueue_cases hq hnz priorityLow
        obtain ⟨sch1, sch2, hmod, hfix, hv2, hi2, hindex2, htimer2, hwake2, hlen2, hframe⟩ :=
          runSchedule_round hs hi hx he (clock (k + 1))
        rw [henq, Option.some_bind, hmod, Option.some_bind, hfix, Option.some_bind]
        have hint := (hi e ((schedule.mem_entries_sch hs.1).mpr hfind)).1
        have hint2 := (hi e ((schedule.mem_entries_sch hs.1).mpr hfind)).2
        have ha2 : Time.Add (clock (k + 1)) e.Interval = clock (k + 1) + e.Interval :=
          clockWithin_add hB (k + 1) (le_trans (by decide : (0 : Duration) ≤ minDelay) hint) hint2
        have hdue1 : e.Due < B := by
          have h1 : e.Due < Time.Add (clock k) time.Millisecond := by
            unfold Time.Before at hdue
            exact of_decide_eq_true hdue
          rw [clockWithin_millisecond hB k] at h1
          have h2 := (hB k).1
          unfold Time at *
          omega
        have hdec := pending_round hs hi hx he hdue1 (hB (k + 1)).2.1 ha2 hindex2 hframe
        obtain ⟨s1, k1, L, hrun, hinv1, hsrc, hidx, htim, hwk, hl, hcalls, hnd, hmoved, hothers,
            hk, hend⟩ :=
          ih (k + 2) { s with updateQueue := q1, schedule := sch2 } ⟨hv2, hi2, hq1⟩
            (show sch2.pending B < fuel by omega)
        have hnotin : e.Repo.ID ∉ L.map (fun m => m.1.ID) := by
          intro hmem
          obtain ⟨m, hm, hmid⟩ := List.mem_map.mp hmem
          obtain ⟨c, hc, _, _, hcdue, _⟩ := hmoved m hm
          simp only at hc hmid
          rw [hmid, hframe e.Repo.ID, if_pos rfl] at hc
          have hcd : c.Due = Time.Add (clock (k + 1)) e.Interval := by
            rw [← Option.some.inj hc]
            rfl
          have h1 : c.Due < Time.Add (clock (m.2 - 1)) time.Millisecond := by
            unfold Time.Before at hcdue
            exact of_decide_eq_true hcdue
          have h2 := (hB (m.2 - 1)).1
          have h3 := (hB (k + 1)).2.1
          rw [hcd, ha2, clockWithin_millisecond hB (m.2 - 1)] at h1
          unfold Time Duration at *
          omega
        have hk2 : k1 = k + 2 * ((e.Repo, k + 1) :: L).length +
            (if s.schedule.heap.length = 0 then 0 else 1) := by
          have h2 : ({ s with updateQueue := q1, schedule := sch2 } :
              updateScheduler).schedule.heap.length = s.schedule.heap.length := hlen2
          rw [h2] at hk
          rw [List.length_cons]
          omega
        refine ⟨s1, k1, (e.Repo, k + 1) :: L, by rw [hrun]; rfl, hinv1, hsrc, hidx.trans hindex2,
          htim.trans htimer2, hwk.trans hwake2, hl.trans hlen2, ?_, ?_, ?_, ?_, hk2, hend⟩
        · simp only [List.map_cons, updateQueue.calls, updateQueue.call, henq, Option.map_some',
            Option.some_bind]
          have hc2 : q1.calls (L.map (fun m => queueCall.enqueue m.1 priorityLow)) =
              some (s1.updateQueue, L.map (fun _ => none)) := hcalls
          rw [hc2]
          rfl
        · rw [List.map_cons, List.nodup_cons]
          exact ⟨hnotin, hnd⟩
        · intro m hm
          rcases List.mem_cons.mp hm with h | h
          · rw [h]
            refine ⟨e.core, by rw [hfind]; rfl, rfl, Nat.lt_succ_self k, hdue, ?_⟩
            have h1 := hothers e.Repo.ID hnotin
            have h2 : ({ s with updateQueue := q1, schedule := sch2 } :
                updateScheduler).schedule = sch2 := rfl
            rw [h2, hframe e.Repo.ID, if_pos rfl] at h1
            rw [h1]
            rfl
          · obtain ⟨c, hc, hrepo, hkm, hcdue, hafter⟩ := hmoved m h
            have hne : m.1.ID ≠ e.Repo.ID := by
              intro heq
              exact hnotin (List.mem_map.mpr ⟨m, h, heq⟩)
            have h2 : ({ s with updateQueue := q1, schedule := sch2 } :
                updateScheduler).schedule = sch2 := rfl
            rw [h2, hframe m.1.ID, if_neg hne] at hc
            exact ⟨c, hc, hrepo, by omega, hcdue, hafter⟩
        · intro id hid
          rw [List.map_cons, List.mem_cons, not_or] at hid
          have h1 := hothers id hid.2
          have h2 : ({ s with updateQueue := q1, schedule := sch2 } :
              updateScheduler).schedule = sch2 := rfl
          rw [h2, hframe id, if_neg hid.1] at h1
          exact h1
      · simp only [hdue, Bool.not_false, if_true]
        refine ⟨s, k + 1, [], rfl, ⟨hs, hi, hq⟩, rfl, rfl, rfl, rfl, rfl, rfl, List.nodup_nil,
          (fun m hm => by cases hm), fun _ _ => rfl, by rw [if_neg hlen]; rfl, ?_⟩
        intro e1 he1
        refine ⟨Nat.succ_pos k, ?_⟩
        have hf1 := (schedule.mem_entries_sch hs.1).mp he1
        have hmin := schedule.root_min_sch hs hx he hf1
        have hd0 : ¬ e.Due < Time.Add (clock k) time.Millisecond := by
          intro h
          apply hdue
          unfold Time.Before
          exact decide_eq_true h
        show Time.Before e1.Due (Time.Add (clock k) time.Millisecond) = false
        unfold Time.Before
        apply decide_eq_false
        unfold Time at *
        omega

end updateScheduler

/-- A fixed clock whose one reading is an instant of `time.Time` with `maxDelay` to go before
the end of the range. -/
theorem clockWithin_const (now : Time) (hmax : now + maxDelay ≤ time.maxTime) :
    clockWithin (fun _ => now) (now + time.Millisecond) := by
  intro k
  have h1 : time.Millisecond = 1000000 := by decide
  have h2 : minDelay = 45000000000 := by decide
  rw [h1, h2]
  dsimp only
  refine ⟨le_refl _, ?_, hmax⟩
  unfold Time at *
  omega

theorem map_core_map {α : Type} (o : Option scheduledRepoUpdate)
    (f : scheduledRepoUpdate → α) (hf : ∀ e, f e.core = f e) :
    (o.map scheduledRepoUpdate.core).map f = o.map f := by
  cases o with
  | none => rfl
  | some e => simp only [Option.map_some', hf]

namespace updateScheduler

/-- The method `runSchedule` under a clock within a window shorter than `minDelay`, with
more fuel than the schedule has entries: the loop as in `runScheduleLog_moves`, followed by
`rescheduleTimer`, which leaves the entries as they are; `L` is the log of the loop. -/
theorem runSchedule_moves {s : updateScheduler} (hs : s.Inv) {clock : Clock} {B : Time}
    (hB : clockWithin clock B) {fuel : Nat} (hfuel : s.schedule.heap.length < fuel) :
    ∃ s1 k1, ∃ L : List (configuredRepo2 × Nat),
      s.runSchedule fuel clock = some s1 ∧ s1.Inv ∧
      s1.sourceRepos = s.sourceRepos ∧ s1.schedule.index = s.schedule.index ∧
      s1.schedule.heap.length = s.schedule.heap.length ∧
      s.updateQueue.calls (L.map (fun m => queueCall.enqueue m.1 priorityLow)) =
        some (s1.updateQueue, L.map (fun _ => none)) ∧
      (L.map (fun m => m.1.ID)).Nodup ∧
      (∀ m ∈ L, ∃ c, (s.schedule.find m.1.ID).map scheduledRepoUpdate.core = some c ∧
        c.Repo = m.1 ∧ 0 < m.2 ∧
        Time.Before c.Due (Time.Add (clock (m.2 - 1)) time.Millisecond) = true ∧
        (s1.schedule.find m.1.ID).map scheduledRepoUpdate.core =
          some { c with Due := Time.Add (clock m.2) c.Interval }) ∧
      (∀ id, id ∉ L.map (fun m => m.1.ID) →
        (s1.schedule.find id).map scheduledRepoUpdate.core =
          (s.schedule.find id).map scheduledRepoUpdate.core) ∧
      (∀ e ∈ s1.schedule.entries, 0 < k1 ∧
        Time.Before e.Due (Time.Add (clock (k1 - 1)) time.Millisecond) = false) ∧
      ∃ s0, runScheduleLog clock fuel 0 s = some (s0, k1, L) := by
  have hp : s.schedule.pending B < fuel := by
    have h1 : s.schedule.pending B ≤ (s.schedule.index.map Prod.fst).length :=
      List.countP_le_length _
    rw [List.length_map, schedule.index_length_sch hs.1.1] at h1
    omega
  obtain ⟨s1, k1, L, hlog, hinv1, hsrc, hidx, _, _, hl, hcalls, hnd, hmoved, hothers, _,
      hend⟩ := runScheduleLog_moves clock B hB fuel 0 s hs hp
  have hrun := runScheduleFor_of_log hlog
  obtain ⟨sch, hr, hmem, hheap, hindex, _⟩ :=
    schedule.rescheduleTimer_spec hinv1.1.1 (clock k1)
  obtain ⟨hv2, hi2⟩ := schedule.rescheduleTimer_inv hinv1.1 hinv1.2.1 hr
  have hfe : ∀ id, sch.find id = s1.schedule.find id := schedule.find_of_eq hmem hindex
  refine ⟨{ s1 with schedule := sch }, k1, L, ?_, ⟨hv2, hi2, hinv1.2.2⟩, hsrc,
    hindex.trans hidx, ?_, hcalls, hnd, ?_, ?_, ?_, ⟨s1, hlog⟩⟩
  · simp only [runSchedule, hrun, Option.some_bind, hr, Option.map_some']
  · show sch.heap.length = _
    rw [hheap]
    exact hl
  · intro m hm
    obtain ⟨c, hc, hrepo, hk, hdue, hafter⟩ := hmoved m hm
    refine ⟨c, hc, hrepo, hk, hdue, ?_⟩
    show (sch.find m.1.ID).map scheduledRepoUpdate.core = _
    rw [hfe]
    exact hafter
  · intro id hid
    show (sch.find id).map scheduledRepoUpdate.core = _
    rw [hfe]
    exact hothers id hid
  · intro e he
    have he1 : e ∈ s1.schedule.entries := by
      rw [← schedule.entries_of_eq hmem hheap]
      exact he
    exact hend e he1

end updateScheduler

theorem some_iff_of_map_eq {α β γ : Type} {o1 o2 : Option α} {f : α → β} {g : α → γ}
    (h : o1.map f = o2.map f) : (∃ c, o1.map g = some c) ↔ (∃ c, o2.map g = some c) := by
  cases o1 <;> cases o2 <;> simp at h ⊢

namespace updateScheduler

/-- A round of the loop on `stuckScheduler` under the fixed clock reading `lastSecond` ends in
`stuckScheduler`: the root is due, its repo is queued already, and its new Due is the old. -/
theorem stuck_round (fuel k : Nat) :
    runScheduleFor (fun _ => lastSecond) (fuel + 1) k stuckScheduler =
      runScheduleFor (fun _ => lastSecond) fuel (k + 2) stuckScheduler := by
  rfl

theorem stuck_start (fuel : Nat) :
    runScheduleFor (fun _ => lastSecond) (fuel + 2) 0 dueScheduler =
      runScheduleFor (fun _ => lastSecond) fuel 4 stuckScheduler := by
  rfl

theorem stuck_never_returns : ∀ fuel k : Nat,
    runScheduleFor (fun _ => lastSecond) fuel k stuckScheduler = none
  | 0, _ => rfl
  | fuel + 1, k => by
    rw [stuck_round]
    exact stuck_never_returns fuel (k + 2)

/-- Under the fixed clock reading `lastSecond` the loop of `runSchedule` on `dueScheduler`
does not return, whatever the number of rounds allotted. -/
theorem runScheduleFor_lastSecond : ∀ fuel : Nat,
    runScheduleFor (fun _ => lastSecond) fuel 0 dueScheduler = none
  | 0 => rfl
  | 1 => by decide
  | fuel + 2 => by
    rw [stuck_start]
    exact stuck_never_returns fuel 4

theorem stuck_rounds : ∀ n k : Nat,
    runScheduleRounds (fun _ => lastSecond) n k stuckScheduler =
      some (stuckScheduler, k + 2 * n, false)
  | 0, _ => rfl
  | n + 1, k => by
    have h : runScheduleRounds (fun _ => lastSecond) (n + 1) k stuckScheduler =
        runScheduleRounds (fun _ => lastSecond) n (k + 2) stuckScheduler := rfl
    rw [h, stuck_rounds n (k + 2)]
    have hk : k + 2 + 2 * n = k + 2 * (n + 1) := by omega
    rw [hk]

/-- After two rounds and any number of further rounds, the loop on `dueScheduler` under the
fixed clock reading `lastSecond` is in the state `stuckScheduler` and has not been left. -/
theorem runScheduleRounds_lastSecond (n : Nat) :
    runScheduleRounds (fun _ => lastSecond) (n + 2) 0 dueScheduler =
      some (stuckScheduler, 4 + 2 * n, false) := by
  have h : runScheduleRounds (fun _ => lastSecond) (n + 2) 0 dueScheduler =
      runScheduleRounds (fun _ => lastSecond) n 4 stuckScheduler := rfl
  rw [h, stuck_rounds]

/-- C16, counterexample. The fixed clock reading is `lastSecond`, the first instant of the
last second of the range of `time.Time`, and the schedule, reached from the fresh one by two
upserts, holds `repoA` and `repoB`, both due. The pass does not end: `now.Add(45s)` is `now` again, so an entry that has been moved is
as due as before. After two rounds and any number of further rounds the loop is in the same
state, no round panics, and the loop has not been left; `runSchedule` returns for no amount
of fuel. -/
theorem C16_counterexample_pass_never_ends :
    NewUpdateScheduler.scheduleCalls
      [scheduleCall.upsert repoA (fun _ => 0), scheduleCall.upsert repoB (fun _ => 10)] =
      some dueScheduler ∧
    dueScheduler.Inv ∧ time.minTime ≤ lastSecond ∧ lastSecond ≤ time.maxTime ∧
    Time.Add lastSecond 45000000000 = lastSecond ∧
    (∀ n, runScheduleRounds (fun _ => lastSecond) (n + 2) 0 dueScheduler =
      some (stuckScheduler, 4 + 2 * n, false)) ∧
    (∀ e ∈ stuckScheduler.schedule.entries, e.Due < lastSecond + time.Millisecond) ∧
    ∀ fuel, dueScheduler.runSchedule fuel (fun _ => lastSecond) = none := by
  refine ⟨by decide, by decide, by decide, by decide, by decide,
    runScheduleRounds_lastSecond, by decide, ?_⟩
  intro fuel
  unfold runSchedule
  rw [runScheduleFor_lastSecond]
  rfl

/-- C16, amended. On a state with the heap invariants, one runSchedule pass under the fixed
clock reading `now`, where `now` is at least `maxDelay` (8h) before the end of the range of
`time.Time`, with more fuel than the schedule has entries, returns. The list `L` of the
repos it enqueues at low priority, each once, holds exactly the repos of the entries whose
Due was earlier than now + 1ms; every other entry is unchanged, every entry keeps its Repo
and Interval (so the set of scheduled IDs is the same), and no entry is due earlier than
now + 1ms afterwards. -/
theorem C16_runSchedule_moves_exactly_the_due (s : updateScheduler) (now : Time) (fuel : Nat)
    (hs : s.Inv) (hmax : now + maxDelay ≤ time.maxTime)
    (hfuel : s.schedule.heap.length < fuel) :
    ∃ s1, ∃ L : List configuredRepo2,
      s.runSchedule fuel (fun _ => now) = some s1 ∧ s1.Inv ∧
      s.updateQueue.calls (L.map (fun R => queueCall.enqueue R priorityLow)) =
        some (s1.updateQueue, L.map (fun _ => none)) ∧
      (L.map (fun R => R.ID)).Nodup ∧
      (∀ R, R ∈ L ↔ ∃ e ∈ s.schedule.entries, e.Repo = R ∧ e.Due < now + time.Millisecond) ∧
      (∀ id e, s.schedule.find id = some e → ¬ e.Due < now + time.Millisecond →
        (s1.schedule.find id).map scheduledRepoUpdate.core = some e.core) ∧
      (∀ id, (s1.schedule.find id).map (fun e => (e.Repo, e.Interval)) =
        (s.schedule.find id).map (fun e => (e.Repo, e.Interval))) ∧
      (∀ id, s1.schedule.has id ↔ s.schedule.has id) ∧
      (∀ e1 ∈ s1.schedule.entries, ¬ e1.Due < now + time.Millisecond) := by
  obtain ⟨s1, k1, L, hrun, hinv1, _, _, _, hcalls, hnd, hmoved, hothers, hend, _⟩ :=
    runSchedule_moves hs (clockWithin_const now hmax) hfuel
  have hbefore : ∀ (d : Time) (k : Nat),
      Time.Before d (Time.Add ((fun _ => now : Clock) k) time.Millisecond) = true ↔
        d < now + time.Millisecond := by
    intro d k
    have ha : Time.Add now time.Millisecond = now + time.Millisecond :=
      clockWithin_millisecond (clockWithin_const now hmax) 0
    show Time.Before d (Time.Add now time.Millisecond) = true ↔ _
    rw [ha]
    unfold Time.Before
    exact decide_eq_true_iff
  have hend1 : ∀ e1 ∈ s1.schedule.entries, ¬ e1.Due < now + time.Millisecond := by
    intro e1 he1 hlt
    have h1 := (hend e1 he1).2
    rw [(hbefore e1.Due (k1 - 1)).mpr hlt] at h1
    cases h1
  have hin : ∀ id, id ∈ L.map (fun m => m.1.ID) → ∀ e, s.schedule.find id = some e →
      (e.Repo, 0) ∈ L.map (fun m => (m.1, 0)) ∧ e.Due < now + time.Millisecond := by
    intro id hid e he
    obtain ⟨m, hm, hmid⟩ := List.mem_map.mp hid
    obtain ⟨c, hc, hrepo, _, hdue, _⟩ := hmoved m hm
    rw [hmid, he] at hc
    simp only [Option.map_some', Option.some.injEq] at hc
    have hcr : e.Repo = m.1 := by
      rw [← hrepo, ← hc]
      rfl
    have hcd : c.Due = e.Due := by
      rw [← hc]
      rfl
    rw [hcd] at hdue
    exact ⟨List.mem_map.mpr ⟨m, hm, by rw [hcr]⟩, (hbefore e.Due (m.2 - 1)).mp hdue⟩
  have hpair : ∀ id, (s1.schedule.find id).map (fun e => (e.Repo, e.Interval)) =
      (s.schedule.find id).map (fun e => (e.Repo, e.Interval)) := by
    intro id
    rw [← map_core_map (s1.schedule.find id) (fun e => (e.Repo, e.Interval)) (fun _ => rfl),
      ← map_core_map (s.schedule.find id) (fun e => (e.Repo, e.Interval)) (fun _ => rfl)]
    by_cases hid : id ∈ L.map (fun m => m.1.ID)
    · obtain ⟨m, hm, hmid⟩ := List.mem_map.mp hid
      obtain ⟨c, hc, _, _, _, hafter⟩ := hmoved m hm
      rw [hmid] at hc hafter
      rw [hc, hafter]
      rfl
    · rw [hothers id hid]
  refine ⟨s1, L.map (fun m => m.1), hrun, hinv1, ?_, ?_, ?_, ?_, hpair, ?_, hend1⟩
  · rw [List.map_map, List.map_map]
    exact hcalls
  · rw [List.map_map]
    exact hnd
  · intro R
    constructor
    · intro hR
      obtain ⟨m, hm, hmR⟩ := List.mem_map.mp hR
      obtain ⟨c, hc, hrepo, _, hdue, _⟩ := hmoved m hm
      obtain ⟨e, he, _, _, hcore⟩ := schedule.find_core_some_sch hs.1.1 hc
      refine ⟨e, he, ?_, ?_⟩
      · rw [← hmR, ← hrepo, ← hcore]
        rfl
      · have hcd : c.Due = e.Due := by
          rw [← hcore]
          rfl
        rw [hcd] at hdue
        exact (hbefore e.Due (m.2 - 1)).mp hdue
    · rintro ⟨e, he, heR, hdue⟩
      have hfind := (schedule.mem_entries_sch hs.1.1).mp he
      by_cases hid : e.Repo.ID ∈ L.map (fun m => m.1.ID)
      · have h1 := (hin _ hid e hfind).1
        obtain ⟨m, hm, hmm⟩ := List.mem_map.mp h1
        simp only [Prod.mk.injEq, and_true] at hmm
        exact List.mem_map.mpr ⟨m, hm, hmm.trans heR⟩
      · have h1 := hothers _ hid
        rw [hfind] at h1
        obtain ⟨e1, he1, _, _, hcore1⟩ := schedule.find_core_some_sch hinv1.1.1 h1
        have hd1 : e1.Due = e.Due := by
          have := congrArg scheduledRepoUpdate.Due hcore1
          exact this
        exact (hend1 e1 he1 (by rw [hd1]; exact hdue)).elim
  · intro id e he hnd1
    have hid : id ∉ L.map (fun m => m.1.ID) := fun h => hnd1 (hin id h e he).2
    rw [hothers id hid, he]
    rfl
  · intro id
    rw [schedule.has_iff_sch hinv1.1.1, schedule.has_iff_sch hs.1.1]
    exact some_iff_of_map_eq (hpair id)

/-- C17, counterexample. The pass at the instant 45s moves `repoB`, whose entry was due
10ns later with Interval 45s: its Due afterwards is 90s, the reading plus the Interval, and
not its Due before plus the Interval. And the pass at an instant ten seconds before the last
second of the range of `time.Time` moves `repoB` and leaves it due at that last second: ten
seconds after the reading, neither the reading nor the Due before plus the Interval. -/
theorem C17_counterexample_due_restarts_from_now :
    dueScheduler.Inv ∧
    dueScheduler.runSchedule 5 (fun _ => 45000000000) = some exampleScheduler ∧
    ¬ dueScheduler.updateQueue.has repoB.ID ∧ exampleScheduler.updateQueue.has repoB.ID ∧
    (∃ e ∈ dueScheduler.schedule.entries, e.Repo = repoB ∧
      ∃ e1 ∈ exampleScheduler.schedule.entries, e1.Repo = repoB ∧
        e1.Due ≠ e.Due + e.Interval ∧ e1.Due = 45000000000 + e.Interval) ∧
    (9223372036854775797000000000 : Time) ≤ time.maxTime ∧
    (dueScheduler.runSchedule 5 (fun _ => 9223372036854775797000000000)).map
      (fun s1 => ((s1.updateQueue.find repoB.ID).isSome,
        (s1.schedule.find repoB.ID).map (fun e => (e.Interval, e.Due)))) =
      some (true, some (45000000000, 9223372036854775797000000000 + 10000000000)) := by
  decide

/-- C17, amended. On a state with the heap invariants, in a runSchedule pass whose clock
readings lie within a window shorter than `minDelay` (a fixed clock in particular), each at
least `maxDelay` before the end of the range of `time.Time`, and that has more fuel than the
schedule has entries: every entry that the pass moves into the Update Queue keeps its
Interval, and its Due afterwards is the clock reading made right after it was enqueued plus
its Interval. `L` is the log of the loop: the repos it hands to `enqueue`, in the order of
the rounds, each with the number of that reading; the entry was due at the reading before.
An entry whose repo is not in the log is unchanged, and was not due at the last reading of
the loop. -/
theorem C17_moved_entry_due_is_reading_plus_interval (s : updateScheduler) (clock : Clock)
    (B : Time) (fuel : Nat) (hs : s.Inv) (hB : clockWithin clock B)
    (hfuel : s.schedule.heap.length < fuel) :
    ∃ s1 k1, ∃ L : List (configuredRepo2 × Nat),
      s.runSchedule fuel clock = some s1 ∧
      (runScheduleLog clock fuel 0 s).map (fun r => r.2) = some (k1, L) ∧
      (∀ m ∈ L, ∃ e ∈ s.schedule.entries, e.Repo = m.1 ∧
        e.Due < clock (m.2 - 1) + time.Millisecond ∧
        ∃ e1 ∈ s1.schedule.entries, e1.Repo = m.1 ∧ e1.Interval = e.Interval ∧
          e1.Due = clock m.2 + e.Interval) ∧
      (∀ e ∈ s.schedule.entries, e.Repo.ID ∉ L.map (fun m => m.1.ID) →
        ¬ e.Due < clock (k1 - 1) + time.Millisecond ∧
        (s1.schedule.find e.Repo.ID).map scheduledRepoUpdate.core = some e.core) := by
  obtain ⟨s1, k1, L, hrun, hinv1, _, _, _, _, _, hmoved, hothers, hend, s0, hlog⟩ :=
    runSchedule_moves hs hB hfuel
  refine ⟨s1, k1, L, hrun, by rw [hlog]; rfl, ?_, ?_⟩
  · intro m hm
    obtain ⟨c, hc, hrepo, _, hdue, hafter⟩ := hmoved m hm
    obtain ⟨e, he, _, _, hcore⟩ := schedule.find_core_some_sch hs.1.1 hc
    obtain ⟨e1, he1, _, _, hcore1⟩ := schedule.find_core_some_sch hinv1.1.1 hafter
    have hcr : c.Repo = e.Repo := by rw [← hcore]; rfl
    have hci : c.Interval = e.Interval := by rw [← hcore]; rfl
    have hcd : c.Due = e.Due := by rw [← hcore]; rfl
    have hiv : minDelay ≤ e.Interval ∧ e.Interval ≤ maxDelay := hs.2.1 e he
    refine ⟨e, he, hcr.symm.trans hrepo, ?_, e1, he1, ?_, ?_, ?_⟩
    · rw [hcd, clockWithin_millisecond hB] at hdue
      unfold Time.Before at hdue
      exact of_decide_eq_true hdue
    · have := congrArg scheduledRepoUpdate.Repo hcore1
      exact this.trans hrepo
    · have := congrArg scheduledRepoUpdate.Interval hcore1
      exact this.trans hci
    · have h1 : e1.Due = Time.Add (clock m.2) c.Interval :=
        congrArg scheduledRepoUpdate.Due hcore1
      rw [h1, hci]
      exact clockWithin_add hB m.2
        (le_trans (by decide : (0 : Duration) ≤ minDelay) hiv.1) hiv.2
  · intro e he hnot
    have hfind := schedule.entries_find_sch hs.1.1 he rfl
    have h1 := hothers _ hnot
    rw [hfind] at h1
    refine ⟨?_, h1⟩
    obtain ⟨e1, he1, _, _, hcore1⟩ := schedule.find_core_some_sch hinv1.1.1 h1
    have hd1 : e1.Due = e.Due := by
      have := congrArg scheduledRepoUpdate.Due hcore1
      exact this
    have h2 := (hend e1 he1).2
    rw [hd1, clockWithin_millisecond hB] at h2
    unfold Time.Before at h2
    exact of_decide_eq_false h2

theorem C16_witness :
    dueScheduler.Inv ∧ 45000000000 + maxDelay ≤ time.maxTime ∧
    dueScheduler.schedule.heap.length < 5 ∧
    ∃ s1, ∃ L : List configuredRepo2,
      dueScheduler.runSchedule 5 (fun _ => 45000000000) = some s1 ∧
      (∀ R, R ∈ L ↔ ∃ e ∈ dueScheduler.schedule.entries,
        e.Repo = R ∧ e.Due < 45000000000 + time.Millisecond) ∧
      (∀ e1 ∈ s1.schedule.entries, ¬ e1.Due < 45000000000 + time.Millisecond) := by
  refine ⟨by decide, by decide, by decide, ?_⟩
  obtain ⟨s1, L, h1, _, _, _, h5, _, _, _, h9⟩ :=
    C16_runSchedule_moves_exactly_the_due dueScheduler 45000000000 5 (by decide) (by decide)
      (by decide)
  exact ⟨s1, L, h1, h5, h9⟩

/-- The theorem at `exampleScheduler` under the fixed clock reading 90s: both entries are due
and both repos are queued already; both are in the log, `repoB` first, and both end with
Due = 90s + 45s. -/
theorem C17_witness :
    exampleScheduler.Inv ∧ exampleScheduler.schedule.heap.length < 5 ∧
    clockWithin (fun _ => 90000000000) (90000000000 + time.Millisecond) ∧
    exampleScheduler.updateQueue.has repoA.ID ∧ exampleScheduler.updateQueue.has repoB.ID ∧
    ∃ s1 k1, ∃ L : List (configuredRepo2 × Nat),
      exampleScheduler.runSchedule 5 (fun _ => 90000000000) = some s1 ∧
      (runScheduleLog (fun _ => 90000000000) 5 0 exampleScheduler).map (fun r => r.2) =
        some (k1, L) ∧
      (k1, L) = (5, [(repoB, 1), (repoA, 3)]) ∧
      ∀ m ∈ L, ∃ e ∈ exampleScheduler.schedule.entries, e.Repo = m.1 ∧
        e.Due < 90000000000 + time.Millisecond ∧
        ∃ e1 ∈ s1.schedule.entries, e1.Repo = m.1 ∧ e1.Interval = e.Interval ∧
          e1.Due = 90000000000 + e.Interval := by
  refine ⟨by decide, by decide, clockWithin_const 90000000000 (by decide), by decide,
    by decide, ?_⟩
  obtain ⟨s1, k1, L, h1, h2, h3, _⟩ :=
    C17_moved_entry_due_is_reading_plus_interval exampleScheduler (fun _ => 90000000000)
      (90000000000 + time.Millisecond) 5 (by decide)
      (clockWithin_const 90000000000 (by decide)) (by decide)
  have h4 : (runScheduleLog (fun _ => 90000000000) 5 0 exampleScheduler).map (fun r => r.2) =
      some (5, [(repoB, 1), (repoA, 3)]) := by decide
  exact ⟨s1, k1, L, h1, h2, Option.some.inj (h2.symm.trans h4), h3⟩

theorem upsert_eq_add (s : updateScheduler) (r : Repo) (clock : Clock) :
    s.upsert r clock = s.add (configuredRepo2FromRepo r) clock := rfl

theorem remove_eq_drop (s : updateScheduler) (r : Repo) (clock : Clock) :
    s.remove r clock = s.drop (configuredRepo2FromRepo r) clock := rfl

theorem scheduled_some {s : updateScheduler} {id : Nat} {c : scheduledRepoUpdate}
    (h : s.scheduled id = some c) : ∃ e, s.schedule.find id = some e ∧ e.core = c := by
  unfold scheduled at h
  cases hf : s.schedule.find id with
  | none => rw [hf] at h; cases h
  | some e =>
    rw [hf] at h
    exact ⟨e, rfl, Option.some.inj h⟩

theorem queued_some {s : updateScheduler} {id : Nat} {c : repoUpdate}
    (h : s.queued id = some c) : ∃ e, s.updateQueue.find id = some e ∧ e.core = c := by
  unfold queued at h
  cases hf : s.updateQueue.find id with
  | none => rw [hf] at h; cases h
  | some e =>
    rw [hf] at h
    exact ⟨e, rfl, Option.some.inj h⟩

theorem scheduled_none {s : updateScheduler} {id : Nat} :
    s.scheduled id = none ↔ s.schedule.find id = none := by
  unfold scheduled
  exact Option.map_eq_none'

theorem queued_none {s : updateScheduler} {id : Nat} :
    s.queued id = none ↔ s.updateQueue.find id = none := by
  unfold queued
  exact Option.map_eq_none'

/-- The effect of `add` by repo ID: the repo is scheduled and queued afterwards, a schedule
entry is new (Interval `minDelay`) or keeps Interval and Due, a queue entry is new (low
priority, not updating) or keeps its Updating flag, and the entries of other IDs stay. -/
theorem add_spec {s : updateScheduler} (hs : s.Inv) {repo : configuredRepo2}
    (hid : repo.ID ≠ 0) (clock : Clock) :
    ∃ s1, s.add repo clock = some s1 ∧ s1.Inv ∧ s1.sourceRepos = s.sourceRepos ∧
      (∀ id, id ≠ repo.ID → s1.scheduled id = s.scheduled id ∧ s1.queued id = s.queued id) ∧
      (∃ c, s1.scheduled repo.ID = some c ∧ c.Repo = repo ∧
        (s.scheduled repo.ID = none →
          c.Interval = minDelay ∧ c.Due = Time.Add (clock 0) minDelay) ∧
        (∀ c0, s.scheduled repo.ID = some c0 → c.Interval = c0.Interval ∧ c.Due = c0.Due)) ∧
      (∃ c, s1.queued repo.ID = some c ∧
        (s.queued repo.ID = none →
          c.Repo = repo ∧ c.Priority = priorityLow ∧ c.Updating = false) ∧
        (∀ c0, s.queued repo.ID = some c0 → c.Updating = c0.Updating ∧
          (c0.Updating = true → c = c0))) := by
  obtain ⟨hv, hi, hq⟩ := hs
  obtain ⟨sch, b1, hup, hv1, hi1, hfr1, c1, hc1, hr1, hn1, hs1⟩ :=
    schedule.upsert_frame hv hi hid clock
  obtain ⟨q1, b2, henq, hq1, hfr2, c2, hc2, hn2, hs2⟩ :=
    updateQueue.enqueue_frame hq hid priorityLow
  refine ⟨{ s with schedule := sch, updateQueue := q1 }, ?_, ⟨hv1, hi1, hq1⟩, rfl,
    fun id hne => ⟨hfr1 id hne, hfr2 id hne⟩, ⟨c1, hc1, hr1, ?_, ?_⟩, ⟨c2, hc2, ?_, ?_⟩⟩
  · simp only [add, hup, Option.some_bind, henq, Option.map_some']
  · intro h
    exact hn1 (scheduled_none.mp h)
  · intro c0 h
    obtain ⟨e, he, hcore⟩ := scheduled_some h
    rw [← hcore]
    exact hs1 e he
  · intro h
    exact hn2 (queued_none.mp h)
  · intro c0 h
    obtain ⟨e, he, hcore⟩ := queued_some h
    rw [← hcore]
    exact hs2 e he

/-- The effect of `drop` by repo ID: the repo is not scheduled afterwards, its queue entry
stays exactly when it is updating, and the entries of other IDs stay. -/
theorem drop_spec {s : updateScheduler} (hs : s.Inv) {repo : configuredRepo2}
    (hid : repo.ID ≠ 0) (clock : Clock) :
    ∃ s1, s.drop repo clock = some s1 ∧ s1.Inv ∧ s1.sourceRepos = s.sourceRepos ∧
      (∀ id, id ≠ repo.ID → s1.scheduled id = s.scheduled id ∧ s1.queued id = s.queued id) ∧
      s1.scheduled repo.ID = none ∧
      s1.queued repo.ID = (s.queued repo.ID).filter (fun c => c.Updating) := by
  obtain ⟨hv, hi, hq⟩ := hs
  obtain ⟨sch, b1, hrem, hv1, hi1, hfr1, hself1⟩ := schedule.remove_frame_sch hv hi hid clock
  obtain ⟨q1, b2, hrem2, hq1, hfr2, hself2⟩ := updateQueue.remove_frame hq hid false
  refine ⟨{ s with schedule := sch, updateQueue := q1 }, ?_, ⟨hv1, hi1, hq1⟩, rfl,
    fun id hne => ⟨hfr1 id hne, hfr2 id hne⟩, scheduled_none.mpr hself1, ?_⟩
  · simp only [drop, hrem, Option.some_bind, hrem2, Option.map_some']
  · have hf : (fun c : repoUpdate => c.Updating != false) = (fun c => c.Updating) := by
      funext c
      cases c.Updating <;> rfl
    rw [hf] at hself2
    exact hself2

end updateScheduler

theorem configuredRepo2FromRepo_ID (r : Repo) : (configuredRepo2FromRepo r).ID = r.ID := by
  unfold configuredRepo2FromRepo
  cases r.CloneURLs <;> rfl

namespace updateScheduler

/-- The method `Update` on a list of repos with non-zero, pairwise distinct IDs: it returns;
a deleted repo is not scheduled afterwards and its queue entry stays exactly when it was
updating; a repo that is not deleted is scheduled and queued afterwards; the entries of IDs
that are not in the list stay. -/
theorem Update_spec : ∀ (rs : List Repo) (s : updateScheduler) (clockAt : Nat → Clock),
    s.Inv → (∀ r ∈ rs, r.ID ≠ 0) → (rs.map (fun r => r.ID)).Nodup →
    ∃ s1, s.Update rs clockAt = some s1 ∧ s1.Inv ∧ s1.sourceRepos = s.sourceRepos ∧
      (∀ id, id ∉ rs.map (fun r => r.ID) →
        s1.scheduled id = s.scheduled id ∧ s1.queued id = s.queued id) ∧
      (∀ r ∈ rs, r.IsDeleted = true →
        s1.scheduled r.ID = none ∧
        s1.queued r.ID = (s.queued r.ID).filter (fun c => c.Updating)) ∧
      (∀ r ∈ rs, r.IsDeleted = false →
        (∃ c, s1.scheduled r.ID = some c ∧ c.Repo = configuredRepo2FromRepo r ∧
          (s.scheduled r.ID = none → c.Interval = minDelay) ∧
          (∀ c0, s.scheduled r.ID = some c0 → c.Interval = c0.Interval ∧ c.Due = c0.Due)) ∧
        (∃ c, s1.queued r.ID = some c ∧
          (s.queued r.ID = none →
            c.Repo = configuredRepo2FromRepo r ∧ c.Priority = priorityLow ∧
            c.Updating = false) ∧
          (∀ c0, s.queued r.ID = some c0 → c.Updating = c0.Updating ∧
            (c0.Updating = true → c = c0)))) := by
  intro rs
  induction rs with
  | nil =>
    intro s clockAt hs _ _
    exact ⟨s, rfl, hs, rfl, fun _ _ => ⟨rfl, rfl⟩, (fun r hr => by cases hr),
      (fun r hr => by cases hr)⟩
  | cons r rest ih =>
    intro s clockAt hs hnz hnd
    rw [List.map_cons, List.nodup_cons] at hnd
    obtain ⟨hrnot, hndrest⟩ := hnd
    have hrid : (configuredRepo2FromRepo r).ID = r.ID := configuredRepo2FromRepo_ID r
    have hid : (configuredRepo2FromRepo r).ID ≠ 0 := by
      rw [hrid]
      exact hnz r (List.mem_cons_self r rest)
    have hnzrest : ∀ r1 ∈ rest, r1.ID ≠ 0 := fun r1 h => hnz r1 (List.mem_cons_of_mem r h)
    have hne : ∀ r1 ∈ rest, r1.ID ≠ r.ID := by
      intro r1 h1 heq
      exact hrnot (List.mem_map.mpr ⟨r1, h1, heq⟩)
    cases hdel : r.IsDeleted with
    | true =>
      obtain ⟨sa, hstep, hinva, hsrca, hfra, hscha, hqa⟩ := drop_spec hs hid (clockAt 0)
      rw [hrid] at hfra hscha hqa
      obtain ⟨s1, hrun, hinv1, hsrc1, hfr1, hdel1, hkeep1⟩ :=
        ih sa (fun i => clockAt (i + 1)) hinva hnzrest hndrest
      refine ⟨s1, ?_, hinv1, hsrc1.trans hsrca, ?_, ?_, ?_⟩
      · unfold Update
        rw [hdel, if_pos rfl, remove_eq_drop, hstep, Option.some_bind]
        exact hrun
      · intro id hidn
        rw [List.map_cons, List.mem_cons, not_or] at hidn
        exact ⟨(hfr1 id hidn.2).1.trans (hfra id hidn.1).1,
          (hfr1 id hidn.2).2.trans (hfra id hidn.1).2⟩
      · intro r1 hr1 hd1
        rcases List.mem_cons.mp hr1 with h | h
        · rw [h]
          exact ⟨(hfr1 r.ID hrnot).1.trans hscha, (hfr1 r.ID hrnot).2.trans hqa⟩
        · obtain ⟨h1, h2⟩ := hdel1 r1 h hd1
          rw [(hfra r1.ID (hne r1 h)).2] at h2
          exact ⟨h1, h2⟩
      · intro r1 hr1 hd1
        rcases List.mem_cons.mp hr1 with h | h
        · rw [h, hdel] at hd1
          cases hd1
        · have h3 := hkeep1 r1 h hd1
          rw [(hfra r1.ID (hne r1 h)).1, (hfra r1.ID (hne r1 h)).2] at h3
          exact h3
    | false =>
      obtain ⟨sa, hstep, hinva, hsrca, hfra, hscha, hqa⟩ := add_spec hs hid (clockAt 0)
      rw [hrid] at hfra hscha hqa
      obtain ⟨s1, hrun, hinv1, hsrc1, hfr1, hdel1, hkeep1⟩ :=
        ih sa (fun i => clockAt (i + 1)) hinva hnzrest hndrest
      refine ⟨s1, ?_, hinv1, hsrc1.trans hsrca, ?_, ?_, ?_⟩
      · unfold Update
        rw [hdel]
        simp only [Bool.false_eq_true, if_false]
        rw [upsert_eq_add, hstep, Option.some_bind]
        exact hrun
      · intro id hidn
        rw [List.map_cons, List.mem_cons, not_or] at hidn
        exact ⟨(hfr1 id hidn.2).1.trans (hfra id hidn.1).1,
          (hfr1 id hidn.2).2.trans (hfra id hidn.1).2⟩
      · intro r1 hr1 hd1
        rcases List.mem_cons.mp hr1 with h | h
        · rw [h, hdel] at hd1
          cases hd1
        · obtain ⟨h1, h2⟩ := hdel1 r1 h hd1
          rw [(hfra r1.ID (hne r1 h)).2] at h2
          exact ⟨h1, h2⟩
      · intro r1 hr1 hd1
        rcases List.mem_cons.mp hr1 with h | h
        · rw [h]
          obtain ⟨c1, hc1, hr1c, hn1, hs1⟩ := hscha
          obtain ⟨c2, hc2, hn2, hs2⟩ := hqa
          refine ⟨⟨c1, (hfr1 r.ID hrnot).1.trans hc1, hr1c, fun hh => (hn1 hh).1, hs1⟩,
            ⟨c2, (hfr1 r.ID hrnot).2.trans hc2, hn2, hs2⟩⟩
        · have h3 := hkeep1 r1 h hd1
          rw [(hfra r1.ID (hne r1 h)).1, (hfra r1.ID (hne r1 h)).2] at h3
          exact h3

theorem queue_has_iff {s : updateScheduler} (hs : s.Inv) {id : Nat} :
    s.updateQueue.has id ↔ ∃ c, s.queued id = some c :=
  updateQueue.has_iff hs.2.2.1

theorem schedule_has_iff {s : updateScheduler} (hs : s.Inv) {id : Nat} :
    s.schedule.has id ↔ ∃ c, s.scheduled id = some c :=
  schedule.has_iff_sch hs.1.1

/-- C18, counterexample. `repoA` is scheduled and in flight; after Update of its deleted
record it is still in the Update Queue. -/
theorem C18_counterexample_in_flight_stays_queued :
    inFlightScheduler.Inv ∧ (∀ r ∈ [deletedRepoA], r.ID ≠ 0) ∧
    ([deletedRepoA].map (fun r => r.ID)).Nodup ∧ deletedRepoA.IsDeleted = true ∧
    inFlightScheduler.Update [deletedRepoA] (fun _ _ => 7) = some inFlightSchedulerDeleted ∧
    inFlightSchedulerDeleted.updateQueue.has deletedRepoA.ID := by
  decide

/-- C18, amended. On a state with the heap invariants, Update of a list of repos with
non-zero, pairwise distinct IDs returns. Each deleted repo is afterwards not in the
Due-Schedule; it is not in the Update Queue either when its queue entry was not Updating,
and an Updating entry stays as it is. Each repo that is not deleted is afterwards in the
Due-Schedule and in the Update Queue, with a new entry of low priority, not updating, when
it was not queued before. -/
theorem C18_Update_removes_deleted_and_adds_known (s : updateScheduler) (rs : List Repo)
    (clockAt : Nat → Clock) (hs : s.Inv) (hnz : ∀ r ∈ rs, r.ID ≠ 0)
    (hnd : (rs.map (fun r => r.ID)).Nodup) :
    ∃ s1, s.Update rs clockAt = some s1 ∧ s1.Inv ∧
      (∀ r ∈ rs, r.IsDeleted = true →
        ¬ s1.schedule.has r.ID ∧
        ((∀ e ∈ s.updateQueue.entries, e.Repo.ID = r.ID → e.Updating = false) →
          ¬ s1.updateQueue.has r.ID) ∧
        (∀ e ∈ s.updateQueue.entries, e.Repo.ID = r.ID → e.Updating = true →
          s1.queued r.ID = some e.core)) ∧
      (∀ r ∈ rs, r.IsDeleted = false →
        s1.schedule.has r.ID ∧ s1.updateQueue.has r.ID ∧
        (¬ s.updateQueue.has r.ID →
          ∃ e ∈ s1.updateQueue.entries, e.Repo = configuredRepo2FromRepo r ∧
            e.Priority = priorityLow ∧ e.Updating = false)) := by
  obtain ⟨s1, hrun, hinv1, _, _, hdel, hkeep⟩ := Update_spec rs s clockAt hs hnz hnd
  refine ⟨s1, hrun, hinv1, ?_, ?_⟩
  · intro r hr hd
    obtain ⟨h1, h2⟩ := hdel r hr hd
    refine ⟨?_, ?_, ?_⟩
    · rw [schedule_has_iff hinv1, h1]
      rintro ⟨c, hc⟩
      cases hc
    · intro hall
      rw [queue_has_iff hinv1, h2]
      rintro ⟨c, hc⟩
      cases hq : s.queued r.ID with
      | none => rw [hq] at hc; cases hc
      | some c0 =>
        obtain ⟨e, he, hid, _, hcore⟩ := updateQueue.find_core_some hs.2.2.1 hq
        have hu : c0.Updating = false := by
          rw [← hcore]
          exact hall e he hid
        rw [hq] at hc
        simp only [Option.filter, hu, Bool.false_eq_true, if_false] at hc
        cases hc
    · intro e he hid hu
      have hq : s.queued r.ID = some e.core := by
        unfold queued
        rw [updateQueue.entries_find hs.2.2.1 he hid]
        rfl
      rw [h2, hq]
      have hu1 : e.core.Updating = true := hu
      simp only [Option.filter, hu1, if_true]
  · intro r hr hd
    obtain ⟨⟨c1, hc1, _⟩, ⟨c2, hc2, hn2, _⟩⟩ := hkeep r hr hd
    refine ⟨(schedule_has_iff hinv1).mpr ⟨c1, hc1⟩, (queue_has_iff hinv1).mpr ⟨c2, hc2⟩, ?_⟩
    intro hnot
    have hq : s.queued r.ID = none := by
      cases hq : s.queued r.ID with
      | none => rfl
      | some c0 => exact (hnot ((queue_has_iff hs).mpr ⟨c0, hq⟩)).elim
    obtain ⟨h1, h2, h3⟩ := hn2 hq
    obtain ⟨e, he, _, _, hcore⟩ := updateQueue.find_core_some hinv1.2.2.1 hc2
    refine ⟨e, he, ?_, ?_, ?_⟩
    · rw [← h1, ← hcore]
      rfl
    · rw [← h2, ← hcore]
      rfl
    · rw [← h3, ← hcore]
      rfl

theorem C18_witness :
    inFlightScheduler.Inv ∧ (∀ r ∈ [deletedRepoA, knownRepoC], r.ID ≠ 0) ∧
    ([deletedRepoA, knownRepoC].map (fun r => r.ID)).Nodup ∧
    ∃ s1, inFlightScheduler.Update [deletedRepoA, knownRepoC] (fun _ _ => 7) = some s1 ∧
      ¬ s1.schedule.has deletedRepoA.ID ∧ s1.schedule.has knownRepoC.ID ∧
      s1.updateQueue.has knownRepoC.ID := by
  refine ⟨by decide, by decide, by decide, ?_⟩
  obtain ⟨s1, h1, _, h3, h4⟩ :=
    C18_Update_removes_deleted_and_adds_known inFlightScheduler [deletedRepoA, knownRepoC]
      (fun _ _ => 7) (by decide) (by decide) (by decide)
  exact ⟨s1, h1, (h3 deletedRepoA (by decide) rfl).1, (h4 knownRepoC (by decide) rfl).1,
    (h4 knownRepoC (by decide) rfl).2.1⟩

end updateScheduler

theorem filter_filter_same {α : Type} (p : α → Bool) (o : Option α) :
    (o.filter p).filter p = o.filter p := by
  cases o with
  | none => rfl
  | some a =>
    cases h : p a
    · simp only [Option.filter, h, Bool.false_eq_true, if_false]
    · simp only [Option.filter, h, if_true]

namespace updateScheduler

theorem updateSourceRemove_cons (newList : sourceRepoMap) (s : updateScheduler) (key : String)
    (repo : configuredRepo2) (rest : List (String × configuredRepo2)) (clockAt : Nat → Clock) :
    updateSourceRemove newList s ((key, repo) :: rest) clockAt =
      (if sourceRepoMap.dropped newList key = true then s.drop repo (clockAt 0)
       else some s).bind
        (fun s1 => updateSourceRemove newList s1 rest (fun i => clockAt (i + 1))) := rfl

theorem updateSourceSchedule_cons (s : updateScheduler) (key : String)
    (repo : configuredRepo2) (rest : List (String × configuredRepo2)) (clockAt : Nat → Clock) :
    updateSourceSchedule s ((key, repo) :: rest) clockAt =
      (if repo.Enabled = true then s.add repo (clockAt 0) else some s).bind
        (fun s1 => updateSourceSchedule s1 rest (fun i => clockAt (i + 1))) := rfl

/-- The first loop of `updateSource`: a dropped ID is not scheduled afterwards and its queue
entry stays exactly when it was updating; the entries of the other IDs stay. -/
theorem updateSourceRemove_spec (newList : sourceRepoMap) :
    ∀ (old : sourceRepoMap) (s : updateScheduler) (clockAt : Nat → Clock), s.Inv →
    (∀ p ∈ old, sourceRepoMap.dropped newList p.1 = true → p.2.ID ≠ 0) →
    ∃ s1, updateSourceRemove newList s old clockAt = some s1 ∧ s1.Inv ∧
      s1.sourceRepos = s.sourceRepos ∧
      (∀ id, id ∈ droppedIDs newList old →
        s1.scheduled id = none ∧ s1.queued id = (s.queued id).filter (fun c => c.Updating)) ∧
      (∀ id, id ∉ droppedIDs newList old →
        s1.scheduled id = s.scheduled id ∧ s1.queued id = s.queued id) := by
  intro old
  induction old with
  | nil =>
    intro s clockAt hs _
    exact ⟨s, rfl, hs, rfl, (fun id h => by cases h), fun _ _ => ⟨rfl, rfl⟩⟩
  | cons p rest ih =>
    intro s clockAt hs hnz
    obtain ⟨key, repo⟩ := p
    have hnzrest : ∀ p ∈ rest, sourceRepoMap.dropped newList p.1 = true → p.2.ID ≠ 0 :=
      fun p hp => hnz p (List.mem_cons_of_mem _ hp)
    rw [updateSourceRemove_cons]
    by_cases hgone : sourceRepoMap.dropped newList key = true
    · have hid : repo.ID ≠ 0 := hnz (key, repo) (List.mem_cons_self _ _) hgone
      obtain ⟨sa, hstep, hinva, hsrca, hfra, hscha, hqa⟩ := drop_spec hs hid (clockAt 0)
      obtain ⟨s1, hrun, hinv1, hsrc1, hin1, hout1⟩ :=
        ih sa (fun i => clockAt (i + 1)) hinva hnzrest
      have hids : droppedIDs newList ((key, repo) :: rest) =
          repo.ID :: droppedIDs newList rest := by
        simp [droppedIDs, List.filter_cons, hgone]
      rw [if_pos hgone, hstep, Option.some_bind]
      refine ⟨s1, hrun, hinv1, hsrc1.trans hsrca, ?_, ?_⟩
      · intro id hidm
        by_cases hr : id ∈ droppedIDs newList rest
        · obtain ⟨h1, h2⟩ := hin1 id hr
          refine ⟨h1, ?_⟩
          by_cases heq : id = repo.ID
          · rw [h2, heq, hqa, filter_filter_same]
          · rw [h2, (hfra id heq).2]
        · obtain ⟨h1, h2⟩ := hout1 id hr
          have heq : id = repo.ID := by
            rw [hids] at hidm
            rcases List.mem_cons.mp hidm with h | h
            · exact h
            · exact (hr h).elim
          rw [h1, h2, heq]
          exact ⟨hscha, hqa⟩
      · intro id hidm
        rw [hids, List.mem_cons, not_or] at hidm
        obtain ⟨h1, h2⟩ := hout1 id hidm.2
        exact ⟨h1.trans (hfra id hidm.1).1, h2.trans (hfra id hidm.1).2⟩
    · have hids : droppedIDs newList ((key, repo) :: rest) = droppedIDs newList rest := by
        simp [droppedIDs, List.filter_cons, hgone]
      rw [if_neg hgone, Option.some_bind, hids]
      exact ih s (fun i => clockAt (i + 1)) hs hnzrest

/-- The second loop of `updateSource`: an enabled ID is scheduled and queued afterwards, an
entry it already had keeping Interval and Due, resp. its Updating flag; the entries of the
other IDs stay. -/
theorem updateSourceSchedule_spec :
    ∀ (list : sourceRepoMap) (s : updateScheduler) (clockAt : Nat → Clock), s.Inv →
    (∀ p ∈ list, p.2.Enabled = true → p.2.ID ≠ 0) →
    ∃ s1, updateSourceSchedule s list clockAt = some s1 ∧ s1.Inv ∧
      s1.sourceRepos = s.sourceRepos ∧
      (∀ id, id ∈ enabledIDs list →
        (∃ c, s1.scheduled id = some c ∧
          ∀ c0, s.scheduled id = some c0 → c.Interval = c0.Interval ∧ c.Due = c0.Due) ∧
        (∃ c, s1.queued id = some c ∧
          ∀ c0, s.queued id = some c0 → c.Updating = c0.Updating)) ∧
      (∀ id, id ∉ enabledIDs list →
        s1.scheduled id = s.scheduled id ∧ s1.queued id = s.queued id) := by
  intro list
  induction list with
  | nil =>
    intro s clockAt hs _
    exact ⟨s, rfl, hs, rfl, (fun id h => by cases h), fun _ _ => ⟨rfl, rfl⟩⟩
  | cons p rest ih =>
    intro s clockAt hs hnz
    obtain ⟨key, repo⟩ := p
    have hnzrest : ∀ p ∈ rest, p.2.Enabled = true → p.2.ID ≠ 0 :=
      fun p hp => hnz p (List.mem_cons_of_mem _ hp)
    rw [updateSourceSchedule_cons]
    by_cases hen : repo.Enabled = true
    · have hid : repo.ID ≠ 0 := hnz (key, repo) (List.mem_cons_self _ _) hen
      obtain ⟨sa, hstep, hinva, hsrca, hfra, ⟨ca, hca, _, _, hcas⟩, ⟨qa, hqa, _, hqas⟩⟩ :=
        add_spec hs hid (clockAt 0)
      obtain ⟨s1, hrun, hinv1, hsrc1, hin1, hout1⟩ :=
        ih sa (fun i => clockAt (i + 1)) hinva hnzrest
      have hids : enabledIDs ((key, repo) :: rest) = repo.ID :: enabledIDs rest := by
        simp [enabledIDs, List.filter_cons, hen]
      rw [if_pos hen, hstep, Option.some_bind]
      refine ⟨s1, hrun, hinv1, hsrc1.trans hsrca, ?_, ?_⟩
      · intro id hidm
        by_cases hr : id ∈ enabledIDs rest
        · obtain ⟨⟨c, hc, hcs⟩, ⟨q, hq, hqs⟩⟩ := hin1 id hr
          by_cases heq : id = repo.ID
          · rw [heq] at hc hcs hq hqs ⊢
            refine ⟨⟨c, hc, ?_⟩, ⟨q, hq, ?_⟩⟩
            · intro c0 hc0
              obtain ⟨h1, h2⟩ := hcs ca hca
              obtain ⟨h3, h4⟩ := hcas c0 hc0
              exact ⟨h1.trans h3, h2.trans h4⟩
            · intro c0 hc0
              exact (hqs qa hqa).trans (hqas c0 hc0).1
          · rw [(hfra id heq).1] at hcs
            rw [(hfra id heq).2] at hqs
            exact ⟨⟨c, hc, hcs⟩, ⟨q, hq, hqs⟩⟩
        · obtain ⟨h1, h2⟩ := hout1 id hr
          have heq : id = repo.ID := by
            rw [hids] at hidm
            rcases List.mem_cons.mp hidm with h | h
            · exact h
            · exact (hr h).elim
          rw [h1, h2, heq]
          exact ⟨⟨ca, hca, hcas⟩, ⟨qa, hqa, fun c0 hc0 => (hqas c0 hc0).1⟩⟩
      · intro id hidm
        rw [hids, List.mem_cons, not_or] at hidm
        obtain ⟨h1, h2⟩ := hout1 id hidm.2
        exact ⟨h1.trans (hfra id hidm.1).1, h2.trans (hfra id hidm.1).2⟩
    · have hids : enabledIDs ((key, repo) :: rest) = enabledIDs rest := by
        simp [enabledIDs, List.filter_cons, hen]
      rw [if_neg hen, Option.some_bind, hids]
      exact ih s (fun i => clockAt (i + 1)) hs hnzrest

end updateScheduler

theorem sourceReposGet_set_self (m : List (String × sourceRepoMap)) (source : String)
    (list : sourceRepoMap) : sourceReposGet (sourceReposSet m source list) source = some list := by
  simp [sourceReposGet, sourceReposSet]

theorem sourceReposGet_set_other (m : List (String × sourceRepoMap)) {source other : String}
    (list : sourceRepoMap) (h : other ≠ source) :
    sourceReposGet (sourceReposSet m source list) other = sourceReposGet m other := by
  unfold sourceReposGet sourceReposSet
  have h1 : decide (source = other) = false := decide_eq_false (fun e => h e.symm)
  rw [List.find?_cons, h1]
  simp only [List.find?_filter]
  congr 2
  funext a
  by_cases ha : a.1 = other
  · have h2 : ¬ a.1 = source := fun e => h (ha.symm.trans e)
    simp [ha, h2, h]
  · simp [ha]

namespace updateScheduler

theorem initSource_schedule (s : updateScheduler) (source : String) :
    (s.initSource source).schedule = s.schedule ∧
    (s.initSource source).updateQueue = s.updateQueue := by
  unfold initSource
  split <;> exact ⟨rfl, rfl⟩

theorem initSource_get (s : updateScheduler) (source : String) :
    (sourceReposGet (s.initSource source).sourceRepos source).getD [] = s.oldList source ∧
    ∀ other, other ≠ source →
      sourceReposGet (s.initSource source).sourceRepos other =
        sourceReposGet s.sourceRepos other := by
  unfold initSource oldList
  by_cases h : sourceReposGet s.sourceRepos source = none
  · rw [if_pos h]
    refine ⟨?_, fun other ho => sourceReposGet_set_other _ _ ho⟩
    show (sourceReposGet (sourceReposSet s.sourceRepos source []) source).getD [] = _
    rw [sourceReposGet_set_self, h]
    rfl
  · rw [if_neg h]
    exact ⟨rfl, fun _ _ => rfl⟩

theorem updateSource_eq (s : updateScheduler) (source : String) (newList : sourceRepoMap)
    (clockAt : Nat → Clock) :
    s.updateSource source newList clockAt =
      (updateSourceRemove newList (s.initSource source) (s.oldList source) clockAt).bind
        (fun s1 =>
          (updateSourceSchedule s1 newList
              (fun i => clockAt ((s.oldList source).length + i))).map
            (fun s2 => { s2 with sourceRepos := sourceReposSet s2.sourceRepos source newList })) := by
  have h := (initSource_get s source).1
  unfold updateSource
  simp only
  have h2 : (if sourceReposGet s.sourceRepos source = none then
      ({ s with sourceRepos := sourceReposSet s.sourceRepos source [] } : updateScheduler)
    else s) = s.initSource source := rfl
  rw [h2, h]

theorem dropped_iff (newList : sourceRepoMap) (key : String) :
    sourceRepoMap.dropped newList key = true ↔
      (sourceRepoMap.get newList key = none ∨
        ∃ u, sourceRepoMap.get newList key = some u ∧ u.Enabled = false) := by
  unfold sourceRepoMap.dropped
  cases h : sourceRepoMap.get newList key with
  | none => simp
  | some u => cases hu : u.Enabled <;> simp [hu]

theorem mem_enabledIDs {list : sourceRepoMap} {id : Nat} :
    id ∈ enabledIDs list ↔ ∃ p ∈ list, p.2.Enabled = true ∧ p.2.ID = id := by
  unfold enabledIDs
  simp only [List.mem_map, List.mem_filter]
  constructor
  · rintro ⟨p, ⟨hp, he⟩, hid⟩
    exact ⟨p, hp, he, hid⟩
  · rintro ⟨p, hp, he, hid⟩
    exact ⟨p, ⟨hp, he⟩, hid⟩

theorem mem_droppedIDs {newList old : sourceRepoMap} {id : Nat} :
    id ∈ droppedIDs newList old ↔
      ∃ p ∈ old, sourceRepoMap.dropped newList p.1 = true ∧ p.2.ID = id := by
  unfold droppedIDs
  simp only [List.mem_map, List.mem_filter]
  constructor
  · rintro ⟨p, ⟨hp, he⟩, hid⟩
    exact ⟨p, hp, he, hid⟩
  · rintro ⟨p, hp, he, hid⟩
    exact ⟨p, ⟨hp, he⟩, hid⟩

/-- The method `updateSource` on a state with the heap invariants, when the repos it removes
and the repos it adds have non-zero IDs: it returns and stores `newList` for the source; an
enabled ID of `newList` is scheduled and queued afterwards; a dropped ID of the old list that
is not enabled in `newList` is not scheduled and its queue entry stays exactly when it was
updating; the entries of all other IDs stay. -/
theorem updateSource_spec {s : updateScheduler} (hs : s.Inv) (source : String)
    (newList : sourceRepoMap) (clockAt : Nat → Clock)
    (hold : ∀ p ∈ s.oldList source, sourceRepoMap.dropped newList p.1 = true → p.2.ID ≠ 0)
    (hnew : ∀ p ∈ newList, p.2.Enabled = true → p.2.ID ≠ 0) :
    ∃ s1, s.updateSource source newList clockAt = some s1 ∧ s1.Inv ∧
      sourceReposGet s1.sourceRepos source = some newList ∧
      (∀ other, other ≠ source →
        sourceReposGet s1.sourceRepos other = sourceReposGet s.sourceRepos other) ∧
      (∀ id, id ∈ enabledIDs newList →
        (∃ c, s1.scheduled id = some c) ∧ (∃ c, s1.queued id = some c)) ∧
      (∀ id, id ∉ enabledIDs newList → id ∈ droppedIDs newList (s.oldList source) →
        s1.scheduled id = none ∧ s1.queued id = (s.queued id).filter (fun c => c.Updating)) ∧
      (∀ id, id ∉ enabledIDs newList → id ∉ droppedIDs newList (s.oldList source) →
        s1.scheduled id = s.scheduled id ∧ s1.queued id = s.queued id) := by
  obtain ⟨hsch0, hq0⟩ := initSource_schedule s source
  have hinv0 : (s.initSource source).Inv := by
    unfold Inv
    rw [hsch0, hq0]
    exact hs
  have hsc0 : ∀ id, (s.initSource source).scheduled id = s.scheduled id := by
    intro id
    unfold scheduled
    rw [hsch0]
  have hqu0 : ∀ id, (s.initSource source).queued id = s.queued id := by
    intro id
    unfold queued
    rw [hq0]
  obtain ⟨s1, hrun1, hinv1, hsrc1, hin1, hout1⟩ :=
    updateSourceRemove_spec newList (s.oldList source) (s.initSource source) clockAt hinv0 hold
  obtain ⟨s2, hrun2, hinv2, hsrc2, hin2, hout2⟩ :=
    updateSourceSchedule_spec newList s1
      (fun i => clockAt ((s.oldList source).length + i)) hinv1 hnew
  refine ⟨{ s2 with sourceRepos := sourceReposSet s2.sourceRepos source newList }, ?_, hinv2,
    sourceReposGet_set_self _ _ _, ?_, ?_, ?_, ?_⟩
  · rw [updateSource_eq, hrun1, Option.some_bind, hrun2]
    rfl
  · intro other ho
    show sourceReposGet (sourceReposSet s2.sourceRepos source newList) other = _
    rw [sourceReposGet_set_other _ _ ho, hsrc2, hsrc1]
    exact (initSource_get s source).2 other ho
  · intro id hid
    obtain ⟨⟨c, hc, _⟩, ⟨q, hq, _⟩⟩ := hin2 id hid
    exact ⟨⟨c, hc⟩, ⟨q, hq⟩⟩
  · intro id hid hdr
    obtain ⟨h1, h2⟩ := hout2 id hid
    obtain ⟨h3, h4⟩ := hin1 id hdr
    rw [hqu0] at h4
    exact ⟨h1.trans h3, h2.trans h4⟩
  · intro id hid hdr
    obtain ⟨h1, h2⟩ := hout2 id hid
    obtain ⟨h3, h4⟩ := hout1 id hdr
    rw [hsc0] at h3
    rw [hqu0] at h4
    exact ⟨h1.trans h3, h2.trans h4⟩

theorem drop_sourceRepos {s s1 : updateScheduler} {repo : configuredRepo2} {clock : Clock}
    (h : s.drop repo clock = some s1) : s1.sourceRepos = s.sourceRepos := by
  unfold drop at h
  cases h1 : s.schedule.remove repo clock with
  | none => rw [h1] at h; cases h
  | some a =>
    rw [h1, Option.some_bind] at h
    cases h2 : s.updateQueue.remove repo false with
    | none => rw [h2] at h; cases h
    | some b =>
      rw [h2] at h
      cases h
      rfl

theorem add_sourceRepos {s s1 : updateScheduler} {repo : configuredRepo2} {clock : Clock}
    (h : s.add repo clock = some s1) : s1.sourceRepos = s.sourceRepos := by
  unfold add at h
  cases h1 : s.schedule.upsert repo clock with
  | none => rw [h1] at h; cases h
  | some a =>
    rw [h1, Option.some_bind] at h
    cases h2 : s.updateQueue.enqueue repo priorityLow with
    | none => rw [h2] at h; cases h
    | some b =>
      rw [h2] at h
      cases h
      rfl

theorem updateSourceRemove_sourceRepos (newList : sourceRepoMap) :
    ∀ (old : sourceRepoMap) (s s1 : updateScheduler) (clockAt : Nat → Clock),
    updateSourceRemove newList s old clockAt = some s1 → s1.sourceRepos = s.sourceRepos := by
  intro old
  induction old with
  | nil =>
    intro s s1 clockAt h
    cases h
    rfl
  | cons p rest ih =>
    intro s s1 clockAt h
    obtain ⟨key, repo⟩ := p
    rw [updateSourceRemove_cons] at h
    by_cases hgone : sourceRepoMap.dropped newList key = true
    · rw [if_pos hgone] at h
      cases hd : s.drop repo (clockAt 0) with
      | none => rw [hd] at h; cases h
      | some sa =>
        rw [hd, Option.some_bind] at h
        exact (ih sa s1 _ h).trans (drop_sourceRepos hd)
    · rw [if_neg hgone, Option.some_bind] at h
      exact ih s s1 _ h

theorem updateSourceSchedule_sourceRepos :
    ∀ (list : sourceRepoMap) (s s1 : updateScheduler) (clockAt : Nat → Clock),
    updateSourceSchedule s list clockAt = some s1 → s1.sourceRepos = s.sourceRepos := by
  intro list
  induction list with
  | nil =>
    intro s s1 clockAt h
    cases h
    rfl
  | cons p rest ih =>
    intro s s1 clockAt h
    obtain ⟨key, repo⟩ := p
    rw [updateSourceSchedule_cons] at h
    by_cases hen : repo.Enabled = true
    · rw [if_pos hen] at h
      cases hd : s.add repo (clockAt 0) with
      | none => rw [hd] at h; cases h
      | some sa =>
        rw [hd, Option.some_bind] at h
        exact (ih sa s1 _ h).trans (add_sourceRepos hd)
    · rw [if_neg hen, Option.some_bind] at h
      exact ih s s1 _ h

/-- C19, counterexample. The source "github" had repo "a" with ID 1; the new list has no
name "a" and holds the same ID under the name "b", enabled. After updateSource the ID of the
old repo is in the Due-Schedule. -/
theorem C19_counterexample_renamed_repo_stays :
    NewUpdateScheduler.updateSource "github" [("a", repoA)] (fun _ _ => 0) =
      some sourceScheduler ∧
    sourceReposGet sourceScheduler.sourceRepos "github" = some [("a", repoA)] ∧
    sourceRepoMap.get [("b", repoARenamed)] "a" = none ∧
    sourceScheduler.updateSource "github" [("b", repoARenamed)] (fun _ _ => 0) =
      some sourceSchedulerRenamed ∧
    sourceSchedulerRenamed.schedule.has repoA.ID ∧
    sourceSchedulerRenamed.updateQueue.has repoA.ID := by
  decide

/-- C19, amended. On a state with the heap invariants, when the repos that updateSource
removes and adds have non-zero IDs, updateSource(source, newList) returns. Every repo of the
list stored for the source whose name is missing from newList, or is mapped by it to a repo
that is not enabled, and whose ID no enabled repo of newList has, is afterwards not in the
Due-Schedule and, when its queue entry was not Updating, not in the Update Queue. Every
enabled repo of newList is afterwards in the Due-Schedule and in the Update Queue. -/
theorem C19_updateSource_reconciles (s : updateScheduler) (source : String)
    (newList : sourceRepoMap) (clockAt : Nat → Clock) (hs : s.Inv)
    (hold : ∀ old, sourceReposGet s.sourceRepos source = some old → ∀ p ∈ old,
      (sourceRepoMap.get newList p.1 = none ∨
        ∃ u, sourceRepoMap.get newList p.1 = some u ∧ u.Enabled = false) → p.2.ID ≠ 0)
    (hnew : ∀ p ∈ newList, p.2.Enabled = true → p.2.ID ≠ 0) :
    ∃ s1, s.updateSource source newList clockAt = some s1 ∧ s1.Inv ∧
      (∀ old, sourceReposGet s.sourceRepos source = some old → ∀ p ∈ old,
        (sourceRepoMap.get newList p.1 = none ∨
          ∃ u, sourceRepoMap.get newList p.1 = some u ∧ u.Enabled = false) →
        (∀ p2 ∈ newList, p2.2.Enabled = true → p2.2.ID ≠ p.2.ID) →
        ¬ s1.schedule.has p.2.ID ∧
        ((∀ e ∈ s.updateQueue.entries, e.Repo.ID = p.2.ID → e.Updating = false) →
          ¬ s1.updateQueue.has p.2.ID)) ∧
      (∀ p ∈ newList, p.2.Enabled = true →
        s1.schedule.has p.2.ID ∧ s1.updateQueue.has p.2.ID) := by
  have hold1 : ∀ p ∈ s.oldList source, sourceRepoMap.dropped newList p.1 = true →
      p.2.ID ≠ 0 := by
    intro p hp hd
    unfold oldList at hp
    cases hg : sourceReposGet s.sourceRepos source with
    | none => rw [hg] at hp; cases hp
    | some old =>
      rw [hg] at hp
      exact hold old hg p hp ((dropped_iff newList p.1).mp hd)
  obtain ⟨s1, hrun, hinv1, _, _, hen, hdr, _⟩ :=
    updateSource_spec hs source newList clockAt hold1 hnew
  refine ⟨s1, hrun, hinv1, ?_, ?_⟩
  · intro old hg p hp hgone hno
    have hnot : p.2.ID ∉ enabledIDs newList := by
      intro hmem
      obtain ⟨p2, hp2, he2, hid2⟩ := mem_enabledIDs.mp hmem
      exact hno p2 hp2 he2 hid2
    have hin : p.2.ID ∈ droppedIDs newList (s.oldList source) := by
      apply mem_droppedIDs.mpr
      refine ⟨p, ?_, (dropped_iff newList p.1).mpr hgone, rfl⟩
      unfold oldList
      rw [hg]
      exact hp
    obtain ⟨h1, h2⟩ := hdr p.2.ID hnot hin
    refine ⟨?_, ?_⟩
    · rw [schedule_has_iff hinv1, h1]
      rintro ⟨c, hc⟩
      cases hc
    · intro hall
      rw [queue_has_iff hinv1, h2]
      rintro ⟨c, hc⟩
      cases hq : s.queued p.2.ID with
      | none => rw [hq] at hc; cases hc
      | some c0 =>
        obtain ⟨e, he, hid, _, hcore⟩ := updateQueue.find_core_some hs.2.2.1 hq
        have hu : c0.Updating = false := by
          rw [← hcore]
          exact hall e he hid
        rw [hq] at hc
        simp only [Option.filter, hu, Bool.false_eq_true, if_false] at hc
        cases hc
  · intro p hp he
    obtain ⟨h1, h2⟩ := hen p.2.ID (mem_enabledIDs.mpr ⟨p, hp, he, rfl⟩)
    exact ⟨(schedule_has_iff hinv1).mpr h1, (queue_has_iff hinv1).mpr h2⟩

/-- C20. Whenever updateSource(source, newList) returns, the list stored for the source is
newList, whatever newList is, and the lists stored for all other sources are as before; and
it does return on a state with the heap invariants when the repos it removes and adds have
non-zero IDs. -/
theorem C20_updateSource_replaces_snapshot (s : updateScheduler) (source : String)
    (newList : sourceRepoMap) (clockAt : Nat → Clock) :
    (∀ s1, s.updateSource source newList clockAt = some s1 →
      sourceReposGet s1.sourceRepos source = some newList ∧
      ∀ other, other ≠ source →
        sourceReposGet s1.sourceRepos other = sourceReposGet s.sourceRepos other) ∧
    (s.Inv →
      (∀ p ∈ s.oldList source, sourceRepoMap.dropped newList p.1 = true → p.2.ID ≠ 0) →
      (∀ p ∈ newList, p.2.Enabled = true → p.2.ID ≠ 0) →
      ∃ s1, s.updateSource source newList clockAt = some s1) := by
  constructor
  · intro s1 h
    rw [updateSource_eq] at h
    cases h1 : updateSourceRemove newList (s.initSource source) (s.oldList source) clockAt with
    | none => rw [h1] at h; cases h
    | some sa =>
      rw [h1, Option.some_bind] at h
      cases h2 : updateSourceSchedule sa newList
          (fun i => clockAt ((s.oldList source).length + i)) with
      | none => rw [h2] at h; cases h
      | some sb =>
        rw [h2] at h
        cases h
        refine ⟨sourceReposGet_set_self _ _ _, ?_⟩
        intro other ho
        show sourceReposGet (sourceReposSet sb.sourceRepos source newList) other = _
        rw [sourceReposGet_set_other _ _ ho, updateSourceSchedule_sourceRepos _ _ _ _ h2,
          updateSourceRemove_sourceRepos _ _ _ _ _ h1]
        exact (initSource_get s source).2 other ho
  · intro hs hold hnew
    obtain ⟨s1, hrun, _⟩ := updateSource_spec hs source newList clockAt hold hnew
    exact ⟨s1, hrun⟩

theorem C19_witness :
    sourceScheduler.Inv ∧
    (∀ old, sourceReposGet sourceScheduler.sourceRepos "github" = some old → ∀ p ∈ old,
      (sourceRepoMap.get [("c", repoC)] p.1 = none ∨
        ∃ u, sourceRepoMap.get [("c", repoC)] p.1 = some u ∧ u.Enabled = false) →
      p.2.ID ≠ 0) ∧
    (∀ p ∈ [("c", repoC)], p.2.Enabled = true → p.2.ID ≠ 0) ∧
    ∃ s1, sourceScheduler.updateSource "github" [("c", repoC)] (fun _ _ => 0) = some s1 ∧
      ¬ s1.schedule.has repoA.ID ∧ ¬ s1.updateQueue.has repoA.ID ∧
      s1.schedule.has repoC.ID ∧ s1.updateQueue.has repoC.ID := by
  have hold : ∀ old, sourceReposGet sourceScheduler.sourceRepos "github" = some old →
      ∀ p ∈ old,
        (sourceRepoMap.get [("c", repoC)] p.1 = none ∨
          ∃ u, sourceRepoMap.get [("c", repoC)] p.1 = some u ∧ u.Enabled = false) →
        p.2.ID ≠ 0 := by
    intro old hg p hp _
    have h1 : old = [("a", repoA)] := by
      have h2 : sourceReposGet sourceScheduler.sourceRepos "github" = some [("a", repoA)] := by
        decide
      rw [h2] at hg
      exact (Option.some.inj hg).symm
    rw [h1] at hp
    rw [List.mem_singleton.mp hp]
    decide
  refine ⟨by decide, hold, by decide, ?_⟩
  obtain ⟨s1, h1, _, h3, h4⟩ :=
    C19_updateSource_reconciles sourceScheduler "github" [("c", repoC)] (fun _ _ => 0)
      (by decide) hold (by decide)
  have h5 := h3 [("a", repoA)] (by decide) ("a", repoA) (by decide) (Or.inl (by decide))
    (by decide)
  have h6 := h4 ("c", repoC) (by decide) (by decide)
  exact ⟨s1, h1, h5.1, h5.2 (by decide), h6.1, h6.2⟩

theorem C20_witness :
    sourceScheduler.Inv ∧
    (∀ p ∈ sourceScheduler.oldList "github",
      sourceRepoMap.dropped [] p.1 = true → p.2.ID ≠ 0) ∧
    ∃ s1, sourceScheduler.updateSource "github" [] (fun _ _ => 0) = some s1 ∧
      sourceReposGet s1.sourceRepos "github" = some [] ∧
      ∀ other, other ≠ "github" →
        sourceReposGet s1.sourceRepos other =
          sourceReposGet sourceScheduler.sourceRepos other := by
  have h := C20_updateSource_replaces_snapshot sourceScheduler "github" [] (fun _ _ => 0)
  have hold : ∀ p ∈ sourceScheduler.oldList "github",
      sourceRepoMap.dropped [] p.1 = true → p.2.ID ≠ 0 := by
    decide
  obtain ⟨s1, h1⟩ := h.2 (by decide) hold (by decide)
  exact ⟨by decide, hold, s1, h1, h.1 s1 h1⟩

/-- The method `Update` on repos with non-zero IDs returns and leaves the entries of the IDs
that are not in the list as they are. -/
theorem Update_frame : ∀ (rs : List Repo) (s : updateScheduler) (clockAt : Nat → Clock),
    s.Inv → (∀ r ∈ rs, r.ID ≠ 0) →
    ∃ s1, s.Update rs clockAt = some s1 ∧ s1.Inv ∧ s1.sourceRepos = s.sourceRepos ∧
      (∀ id, id ∉ rs.map (fun r => r.ID) →
        s1.scheduled id = s.scheduled id ∧ s1.queued id = s.queued id) := by
  intro rs
  induction rs with
  | nil =>
    intro s clockAt hs _
    exact ⟨s, rfl, hs, rfl, fun _ _ => ⟨rfl, rfl⟩⟩
  | cons r rest ih =>
    intro s clockAt hs hnz
    have hrid : (configuredRepo2FromRepo r).ID = r.ID := configuredRepo2FromRepo_ID r
    have hid : (configuredRepo2FromRepo r).ID ≠ 0 := by
      rw [hrid]
      exact hnz r (List.mem_cons_self r rest)
    have hnzrest : ∀ r1 ∈ rest, r1.ID ≠ 0 := fun r1 h => hnz r1 (List.mem_cons_of_mem r h)
    have hstep : ∃ sa, (if r.IsDeleted = true then s.remove r (clockAt 0)
        else s.upsert r (clockAt 0)) = some sa ∧ sa.Inv ∧ sa.sourceRepos = s.sourceRepos ∧
        (∀ id, id ≠ r.ID → sa.scheduled id = s.scheduled id ∧ sa.queued id = s.queued id) := by
      by_cases hdel : r.IsDeleted = true
      · obtain ⟨sa, h1, h2, h3, h4, _⟩ := drop_spec hs hid (clockAt 0)
        rw [hrid] at h4
        exact ⟨sa, by rw [if_pos hdel, remove_eq_drop, h1], h2, h3, h4⟩
      · obtain ⟨sa, h1, h2, h3, h4, _⟩ := add_spec hs hid (clockAt 0)
        rw [hrid] at h4
        exact ⟨sa, by rw [if_neg hdel, upsert_eq_add, h1], h2, h3, h4⟩
    obtain ⟨sa, hrun0, hinva, hsrca, hfra⟩ := hstep
    obtain ⟨s1, hrun, hinv1, hsrc1, hfr1⟩ := ih sa (fun i => clockAt (i + 1)) hinva hnzrest
    refine ⟨s1, ?_, hinv1, hsrc1.trans hsrca, ?_⟩
    · unfold Update
      rw [hrun0, Option.some_bind]
      exact hrun
    · intro id hidn
      rw [List.map_cons, List.mem_cons, not_or] at hidn
      exact ⟨(hfr1 id hidn.2).1.trans (hfra id hidn.1).1,
        (hfr1 id hidn.2).2.trans (hfra id hidn.1).2⟩

/-- C21. For every scheduler state and every repo list, `Set` returns what `Update` returns on
it (the same Due-Schedule, Update Queue and source snapshots, or a panic where `Update`
panics). On a state with the heap invariants and repos with non-zero IDs it returns, and a repo
whose ID is not in the list keeps its schedule entry and its queue entry: it is not removed. -/
theorem C21_Set_acts_as_Update (s : updateScheduler) (rs : List Repo)
    (clockAt : Nat → Clock) :
    s.Set rs clockAt = s.Update rs clockAt ∧
    (s.Inv → (∀ r ∈ rs, r.ID ≠ 0) →
      ∃ s1, s.Set rs clockAt = some s1 ∧ s1.Inv ∧ s1.sourceRepos = s.sourceRepos ∧
        ∀ id, id ∉ rs.map (fun r => r.ID) →
          s1.scheduled id = s.scheduled id ∧ s1.queued id = s.queued id ∧
          (s1.schedule.has id ↔ s.schedule.has id) ∧
          (s1.updateQueue.has id ↔ s.updateQueue.has id)) := by
  have heq : s.Set rs clockAt = s.Update rs clockAt := by
    unfold Set
    cases s.Update rs clockAt with
    | none => rfl
    | some s1 => rfl
  refine ⟨heq, ?_⟩
  intro hs hnz
  obtain ⟨s1, hrun, hinv1, hsrc, hfr⟩ := Update_frame rs s clockAt hs hnz
  refine ⟨s1, heq.trans hrun, hinv1, hsrc, ?_⟩
  intro id hidn
  obtain ⟨h1, h2⟩ := hfr id hidn
  refine ⟨h1, h2, ?_, ?_⟩
  · rw [schedule_has_iff hinv1, schedule_has_iff hs, h1]
  · rw [queue_has_iff hinv1, queue_has_iff hs, h2]

theorem C21_witness :
    exampleScheduler.Inv ∧ (∀ r ∈ [knownRepoC], r.ID ≠ 0) ∧
    exampleScheduler.schedule.has repoA.ID ∧ exampleScheduler.updateQueue.has repoA.ID ∧
    ∃ s1, exampleScheduler.Set [knownRepoC] (fun _ _ => 7) = some s1 ∧
      exampleScheduler.Update [knownRepoC] (fun _ _ => 7) = some s1 ∧
      s1.schedule.has repoA.ID ∧ s1.updateQueue.has repoA.ID := by
  have h := C21_Set_acts_as_Update exampleScheduler [knownRepoC] (fun _ _ => 7)
  obtain ⟨s1, h1, _, _, h4⟩ := h.2 (by decide) (by decide)
  have h5 := h4 repoA.ID (by decide)
  exact ⟨by decide, by decide, by decide, by decide, s1, h1, h.1 ▸ h1,
    h5.2.2.1.mpr (by decide), h5.2.2.2.mpr (by decide)⟩

/-- C22. `UpdateOnce(id, name, url)` with a non-zero id returns on a state whose queue
satisfies its invariant, leaves the Due-Schedule (heap, entries, index map, timer) and the
source snapshots as they are, and leaves the Update Queue as `enqueue` of the repo at high
priority leaves it: a repo that is not queued gets an entry of high priority, not updating; a
queued repo of low priority that is not updating gets high priority; the queue is unchanged
when the repo is updating; the entries of other IDs stay. -/
theorem C22_UpdateOnce_enqueues_high_beside_schedule (s : updateScheduler) (id : Nat)
    (name url : String) (hq : s.updateQueue.Valid) (hid : id ≠ 0) :
    ∃ s1 b, s.UpdateOnce id name url = some s1 ∧
      s1.schedule = s.schedule ∧ s1.sourceRepos = s.sourceRepos ∧
      s.updateQueue.enqueue { URL := url, ID := id, Name := name, Enabled := false }
        priorityHigh = some (s1.updateQueue, b) ∧
      s1.updateQueue.Valid ∧
      (¬ s.updateQueue.has id →
        ∃ e ∈ s1.updateQueue.entries, e.Repo.ID = id ∧ e.Priority = priorityHigh ∧
          e.Updating = false) ∧
      (∀ e ∈ s.updateQueue.entries, e.Repo.ID = id → e.Updating = false →
        e.Priority = priorityLow →
        ∃ e1 ∈ s1.updateQueue.entries, e1.Repo.ID = id ∧ e1.Priority = priorityHigh ∧
          e1.Updating = false) ∧
      (∀ e ∈ s.updateQueue.entries, e.Repo.ID = id → e.Updating = true →
        s1.updateQueue = s.updateQueue) ∧
      (∀ id2, id2 ≠ id →
        (s1.updateQueue.find id2).map repoUpdate.core =
          (s.updateQueue.find id2).map repoUpdate.core) := by
  have hrid : ({ URL := url, ID := id, Name := name, Enabled := false } : configuredRepo2).ID
      ≠ 0 := hid
  obtain ⟨q1, b, hen, hv1, hcases⟩ := updateQueue.enqueue_cases hq hrid priorityHigh
  obtain ⟨q2, b2, hen2, _, hframe, _⟩ := updateQueue.enqueue_frame hq hrid priorityHigh
  rw [hen] at hen2
  cases hen2
  refine ⟨{ s with updateQueue := q1 }, b, ?_, rfl, rfl, hen, hv1, ?_, ?_, ?_, hframe⟩
  · unfold UpdateOnce
    simp only [hen, Option.map_some']
  · intro hnot
    rcases hcases with ⟨_, _, _, _, _, hfind⟩ | ⟨e, he, _⟩ | ⟨e, _, he, _⟩ | ⟨e, he, _⟩
    · have h1 := hfind id
      simp only [if_true] at h1
      obtain ⟨e1, he1, hid1, _, hcore⟩ := updateQueue.find_core_some hv1.1 h1
      refine ⟨e1, he1, hid1, ?_, ?_⟩
      · have := congrArg repoUpdate.Priority hcore
        exact this
      · have := congrArg repoUpdate.Updating hcore
        exact this
    · exact absurd ⟨e, (updateQueue.find_entries hq.1 he).1, (updateQueue.find_entries hq.1 he).2⟩ hnot
    · exact absurd ⟨e, (updateQueue.find_entries hq.1 he).1, (updateQueue.find_entries hq.1 he).2⟩ hnot
    · exact absurd ⟨e, (updateQueue.find_entries hq.1 he).1, (updateQueue.find_entries hq.1 he).2⟩ hnot
  · intro e0 he0 hid0 hu0 hp0
    have hf0 : s.updateQueue.find id = some e0 := updateQueue.entries_find hq.1 he0 hid0
    rcases hcases with ⟨hnone, _⟩ | ⟨e, he, hu, _⟩ | ⟨e, _, he, _, hp, _⟩ |
      ⟨e, he, _, _, _, _, _, _, _, hfind⟩
    · rw [show ({ URL := url, ID := id, Name := name, Enabled := false } : configuredRepo2).ID
        = id from rfl, hf0] at hnone
      cases hnone
    · rw [show ({ URL := url, ID := id, Name := name, Enabled := false } : configuredRepo2).ID
        = id from rfl, hf0] at he
      cases he
      rw [hu0] at hu
      cases hu
    · rw [show ({ URL := url, ID := id, Name := name, Enabled := false } : configuredRepo2).ID
        = id from rfl, hf0] at he
      cases he
      rw [hp0] at hp
      exact absurd hp (by decide)
    · have h1 := hfind id
      simp only [if_true] at h1
      obtain ⟨e1, he1, hid1, _, hcore⟩ := updateQueue.find_core_some hv1.1 h1
      rw [show ({ URL := url, ID := id, Name := name, Enabled := false } : configuredRepo2).ID
        = id from rfl, hf0] at he
      cases he
      refine ⟨e1, he1, hid1, ?_, ?_⟩
      · have := congrArg repoUpdate.Priority hcore
        exact this
      · have := congrArg repoUpdate.Updating hcore
        exact this.trans hu0
  · intro e0 he0 hid0 hu0
    have hf0 : s.updateQueue.find id = some e0 := updateQueue.entries_find hq.1 he0 hid0
    have := updateQueue.enqueue_updating_spec hq.1 hrid priorityHigh hf0 hu0
    rw [hen] at this
    cases this
    rfl

theorem C22_witness :
    exampleScheduler.updateQueue.Valid ∧ (2 : Nat) ≠ 0 ∧
    (⟨repoB, priorityLow, 2, false, 1⟩ : repoUpdate) ∈ exampleScheduler.updateQueue.entries ∧
    ∃ s1, exampleScheduler.UpdateOnce 2 "b" "b.git" = some s1 ∧
      s1.schedule = exampleScheduler.schedule ∧
      ∃ e1 ∈ s1.updateQueue.entries, e1.Repo.ID = 2 ∧ e1.Priority = priorityHigh ∧
        e1.Updating = false := by
  obtain ⟨s1, b, h1, h2, _, _, _, _, h7, _⟩ :=
    C22_UpdateOnce_enqueues_high_beside_schedule exampleScheduler 2 "b" "b.git" (by decide)
      (by decide)
  exact ⟨by decide, by decide, by decide, s1, h1, h2,
    h7 ⟨repoB, priorityLow, 2, false, 1⟩ (by decide) rfl rfl rfl⟩

end updateScheduler

theorem filterMap_getElem_length {α : Type} (m : List α) :
    ∀ (l : List Nat), (∀ x ∈ l, x < m.length) → (l.filterMap (fun x => m[x]?)).length = l.length := by
  intro l
  induction l with
  | nil => intro _; rfl
  | cons a rest ih =>
    intro h
    have ha : a < m.length := h a (List.mem_cons_self a rest)
    have hget : m[a]? = some m[a] := List.getElem?_eq_getElem ha
    rw [List.filterMap_cons_some hget, List.length_cons, List.length_cons,
      ih (fun x hx => h x (List.mem_cons_of_mem a hx))]

namespace updateQueue

/-- The index map has one binding per heap position. -/
theorem index_length {q : updateQueue} (hq : q.Wf) : q.index.length = q.heap.length := by
  have hndi : q.index.Nodup := List.Nodup.of_map _ hq.2.2
  have hnd1 : (q.index.map Prod.snd).Nodup := by
    refine List.Nodup.map_on ?_ hndi
    intro a ha b hb hab
    obtain ⟨_, ea, _, hma, hida⟩ := wf_index hq (IndexMap.get_of_mem hq.2.2 ha)
    obtain ⟨_, eb, _, hmb, hidb⟩ := wf_index hq (IndexMap.get_of_mem hq.2.2 hb)
    rw [hab, hmb] at hma
    cases hma
    exact Prod.ext (hida.symm.trans hidb) hab
  have hnd2 : q.heap.Nodup := by
    rw [List.nodup_iff_getElem?_ne_getElem?]
    intro i j hij hj h
    have hjx : q.heap[j]? = some q.heap[j] := List.getElem?_eq_getElem hj
    have := wf_heap_inj hq (h.trans hjx) hjx
    omega
  have hperm : List.Perm (q.index.map Prod.snd) q.heap := by
    rw [List.perm_ext_iff_of_nodup hnd1 hnd2]
    intro x
    constructor
    · intro hx
      obtain ⟨a, ha, hax⟩ := List.mem_map.mp hx
      obtain ⟨i, _, hi, _⟩ := wf_index hq (IndexMap.get_of_mem hq.2.2 ha)
      rw [← hax]
      exact List.mem_iff_getElem?.mpr ⟨i, hi⟩
    · intro hx
      obtain ⟨i, hi⟩ := List.mem_iff_getElem?.mp hx
      obtain ⟨e, _, _, _, hget⟩ := wf_entry hq hi
      exact List.mem_map.mpr ⟨(e.Repo.ID, x), IndexMap.get_eq_some hget, rfl⟩
  have := hperm.length_eq
  rw [List.length_map] at this
  exact this

/-- The queue has as many entries as heap positions. -/
theorem entries_length {q : updateQueue} (hq : q.Wf) : q.entries.length = q.heap.length :=
  filterMap_getElem_length q.mem q.heap (fun _ hx => wf_ptr_lt hq hx)

end updateQueue

namespace schedule

/-- The schedule has as many entries as heap positions. -/
theorem entries_length_sch {q : schedule} (hq : q.Wf) : q.entries.length = q.heap.length :=
  filterMap_getElem_length q.mem q.heap (fun _ hx => wf_ptr_lt_sch hq hx)

end schedule

namespace updateScheduler

/-- The result of `ScheduleInfo` in terms of the entries that the index maps hold for the ID. -/
theorem ScheduleInfo_eq {s : updateScheduler} (hs : s.schedule.Wf) (hq : s.updateQueue.Wf)
    (id : Nat) :
    s.ScheduleInfo id = some
      { Schedule := (s.schedule.find id).map (fun update =>
          { Index := update.Index, Total := s.schedule.index.length,
            IntervalSeconds := update.Interval.tdiv time.Second, Due := update.Due }),
        Queue := (s.updateQueue.find id).map (fun update =>
          { Index := update.Index, Total := s.updateQueue.index.length,
            Updating := update.Updating }) } := by
  unfold ScheduleInfo schedule.find updateQueue.find
  cases h1 : s.schedule.index.get id with
  | none =>
    cases h2 : s.updateQueue.index.get id with
    | none => rfl
    | some y =>
      obtain ⟨_, e, _, hm, _⟩ := updateQueue.wf_index hq h2
      simp only [Option.some_bind, Option.none_bind, Option.map_none', hm, Option.map_some']
  | some x =>
    obtain ⟨_, e, _, hm, _⟩ := schedule.wf_index_sch hs h1
    cases h2 : s.updateQueue.index.get id with
    | none =>
      simp only [Option.some_bind, Option.none_bind, Option.map_none', hm, Option.map_some']
    | some y =>
      obtain ⟨_, e2, _, hm2, _⟩ := updateQueue.wf_index hq h2
      simp only [Option.some_bind, Option.map_some', hm, hm2]

/-- C23. On a state whose heaps are well formed, `ScheduleInfo(id)` returns, for every id. Its
Schedule sub-result is nil exactly when the Due-Schedule has no entry for id and otherwise
carries that entry's heap position, the number of schedule entries, the entry's Interval
divided by one second, truncated, and its Due. Its Queue sub-result is nil exactly when the
Update Queue has no entry for id and otherwise carries that entry's heap position, the number
of queue entries and its Updating flag. -/
theorem C23_ScheduleInfo_reports_the_entries (s : updateScheduler) (id : Nat)
    (hs : s.schedule.Wf) (hq : s.updateQueue.Wf) :
    ∃ r, s.ScheduleInfo id = some r ∧
      (r.Schedule = none ↔ ¬ s.schedule.has id) ∧
      (∀ st, r.Schedule = some st →
        ∃ e ∈ s.schedule.entries, e.Repo.ID = id ∧ st.Index = e.Index ∧
          (∃ i : Nat, e.Index = (i : Int) ∧ s.schedule.entry i = some e) ∧
          st.Total = (s.schedule.entries.length : Int) ∧
          st.IntervalSeconds = e.Interval.tdiv 1000000000 ∧ st.Due = e.Due) ∧
      (r.Queue = none ↔ ¬ s.updateQueue.has id) ∧
      (∀ qt, r.Queue = some qt →
        ∃ e ∈ s.updateQueue.entries, e.Repo.ID = id ∧ qt.Index = e.Index ∧
          (∃ i : Nat, e.Index = (i : Int) ∧ s.updateQueue.entry i = some e) ∧
          qt.Total = (s.updateQueue.entries.length : Int) ∧ qt.Updating = e.Updating) := by
  refine ⟨_, ScheduleInfo_eq hs hq id, ?_, ?_, ?_, ?_⟩
  · rw [schedule.has_iff_sch hs]
    cases s.schedule.find id with
    | none => simp
    | some e => simp
  · intro st hst
    cases hf : s.schedule.find id with
    | none => rw [hf] at hst; cases hst
    | some e =>
      rw [hf] at hst
      simp only [Option.map_some', Option.some.injEq] at hst
      obtain ⟨i, x, _, hx, hm, hid, hidx⟩ := schedule.find_eq_some_sch hs hf
      refine ⟨e, (schedule.find_entries_sch hs hf).1, hid, ?_, ⟨i, hidx, ?_⟩, ?_, ?_, ?_⟩
      · rw [← hst]
      · unfold schedule.entry
        rw [hx, Option.some_bind, hm]
      · rw [← hst, schedule.entries_length_sch hs, schedule.index_length_sch hs]
      · rw [← hst]
        rfl
      · rw [← hst]
  · rw [updateQueue.has_iff hq]
    cases s.updateQueue.find id with
    | none => simp
    | some e => simp
  · intro qt hqt
    cases hf : s.updateQueue.find id with
    | none => rw [hf] at hqt; cases hqt
    | some e =>
      rw [hf] at hqt
      simp only [Option.map_some', Option.some.injEq] at hqt
      obtain ⟨i, x, _, hx, hm, hid, hidx⟩ := updateQueue.find_eq_some hq hf
      refine ⟨e, (updateQueue.find_entries hq hf).1, hid, ?_, ⟨i, hidx, ?_⟩, ?_, ?_⟩
      · rw [← hqt]
      · unfold updateQueue.entry
        rw [hx, Option.some_bind, hm]
      · rw [← hqt, updateQueue.entries_length hq, updateQueue.index_length hq]
      · rw [← hqt]

theorem C23_witness :
    inFlightSchedulerDeleted.schedule.Wf ∧ inFlightSchedulerDeleted.updateQueue.Wf ∧
    inFlightSchedulerDeleted.ScheduleInfo 1 = some
      { Schedule := none, Queue := some { Index := 1, Total := 2, Updating := true } } ∧
    ¬ inFlightSchedulerDeleted.schedule.has 1 := by
  obtain ⟨r, h1, h2, _⟩ :=
    C23_ScheduleInfo_reports_the_entries inFlightSchedulerDeleted 1 (by decide) (by decide)
  have h3 : inFlightSchedulerDeleted.ScheduleInfo 1 = some
      { Schedule := none, Queue := some { Index := 1, Total := 2, Updating := true } } := by
    decide
  rw [h3] at h1
  cases h1
  exact ⟨by decide, by decide, h3, h2.mp rfl⟩

end updateScheduler

/-- C25. Each of schedule.upsert, schedule.updateInterval, schedule.remove, updateQueue.enqueue
and updateQueue.remove panics when the repo's ID is zero, on every state (the test is its
first statement), and returns when the ID is not zero, on every state of the schedule and of
the queue that satisfies the representation invariant. -/
theorem C25_keyed_operations_panic_iff_zero_ID (s : schedule) (q : updateQueue)
    (repo : configuredRepo2) (d : Duration) (clock : Clock) (p : priority) (updating : Bool) :
    (repo.ID = 0 →
      s.upsert repo clock = none ∧ s.updateInterval repo d clock = none ∧
      s.remove repo clock = none ∧ q.enqueue repo p = none ∧ q.remove repo updating = none) ∧
    (repo.ID ≠ 0 → s.Valid → q.Valid →
      (∃ r, s.upsert repo clock = some r ∧ r.1.Valid) ∧
      (∃ r, s.updateInterval repo d clock = some r ∧ r.Valid) ∧
      (∃ r, s.remove repo clock = some r ∧ r.1.Valid) ∧
      (∃ r, q.enqueue repo p = some r ∧ r.1.Valid) ∧
      (∃ r, q.remove repo updating = some r ∧ r.1.Valid)) := by
  constructor
  · intro h0
    refine ⟨?_, ?_, ?_, ?_, ?_⟩
    · unfold schedule.upsert
      rw [if_pos h0]
    · unfold schedule.updateInterval
      rw [if_pos h0]
    · unfold schedule.remove
      rw [if_pos h0]
    · unfold updateQueue.enqueue
      rw [if_pos h0]
    · unfold updateQueue.remove
      rw [if_pos h0]
  · intro hid hs hq
    refine ⟨?_, ?_, ?_, ?_, ?_⟩
    · cases hf : s.find repo.ID with
      | none =>
        obtain ⟨s1, h1, h2, _⟩ := schedule.upsert_absent_spec hs hid clock hf
        exact ⟨_, h1, h2⟩
      | some e =>
        obtain ⟨s1, x, _, h1, h2, _⟩ := schedule.upsert_present_spec hs hid clock hf
        exact ⟨_, h1, h2⟩
    · rcases schedule.updateInterval_spec hs hid d clock with ⟨_, h1⟩ | ⟨e, s1, _, h1, h2, _⟩
      · exact ⟨_, h1, hs⟩
      · exact ⟨_, h1, h2⟩
    · rcases schedule.remove_spec_sch hs hid clock with ⟨_, h1⟩ | ⟨e, s1, _, h1, h2, _⟩
      · exact ⟨_, h1, hs⟩
      · exact ⟨_, h1, h2⟩
    · obtain ⟨q1, b, h1, h2, _⟩ := updateQueue.enqueue_cases hq hid p
      exact ⟨_, h1, h2⟩
    · obtain ⟨q1, b, h1, h2, _⟩ := updateQueue.remove_frame hq hid updating
      exact ⟨_, h1, h2⟩

theorem C25_witness :
    repoC.ID ≠ 0 ∧ exampleSchedule.Valid ∧ exampleQueue.Valid ∧
    (∃ r, exampleSchedule.upsert repoC (fun _ => 5) = some r ∧ r.1.Valid) ∧
    (∃ r, exampleQueue.remove repoC false = some r ∧ r.1.Valid) ∧
    exampleQueue.enqueue { repoC with ID := 0 } priorityLow = none :=
  have h := C25_keyed_operations_panic_iff_zero_ID exampleSchedule exampleQueue repoC 0
    (fun _ => 5) priorityLow false
  have h2 := h.2 (by decide) (by decide) (by decide)
  have h0 := (C25_keyed_operations_panic_iff_zero_ID exampleSchedule exampleQueue
    { repoC with ID := 0 } 0 (fun _ => 5) priorityLow false).1 rfl
  ⟨by decide, by decide, by decide, h2.1, h2.2.2.2.2, h0.2.2.2.1⟩

namespace updateQueue

/-- A queue with an empty heap and an empty index map satisfies the invariant and holds no
entry. -/
theorem empty_valid {q : updateQueue} (h0 : q.heap = []) (h0i : q.index = []) :
    q.Valid ∧ ∀ id, q.find id = none := by
  refine ⟨⟨⟨?_, ?_, ?_⟩, ?_⟩, ?_⟩
  · intro i hi
    rw [h0] at hi
    simp at hi
  · intro e he
    rw [h0i] at he
    cases he
  · rw [h0i]
    simp
  · intro k a b _ hkn
    rw [h0] at hkn
    simp at hkn
  · intro id
    unfold find
    rw [h0i]
    rfl

/-- The entry that precedes every other entry and is not updating is the one that
`acquireNext` takes. -/
theorem acquire_unique {q : updateQueue} (hq : q.Valid) {id0 : Nat} {c0 : repoUpdate}
    (h0 : (q.find id0).map repoUpdate.core = some c0) (hu : c0.Updating = false)
    (hbest : ∀ id c1, (q.find id).map repoUpdate.core = some c1 → id ≠ id0 →
      c0.less c1 = true) :
    ∃ q1, q.acquireNext = some (q1, some c0.Repo) ∧ q1.Valid ∧ q1.seq = q.seq ∧
      ∀ id, (q1.find id).map repoUpdate.core =
        if id = id0 then some { c0 with Updating := true }
        else (q.find id).map repoUpdate.core := by
  obtain ⟨e0, _, hid0, hf0, hcore0⟩ := find_core_some hq.1 h0
  obtain ⟨q1, r, hacq, hv1, hseq, _, _, _, _, hnone, hsome⟩ := acquireNext_spec hq
  cases r with
  | none =>
    have := (hnone rfl).2 id0 e0 hf0
    rw [← hcore0] at hu
    rw [show e0.core.Updating = e0.Updating from rfl, this] at hu
    cases hu
  | some R =>
    obtain ⟨e, hfe, hrepo, hue, hmin, hframe⟩ := hsome R rfl
    by_cases hR : R.ID = id0
    · rw [hR, hf0] at hfe
      cases hfe
      have hc : c0.Repo = R := by
        rw [← hcore0]
        exact hrepo
      refine ⟨q1, ?_, hv1, hseq, ?_⟩
      · rw [hc]
        exact hacq
      · intro id
        rw [hframe id, hR, ← hcore0]
        rfl
    · have h1 : c0.less e.core = true := hbest R.ID e.core (by rw [hfe]; rfl) hR
      have h2 : e0.less e = false := hmin id0 e0 hf0
      rw [← hcore0, less_core, h2] at h1
      cases h1

/-- When every entry is updating, `acquireNext` returns nil and changes nothing. -/
theorem acquire_none {q : updateQueue} (hq : q.Valid)
    (h : ∀ id c, (q.find id).map repoUpdate.core = some c → c.Updating = true) :
    q.acquireNext = some (q, none) := by
  obtain ⟨q1, r, hacq, _, _, _, _, _, _, hnone, hsome⟩ := acquireNext_spec hq
  cases r with
  | none =>
    rw [(hnone rfl).1] at hacq
    exact hacq
  | some R =>
    obtain ⟨e, hfe, _, hue, _⟩ := hsome R rfl
    have := h R.ID e.core (by rw [hfe]; rfl)
    rw [show e.core.Updating = e.Updating from rfl, hue] at this
    cases this

/-- A sequence of calls followed by another one. -/
theorem calls_append : ∀ (cs1 cs2 : List queueCall) (q : updateQueue),
    q.calls (cs1 ++ cs2) =
      (q.calls cs1).bind (fun r => (r.1.calls cs2).map (fun r2 => (r2.1, r.2 ++ r2.2))) := by
  intro cs1
  induction cs1 with
  | nil =>
    intro cs2 q
    simp only [List.nil_append, calls, Option.some_bind]
    cases q.calls cs2 with
    | none => rfl
    | some r => rfl
  | cons c rest ih =>
    intro cs2 q
    show (q.call c).bind (fun r =>
        (r.1.calls (rest ++ cs2)).map (fun r2 => (r2.1, r.2 :: r2.2))) =
      ((q.call c).bind (fun r => (r.1.calls rest).map (fun r2 => (r2.1, r.2 :: r2.2)))).bind
        (fun r => (r.1.calls cs2).map (fun r2 => (r2.1, r.2 ++ r2.2)))
    cases q.call c with
    | none => rfl
    | some r =>
      simp only [Option.some_bind]
      rw [ih]
      cases r.1.calls rest with
      | none => rfl
      | some r2 =>
        simp only [Option.some_bind, Option.map_some']
        cases r2.1.calls cs2 with
        | none => rfl
        | some r3 => rfl

/-- C26. For repos X and Y with distinct non-zero IDs and an empty Update Queue, the calls
enqueue(X, low), enqueue(Y, low), enqueue(Y, high) and three calls of acquireNext all return,
and the three calls of acquireNext return Y, then X, then nil. -/
theorem C26_bumped_repo_is_acquired_first (q : updateQueue) (X Y : configuredRepo2)
    (hX : X.ID ≠ 0) (hY : Y.ID ≠ 0) (hXY : X.ID ≠ Y.ID) (hheap : q.heap = [])
    (hindex : q.index = []) :
    ∃ q1, q.calls [queueCall.enqueue X priorityLow, queueCall.enqueue Y priorityLow,
        queueCall.enqueue Y priorityHigh, queueCall.acquireNext, queueCall.acquireNext,
        queueCall.acquireNext] =
      some (q1, [none, none, none, some Y, some X, none]) := by
  obtain ⟨hv0, hf0⟩ := empty_valid hheap hindex
  obtain ⟨qa, hena, hva, _, _, _, hfa⟩ := enqueue_new_spec hv0 hX priorityLow (hf0 X.ID)
  have hfaY : qa.find Y.ID = none := by
    have := hfa Y.ID
    rw [if_neg (Ne.symm hXY), hf0] at this
    cases h : qa.find Y.ID with
    | none => rfl
    | some e => rw [h] at this; cases this
  obtain ⟨qb, henb, hvb, _, _, _, hfb⟩ := enqueue_new_spec hva hY priorityLow hfaY
  have hfbY := hfb Y.ID
  rw [if_pos rfl] at hfbY
  obtain ⟨eY, _, _, hfeY, hcY⟩ := find_core_some hvb.1 hfbY
  have huY : eY.Updating = false := congrArg repoUpdate.Updating hcY
  have hpY : eY.Priority < priorityHigh := by
    have : eY.Priority = priorityLow := congrArg repoUpdate.Priority hcY
    rw [this]
    decide
  obtain ⟨qc, henc, hvc, _, _, _, _, hfc⟩ := enqueue_bump_spec hvb hY priorityHigh hfeY huY hpY
  -- the entries of the queue after the three calls of enqueue
  have hview : ∀ id, (qc.find id).map repoUpdate.core =
      if id = Y.ID then
        some { Repo := Y, Priority := priorityHigh, Seq := (qb.seq + 1) % 2 ^ 64,
               Updating := false, Index := 0 }
      else if id = X.ID then
        some { Repo := X, Priority := priorityLow, Seq := (q.seq + 1) % 2 ^ 64,
               Updating := false, Index := 0 }
      else none := by
    intro id
    rw [hfc id]
    by_cases h1 : id = Y.ID
    · rw [if_pos h1, if_pos h1]
      have : eY.Updating = false := huY
      simp only [repoUpdate.core, this]
    · rw [if_neg h1, if_neg h1, hfb id, if_neg h1, hfa id]
      by_cases h2 : id = X.ID
      · rw [if_pos h2, if_pos h2]
      · rw [if_neg h2, if_neg h2, hf0]
        rfl
  have hviewY := hview Y.ID
  rw [if_pos rfl] at hviewY
  obtain ⟨qd, hacd, hvd, _, hfd⟩ := acquire_unique hvc hviewY rfl (by
    intro id c1 hc1 hne
    rw [hview id, if_neg hne] at hc1
    by_cases h2 : id = X.ID
    · rw [if_pos h2] at hc1
      cases hc1
      simp [repoUpdate.less, priorityHigh, priorityLow]
    · rw [if_neg h2] at hc1
      cases hc1)
  have hviewX : (qd.find X.ID).map repoUpdate.core =
      some { Repo := X, Priority := priorityLow, Seq := (q.seq + 1) % 2 ^ 64,
             Updating := false, Index := 0 } := by
    rw [hfd X.ID, if_neg hXY, hview X.ID, if_neg hXY, if_pos rfl]
  obtain ⟨qe, hace, hve, _, hfe⟩ := acquire_unique hvd hviewX rfl (by
    intro id c1 hc1 hne
    rw [hfd id] at hc1
    by_cases h1 : id = Y.ID
    · rw [if_pos h1] at hc1
      cases hc1
      rfl
    · rw [if_neg h1, hview id, if_neg h1, if_neg hne] at hc1
      cases hc1)
  have hacf : qe.acquireNext = some (qe, none) := by
    apply acquire_none hve
    intro id c hc
    rw [hfe id] at hc
    by_cases h2 : id = X.ID
    · rw [if_pos h2] at hc
      cases hc
      rfl
    · rw [if_neg h2, hfd id] at hc
      by_cases h1 : id = Y.ID
      · rw [if_pos h1] at hc
        cases hc
        rfl
      · rw [if_neg h1, hview id, if_neg h1, if_neg h2] at hc
        cases hc
  refine ⟨qe, ?_⟩
  simp only [calls, call, hena, henb, henc, hacd, hace, hacf, Option.map_some',
    Option.some_bind]

theorem C26_witness :
    repoA.ID ≠ 0 ∧ repoB.ID ≠ 0 ∧ repoA.ID ≠ repoB.ID ∧
    NewUpdateScheduler.updateQueue.heap = [] ∧ NewUpdateScheduler.updateQueue.index = [] ∧
    ∃ q1, NewUpdateScheduler.updateQueue.calls
        [queueCall.enqueue repoA priorityLow, queueCall.enqueue repoB priorityLow,
         queueCall.enqueue repoB priorityHigh, queueCall.acquireNext, queueCall.acquireNext,
         queueCall.acquireNext] =
      some (q1, [none, none, none, some repoB, some repoA, none]) :=
  ⟨by decide, by decide, by decide, rfl, rfl,
    C26_bumped_repo_is_acquired_first NewUpdateScheduler.updateQueue repoA repoB (by decide)
      (by decide) (by decide) rfl rfl⟩

end updateQueue

theorem firstOccFrom_cons (D : List configuredRepo2) (r : configuredRepo2)
    (es : List configuredRepo2) :
    firstOccFrom D (r :: es) = firstOccFrom (if r ∈ D then D else D ++ [r]) es := rfl

theorem firstOccFrom_prefix : ∀ (es D : List configuredRepo2), D <+: firstOccFrom D es := by
  intro es
  induction es with
  | nil => intro D; exact List.prefix_refl D
  | cons r rest ih =>
    intro D
    rw [firstOccFrom_cons]
    by_cases h : r ∈ D
    · rw [if_pos h]
      exact ih D
    · rw [if_neg h]
      exact (List.prefix_append D [r]).trans (ih (D ++ [r]))

theorem mem_firstOccFrom : ∀ (es D : List configuredRepo2) (r : configuredRepo2),
    r ∈ firstOccFrom D es ↔ r ∈ D ∨ r ∈ es := by
  intro es
  induction es with
  | nil => intro D r; simp [firstOccFrom]
  | cons a rest ih =>
    intro D r
    rw [firstOccFrom_cons, ih]
    by_cases h : a ∈ D
    · rw [if_pos h, List.mem_cons]
      constructor
      · rintro (h1 | h1)
        · exact Or.inl h1
        · exact Or.inr (Or.inr h1)
      · rintro (h1 | h1 | h1)
        · exact Or.inl h1
        · exact Or.inl (h1 ▸ h)
        · exact Or.inr h1
    · rw [if_neg h, List.mem_append, List.mem_singleton, List.mem_cons]
      constructor
      · rintro ((h1 | h1) | h1)
        · exact Or.inl h1
        · exact Or.inr (Or.inl h1)
        · exact Or.inr (Or.inr h1)
      · rintro (h1 | h1 | h1)
        · exact Or.inl (Or.inl h1)
        · exact Or.inl (Or.inr h1)
        · exact Or.inr h1

theorem freshEntries_append (p : priority) : ∀ (D : List configuredRepo2) (c : Nat)
    (r : configuredRepo2),
    freshEntries p c (D ++ [r]) = freshEntries p c D ++
      [{ Repo := r, Priority := p, Seq := c + D.length + 1, Updating := false, Index := 0 }] := by
  intro D
  induction D with
  | nil => intro c r; rfl
  | cons a rest ih =>
    intro c r
    show ({ Repo := a, Priority := p, Seq := c + 1, Updating := false, Index := 0 } :
        repoUpdate) :: freshEntries p (c + 1) (rest ++ [r]) =
      (({ Repo := a, Priority := p, Seq := c + 1, Updating := false, Index := 0 } :
        repoUpdate) :: freshEntries p (c + 1) rest) ++
      [{ Repo := r, Priority := p, Seq := c + (rest.length + 1) + 1, Updating := false,
         Index := 0 }]
    have : c + 1 + rest.length + 1 = c + (rest.length + 1) + 1 := by omega
    rw [ih, List.cons_append, this]

theorem freshEntries_mem (p : priority) : ∀ (l : List configuredRepo2) (c : Nat)
    (e : repoUpdate), e ∈ freshEntries p c l →
    e.Priority = p ∧ e.Updating = false ∧ c < e.Seq ∧ e.Repo ∈ l := by
  intro l
  induction l with
  | nil => intro c e h; cases h
  | cons a rest ih =>
    intro c e h
    simp only [freshEntries, List.mem_cons] at h
    rcases h with h | h
    · subst h
      exact ⟨rfl, rfl, Nat.lt_succ_self c, List.mem_cons_self _ _⟩
    · obtain ⟨h1, h2, h3, h4⟩ := ih (c + 1) e h
      exact ⟨h1, h2, by omega, List.mem_cons_of_mem _ h4⟩

theorem freshEntries_repos (p : priority) : ∀ (l : List configuredRepo2) (c : Nat),
    (freshEntries p c l).map (fun e => e.Repo) = l := by
  intro l
  induction l with
  | nil => intro c; rfl
  | cons a rest ih =>
    intro c
    simp only [freshEntries, List.map_cons, ih]

theorem freshEntries_ids (p : priority) (l : List configuredRepo2) (c : Nat) :
    (freshEntries p c l).map (fun e => e.Repo.ID) = l.map (fun r => r.ID) := by
  have := congrArg (List.map (fun r : configuredRepo2 => r.ID)) (freshEntries_repos p l c)
  rw [List.map_map] at this
  exact this

theorem entryOf_mem {L : List repoUpdate} {id : Nat} {e : repoUpdate}
    (h : entryOf L id = some e) : e ∈ L ∧ e.Repo.ID = id := by
  unfold entryOf at h
  refine ⟨List.mem_of_find?_eq_some h, ?_⟩
  have := List.find?_some h
  exact of_decide_eq_true this

theorem entryOf_eq_none {L : List repoUpdate} {id : Nat} :
    entryOf L id = none ↔ ∀ e ∈ L, e.Repo.ID ≠ id := by
  unfold entryOf
  rw [List.find?_eq_none]
  constructor
  · intro h e he
    have := h e he
    exact fun h1 => this (decide_eq_true h1)
  · intro h e he h1
    exact h e he (of_decide_eq_true h1)

theorem entryOf_append (A B : List repoUpdate) (id : Nat) :
    entryOf (A ++ B) id = (entryOf A id).or (entryOf B id) := by
  unfold entryOf
  exact List.find?_append

theorem entryOf_of_mem : ∀ {L : List repoUpdate}, (L.map (fun e => e.Repo.ID)).Nodup →
    ∀ {e : repoUpdate}, e ∈ L → entryOf L e.Repo.ID = some e := by
  intro L
  induction L with
  | nil => intro _ e he; cases he
  | cons a rest ih =>
    intro hnd e he
    rw [List.map_cons, List.nodup_cons] at hnd
    unfold entryOf
    rw [List.mem_cons] at he
    rcases he with he | he
    · subst he
      rw [List.find?_cons_of_pos]
      exact decide_eq_true rfl
    · have hne : ¬ a.Repo.ID = e.Repo.ID := by
        intro h
        exact hnd.1 (List.mem_map.mpr ⟨e, he, h.symm⟩)
      rw [List.find?_cons_of_neg]
      · exact ih hnd.2 he
      · simpa using hne

/-- Exchanging an entry for one of the same repo ID changes the lookup of that ID only. -/
theorem entryOf_replace {U F : List repoUpdate} {e0 e1 : repoUpdate}
    (hnd : ((U ++ e0 :: F).map (fun e => e.Repo.ID)).Nodup) (hid : e1.Repo.ID = e0.Repo.ID)
    (id : Nat) :
    entryOf ((U ++ [e1]) ++ F) id =
      if id = e0.Repo.ID then some e1 else entryOf (U ++ e0 :: F) id := by
  rw [List.append_assoc, List.singleton_append, entryOf_append, entryOf_append]
  by_cases h : id = e0.Repo.ID
  · rw [if_pos h]
    have hU : entryOf U id = none := by
      rw [entryOf_eq_none]
      intro u hu hue
      rw [List.map_append, List.nodup_append] at hnd
      exact hnd.2.2 (List.mem_map.mpr ⟨u, hu, rfl⟩)
        (List.mem_map.mpr ⟨e0, List.mem_cons_self _ _, by rw [hue, h]⟩)
    rw [hU, Option.none_or]
    unfold entryOf
    rw [List.find?_cons_of_pos]
    exact decide_eq_true (hid.trans h.symm)
  · rw [if_neg h]
    congr 1
    unfold entryOf
    rw [List.find?_cons_of_neg, List.find?_cons_of_neg]
    · simpa using fun h1 => h h1.symm
    · simpa using fun h1 => h (hid ▸ h1).symm

namespace updateQueue

/-- Enqueueing repos one after another at one priority: when the entries of the queue are
those of the repos `D`, pushed in this order from the counter `c`, the queue afterwards holds
the entries of `D` followed by the new repos in the order of their first occurrence. -/
theorem enqueue_all (p : priority) (c : Nat) : ∀ (es D : List configuredRepo2)
    (q : updateQueue), q.Valid → q.seq = c + D.length →
    (∀ id, (q.find id).map repoUpdate.core = entryOf (freshEntries p c D) id) →
    (∀ r ∈ es, r.ID ≠ 0) → ((firstOccFrom D es).map (fun r => r.ID)).Nodup →
    c + (firstOccFrom D es).length < 2 ^ 64 →
    ∃ q1, q.calls (es.map (fun r => queueCall.enqueue r p)) =
        some (q1, es.map (fun _ => none)) ∧
      q1.Valid ∧ q1.seq = c + (firstOccFrom D es).length ∧
      ∀ id, (q1.find id).map repoUpdate.core =
        entryOf (freshEntries p c (firstOccFrom D es)) id := by
  intro es
  induction es with
  | nil =>
    intro D q hq hseq hview _ _ _
    exact ⟨q, rfl, hq, hseq, hview⟩
  | cons r rest ih =>
    intro D q hq hseq hview hnz hnd hbound
    rw [firstOccFrom_cons] at hnd hbound ⊢
    have hrid : r.ID ≠ 0 := hnz r (List.mem_cons_self r rest)
    have hnzrest : ∀ r1 ∈ rest, r1.ID ≠ 0 := fun r1 h => hnz r1 (List.mem_cons_of_mem r h)
    have hstep : ∃ qa, q.enqueue r p = some qa ∧ qa.1.Valid ∧
        qa.1.seq = c + (if r ∈ D then D else D ++ [r]).length ∧
        ∀ id, (qa.1.find id).map repoUpdate.core =
          entryOf (freshEntries p c (if r ∈ D then D else D ++ [r])) id := by
      have hpre := firstOccFrom_prefix rest (if r ∈ D then D else D ++ [r])
      have hnd1 : ((if r ∈ D then D else D ++ [r]).map (fun r => r.ID)).Nodup :=
        List.Nodup.sublist (List.Sublist.map _ hpre.sublist) hnd
      have hlen : (if r ∈ D then D else D ++ [r]).length ≤
          (firstOccFrom (if r ∈ D then D else D ++ [r]) rest).length := hpre.length_le
      by_cases hmem : r ∈ D
      · rw [if_pos hmem] at hnd1 ⊢
        -- the repo is queued already: the call changes nothing
        have hndF : ((freshEntries p c D).map (fun e => e.Repo.ID)).Nodup := by
          rw [freshEntries_ids]
          exact hnd1
        have hex : ∃ e ∈ freshEntries p c D, e.Repo = r := by
          have : r ∈ (freshEntries p c D).map (fun e => e.Repo) := by
            rw [freshEntries_repos]
            exact hmem
          obtain ⟨e, he, her⟩ := List.mem_map.mp this
          exact ⟨e, he, her⟩
        obtain ⟨e, heF, her⟩ := hex
        have hlook : entryOf (freshEntries p c D) r.ID = some e := by
          have := entryOf_of_mem hndF heF
          rw [her] at this
          exact this
        have hfe := hview r.ID
        rw [hlook] at hfe
        obtain ⟨e1, _, _, hf1, hcore1⟩ := find_core_some hq.1 hfe
        obtain ⟨hpe, hue, _, _⟩ := freshEntries_mem p D c e heF
        have hu1 : e1.Updating = false := by
          have := congrArg repoUpdate.Updating hcore1
          exact this.trans hue
        have hp1 : p ≤ e1.Priority := by
          have := congrArg repoUpdate.Priority hcore1
          have h2 : e1.Priority = p := this.trans hpe
          rw [h2]
        obtain ⟨qa, x, _, hen, hva, _, _, _, hseqa, _, hfa⟩ :=
          enqueue_same_spec hq hrid p hf1 hu1 hp1
        refine ⟨(qa, true), hen, hva, hseqa.trans hseq, ?_⟩
        intro id
        rw [hfa id]
        by_cases hid : id = r.ID
        · rw [if_pos hid, hid, hlook, ← hcore1]
          have hr1 : e1.Repo = r := by
            have := congrArg repoUpdate.Repo hcore1
            exact this.trans her
          simp only [Option.map_some', repoUpdate.core, hr1]
        · rw [if_neg hid]
          exact hview id
      · rw [if_neg hmem] at hnd1 hlen hbound ⊢
        -- the repo is new: it is pushed with the next sequence number
        have hnotin : r.ID ∉ D.map (fun r => r.ID) := by
          rw [List.map_append, List.nodup_append] at hnd1
          intro h
          exact hnd1.2.2 h (by simp)
        have hlookD : entryOf (freshEntries p c D) r.ID = none := by
          rw [entryOf_eq_none]
          intro e he hid
          obtain ⟨_, _, _, hin⟩ := freshEntries_mem p D c e he
          exact hnotin (List.mem_map.mpr ⟨e.Repo, hin, hid⟩)
        have hnone : q.find r.ID = none := by
          have := hview r.ID
          rw [hlookD] at this
          cases h : q.find r.ID with
          | none => rfl
          | some e => rw [h] at this; cases this
        obtain ⟨qa, hen, hva, hseqa, _, _, hfa⟩ := enqueue_new_spec hq hrid p hnone
        rw [List.length_append, List.length_singleton] at hlen ⊢
        have hmod : (q.seq + 1) % 2 ^ 64 = c + D.length + 1 := by
          rw [hseq]
          exact Nat.mod_eq_of_lt (by omega)
        refine ⟨(qa, false), hen, hva, by rw [hseqa, hmod]; omega, ?_⟩
        intro id
        rw [hfa id, freshEntries_append, entryOf_append, hmod]
        by_cases hid : id = r.ID
        · rw [if_pos hid, hid, hlookD, Option.none_or]
          unfold entryOf
          rw [List.find?_cons_of_pos]
          exact decide_eq_true rfl
        · rw [if_neg hid, hview id]
          have : entryOf [(⟨r, p, c + D.length + 1, false, 0⟩ : repoUpdate)] id = none := by
            rw [entryOf_eq_none]
            intro e he
            rw [List.mem_singleton] at he
            rw [he]
            exact fun h => hid h.symm
          rw [this]
          cases entryOf (freshEntries p c D) id with
          | none => rfl
          | some e => rfl
    obtain ⟨qa, hen, hva, hseqa, hfa⟩ := hstep
    obtain ⟨q1, hrun, hv1, hseq1, hf1⟩ := ih _ qa.1 hva hseqa hfa hnzrest hnd hbound
    refine ⟨q1, ?_, hv1, hseq1, hf1⟩
    simp only [List.map_cons, calls, call, hen, Option.map_some', Option.some_bind, hrun]

/-- Calling `acquireNext` over and over: when the entries of the queue are updating ones
followed by those of the repos `rest`, pushed in this order at one priority, the calls
return the repos of `rest` in this order and then nil. -/
theorem acquire_all (p : priority) : ∀ (rest : List configuredRepo2) (U : List repoUpdate)
    (c : Nat) (q : updateQueue), q.Valid →
    (∀ id, (q.find id).map repoUpdate.core = entryOf (U ++ freshEntries p c rest) id) →
    (∀ u ∈ U, u.Updating = true) →
    ((U ++ freshEntries p c rest).map (fun e => e.Repo.ID)).Nodup →
    ∃ q1, q.calls (List.replicate (rest.length + 1) queueCall.acquireNext) =
      some (q1, rest.map some ++ [none]) := by
  intro rest
  induction rest with
  | nil =>
    intro U c q hq hview hU _
    have hacq : q.acquireNext = some (q, none) := by
      apply acquire_none hq
      intro id e he
      rw [hview id] at he
      have := (entryOf_mem he).1
      simp only [freshEntries, List.append_nil] at this
      exact hU e this
    refine ⟨q, ?_⟩
    simp only [List.length_nil, Nat.zero_add, List.replicate, calls, call, hacq,
      Option.some_bind, Option.map_some', List.map_nil, List.nil_append]
  | cons r rest1 ih =>
    intro U c q hq hview hU hnd
    have hF : freshEntries p c (r :: rest1) =
        ({ Repo := r, Priority := p, Seq := c + 1, Updating := false, Index := 0 } :
          repoUpdate) :: freshEntries p (c + 1) rest1 := rfl
    rw [hF] at hview hnd
    have h0 : (q.find r.ID).map repoUpdate.core =
        some { Repo := r, Priority := p, Seq := c + 1, Updating := false, Index := 0 } := by
      rw [hview r.ID]
      exact entryOf_of_mem hnd (e := ⟨r, p, c + 1, false, 0⟩) (by simp)
    obtain ⟨qa, hacq, hva, _, hfa⟩ := acquire_unique hq h0 rfl (by
      intro id c1 hc1 hne
      rw [hview id] at hc1
      obtain ⟨hin, hid1⟩ := entryOf_mem hc1
      rw [List.mem_append, List.mem_cons] at hin
      rcases hin with hin | hin | hin
      · have := hU c1 hin
        simp [repoUpdate.less, this]
      · rw [hin] at hid1
        exact absurd hid1.symm hne
      · obtain ⟨h1, h2, h3, _⟩ := freshEntries_mem p rest1 (c + 1) c1 hin
        simp only [repoUpdate.less, h1, h2, ne_eq, not_true_eq_false, if_false,
          decide_eq_true_eq]
        omega)
    obtain ⟨q1, hrun⟩ := ih
      (U ++ [{ Repo := r, Priority := p, Seq := c + 1, Updating := true, Index := 0 }])
      (c + 1) qa hva (by
        intro id
        rw [hfa id]
        have := @entryOf_replace U (freshEntries p (c + 1) rest1)
          { Repo := r, Priority := p, Seq := c + 1, Updating := false, Index := 0 }
          { Repo := r, Priority := p, Seq := c + 1, Updating := true, Index := 0 }
          hnd rfl id
        rw [this, hview id])
      (by
        intro u hu
        rw [List.mem_append, List.mem_singleton] at hu
        rcases hu with hu | hu
        · exact hU u hu
        · rw [hu])
      (by
        have : ((U ++ [(⟨r, p, c + 1, true, 0⟩ : repoUpdate)]) ++
              freshEntries p (c + 1) rest1).map (fun e => e.Repo.ID) =
            (U ++ (⟨r, p, c + 1, false, 0⟩ : repoUpdate) ::
              freshEntries p (c + 1) rest1).map (fun e => e.Repo.ID) := by
          simp
        rw [this]
        exact hnd)
    refine ⟨q1, ?_⟩
    have hrep : List.replicate (rest1.length + 1 + 1) queueCall.acquireNext =
        queueCall.acquireNext :: List.replicate (rest1.length + 1) queueCall.acquireNext := rfl
    rw [List.length_cons, hrep]
    show (q.acquireNext).bind (fun r =>
        (r.1.calls (List.replicate (rest1.length + 1) queueCall.acquireNext)).map
          (fun r2 => (r2.1, r.2 :: r2.2))) = _
    rw [hacq, Option.some_bind, hrun]
    rfl

/-- First in, first out within one priority, on every empty queue: for every list `rs` of
repos with pairwise distinct non-zero IDs and every sequence `es` of enqueues at one priority
in which the repos of `rs` occur for the first time in the order of `rs` (repeated enqueues
of the same repo values may stand anywhere in between), when the sequence counter of the
queue is more than the length of `rs` below 2 ^ 64: all calls return, and calling acquireNext
over and over returns the repos in the order of `rs` and then returns nil. -/
theorem acquire_in_order_of_first_enqueue (q : updateQueue) (p : priority)
    (rs es : List configuredRepo2) (hheap : q.heap = []) (hindex : q.index = [])
    (hnz : ∀ r ∈ rs, r.ID ≠ 0) (hnd : (rs.map (fun r => r.ID)).Nodup)
    (hfirst : firstOcc es = rs) (hseq : q.seq + rs.length < 2 ^ 64) :
    ∃ q1, q.calls (es.map (fun r => queueCall.enqueue r p) ++
        List.replicate (rs.length + 1) queueCall.acquireNext) =
      some (q1, es.map (fun _ => none) ++ (rs.map some ++ [none])) := by
  obtain ⟨hv0, hf0⟩ := empty_valid hheap hindex
  have hnzes : ∀ r ∈ es, r.ID ≠ 0 := by
    intro r hr
    apply hnz
    rw [← hfirst]
    exact (mem_firstOccFrom es [] r).mpr (Or.inr hr)
  unfold firstOcc at hfirst
  obtain ⟨qa, hrun1, hva, _, hfa⟩ := enqueue_all p q.seq es [] q hv0 rfl
    (by
      intro id
      rw [hf0 id]
      rfl)
    hnzes (by rw [hfirst]; exact hnd) (by rw [hfirst]; exact hseq)
  rw [hfirst] at hfa
  obtain ⟨q1, hrun2⟩ := acquire_all p rs [] q.seq qa hva
    (by
      intro id
      rw [hfa id, List.nil_append])
    (fun u hu => by cases hu)
    (by
      rw [List.nil_append, freshEntries_ids]
      exact hnd)
  refine ⟨q1, ?_⟩
  rw [calls_append, hrun1, Option.some_bind, hrun2]
  rfl

theorem acquire_in_order_of_first_enqueue_example :
    NewUpdateScheduler.updateQueue.heap = [] ∧ NewUpdateScheduler.updateQueue.index = [] ∧
    (∀ r ∈ [repoA, repoB], r.ID ≠ 0) ∧ ([repoA, repoB].map (fun r => r.ID)).Nodup ∧
    firstOcc [repoA, repoB, repoA] = [repoA, repoB] ∧
    NewUpdateScheduler.updateQueue.seq + [repoA, repoB].length < 2 ^ 64 ∧
    ∃ q1, NewUpdateScheduler.updateQueue.calls
        [queueCall.enqueue repoA priorityLow, queueCall.enqueue repoB priorityLow,
         queueCall.enqueue repoA priorityLow, queueCall.acquireNext, queueCall.acquireNext,
         queueCall.acquireNext] =
      some (q1, [none, none, none, some repoA, some repoB, none]) :=
  ⟨rfl, rfl, by decide, by decide, by decide, by decide,
    acquire_in_order_of_first_enqueue NewUpdateScheduler.updateQueue priorityLow
      [repoA, repoB] [repoA, repoB, repoA] rfl rfl (by decide) (by decide) (by decide)
      (by decide)⟩

end updateQueue

namespace updateScheduler

/-- The calls of `add` on a repo that is scheduled and queued already, not updating and at
low priority or above: both entries stay as they are but for the stored repo. -/
theorem add_again {s : updateScheduler} (hs : s.Inv) {repo : configuredRepo2}
    (hid : repo.ID ≠ 0) (clock : Clock) {c : scheduledRepoUpdate} {d : repoUpdate}
    (hc : s.scheduled repo.ID = some c) (hd : s.queued repo.ID = some d)
    (hu : d.Updating = false) (hp : priorityLow ≤ d.Priority) :
    ∃ s1, s.add repo clock = some s1 ∧ s1.Inv ∧ s1.sourceRepos = s.sourceRepos ∧
      (∀ id, id ≠ repo.ID → s1.scheduled id = s.scheduled id ∧ s1.queued id = s.queued id) ∧
      s1.scheduled repo.ID = some { c with Repo := repo } ∧
      s1.queued repo.ID = some { d with Repo := repo } := by
  obtain ⟨hv, hi, hq⟩ := hs
  obtain ⟨e, hfe, hce⟩ := scheduled_some hc
  obtain ⟨u, hfu, hdu⟩ := queued_some hd
  obtain ⟨sch, x, _, hup, hv1, _, _, _, _, _, hf1⟩ :=
    schedule.upsert_present_spec hv hid clock hfe
  have hu1 : u.Updating = false := by
    rw [← hdu] at hu
    exact hu
  have hp1 : priorityLow ≤ u.Priority := by
    rw [← hdu] at hp
    exact hp
  obtain ⟨q1, y, _, henq, hq1, _, _, _, _, _, hf2⟩ :=
    updateQueue.enqueue_same_spec hq hid priorityLow hfu hu1 hp1
  have hi1 : sch.IntervalOk := (schedule.upsert_inv hv hi hup).2
  refine ⟨{ s with schedule := sch, updateQueue := q1 }, ?_, ⟨hv1, hi1, hq1⟩, rfl, ?_, ?_, ?_⟩
  · simp only [add, hup, Option.some_bind, henq, Option.map_some']
  · intro id hne
    constructor
    · show (sch.find id).map scheduledRepoUpdate.core = _
      rw [hf1 id, if_neg hne]
      rfl
    · show (q1.find id).map repoUpdate.core = _
      rw [hf2 id, if_neg hne]
      rfl
  · show (sch.find repo.ID).map scheduledRepoUpdate.core = _
    rw [hf1 repo.ID, if_pos rfl, ← hce]
    rfl
  · show (q1.find repo.ID).map repoUpdate.core = _
    rw [hf2 repo.ID, if_pos rfl, ← hdu]
    rfl

/-- The calls of `add` on two repos with distinct IDs that are not queued: both are scheduled
and queued afterwards, at low priority and not updating. -/
theorem add_pair {s : updateScheduler} (hs : s.Inv) {X Y : configuredRepo2}
    (hidX : X.ID ≠ 0) (hidY : Y.ID ≠ 0) (hXY : X.ID ≠ Y.ID) (hqX : s.queued X.ID = none)
    (hqY : s.queued Y.ID = none) (clockX clockY : Clock) :
    ∃ sa sb, s.add X clockX = some sa ∧ sa.add Y clockY = some sb ∧ sb.Inv ∧
      sb.sourceRepos = s.sourceRepos ∧
      (∃ c, sb.scheduled X.ID = some c ∧ c.Repo = X) ∧
      (∃ c, sb.scheduled Y.ID = some c ∧ c.Repo = Y) ∧
      (∃ d, sb.queued X.ID = some d ∧ d.Repo = X ∧ d.Priority = priorityLow ∧
        d.Updating = false) ∧
      (∃ d, sb.queued Y.ID = some d ∧ d.Repo = Y ∧ d.Priority = priorityLow ∧
        d.Updating = false) := by
  obtain ⟨sa, hadd1, hinva, hsrca, hfra, ⟨c1, hc1, hr1, _⟩, ⟨d1, hd1, hn1, _⟩⟩ :=
    add_spec hs hidX clockX
  obtain ⟨sb, hadd2, hinvb, hsrcb, hfrb, ⟨c2, hc2, hr2, _⟩, ⟨d2, hd2, hn2, _⟩⟩ :=
    add_spec hinva hidY clockY
  have hqYa : sa.queued Y.ID = none := by
    rw [(hfra Y.ID (Ne.symm hXY)).2]
    exact hqY
  refine ⟨sa, sb, hadd1, hadd2, hinvb, hsrcb.trans hsrca, ⟨c1, ?_, hr1⟩, ⟨c2, hc2, hr2⟩,
    ⟨d1, ?_, hn1 hqX⟩, ⟨d2, hd2, hn2 hqYa⟩⟩
  · rw [(hfrb X.ID hXY).1]
    exact hc1
  · rw [(hfrb X.ID hXY).2]
    exact hd1

/-- The first statement of `updateSource` changes nothing when the source has a list. -/
theorem initSource_of_some {s : updateScheduler} {source : String} {l : sourceRepoMap}
    (h : sourceReposGet s.sourceRepos source = some l) :
    s.initSource source = s ∧ s.oldList source = l := by
  unfold initSource oldList
  rw [h]
  exact ⟨if_neg (by simp), rfl⟩

/-- The call `updateSource` of a list of two enabled repos on a fresh scheduler. -/
theorem updateSource_fresh_pair {X Y : configuredRepo2} (kx ky : String)
    (hX : X.Enabled = true) (hY : Y.Enabled = true)
    (hidX : X.ID ≠ 0) (hidY : Y.ID ≠ 0) (hXY : X.ID ≠ Y.ID) (source : String)
    (clockAt : Nat → Clock) :
    ∃ s1, NewUpdateScheduler.updateSource source [(kx, X), (ky, Y)] clockAt = some s1 ∧
      s1.Inv ∧ sourceReposGet s1.sourceRepos source = some [(kx, X), (ky, Y)] ∧
      (∃ c, s1.scheduled X.ID = some c ∧ c.Repo = X) ∧
      (∃ c, s1.scheduled Y.ID = some c ∧ c.Repo = Y) ∧
      (∃ d, s1.queued X.ID = some d ∧ d.Repo = X ∧ d.Priority = priorityLow ∧
        d.Updating = false) ∧
      (∃ d, s1.queued Y.ID = some d ∧ d.Repo = Y ∧ d.Priority = priorityLow ∧
        d.Updating = false) := by
  have hinv0 : (NewUpdateScheduler.initSource source).Inv := by
    have := initSource_schedule NewUpdateScheduler source
    unfold Inv
    rw [this.1, this.2]
    decide
  have hq0 : ∀ id, (NewUpdateScheduler.initSource source).queued id = none := by
    intro id
    unfold queued
    rw [(initSource_schedule NewUpdateScheduler source).2]
    rfl
  obtain ⟨sa, sb, hadd1, hadd2, hinvb, _, h1, h2, h3, h4⟩ :=
    add_pair hinv0 hidX hidY hXY (hq0 X.ID) (hq0 Y.ID) (clockAt 0) (clockAt 1)
  refine ⟨{ sb with sourceRepos := sourceReposSet sb.sourceRepos source [(kx, X), (ky, Y)] },
    ?_, hinvb, sourceReposGet_set_self _ _ _, h1, h2, h3, h4⟩
  rw [updateSource_eq]
  have hold : NewUpdateScheduler.oldList source = [] := rfl
  rw [hold]
  show (updateSourceSchedule (NewUpdateScheduler.initSource source) [(kx, X), (ky, Y)]
    (fun i => clockAt (0 + i))).map _ = _
  rw [updateSourceSchedule_cons, if_pos hX]
  simp only [Nat.zero_add]
  rw [hadd1, Option.some_bind, updateSourceSchedule_cons, if_pos hY, hadd2, Option.some_bind]
  rfl

/-- C27. On a freshly constructed scheduler, for enabled repos A and B with distinct names
and distinct non-zero IDs, the calls updateSource("github", {A, B}), with the two repos
visited in either order, and updateSource("github", {A}) return. After the second call B has
no entry in the Due-Schedule and none in the Update Queue, and A has in both the entry it
had after the first call: the same repo, Interval and Due, and the same repo, Priority, Seq
and Updating. -/
theorem C27_second_updateSource_drops_B_and_keeps_A (A B : configuredRepo2)
    (l1 : sourceRepoMap) (clock1 clock2 : Nat → Clock)
    (hA : A.Enabled = true) (hB : B.Enabled = true) (hname : A.Name ≠ B.Name)
    (hidA : A.ID ≠ 0) (hidB : B.ID ≠ 0) (hAB : A.ID ≠ B.ID)
    (hl1 : l1 = [(A.Name, A), (B.Name, B)] ∨ l1 = [(B.Name, B), (A.Name, A)]) :
    ∃ s1 s2, NewUpdateScheduler.updateSource "github" l1 clock1 = some s1 ∧
      s1.updateSource "github" [(A.Name, A)] clock2 = some s2 ∧
      s1.schedule.has B.ID ∧ s1.updateQueue.has B.ID ∧
      ¬ s2.schedule.has B.ID ∧ ¬ s2.updateQueue.has B.ID ∧
      (∃ c, s1.scheduled A.ID = some c ∧ s2.scheduled A.ID = some c) ∧
      (∃ d, s1.queued A.ID = some d ∧ s2.queued A.ID = some d) ∧
      (∃ e1 ∈ s1.schedule.entries, e1.Repo = A ∧ ∃ e2 ∈ s2.schedule.entries, e2.Repo = A ∧
        e2.Interval = e1.Interval ∧ e2.Due = e1.Due) ∧
      (∃ u1 ∈ s1.updateQueue.entries, u1.Repo = A ∧ ∃ u2 ∈ s2.updateQueue.entries,
        u2.Repo = A ∧ u2.Priority = u1.Priority ∧ u2.Seq = u1.Seq ∧
        u2.Updating = u1.Updating) := by
  -- the first call, in either order of the two repos
  have hfirst : ∃ s1, NewUpdateScheduler.updateSource "github" l1 clock1 = some s1 ∧
      s1.Inv ∧ sourceReposGet s1.sourceRepos "github" = some l1 ∧
      (∃ c, s1.scheduled A.ID = some c ∧ c.Repo = A) ∧
      (∃ c, s1.scheduled B.ID = some c ∧ c.Repo = B) ∧
      (∃ d, s1.queued A.ID = some d ∧ d.Repo = A ∧ d.Priority = priorityLow ∧
        d.Updating = false) ∧
      (∃ d, s1.queued B.ID = some d ∧ d.Repo = B ∧ d.Priority = priorityLow ∧
        d.Updating = false) := by
    rcases hl1 with h | h
    · rw [h]
      exact updateSource_fresh_pair A.Name B.Name hA hB hidA hidB hAB "github" clock1
    · rw [h]
      obtain ⟨s1, h1, h2, h3, h4, h5, h6, h7⟩ :=
        updateSource_fresh_pair B.Name A.Name hB hA hidB hidA (Ne.symm hAB) "github" clock1
      exact ⟨s1, h1, h2, h3, h5, h4, h7, h6⟩
  obtain ⟨s1, hrun1, hinv1, hsrc1, ⟨cA, hcA, hrA⟩, ⟨cB, hcB, _⟩, ⟨dA, hdA, hdrA, hdpA, hduA⟩,
    ⟨dB, hdB, _, _, hduB⟩⟩ := hfirst
  -- the old list of the second call
  obtain ⟨hinit, hold⟩ := initSource_of_some hsrc1
  have hmem : ∀ p, p ∈ l1 ↔ p = (A.Name, A) ∨ p = (B.Name, B) := by
    intro p
    rcases hl1 with h | h
    · rw [h]
      simp
    · rw [h]
      simp only [List.mem_cons, List.mem_singleton, List.not_mem_nil, or_false]
      exact Or.comm
  have hdropA : sourceRepoMap.dropped [(A.Name, A)] A.Name = false := by
    simp [sourceRepoMap.dropped, sourceRepoMap.get, hA]
  have hdropB : sourceRepoMap.dropped [(A.Name, A)] B.Name = true := by
    simp [sourceRepoMap.dropped, sourceRepoMap.get, hname]
  have hBin : B.ID ∈ droppedIDs [(A.Name, A)] l1 :=
    mem_droppedIDs.mpr ⟨(B.Name, B), (hmem _).mpr (Or.inr rfl), hdropB, rfl⟩
  have hAout : A.ID ∉ droppedIDs [(A.Name, A)] l1 := by
    intro h
    obtain ⟨p, hp, hd, hid⟩ := mem_droppedIDs.mp h
    rcases (hmem p).mp hp with h1 | h1
    · rw [h1] at hd
      rw [hdropA] at hd
      cases hd
    · rw [h1] at hid
      exact hAB hid.symm
  obtain ⟨sa, hrem, hinva, _, hin, hout⟩ :=
    updateSourceRemove_spec [(A.Name, A)] l1 s1 clock2 hinv1 (by
      intro p hp _
      rcases (hmem p).mp hp with h1 | h1
      · rw [h1]
        exact hidA
      · rw [h1]
        exact hidB)
  have hcAa : sa.scheduled A.ID = some cA := by
    rw [(hout A.ID hAout).1]
    exact hcA
  have hdAa : sa.queued A.ID = some dA := by
    rw [(hout A.ID hAout).2]
    exact hdA
  obtain ⟨sb, hadd, hinvb, _, hfrb, hcAb, hdAb⟩ :=
    add_again hinva hidA (clock2 (l1.length + 0) ) hcAa hdAa hduA (by rw [hdpA])
  have hcA2 : sb.scheduled A.ID = some cA := by
    rw [hcAb, ← hrA]
  have hdA2 : sb.queued A.ID = some dA := by
    rw [hdAb, ← hdrA]
  have hcB2 : sb.scheduled B.ID = none := by
    rw [(hfrb B.ID (Ne.symm hAB)).1]
    exact (hin B.ID hBin).1
  have hdB2 : sb.queued B.ID = none := by
    rw [(hfrb B.ID (Ne.symm hAB)).2, (hin B.ID hBin).2, hdB]
    simp [Option.filter, hduB]
  have hrun2 : s1.updateSource "github" [(A.Name, A)] clock2 =
      some { sb with sourceRepos := sourceReposSet sb.sourceRepos "github" [(A.Name, A)] } := by
    rw [updateSource_eq, hinit, hold, hrem, Option.some_bind, updateSourceSchedule_cons,
      if_pos hA, hadd, Option.some_bind]
    rfl
  have hinv2 : updateScheduler.Inv
      { sb with sourceRepos := sourceReposSet sb.sourceRepos "github" [(A.Name, A)] } := hinvb
  refine ⟨s1, _, hrun1, hrun2, ?_, ?_, ?_, ?_, ⟨cA, hcA, hcA2⟩, ⟨dA, hdA, hdA2⟩, ?_, ?_⟩
  · exact (schedule_has_iff hinv1).mpr ⟨cB, hcB⟩
  · exact (queue_has_iff hinv1).mpr ⟨dB, hdB⟩
  · rw [schedule_has_iff hinv2]
    rintro ⟨c, hc⟩
    have : sb.scheduled B.ID = some c := hc
    rw [hcB2] at this
    cases this
  · rw [queue_has_iff hinv2]
    rintro ⟨c, hc⟩
    have : sb.queued B.ID = some c := hc
    rw [hdB2] at this
    cases this
  · obtain ⟨e1, he1, _, _, hcore1⟩ := schedule.find_core_some_sch hinv1.1.1 hcA
    obtain ⟨e2, he2, _, _, hcore2⟩ := schedule.find_core_some_sch hinvb.1.1 hcA2
    have h12 : e2.core = e1.core := hcore2.trans hcore1.symm
    refine ⟨e1, he1, ?_, e2, he2, ?_, ?_, ?_⟩
    · exact (congrArg scheduledRepoUpdate.Repo hcore1).trans hrA
    · exact (congrArg scheduledRepoUpdate.Repo hcore2).trans hrA
    · have := congrArg scheduledRepoUpdate.Interval h12
      exact this
    · have := congrArg scheduledRepoUpdate.Due h12
      exact this
  · obtain ⟨u1, hu1, _, _, hcore1⟩ := updateQueue.find_core_some hinv1.2.2.1 hdA
    obtain ⟨u2, hu2, _, _, hcore2⟩ := updateQueue.find_core_some hinvb.2.2.1 hdA2
    have h12 : u2.core = u1.core := hcore2.trans hcore1.symm
    refine ⟨u1, hu1, ?_, u2, hu2, ?_, ?_, ?_, ?_⟩
    · exact (congrArg repoUpdate.Repo hcore1).trans hdrA
    · exact (congrArg repoUpdate.Repo hcore2).trans hdrA
    · have := congrArg repoUpdate.Priority h12
      exact this
    · have := congrArg repoUpdate.Seq h12
      exact this
    · have := congrArg repoUpdate.Updating h12
      exact this

theorem C27_witness :
    repoA.Enabled = true ∧ repoB.Enabled = true ∧ repoA.Name ≠ repoB.Name ∧
    repoA.ID ≠ 0 ∧ repoB.ID ≠ 0 ∧ repoA.ID ≠ repoB.ID ∧
    ∃ s1 s2, NewUpdateScheduler.updateSource "github" [("b", repoB), ("a", repoA)]
        (fun _ _ => 0) = some s1 ∧
      s1.updateSource "github" [("a", repoA)] (fun _ _ => 9) = some s2 ∧
      ¬ s2.schedule.has repoB.ID ∧ ¬ s2.updateQueue.has repoB.ID ∧
      ∃ d, s1.queued repoA.ID = some d ∧ s2.queued repoA.ID = some d := by
  obtain ⟨s1, s2, h1, h2, _, _, h5, h6, _, h8, _⟩ :=
    C27_second_updateSource_drops_B_and_keeps_A repoA repoB [("b", repoB), ("a", repoA)]
      (fun _ _ => 0) (fun _ _ => 9) rfl rfl (by decide) (by decide) (by decide) (by decide)
      (Or.inr rfl)
  exact ⟨rfl, rfl, by decide, by decide, by decide, by decide, s1, s2, h1, h2, h5, h6, h8⟩

end updateScheduler

namespace heap

variable {σ ε β : Type} {h : Interface σ ε} {inv : σ → Prop} {slot : σ → Nat → Option β}
  {lt : β → β → Bool} {rel : σ → σ → Prop} (L : Lawful h inv slot lt rel)

include L

end heap

namespace schedule

end schedule

namespace updateScheduler

end updateScheduler

namespace heap

theorem swapF_eq_comp {β : Type} (f : Nat → Option β) (i j : Nat) :
    swapF f i j = fun k => f (Equiv.swap j i k) := by
  funext k
  unfold swapF
  rw [Equiv.swap_apply_def]
  by_cases h1 : k = j
  · simp [h1]
  · by_cases h2 : k = i
    · subst h2
      simp [h1]
    · simp [h1, h2]

/-- Exchanging two of the first `N` slots permutes the items in them. -/
theorem items_swap {β : Type} (f : Nat → Option β) {i j N : Nat} (hi : i < N) (hj : j < N) :
    List.Perm ((List.range N).filterMap (swapF f i j)) ((List.range N).filterMap f) := by
  rw [swapF_eq_comp]
  have hmap : (List.range N).filterMap (fun k => f (Equiv.swap j i k)) =
      ((List.range N).map (Equiv.swap j i)).filterMap f := by
    rw [List.filterMap_map]
    rfl
  rw [hmap]
  apply List.Perm.filterMap
  rw [List.perm_ext_iff_of_nodup ((List.nodup_range N).map (Equiv.swap j i).injective)
    (List.nodup_range N)]
  intro a
  rw [List.mem_map, List.mem_range]
  constructor
  · rintro ⟨b, hb, hab⟩
    rw [List.mem_range] at hb
    rw [← hab, Equiv.swap_apply_def]
    split_ifs <;> omega
  · intro ha
    refine ⟨Equiv.swap j i a, ?_, Equiv.swap_apply_self j i a⟩
    rw [List.mem_range, Equiv.swap_apply_def]
    split_ifs <;> omega

theorem items_succ {σ β : Type} (slot : σ → Nat → Option β) (s : σ) (n : Nat) (a : β)
    (h : slot s n = some a) : items slot s (n + 1) = items slot s n ++ [a] := by
  unfold items
  rw [List.range_succ, List.filterMap_append]
  simp [h]

theorem items_congr {σ β : Type} (slot : σ → Nat → Option β) (s s1 : σ) (n : Nat)
    (h : ∀ k, k < n → slot s1 k = slot s k) : items slot s1 n = items slot s n := by
  unfold items
  apply List.filterMap_congr
  intro k hk
  exact h k (List.mem_range.mp hk)

theorem mem_items {σ β : Type} {slot : σ → Nat → Option β} {s : σ} {n : Nat} {a : β} :
    a ∈ items slot s n ↔ ∃ k, k < n ∧ slot s k = some a := by
  unfold items
  rw [List.mem_filterMap]
  constructor
  · rintro ⟨k, hk, h⟩
    exact ⟨k, List.mem_range.mp hk, h⟩
  · rintro ⟨k, hk, h⟩
    exact ⟨k, List.mem_range.mpr hk, h⟩

end heap

namespace heap

variable {σ ε β : Type} {h : Interface σ ε} {inv : σ → Prop} {slot : σ → Nat → Option β}
  {lt : β → β → Bool} {rel : σ → σ → Prop} (L : Lawful h inv slot lt rel)

include L

/-- The loop of `down` permutes the items. -/
theorem downLoop_perm (N : Nat) : ∀ (fuel : Nat) (s : σ) (i n : Nat), inv s → n ≤ h.Len s →
    n ≤ N → n + 1 ≤ fuel + i → 0 < fuel →
    ∃ s1 i1, downLoop h fuel s i n = some (s1, i1) ∧
      List.Perm (items slot s1 N) (items slot s N) := by
  intro fuel
  induction fuel with
  | zero => intro s i n _ _ _ _ hf; omega
  | succ fuel ih =>
    intro s i n hinv hn hN hfuel _
    unfold downLoop
    by_cases hj1 : 2 * i + 1 ≥ n
    · simp only [hj1, if_true]
      exact ⟨s, i, rfl, List.Perm.refl _⟩
    · have hj1lt : 2 * i + 1 < n := by omega
      obtain ⟨b, hb, a, ha, hjn, _⟩ := down_choice L s i n hinv hn hj1lt
      obtain ⟨vi, hvi⟩ := L.slot_some s i hinv (by omega)
      simp only [hj1, if_false, hb]
      generalize hjdef : (if b = true then 2 * i + 1 + 1 else 2 * i + 1) = j at ha hjn
      have hji : i < j := by
        cases b
        · simp only [Bool.false_eq_true, if_false] at hjdef; omega
        · simp only [if_true] at hjdef; omega
      have hless := L.Less_eq s j i a vi hinv ha hvi
      simp only [hless]
      cases hlt : lt a vi
      · exact ⟨s, i, rfl, List.Perm.refl _⟩
      · obtain ⟨s1, hs, hinv1, _, hlen1, hslot1⟩ :=
          L.Swap_eq s i j hinv (by omega) (by omega)
        simp only [hs]
        obtain ⟨s2, i2, h2, hperm2⟩ :=
          ih s1 j n hinv1 (by omega) hN (by omega) (by omega)
        refine ⟨s2, i2, h2, hperm2.trans ?_⟩
        unfold items
        rw [hslot1]
        exact items_swap (slot s) (by omega) (by omega)

/-- The function `heap.Pop` on a heap that satisfies the heap condition: it returns the key
of the root item, which no remaining item precedes; the remaining items are those of the
other slots, and they satisfy the heap condition again. -/
theorem Pop_root {key : β → ε} {keep : σ → σ → Prop}
    (hkrel : ∀ s s1, rel s s1 → keep s s1)
    (hktrans : ∀ a b c, keep a b → keep b c → keep a c)
    (hpop : PopsLast h inv slot key keep) (s : σ) (hinv : inv s) (hlen : 0 < h.Len s)
    (hheap : HeapOn lt (slot s) (h.Len s)) :
    ∃ s1 a, Pop h s = some (s1, key a) ∧ inv s1 ∧ keep s s1 ∧ h.Len s1 = h.Len s - 1 ∧
      slot s 0 = some a ∧ HeapOn lt (slot s1) (h.Len s1) ∧
      List.Perm (a :: items slot s1 (h.Len s1)) (items slot s (h.Len s)) ∧
      ∀ b ∈ items slot s (h.Len s), lt b a = false := by
  obtain ⟨a, ha⟩ := L.slot_some s 0 hinv hlen
  obtain ⟨sa, hswap, hinva, hrela, hlena, hslota⟩ :=
    L.Swap_eq s 0 (h.Len s - 1) hinv hlen (by omega)
  obtain ⟨sb, ib, hdown, hinvb, hrelb, hlenb, _, _, hslotb, hheapb⟩ :=
    downLoop_spec L (h.Len s - 1 + 1) sa 0 (h.Len s - 1) hinva (by omega) (by omega)
      (by omega)
  obtain ⟨sb2, ib2, hdown2, hpermb⟩ :=
    downLoop_perm L (h.Len s - 1) (h.Len s - 1 + 1) sa 0 (h.Len s - 1) hinva (by omega)
      (Nat.le_refl _) (by omega) (by omega)
  rw [hdown] at hdown2
  cases hdown2
  have hlenb2 : h.Len sb = h.Len s := hlenb.trans hlena
  obtain ⟨sc, c, hc, hpopc, hinvc, hkeepc, hlenc, hslotc⟩ := hpop sb hinvb (by omega)
  rw [hlenb2] at hc hlenc hslotc
  have hca : c = a := by
    have h1 : slot sb (h.Len s - 1) = slot sa (h.Len s - 1) :=
      hslotb (h.Len s - 1) (Or.inr (Nat.le_refl _))
    rw [h1, hslota, swapF_right, ha] at hc
    exact (Option.some.inj hc).symm
  subst hca
  have hhole : Hole lt (slot sa) (h.Len s - 1) 0 := by
    apply heapOn_modify L.trans (heapOn_mono hheap (Nat.sub_le _ _))
    · intro k hk hk0
      rw [hslota, swapF_other hk0 (by omega)]
    · intro _
      exact L.slot_some s 0 hinv hlen
  have hheapsb : HeapOn lt (slot sb) (h.Len s - 1) :=
    (hheapb hhole).2 (Or.inr (fun _ _ h0 => absurd h0 (Nat.lt_irrefl 0)))
  refine ⟨sc, c, ?_, hinvc, ?_, hlenc, ha, ?_, ?_, ?_⟩
  · unfold Pop
    simp only [hswap, Option.some_bind]
    unfold down
    rw [hdown]
    simp only [Option.map_some', Option.some_bind]
    exact hpopc
  · exact hktrans _ _ _ (hkrel _ _ hrela) (hktrans _ _ _ (hkrel _ _ hrelb) hkeepc)
  · rw [hlenc]
    exact heapOn_congr hheapsb hslotc
  · rw [hlenc, items_congr slot sb sc (h.Len s - 1) hslotc]
    have hsuc : items slot sa (h.Len s - 1 + 1) = items slot sa (h.Len s - 1) ++ [c] := by
      apply items_succ
      rw [hslota, swapF_right, ha]
    have hall : List.Perm (items slot sa (h.Len s - 1 + 1)) (items slot s (h.Len s - 1 + 1)) := by
      unfold items
      rw [hslota]
      exact items_swap (slot s) (by omega) (by omega)
    have hN : h.Len s - 1 + 1 = h.Len s := by omega
    rw [hN] at hsuc hall
    refine (List.Perm.cons c hpermb).trans ?_
    refine List.Perm.trans ?_ hall
    rw [hsuc]
    exact (List.perm_append_singleton c _).symm
  · intro b hb
    obtain ⟨k, hk, hbk⟩ := mem_items.mp hb
    exact heapOn_root_min L.asymm L.trans hheap (fun k hk => L.slot_some s k hinv hk) k c b hk
      ha hbk

/-- The loop that pops the heap until it is empty returns the keys of all items, each item
once, in an order in which no item precedes an earlier one. -/
theorem drain_spec {key : β → ε} {keep : σ → σ → Prop}
    (hkrefl : ∀ s, keep s s) (hkrel : ∀ s s1, rel s s1 → keep s s1)
    (hktrans : ∀ a b c, keep a b → keep b c → keep a c)
    (hpop : PopsLast h inv slot key keep) :
    ∀ (fuel : Nat) (s : σ) (out : List ε), inv s → HeapOn lt (slot s) (h.Len s) →
    h.Len s < fuel →
    ∃ s1 vals, drain h fuel s out = some (s1, out ++ vals.map key) ∧ keep s s1 ∧
      List.Perm vals (items slot s (h.Len s)) ∧
      vals.Pairwise (fun a b => lt b a = false) := by
  intro fuel
  induction fuel with
  | zero => intro s out _ _ hf; omega
  | succ fuel ih =>
    intro s out hinv hheap hf
    unfold drain
    by_cases hlen : h.Len s > 0
    · rw [if_pos hlen]
      obtain ⟨s1, a, hp, hinv1, hkeep1, hlen1, _, hheap1, hperm1, hmin1⟩ :=
        Pop_root L hkrel hktrans hpop s hinv hlen hheap
      obtain ⟨s2, vals, hrun, hkeep2, hperm2, hsorted2⟩ :=
        ih s1 (out ++ [key a]) hinv1 hheap1 (by omega)
      refine ⟨s2, a :: vals, ?_, hktrans _ _ _ hkeep1 hkeep2, ?_, ?_⟩
      · rw [hp, Option.some_bind, hrun]
        simp
      · exact (List.Perm.cons a hperm2).trans hperm1
      · rw [List.pairwise_cons]
        refine ⟨?_, hsorted2⟩
        intro b hb
        apply hmin1
        exact hperm1.subset (List.mem_cons_of_mem a (hperm2.subset hb))
    · rw [if_neg hlen]
      have h0 : h.Len s = 0 := by omega
      refine ⟨s, [], by simp, hkrefl s, ?_, List.Pairwise.nil⟩
      rw [h0]
      exact List.Perm.refl _

end heap

theorem derefAll_eq {α : Type} (m : List α) : ∀ (l : List Ptr), (∀ x ∈ l, x < m.length) →
    derefAll m l = some (l.filterMap (fun x => m[x]?)) := by
  intro l
  induction l with
  | nil => intro _; rfl
  | cons a rest ih =>
    intro h
    have ha : a < m.length := h a (List.mem_cons_self a rest)
    have hget : m[a]? = some m[a] := List.getElem?_eq_getElem ha
    rw [List.filterMap_cons_some hget]
    unfold derefAll
    rw [hget, Option.some_bind, ih (fun x hx => h x (List.mem_cons_of_mem a hx))]
    rfl

theorem getElem?_filterMap_all {α β : Type} (f : α → Option β) : ∀ (l : List α) (i : Nat),
    (∀ x ∈ l, ∃ b, f x = some b) → (l.filterMap f)[i]? = (l[i]?).bind f := by
  intro l
  induction l with
  | nil => intro i _; simp
  | cons a rest ih =>
    intro i h
    obtain ⟨b, hb⟩ := h a (List.mem_cons_self a rest)
    rw [List.filterMap_cons_some hb]
    cases i with
    | zero => simp [hb]
    | succ i =>
      simp only [List.getElem?_cons_succ]
      exact ih i (fun x hx => h x (List.mem_cons_of_mem a hx))

theorem range_filterMap_getElem? {α β : Type} (f : α → Option β) : ∀ (l : List α),
    (List.range l.length).filterMap (fun i => (l[i]?).bind f) = l.filterMap f := by
  intro l
  induction l with
  | nil => rfl
  | cons a rest ih =>
    rw [List.length_cons, List.range_succ_eq_map, List.filterMap_cons, List.filterMap_cons,
      List.filterMap_map]
    have h0 : ((a :: rest)[0]?).bind f = f a := by simp
    have hrest : (List.range rest.length).filterMap
        ((fun i => ((a :: rest)[i]?).bind f) ∘ Nat.succ) = rest.filterMap f := by
      rw [← ih]
      apply List.filterMap_congr
      intro i _
      simp
    rw [h0, hrest]

theorem derefAll_map {α γ : Type} (c : α → γ) (m : List α) : ∀ (l : List (Ptr × γ)),
    (∀ a ∈ l, (m[a.1]?).map c = some a.2) →
    ∃ dump, derefAll m (l.map Prod.fst) = some dump ∧ dump.map c = l.map Prod.snd := by
  intro l
  induction l with
  | nil => intro _; exact ⟨[], rfl, rfl⟩
  | cons a rest ih =>
    intro h
    obtain ⟨dump, hd, hm⟩ := ih (fun b hb => h b (List.mem_cons_of_mem a hb))
    have ha := h a (List.mem_cons_self a rest)
    cases he : m[a.1]? with
    | none => rw [he] at ha; cases ha
    | some e =>
      rw [he] at ha
      simp only [Option.map_some', Option.some.injEq] at ha
      refine ⟨e :: dump, ?_, ?_⟩
      · simp only [List.map_cons, derefAll, he, Option.some_bind, hd, Option.map_some']
      · simp only [List.map_cons, ha, hm]

namespace updateQueue

theorem loose_inj {q : updateQueue} (hq : q.Loose) {i j : Nat} {x : Ptr}
    (hi : q.heap[i]? = some x) (hj : q.heap[j]? = some x) : i = j := by
  have hnd := hq.1
  rw [List.nodup_iff_getElem?_ne_getElem?] at hnd
  rcases Nat.lt_trichotomy i j with h | h | h
  · exact absurd (hi.trans hj.symm) (hnd i j h (List.getElem?_eq_some.mp hj).1)
  · exact h
  · exact absurd (hj.trans hi.symm) (hnd j i h (List.getElem?_eq_some.mp hi).1)

theorem loose_entry {q : updateQueue} (hq : q.Loose) {i : Nat} {x : Ptr}
    (h : q.heap[i]? = some x) : ∃ e, q.mem[x]? = some e :=
  ⟨_, List.getElem?_eq_getElem (hq.2 x (List.mem_iff_getElem?.mpr ⟨i, h⟩))⟩

theorem slot_keep {q q1 : updateQueue} (hk : keep q q1) {k : Nat}
    (hh : q1.heap[k]? = q.heap[k]?) : q1.slot k = q.slot k := by
  unfold slot
  rw [hh]
  cases q.heap[k]? with
  | none => rfl
  | some x =>
    simp only [Option.some_bind]
    have := hk x
    cases h1 : q1.mem[x]? with
    | none =>
      rw [h1] at this
      cases h2 : q.mem[x]? with
      | none => rfl
      | some e => rw [h2] at this; cases this
    | some e1 =>
      rw [h1] at this
      cases h2 : q.mem[x]? with
      | none => rw [h2] at this; cases this
      | some e =>
        rw [h2] at this
        simp only [Option.map_some', Option.some.injEq] at this ⊢
        rw [this]

theorem Swap_spec_loose (q : updateQueue) (i j : Nat) (hq : q.Loose) (hi : i < q.heap.length)
    (hj : j < q.heap.length) :
    ∃ q1, q.Swap i j = some q1 ∧ q1.Loose ∧ rel q q1 ∧ q1.heap.length = q.heap.length ∧
      q1.slot = heap.swapF q.slot i j := by
  have hxi : q.heap[i]? = some q.heap[i] := List.getElem?_eq_getElem hi
  have hxj : q.heap[j]? = some q.heap[j] := List.getElem?_eq_getElem hj
  obtain ⟨ei, hei⟩ := loose_entry hq hxi
  obtain ⟨ej, hej⟩ := loose_entry hq hxj
  obtain ⟨q1, hs, hindex, hseq, hnot, hlen, hheap, hmem⟩ :=
    Swap_eq hxi hxj hei hej (fun hne he => hne (loose_inj hq hxi (he ▸ hxj)))
  have hmemiff : ∀ x, x ∈ q1.heap ↔ x ∈ q.heap := by
    intro x
    rw [List.mem_iff_getElem?, List.mem_iff_getElem?]
    simp only [hheap]
    exact swapF_exists _ i j x
  have hcore : ∀ y : Ptr, (q1.mem[y]?).map repoUpdate.core = (q.mem[y]?).map repoUpdate.core := by
    intro y
    rw [hmem y]
    by_cases hy : y = q.heap[i]
    · subst hy; simp [hei, repoUpdate.core]
    · by_cases hy2 : y = q.heap[j]
      · subst hy2; simp [hy, hej, repoUpdate.core]
      · simp [hy, hy2]
  have hlenh : q1.heap.length = q.heap.length := by
    apply Nat.le_antisymm
    · by_contra hc
      have h1 : q.heap.length < q1.heap.length := by omega
      have h2 := hheap q.heap.length
      rw [heap.swapF_other (by omega) (by omega), List.getElem?_eq_getElem h1] at h2
      simp at h2
    · by_contra hc
      have h1 : q1.heap.length < q.heap.length := by omega
      have h2 := hheap q1.heap.length
      by_cases hk1 : q1.heap.length = j
      · rw [hk1, heap.swapF_right] at h2
        have h3 : q1.heap[j]? = none := List.getElem?_eq_none (by omega)
        rw [h3, hxi] at h2; cases h2
      · by_cases hk2 : q1.heap.length = i
        · rw [hk2, heap.swapF_left] at h2
          have h3 : q1.heap[i]? = none := List.getElem?_eq_none (by omega)
          rw [h3, hxj] at h2; cases h2
        · rw [heap.swapF_other hk2 hk1, List.getElem?_eq_getElem h1] at h2
          simp at h2
  have hkeep : keep q q1 := hcore
  have hslot : q1.slot = heap.swapF q.slot i j := by
    funext k
    by_cases hkj : k = j
    · subst hkj
      rw [heap.swapF_right, slot_of hxi hei]
      exact slot_of (e := { ei with Index := k }) (by rw [hheap, heap.swapF_right]; exact hxi)
        (by rw [hmem]; simp)
    · by_cases hki : k = i
      · subst hki
        have hh : ¬ q.heap[j] = q.heap[k] := fun e => hkj (loose_inj hq hxi (e ▸ hxj))
        rw [heap.swapF_left, slot_of hxj hej]
        exact slot_of (e := { ej with Index := k }) (by rw [hheap, heap.swapF_left]; exact hxj)
          (by rw [hmem]; simp [hh])
      · rw [heap.swapF_other hki hkj]
        apply slot_keep hkeep
        rw [hheap k, heap.swapF_other hki hkj]
  have hloose : q1.Loose := by
    constructor
    · have hsub : q.heap ⊆ q1.heap := fun x hx => (hmemiff x).mpr hx
      have hperm : List.Perm q.heap q1.heap :=
        (List.subperm_of_subset hq.1 hsub).perm_of_length_le (by omega)
      exact hperm.nodup_iff.mp hq.1
    · intro x hx
      rw [hlen]
      exact hq.2 x ((hmemiff x).mp hx)
  exact ⟨q1, hs, hloose, ⟨hindex, hseq, hnot, hlen, hcore, hmemiff⟩, hlenh, hslot⟩

/-- The copy of a heap that `DebugDump` pops is a lawful heap as well. -/
theorem lawful_loose : heap.Lawful iface Loose slot lt rel where
  rel_refl := rel_refl
  rel_trans := rel_trans
  asymm := lt_asymm
  trans := lt_trans
  slot_some := fun s i hq hi => by
    have hx : s.heap[i]? = some s.heap[i] := List.getElem?_eq_getElem hi
    obtain ⟨e, he⟩ := loose_entry hq hx
    exact ⟨_, slot_of hx he⟩
  Less_eq := fun s i j a b _ ha hb => Less_eq s i j a b ha hb
  Swap_eq := fun s i j hq hi hj => Swap_spec_loose s i j hq hi hj

theorem popsLast_loose : heap.PopsLast iface Loose slot Prod.fst keep := by
  intro q hq hlen
  have hlen1 : 0 < q.heap.length := hlen
  have hx : q.heap[q.heap.length - 1]? = some q.heap[q.heap.length - 1] :=
    List.getElem?_eq_getElem (by omega)
  obtain ⟨e, he⟩ := loose_entry hq hx
  have hpop := Pop_eq hx he
  have hxl : q.heap[q.heap.length - 1] < q.mem.length := (List.getElem?_eq_some.mp he).1
  cases hr : q.Pop with
  | none => rw [hpop] at hr; cases hr
  | some r =>
    have h3 := Option.some.inj (hpop.symm.trans hr)
    have hmem1 : r.1.mem = q.mem.set q.heap[q.heap.length - 1] { e with Index := -1 } := by
      rw [← h3]
    have hheap1 : r.1.heap = q.heap.take (q.heap.length - 1) := by
      rw [← h3]
    have hr2 : r.2 = q.heap[q.heap.length - 1] := by
      rw [← h3]
    have hkeep : keep q r.1 := by
      intro y
      rw [hmem1, getElem?_set_mem _ _ _ _ hxl]
      by_cases hy : y = q.heap[q.heap.length - 1]
      · rw [if_pos hy, hy, he]
        rfl
      · rw [if_neg hy]
    refine ⟨r.1, (q.heap[q.heap.length - 1], e.core), slot_of hx he, ?_, ?_, hkeep, ?_, ?_⟩
    · show q.Pop = some (r.1, q.heap[q.heap.length - 1])
      rw [hr, ← hr2]
    · constructor
      · rw [hheap1]
        exact hq.1.sublist (List.take_sublist _ _)
      · intro y hy
        rw [hheap1] at hy
        rw [hmem1, List.length_set]
        exact hq.2 y (List.mem_of_mem_take hy)
    · show r.1.heap.length = q.heap.length - 1
      rw [hheap1, List.length_take]
      omega
    · intro k hk
      apply slot_keep hkeep
      have hk1 : k < q.heap.length - 1 := hk
      rw [hheap1, List.getElem?_take, if_pos hk1]

/-- The copy that `DebugDump` makes of a valid heap: it holds the entries in heap order and
satisfies the heap condition. -/
theorem copy_spec {q : updateQueue} (hq : q.Valid) :
    ∃ c, q.copy = some c ∧ c.Loose ∧ c.heap.length = q.heap.length ∧
      heap.HeapOn lt c.slot c.heap.length ∧
      (heap.items slot c c.heap.length).map Prod.snd = q.entries.map repoUpdate.core ∧
      (∀ a ∈ heap.items slot c c.heap.length, (c.mem[a.1]?).map repoUpdate.core = some a.2) := by
  have hvalid : ∀ x ∈ q.heap, x < q.mem.length := fun x hx => wf_ptr_lt hq.1 hx
  have hlen : q.entries.length = q.heap.length := entries_length hq.1
  obtain ⟨c, hc⟩ : ∃ c : updateQueue,
      c = ⟨q.entries, List.range q.entries.length, [], 0, 0⟩ := ⟨_, rfl⟩
  have hcmem : c.mem = q.entries := by rw [hc]
  have hcheap : c.heap = List.range q.entries.length := by rw [hc]
  have hclen : c.heap.length = q.heap.length := by
    rw [hcheap, List.length_range, hlen]
  have hcopy : q.copy = some c := by
    unfold copy
    rw [derefAll_eq q.mem q.heap hvalid, hc]
    rfl
  have hslot : ∀ k, c.slot k = (q.entry k).map (fun e => (k, e.core)) := by
    intro k
    have hent : q.entries[k]? = q.entry k := by
      unfold entries entry
      exact getElem?_filterMap_all _ q.heap k
        (fun x hx => ⟨_, List.getElem?_eq_getElem (hvalid x hx)⟩)
    unfold slot
    rw [hcheap, hcmem]
    by_cases hk : k < q.entries.length
    · rw [List.getElem?_range hk, Option.some_bind, hent]
    · rw [List.getElem?_eq_none (by rw [List.length_range]; omega)]
      have : q.entry k = none := by
        rw [← hent]
        exact List.getElem?_eq_none (by omega)
      rw [this]
      rfl
  refine ⟨c, hcopy, ⟨?_, fun x hx => ?_⟩, hclen, ?_, ?_, ?_⟩
  · rw [hcheap]
    exact List.nodup_range _
  · rw [hcheap] at hx
    rw [hcmem]
    exact List.mem_range.mp hx
  · rw [hclen]
    apply heap.heapOn_equiv hq.2
    intro k cv hcv
    rw [hslot k] at hcv
    cases he : q.entry k with
    | none => rw [he] at hcv; cases hcv
    | some e =>
      rw [he] at hcv
      simp only [Option.map_some', Option.some.injEq] at hcv
      unfold entry at he
      cases hx : q.heap[k]? with
      | none => rw [hx] at he; cases he
      | some x =>
        rw [hx, Option.some_bind] at he
        refine ⟨(x, e.core), slot_of hx he, ?_⟩
        intro z
        rw [← hcv]
        exact ⟨rfl, rfl⟩
  · rw [hclen]
    unfold heap.items
    rw [List.map_filterMap]
    have h1 : (List.range q.heap.length).filterMap (fun k => (c.slot k).map Prod.snd) =
        (List.range q.heap.length).filterMap
          (fun k => (q.heap[k]?).bind (fun x => (q.mem[x]?).map repoUpdate.core)) := by
      apply List.filterMap_congr
      intro k _
      rw [hslot k]
      unfold entry
      cases q.heap[k]? with
      | none => rfl
      | some x =>
        simp only [Option.some_bind]
        cases q.mem[x]? with
        | none => rfl
        | some e => rfl
    rw [h1, range_filterMap_getElem?]
    unfold entries
    rw [List.map_filterMap]
  · intro a ha
    obtain ⟨k, _, hk⟩ := heap.mem_items.mp ha
    obtain ⟨e, _, he, hcore⟩ := slot_eq_some.mp hk
    rw [he, hcore]
    rfl

/-- The part of `DebugDump` for one heap: the copy is popped until it is empty and the popped
entries are, up to their heap position, the entries of the heap, each once, in an order in
which no entry precedes an earlier one. -/
theorem dump_spec {q : updateQueue} (hq : q.Valid) :
    ∃ c r dump, q.copy = some c ∧ heap.drain iface (c.heap.length + 1) c [] = some r ∧
      derefAll r.1.mem r.2 = some dump ∧
      List.Perm (dump.map repoUpdate.core) (q.entries.map repoUpdate.core) ∧
      dump.Pairwise (fun a b => lt (0, b.core) (0, a.core) = false) := by
  obtain ⟨c, hcopy, hloose, _, hheap, hitems, hmem⟩ := copy_spec hq
  have hkrefl : ∀ s : updateQueue, keep s s := fun _ _ => rfl
  have hkrel : ∀ s s1 : updateQueue, rel s s1 → keep s s1 := fun _ _ hrel => hrel.2.2.2.2.1
  have hktrans : ∀ a b c0 : updateQueue, keep a b → keep b c0 → keep a c0 :=
    fun _ _ _ hab hbc y => (hbc y).trans (hab y)
  obtain ⟨s1, vals, hrun, hkeep, hperm, hsorted⟩ :=
    heap.drain_spec lawful_loose hkrefl hkrel hktrans popsLast_loose
      (c.heap.length + 1) c [] hloose hheap (Nat.lt_succ_self _)
  rw [List.nil_append] at hrun
  obtain ⟨dump, hd, hm⟩ := derefAll_map repoUpdate.core s1.mem vals (by
    intro a ha
    rw [hkeep a.1]
    exact hmem a (hperm.subset ha))
  refine ⟨c, (s1, vals.map Prod.fst), dump, hcopy, hrun, hd, ?_, ?_⟩
  · rw [hm, ← hitems]
    exact hperm.map Prod.snd
  · have h1 : (vals.map Prod.snd).Pairwise (fun a b => lt (0, b) (0, a) = false) := by
      rw [List.pairwise_map]
      exact hsorted
    rw [← hm, List.pairwise_map] at h1
    exact h1

end updateQueue

namespace schedule

theorem loose_inj_sch {q : schedule} (hq : q.Loose) {i j : Nat} {x : Ptr}
    (hi : q.heap[i]? = some x) (hj : q.heap[j]? = some x) : i = j := by
  have hnd := hq.1
  rw [List.nodup_iff_getElem?_ne_getElem?] at hnd
  rcases Nat.lt_trichotomy i j with h | h | h
  · exact absurd (hi.trans hj.symm) (hnd i j h (List.getElem?_eq_some.mp hj).1)
  · exact h
  · exact absurd (hj.trans hi.symm) (hnd j i h (List.getElem?_eq_some.mp hi).1)

theorem loose_entry_sch {q : schedule} (hq : q.Loose) {i : Nat} {x : Ptr}
    (h : q.heap[i]? = some x) : ∃ e, q.mem[x]? = some e :=
  ⟨_, List.getElem?_eq_getElem (hq.2 x (List.mem_iff_getElem?.mpr ⟨i, h⟩))⟩

theorem slot_keep_sch {q q1 : schedule} (hk : keep q q1) {k : Nat}
    (hh : q1.heap[k]? = q.heap[k]?) : q1.slot k = q.slot k := by
  unfold slot
  rw [hh]
  cases q.heap[k]? with
  | none => rfl
  | some x =>
    simp only [Option.some_bind]
    have := hk x
    cases h1 : q1.mem[x]? with
    | none =>
      rw [h1] at this
      cases h2 : q.mem[x]? with
      | none => rfl
      | some e => rw [h2] at this; cases this
    | some e1 =>
      rw [h1] at this
      cases h2 : q.mem[x]? with
      | none => rw [h2] at this; cases this
      | some e =>
        rw [h2] at this
        simp only [Option.map_some', Option.some.injEq] at this ⊢
        rw [this]

theorem Swap_spec_loose_sch (q : schedule) (i j : Nat) (hq : q.Loose) (hi : i < q.heap.length)
    (hj : j < q.heap.length) :
    ∃ q1, q.Swap i j = some q1 ∧ q1.Loose ∧ rel q q1 ∧ q1.heap.length = q.heap.length ∧
      q1.slot = heap.swapF q.slot i j := by
  have hxi : q.heap[i]? = some q.heap[i] := List.getElem?_eq_getElem hi
  have hxj : q.heap[j]? = some q.heap[j] := List.getElem?_eq_getElem hj
  obtain ⟨ei, hei⟩ := loose_entry_sch hq hxi
  obtain ⟨ej, hej⟩ := loose_entry_sch hq hxj
  obtain ⟨q1, hs, hindex, hseq, hnot, hlen, hheap, hmem⟩ :=
    Swap_eq_sch hxi hxj hei hej (fun hne he => hne (loose_inj_sch hq hxi (he ▸ hxj)))
  have hmemiff : ∀ x, x ∈ q1.heap ↔ x ∈ q.heap := by
    intro x
    rw [List.mem_iff_getElem?, List.mem_iff_getElem?]
    simp only [hheap]
    exact swapF_exists _ i j x
  have hcore : ∀ y : Ptr, (q1.mem[y]?).map scheduledRepoUpdate.core = (q.mem[y]?).map scheduledRepoUpdate.core := by
    intro y
    rw [hmem y]
    by_cases hy : y = q.heap[i]
    · subst hy; simp [hei, scheduledRepoUpdate.core]
    · by_cases hy2 : y = q.heap[j]
      · subst hy2; simp [hy, hej, scheduledRepoUpdate.core]
      · simp [hy, hy2]
  have hlenh : q1.heap.length = q.heap.length := by
    apply Nat.le_antisymm
    · by_contra hc
      have h1 : q.heap.length < q1.heap.length := by omega
      have h2 := hheap q.heap.length
      rw [heap.swapF_other (by omega) (by omega), List.getElem?_eq_getElem h1] at h2
      simp at h2
    · by_contra hc
      have h1 : q1.heap.length < q.heap.length := by omega
      have h2 := hheap q1.heap.length
      by_cases hk1 : q1.heap.length = j
      · rw [hk1, heap.swapF_right] at h2
        have h3 : q1.heap[j]? = none := List.getElem?_eq_none (by omega)
        rw [h3, hxi] at h2; cases h2
      · by_cases hk2 : q1.heap.length = i
        · rw [hk2, heap.swapF_left] at h2
          have h3 : q1.heap[i]? = none := List.getElem?_eq_none (by omega)
          rw [h3, hxj] at h2; cases h2
        · rw [heap.swapF_other hk2 hk1, List.getElem?_eq_getElem h1] at h2
          simp at h2
  have hkeep : keep q q1 := hcore
  have hslot : q1.slot = heap.swapF q.slot i j := by
    funext k
    by_cases hkj : k = j
    · subst hkj
      rw [heap.swapF_right, slot_of_sch hxi hei]
      exact slot_of_sch (e := { ei with Index := k }) (by rw [hheap, heap.swapF_right]; exact hxi)
        (by rw [hmem]; simp)
    · by_cases hki : k = i
      · subst hki
        have hh : ¬ q.heap[j] = q.heap[k] := fun e => hkj (loose_inj_sch hq hxi (e ▸ hxj))
        rw [heap.swapF_left, slot_of_sch hxj hej]
        exact slot_of_sch (e := { ej with Index := k }) (by rw [hheap, heap.swapF_left]; exact hxj)
          (by rw [hmem]; simp [hh])
      · rw [heap.swapF_other hki hkj]
        apply slot_keep_sch hkeep
        rw [hheap k, heap.swapF_other hki hkj]
  have hloose : q1.Loose := by
    constructor
    · have hsub : q.heap ⊆ q1.heap := fun x hx => (hmemiff x).mpr hx
      have hperm : List.Perm q.heap q1.heap :=
        (List.subperm_of_subset hq.1 hsub).perm_of_length_le (by omega)
      exact hperm.nodup_iff.mp hq.1
    · intro x hx
      rw [hlen]
      exact hq.2 x ((hmemiff x).mp hx)
  exact ⟨q1, hs, hloose, ⟨hindex, hseq, hnot, hlen, hcore, hmemiff⟩, hlenh, hslot⟩

/-- The copy of a heap that `DebugDump` pops is a lawful heap as well. -/
theorem lawful_loose_sch : heap.Lawful iface Loose slot lt rel where
  rel_refl := rel_refl_sch
  rel_trans := rel_trans_sch
  asymm := lt_asymm_sch
  trans := lt_trans_sch
  slot_some := fun s i hq hi => by
    have hx : s.heap[i]? = some s.heap[i] := List.getElem?_eq_getElem hi
    obtain ⟨e, he⟩ := loose_entry_sch hq hx
    exact ⟨_, slot_of_sch hx he⟩
  Less_eq := fun s i j a b _ ha hb => Less_eq_sch s i j a b ha hb
  Swap_eq := fun s i j hq hi hj => Swap_spec_loose_sch s i j hq hi hj

theorem popsLast_loose_sch : heap.PopsLast iface Loose slot Prod.fst keep := by
  intro q hq hlen
  have hlen1 : 0 < q.heap.length := hlen
  have hx : q.heap[q.heap.length - 1]? = some q.heap[q.heap.length - 1] :=
    List.getElem?_eq_getElem (by omega)
  obtain ⟨e, he⟩ := loose_entry_sch hq hx
  have hpop := Pop_eq_sch hx he
  have hxl : q.heap[q.heap.length - 1] < q.mem.length := (List.getElem?_eq_some.mp he).1
  cases hr : q.Pop with
  | none => rw [hpop] at hr; cases hr
  | some r =>
    have h3 := Option.some.inj (hpop.symm.trans hr)
    have hmem1 : r.1.mem = q.mem.set q.heap[q.heap.length - 1] { e with Index := -1 } := by
      rw [← h3]
    have hheap1 : r.1.heap = q.heap.take (q.heap.length - 1) := by
      rw [← h3]
    have hr2 : r.2 = q.heap[q.heap.length - 1] := by
      rw [← h3]
    have hkeep : keep q r.1 := by
      intro y
      rw [hmem1, getElem?_set_mem _ _ _ _ hxl]
      by_cases hy : y = q.heap[q.heap.length - 1]
      · rw [if_pos hy, hy, he]
        rfl
      · rw [if_neg hy]
    refine ⟨r.1, (q.heap[q.heap.length - 1], e.core), slot_of_sch hx he, ?_, ?_, hkeep, ?_, ?_⟩
    · show q.Pop = some (r.1, q.heap[q.heap.length - 1])
      rw [hr, ← hr2]
    · constructor
      · rw [hheap1]
        exact hq.1.sublist (List.take_sublist _ _)
      · intro y hy
        rw [hheap1] at hy
        rw [hmem1, List.length_set]
        exact hq.2 y (List.mem_of_mem_take hy)
    · show r.1.heap.length = q.heap.length - 1
      rw [hheap1, List.length_take]
      omega
    · intro k hk
      apply slot_keep_sch hkeep
      have hk1 : k < q.heap.length - 1 := hk
      rw [hheap1, List.getElem?_take, if_pos hk1]

/-- The copy that `DebugDump` makes of a valid heap: it holds the entries in heap order and
satisfies the heap condition. -/
theorem copy_spec_sch {q : schedule} (hq : q.Valid) :
    ∃ c, q.copy = some c ∧ c.Loose ∧ c.heap.length = q.heap.length ∧
      heap.HeapOn lt c.slot c.heap.length ∧
      (heap.items slot c c.heap.length).map Prod.snd = q.entries.map scheduledRepoUpdate.core ∧
      (∀ a ∈ heap.items slot c c.heap.length, (c.mem[a.1]?).map scheduledRepoUpdate.core = some a.2) := by
  have hvalid : ∀ x ∈ q.heap, x < q.mem.length := fun x hx => wf_ptr_lt_sch hq.1 hx
  have hlen : q.entries.length = q.heap.length := entries_length_sch hq.1
  obtain ⟨c, hc⟩ : ∃ c : schedule,
      c = ⟨q.entries, List.range q.entries.length, [], none, 0⟩ := ⟨_, rfl⟩
  have hcmem : c.mem = q.entries := by rw [hc]
  have hcheap : c.heap = List.range q.entries.length := by rw [hc]
  have hclen : c.heap.length = q.heap.length := by
    rw [hcheap, List.length_range, hlen]
  have hcopy : q.copy = some c := by
    unfold copy
    rw [derefAll_eq q.mem q.heap hvalid, hc]
    rfl
  have hslot : ∀ k, c.slot k = (q.entry k).map (fun e => (k, e.core)) := by
    intro k
    have hent : q.entries[k]? = q.entry k := by
      unfold entries entry
      exact getElem?_filterMap_all _ q.heap k
        (fun x hx => ⟨_, List.getElem?_eq_getElem (hvalid x hx)⟩)
    unfold slot
    rw [hcheap, hcmem]
    by_cases hk : k < q.entries.length
    · rw [List.getElem?_range hk, Option.some_bind, hent]
    · rw [List.getElem?_eq_none (by rw [List.length_range]; omega)]
      have : q.entry k = none := by
        rw [← hent]
        exact List.getElem?_eq_none (by omega)
      rw [this]
      rfl
  refine ⟨c, hcopy, ⟨?_, fun x hx => ?_⟩, hclen, ?_, ?_, ?_⟩
  · rw [hcheap]
    exact List.nodup_range _
  · rw [hcheap] at hx
    rw [hcmem]
    exact List.mem_range.mp hx
  · rw [hclen]
    apply heap.heapOn_equiv hq.2
    intro k cv hcv
    rw [hslot k] at hcv
    cases he : q.entry k with
    | none => rw [he] at hcv; cases hcv
    | some e =>
      rw [he] at hcv
      simp only [Option.map_some', Option.some.injEq] at hcv
      unfold entry at he
      cases hx : q.heap[k]? with
      | none => rw [hx] at he; cases he
      | some x =>
        rw [hx, Option.some_bind] at he
        refine ⟨(x, e.core), slot_of_sch hx he, ?_⟩
        intro z
        rw [← hcv]
        exact ⟨rfl, rfl⟩
  · rw [hclen]
    unfold heap.items
    rw [List.map_filterMap]
    have h1 : (List.range q.heap.length).filterMap (fun k => (c.slot k).map Prod.snd) =
        (List.range q.heap.length).filterMap
          (fun k => (q.heap[k]?).bind (fun x => (q.mem[x]?).map scheduledRepoUpdate.core)) := by
      apply List.filterMap_congr
      intro k _
      rw [hslot k]
      unfold entry
      cases q.heap[k]? with
      | none => rfl
      | some x =>
        simp only [Option.some_bind]
        cases q.mem[x]? with
        | none => rfl
        | some e => rfl
    rw [h1, range_filterMap_getElem?]
    unfold entries
    rw [List.map_filterMap]
  · intro a ha
    obtain ⟨k, _, hk⟩ := heap.mem_items.mp ha
    obtain ⟨e, _, he, hcore⟩ := slot_eq_some_sch.mp hk
    rw [he, hcore]
    rfl

/-- The part of `DebugDump` for one heap: the copy is popped until it is empty and the popped
entries are, up to their heap position, the entries of the heap, each once, in an order in
which no entry precedes an earlier one. -/
theorem dump_spec_sch {q : schedule} (hq : q.Valid) :
    ∃ c r dump, q.copy = some c ∧ heap.drain iface (c.heap.length + 1) c [] = some r ∧
      derefAll r.1.mem r.2 = some dump ∧
      List.Perm (dump.map scheduledRepoUpdate.core) (q.entries.map scheduledRepoUpdate.core) ∧
      dump.Pairwise (fun a b => lt (0, b.core) (0, a.core) = false) := by
  obtain ⟨c, hcopy, hloose, _, hheap, hitems, hmem⟩ := copy_spec_sch hq
  have hkrefl : ∀ s : schedule, keep s s := fun _ _ => rfl
  have hkrel : ∀ s s1 : schedule, rel s s1 → keep s s1 := fun _ _ hrel => hrel.2.2.2.2.1
  have hktrans : ∀ a b c0 : schedule, keep a b → keep b c0 → keep a c0 :=
    fun _ _ _ hab hbc y => (hbc y).trans (hab y)
  obtain ⟨s1, vals, hrun, hkeep, hperm, hsorted⟩ :=
    heap.drain_spec lawful_loose_sch hkrefl hkrel hktrans popsLast_loose_sch
      (c.heap.length + 1) c [] hloose hheap (Nat.lt_succ_self _)
  rw [List.nil_append] at hrun
  obtain ⟨dump, hd, hm⟩ := derefAll_map scheduledRepoUpdate.core s1.mem vals (by
    intro a ha
    rw [hkeep a.1]
    exact hmem a (hperm.subset ha))
  refine ⟨c, (s1, vals.map Prod.fst), dump, hcopy, hrun, hd, ?_, ?_⟩
  · rw [hm, ← hitems]
    exact hperm.map Prod.snd
  · have h1 : (vals.map Prod.snd).Pairwise (fun a b => lt (0, b) (0, a) = false) := by
      rw [List.pairwise_map]
      exact hsorted
    rw [← hm, List.pairwise_map] at h1
    exact h1

end schedule

namespace updateScheduler

/-- The method `DebugDump` on a scheduler whose heaps are valid: it returns, and each of the
two lists holds the entries of its heap, up to their heap position, each once; the schedule
list is in the order of Due and the queue list in the order of the queue comparator. -/
theorem DebugDump_spec {s : updateScheduler} (hs : s.schedule.Valid)
    (hq : s.updateQueue.Valid) (sortSlice : List configuredRepo2 → List configuredRepo2) :
    ∃ d, s.DebugDump sortSlice = some d ∧
      List.Perm (d.Schedule.map scheduledRepoUpdate.core)
        (s.schedule.entries.map scheduledRepoUpdate.core) ∧
      d.Schedule.Pairwise (fun a b => a.Due ≤ b.Due) ∧
      List.Perm (d.UpdateQueue.map repoUpdate.core)
        (s.updateQueue.entries.map repoUpdate.core) ∧
      d.UpdateQueue.Pairwise (fun a b => b.less a = false) := by
  obtain ⟨c1, r1, dump1, hc1, hr1, hd1, hp1, hs1⟩ := schedule.dump_spec_sch hs
  obtain ⟨c2, r2, dump2, hc2, hr2, hd2, hp2, hs2⟩ := updateQueue.dump_spec hq
  refine ⟨{ UpdateQueue := dump2, Schedule := dump1,
            SourceRepos := s.sourceRepos.map
              (fun p => (p.1, sortSlice (p.2.map (fun r => r.2)))) }, ?_, hp1, ?_, hp2, ?_⟩
  · unfold DebugDump
    simp only [hc1, Option.some_bind, hr1, hd1, hc2, hr2, hd2, Option.map_some']
  · refine hs1.imp ?_
    intro a b hab
    have h1 : Time.Before b.Due a.Due = false := hab
    unfold Time.Before at h1
    simpa using h1
  · refine hs2.imp ?_
    intro a b hab
    exact hab

/-- C24. On a scheduler whose two heaps satisfy their representation invariant, `DebugDump`
returns. Its Schedule list holds the entries of the Due-Schedule, each exactly once (the
heap position, which the dump does not show, aside), in non-decreasing order of Due. Its
UpdateQueue list holds the entries of the Update Queue, each exactly once, in the order of
the queue comparator: an entry that is not updating before the updating ones, then the
higher priority first, then the lower Seq first. -/
theorem C24_DebugDump_lists_entries_in_order (s : updateScheduler)
    (sortSlice : List configuredRepo2 → List configuredRepo2) (hs : s.schedule.Valid)
    (hq : s.updateQueue.Valid) :
    ∃ d, s.DebugDump sortSlice = some d ∧
      List.Perm (d.Schedule.map scheduledRepoUpdate.core)
        (s.schedule.entries.map scheduledRepoUpdate.core) ∧
      d.Schedule.Pairwise (fun a b => a.Due ≤ b.Due) ∧
      List.Perm (d.UpdateQueue.map repoUpdate.core)
        (s.updateQueue.entries.map repoUpdate.core) ∧
      d.UpdateQueue.Pairwise (fun a b =>
        (a.Updating = true → b.Updating = true) ∧
        (a.Updating = b.Updating →
          b.Priority ≤ a.Priority ∧ (a.Priority = b.Priority → a.Seq ≤ b.Seq))) := by
  obtain ⟨d, hrun, hp1, hs1, hp2, hs2⟩ := DebugDump_spec hs hq sortSlice
  refine ⟨d, hrun, hp1, hs1, hp2, hs2.imp ?_⟩
  intro a b hab
  unfold repoUpdate.less at hab
  constructor
  · intro ha
    by_contra hb
    have hne : b.Updating ≠ a.Updating := by
      rw [ha]
      exact hb
    rw [if_pos hne, ha] at hab
    cases hab
  · intro hu
    rw [if_neg (by rw [hu]; simp)] at hab
    by_cases hp : b.Priority = a.Priority
    · rw [if_neg (by rw [hp]; simp)] at hab
      refine ⟨by rw [hp], fun _ => ?_⟩
      simpa using hab
    · rw [if_pos hp] at hab
      have h1 : ¬ b.Priority > a.Priority := by simpa using hab
      have h2 : b.Priority ≤ a.Priority := by
        unfold priority at *
        omega
      refine ⟨h2, fun h3 => absurd h3.symm hp⟩

theorem C24_witness :
    inFlightSchedulerAfter.schedule.Valid ∧ inFlightSchedulerAfter.updateQueue.Valid ∧
    inFlightSchedulerAfter.DebugDump id = some
      { UpdateQueue := [⟨repoB, priorityLow, 2, false, -1⟩],
        Schedule := [⟨repoB, 45000000000, 45000000010, -1⟩,
                     ⟨repoA, 18000000000000, 18000000000100, -1⟩],
        SourceRepos := [] } ∧
    ∃ d, inFlightSchedulerAfter.DebugDump id = some d ∧
      d.Schedule.Pairwise (fun a b => a.Due ≤ b.Due) := by
  obtain ⟨d, h1, _, h3, _⟩ :=
    C24_DebugDump_lists_entries_in_order inFlightSchedulerAfter id (by decide) (by decide)
  exact ⟨by decide, by decide, by decide, d, h1, h3⟩

/-- C28. On a state with the heap invariants in which a repo with a non-zero ID is not in the
Update Queue (so in particular when it is in neither structure), adding it as `Update` does
(schedule.upsert, then enqueue at low priority) puts it into both, and removing it right away
as `Update` does for a deleted repo (schedule.remove, then updateQueue.remove with
updating = false) leaves it in neither the Due-Schedule nor the Update Queue; `DebugDump`
then lists no entry of the repo, and every other repo has the schedule entry and the queue
entry it had before. -/
theorem C28_upsert_then_remove_leaves_no_trace (s : updateScheduler) (r : Repo)
    (clock1 clock2 : Clock) (sortSlice : List configuredRepo2 → List configuredRepo2)
    (hs : s.Inv) (hid : r.ID ≠ 0) (hnoQ : ¬ s.updateQueue.has r.ID) :
    ∃ s1 s2 d, s.upsert r clock1 = some s1 ∧ s1.remove r clock2 = some s2 ∧ s2.Inv ∧
      s1.schedule.has r.ID ∧ s1.updateQueue.has r.ID ∧
      ¬ s2.schedule.has r.ID ∧ ¬ s2.updateQueue.has r.ID ∧
      s2.DebugDump sortSlice = some d ∧
      (∀ e ∈ d.Schedule, e.Repo.ID ≠ r.ID) ∧ (∀ e ∈ d.UpdateQueue, e.Repo.ID ≠ r.ID) ∧
      (∀ id, id ≠ r.ID → s2.scheduled id = s.scheduled id ∧ s2.queued id = s.queued id) := by
  have hrid : (configuredRepo2FromRepo r).ID = r.ID := configuredRepo2FromRepo_ID r
  have hid1 : (configuredRepo2FromRepo r).ID ≠ 0 := by
    rw [hrid]
    exact hid
  have hq0 : s.queued r.ID = none := by
    cases h : s.queued r.ID with
    | none => rfl
    | some c => exact absurd ((queue_has_iff hs).mpr ⟨c, h⟩) hnoQ
  obtain ⟨s1, hadd, hinv1, _, hfr1, ⟨c1, hc1, _⟩, ⟨d1, hd1, hnew1, _⟩⟩ :=
    add_spec hs hid1 clock1
  rw [hrid] at hfr1 hc1 hd1 hnew1
  obtain ⟨s2, hdrop, hinv2, _, hfr2, hsch2, hqu2⟩ := drop_spec hinv1 hid1 clock2
  rw [hrid] at hfr2 hsch2 hqu2
  have hqu2n : s2.queued r.ID = none := by
    rw [hqu2, hd1]
    simp [Option.filter, (hnew1 hq0).2.2]
  have hnS2 : ¬ s2.schedule.has r.ID := by
    rw [schedule_has_iff hinv2, hsch2]
    rintro ⟨c, hc⟩
    cases hc
  have hnQ2 : ¬ s2.updateQueue.has r.ID := by
    rw [queue_has_iff hinv2, hqu2n]
    rintro ⟨c, hc⟩
    cases hc
  obtain ⟨d, hdump, hp1, _, hp2, _⟩ := DebugDump_spec hinv2.1 hinv2.2.2 sortSlice
  refine ⟨s1, s2, d, ?_, ?_, hinv2, (schedule_has_iff hinv1).mpr ⟨c1, hc1⟩,
    (queue_has_iff hinv1).mpr ⟨d1, hd1⟩, hnS2, hnQ2, hdump, ?_, ?_, ?_⟩
  · rw [upsert_eq_add, hadd]
  · rw [remove_eq_drop, hdrop]
  · intro e he heid
    have h1 : e.core ∈ d.Schedule.map scheduledRepoUpdate.core := List.mem_map_of_mem _ he
    obtain ⟨e1, he1, hcore⟩ := List.mem_map.mp (hp1.subset h1)
    apply hnS2
    refine ⟨e1, he1, ?_⟩
    have : e1.core.Repo.ID = e.core.Repo.ID := by rw [hcore]
    exact this.trans heid
  · intro e he heid
    have h1 : e.core ∈ d.UpdateQueue.map repoUpdate.core := List.mem_map_of_mem _ he
    obtain ⟨e1, he1, hcore⟩ := List.mem_map.mp (hp2.subset h1)
    apply hnQ2
    refine ⟨e1, he1, ?_⟩
    have : e1.core.Repo.ID = e.core.Repo.ID := by rw [hcore]
    exact this.trans heid
  · intro id hne
    exact ⟨(hfr2 id hne).1.trans (hfr1 id hne).1, (hfr2 id hne).2.trans (hfr1 id hne).2⟩

theorem C28_witness :
    exampleScheduler.Inv ∧ knownRepoC.ID ≠ 0 ∧ ¬ exampleScheduler.schedule.has knownRepoC.ID ∧
    ¬ exampleScheduler.updateQueue.has knownRepoC.ID ∧
    ∃ s1 s2 d, exampleScheduler.upsert knownRepoC (fun _ => 100) = some s1 ∧
      s1.remove knownRepoC (fun _ => 100) = some s2 ∧
      s2.DebugDump id = some d ∧
      (∀ e ∈ d.Schedule, e.Repo.ID ≠ knownRepoC.ID) ∧
      (∀ e ∈ d.UpdateQueue, e.Repo.ID ≠ knownRepoC.ID) ∧
      s2.scheduled repoA.ID = exampleScheduler.scheduled repoA.ID := by
  obtain ⟨s1, s2, d, h1, h2, _, _, _, _, _, h8, h9, h10, h11⟩ :=
    C28_upsert_then_remove_leaves_no_trace exampleScheduler knownRepoC (fun _ => 100)
      (fun _ => 100) id (by decide) (by decide) (by decide)
  exact ⟨by decide, by decide, by decide, by decide, s1, s2, d, h1, h2, h8, h9, h10,
    (h11 repoA.ID (by decide)).1⟩

end updateScheduler

namespace updateQueue

/-- The method `reset` leaves a queue that satisfies the invariant and holds no entry. -/
theorem reset_valid_queue (q : updateQueue) : q.reset.Valid ∧ q.reset.entries = [] := by
  have h0 : q.reset.heap = [] := by
    unfold reset
    simp
  refine ⟨(empty_valid h0 rfl).1, ?_⟩
  unfold entries
  rw [h0]
  rfl

end updateQueue

namespace updateScheduler

/-- A completed loop of `runSchedule` keeps the invariants of both heaps, under any clock. -/
theorem runScheduleFor_keeps (clock : Clock) : ∀ (fuel k : Nat) (s s1 : updateScheduler)
    (k1 : Nat), s.Inv → runScheduleFor clock fuel k s = some (s1, k1) → s1.Inv := by
  intro fuel
  induction fuel with
  | zero =>
    intro k s s1 k1 _ h
    unfold runScheduleFor at h
    cases h
  | succ fuel ih =>
    intro k s s1 k1 hinv h
    obtain ⟨hs, hi, hq⟩ := hinv
    unfold runScheduleFor at h
    by_cases hlen : s.schedule.heap.length = 0
    · rw [if_pos hlen] at h
      cases h
      exact ⟨hs, hi, hq⟩
    · rw [if_neg hlen] at h
      have hx : s.schedule.heap[0]? = some s.schedule.heap[0] :=
        List.getElem?_eq_getElem (by omega)
      obtain ⟨e, he, _⟩ := schedule.wf_entry_sch hs.1 hx
      rw [hx, Option.some_bind, he, Option.some_bind] at h
      by_cases hdue : Time.Before e.Due (Time.Add (clock k) time.Millisecond) = true
      · simp only [hdue, Bool.not_true, Bool.false_eq_true, if_false] at h
        cases henq : s.updateQueue.enqueue e.Repo priorityLow with
        | none => rw [henq] at h; cases h
        | some r =>
          obtain ⟨sch1, sch2, hmod, hfix, hv2, hi2, _⟩ :=
            runSchedule_round hs hi hx he (clock (k + 1))
          rw [henq, Option.some_bind, hmod, Option.some_bind, hfix, Option.some_bind] at h
          have hq1 : r.1.Valid := updateQueue.enqueue_valid hq (b := r.2) henq
          exact ih (k + 2) _ s1 k1 ⟨hv2, hi2, hq1⟩ h
      · simp only [hdue, Bool.not_false, if_true] at h
        cases h
        exact ⟨hs, hi, hq⟩

/-- A completed call of a mutating operation keeps the invariants of both heaps. -/
theorem step_inv {s s1 : updateScheduler} {c : schedulerCall} (hs : s.Inv)
    (h : s.step c = some s1) : s1.Inv := by
  cases c with
  | schedule c =>
    have h1 : s.scheduleCall c = some s1 := h
    obtain ⟨hv, hi⟩ := scheduleCall_inv hs.1 hs.2.1 h1
    refine ⟨hv, hi, ?_⟩
    cases c with
    | upsert repo clock =>
      simp only [scheduleCall] at h1
      cases hu : s.schedule.upsert repo clock with
      | none => rw [hu] at h1; cases h1
      | some r => rw [hu] at h1; cases h1; exact hs.2.2
    | updateInterval repo d clock =>
      simp only [scheduleCall] at h1
      cases hu : s.schedule.updateInterval repo d clock with
      | none => rw [hu] at h1; cases h1
      | some r => rw [hu] at h1; cases h1; exact hs.2.2
    | remove repo clock =>
      simp only [scheduleCall] at h1
      cases hu : s.schedule.remove repo clock with
      | none => rw [hu] at h1; cases h1
      | some r => rw [hu] at h1; cases h1; exact hs.2.2
    | runSchedule fuel clock =>
      simp only [scheduleCall, runSchedule] at h1
      cases hf : runScheduleFor clock fuel 0 s with
      | none => rw [hf] at h1; cases h1
      | some r =>
        rw [hf, Option.some_bind] at h1
        have hr := runScheduleFor_keeps clock fuel 0 s r.1 r.2 hs hf
        cases ht : r.1.schedule.rescheduleTimer (clock r.2) with
        | none => rw [ht] at h1; cases h1
        | some sch => rw [ht] at h1; cases h1; exact hr.2.2
    | reset =>
      simp only [scheduleCall, Option.some.injEq] at h1
      rw [← h1]
      exact hs.2.2
  | queue c =>
    have h1 : (s.updateQueue.call c).map (fun r => { s with updateQueue := r.1 }) = some s1 := h
    cases hc : s.updateQueue.call c with
    | none => rw [hc] at h1; cases h1
    | some r =>
      rw [hc] at h1
      cases h1
      exact ⟨hs.1, hs.2.1, updateQueue.call_valid hs.2.2 (r := r.2) hc⟩
  | queueReset =>
    have h1 : some { s with updateQueue := s.updateQueue.reset } = some s1 := h
    cases h1
    exact ⟨hs.1, hs.2.1, (updateQueue.reset_valid_queue s.updateQueue).1⟩

/-- A completed sequence of calls of mutating operations keeps the invariants of both
heaps. -/
theorem steps_inv : ∀ (cs : List schedulerCall) {s s1 : updateScheduler}, s.Inv →
    s.steps cs = some s1 → s1.Inv := by
  intro cs
  induction cs with
  | nil =>
    intro s s1 hs h
    unfold steps at h
    cases h
    exact hs
  | cons c cs ih =>
    intro s s1 hs h
    unfold steps at h
    cases hc : s.step c with
    | none => rw [hc] at h; cases h
    | some s2 =>
      rw [hc, Option.some_bind] at h
      exact ih (step_inv hs hc) h

/-- The fresh scheduler satisfies the invariants of both heaps. -/
theorem fresh_inv : NewUpdateScheduler.Inv := by decide

/-- C36. In every state reached from the fresh scheduler by a sequence of the mutating
operations (upsert, updateInterval, remove, runSchedule, reset on the Due-Schedule; enqueue,
remove, acquireNext, reset on the Update Queue), in each of the two heaps: the entry at heap
position `i` has Index = `i` and the index map sends its repo ID to that very entry (the
same pointer); every binding of the index map is the repo ID of an entry of the heap; the
index map has as many keys as the heap has entries; and two heap positions that hold entries
of one repo ID are the same position. -/
theorem C36_position_fields_and_index_maps_agree (cs : List schedulerCall)
    (s : updateScheduler) (h : NewUpdateScheduler.steps cs = some s) :
    ((∀ (i : Nat) (x : Ptr), s.schedule.heap[i]? = some x →
        ∃ e, s.schedule.mem[x]? = some e ∧ e.Index = (i : Int) ∧
          s.schedule.index.get e.Repo.ID = some x) ∧
      (∀ id x, s.schedule.index.get id = some x →
        ∃ (i : Nat) (e : scheduledRepoUpdate), s.schedule.heap[i]? = some x ∧
          s.schedule.mem[x]? = some e ∧ e.Repo.ID = id) ∧
      s.schedule.index.length = s.schedule.heap.length ∧
      (s.schedule.index.map Prod.fst).Nodup ∧
      (∀ (i j : Nat) (ei ej : scheduledRepoUpdate), s.schedule.entry i = some ei →
        s.schedule.entry j = some ej → ei.Repo.ID = ej.Repo.ID → i = j)) ∧
    ((∀ (i : Nat) (x : Ptr), s.updateQueue.heap[i]? = some x →
        ∃ e, s.updateQueue.mem[x]? = some e ∧ e.Index = (i : Int) ∧
          s.updateQueue.index.get e.Repo.ID = some x) ∧
      (∀ id x, s.updateQueue.index.get id = some x →
        ∃ (i : Nat) (e : repoUpdate), s.updateQueue.heap[i]? = some x ∧
          s.updateQueue.mem[x]? = some e ∧ e.Repo.ID = id) ∧
      s.updateQueue.index.length = s.updateQueue.heap.length ∧
      (s.updateQueue.index.map Prod.fst).Nodup ∧
      (∀ (i j : Nat) (ei ej : repoUpdate), s.updateQueue.entry i = some ei →
        s.updateQueue.entry j = some ej → ei.Repo.ID = ej.Repo.ID → i = j)) := by
  obtain ⟨hs, _, hq⟩ := steps_inv cs fresh_inv h
  constructor
  · refine ⟨?_, ?_, schedule.index_length_sch hs.1, hs.1.2.2, ?_⟩
    · intro i x hx
      obtain ⟨e, he, hidx, _, hget⟩ := schedule.wf_entry_sch hs.1 hx
      exact ⟨e, he, hidx, hget⟩
    · intro id x hget
      exact schedule.wf_index_sch hs.1 hget
    · intro i j ei ej hi hj hid
      unfold schedule.entry at hi hj
      cases hxi : s.schedule.heap[i]? with
      | none => rw [hxi] at hi; cases hi
      | some x =>
        cases hxj : s.schedule.heap[j]? with
        | none => rw [hxj] at hj; cases hj
        | some y =>
          rw [hxi, Option.some_bind] at hi
          rw [hxj, Option.some_bind] at hj
          obtain ⟨e1, he1, _, _, hg1⟩ := schedule.wf_entry_sch hs.1 hxi
          obtain ⟨e2, he2, _, _, hg2⟩ := schedule.wf_entry_sch hs.1 hxj
          have h1 : e1 = ei := Option.some.inj (he1.symm.trans hi)
          have h2 : e2 = ej := Option.some.inj (he2.symm.trans hj)
          rw [h1] at hg1
          rw [h2, ← hid, hg1] at hg2
          have hxy : x = y := Option.some.inj hg2
          rw [← hxy] at hxj
          exact schedule.wf_heap_inj_sch hs.1 hxi hxj
  · refine ⟨?_, ?_, updateQueue.index_length hq.1, hq.1.2.2, ?_⟩
    · intro i x hx
      obtain ⟨e, he, hidx, _, hget⟩ := updateQueue.wf_entry hq.1 hx
      exact ⟨e, he, hidx, hget⟩
    · intro id x hget
      exact updateQueue.wf_index hq.1 hget
    · intro i j ei ej hi hj hid
      unfold updateQueue.entry at hi hj
      cases hxi : s.updateQueue.heap[i]? with
      | none => rw [hxi] at hi; cases hi
      | some x =>
        cases hxj : s.updateQueue.heap[j]? with
        | none => rw [hxj] at hj; cases hj
        | some y =>
          rw [hxi, Option.some_bind] at hi
          rw [hxj, Option.some_bind] at hj
          obtain ⟨e1, he1, _, _, hg1⟩ := updateQueue.wf_entry hq.1 hxi
          obtain ⟨e2, he2, _, _, hg2⟩ := updateQueue.wf_entry hq.1 hxj
          have h1 : e1 = ei := Option.some.inj (he1.symm.trans hi)
          have h2 : e2 = ej := Option.some.inj (he2.symm.trans hj)
          rw [h1] at hg1
          rw [h2, ← hid, hg1] at hg2
          have hxy : x = y := Option.some.inj hg2
          rw [← hxy] at hxj
          exact updateQueue.wf_heap_inj hq.1 hxi hxj

theorem C36_witness :
    NewUpdateScheduler.steps
        [schedulerCall.schedule (scheduleCall.upsert repoA (fun _ => 0)),
         schedulerCall.schedule (scheduleCall.upsert repoB (fun _ => 10)),
         schedulerCall.schedule (scheduleCall.runSchedule 5 (fun _ => 45000000000)),
         schedulerCall.queue queueCall.acquireNext,
         schedulerCall.queue (queueCall.remove repoA true),
         schedulerCall.schedule (scheduleCall.remove repoA (fun _ => 45000000000))] =
      some
        { sourceRepos := [],
          updateQueue :=
            { mem := [⟨repoA, priorityLow, 1, true, -1⟩, ⟨repoB, priorityLow, 2, false, 0⟩],
              heap := [1], index := [(2, 1)], seq := 2, notifyEnqueue := 1 },
          schedule :=
            { mem := [⟨repoA, 45000000000, 90000000000, -1⟩,
                      ⟨repoB, 45000000000, 90000000000, 0⟩],
              heap := [1], index := [(2, 1)], timer := some 90000000000, wakeup := 0 } } ∧
    ∀ (i j : Nat) (ei ej : repoUpdate),
      updateQueue.entry
          { mem := [⟨repoA, priorityLow, 1, true, -1⟩, ⟨repoB, priorityLow, 2, false, 0⟩],
            heap := [1], index := [(2, 1)], seq := 2, notifyEnqueue := 1 } i = some ei →
      updateQueue.entry
          { mem := [⟨repoA, priorityLow, 1, true, -1⟩, ⟨repoB, priorityLow, 2, false, 0⟩],
            heap := [1], index := [(2, 1)], seq := 2, notifyEnqueue := 1 } j = some ej →
      ei.Repo.ID = ej.Repo.ID → i = j :=
  have h := C36_position_fields_and_index_maps_agree _ _
    (by decide :
      NewUpdateScheduler.steps
        [schedulerCall.schedule (scheduleCall.upsert repoA (fun _ => 0)),
         schedulerCall.schedule (scheduleCall.upsert repoB (fun _ => 10)),
         schedulerCall.schedule (scheduleCall.runSchedule 5 (fun _ => 45000000000)),
         schedulerCall.queue queueCall.acquireNext,
         schedulerCall.queue (queueCall.remove repoA true),
         schedulerCall.schedule (scheduleCall.remove repoA (fun _ => 45000000000))] =
      some
        { sourceRepos := [],
          updateQueue :=
            { mem := [⟨repoA, priorityLow, 1, true, -1⟩, ⟨repoB, priorityLow, 2, false, 0⟩],
              heap := [1], index := [(2, 1)], seq := 2, notifyEnqueue := 1 },
          schedule :=
            { mem := [⟨repoA, 45000000000, 90000000000, -1⟩,
                      ⟨repoB, 45000000000, 90000000000, 0⟩],
              heap := [1], index := [(2, 1)], timer := some 90000000000, wakeup := 0 } })
  ⟨by decide, h.2.2.2.2.2⟩

end updateScheduler

theorem nodup_filterMap_on {α β : Type} (f : α → Option β) : ∀ (l : List α), l.Nodup →
    (∀ a ∈ l, ∀ a1 ∈ l, ∀ b, f a = some b → f a1 = some b → a = a1) →
    (l.filterMap f).Nodup := by
  intro l
  induction l with
  | nil => intro _ _; exact List.nodup_nil
  | cons a l ih =>
    intro hnd hinj
    rw [List.nodup_cons] at hnd
    have ih1 := ih hnd.2 (fun x hx y hy b hb1 hb2 =>
      hinj x (List.mem_cons_of_mem a hx) y (List.mem_cons_of_mem a hy) b hb1 hb2)
    cases hfa : f a with
    | none =>
      rw [List.filterMap_cons_none hfa]
      exact ih1
    | some b =>
      rw [List.filterMap_cons_some hfa, List.nodup_cons]
      refine ⟨?_, ih1⟩
      intro hb
      obtain ⟨a1, ha1, hfa1⟩ := List.mem_filterMap.mp hb
      have := hinj a (List.mem_cons_self a l) a1 (List.mem_cons_of_mem a ha1) b hfa hfa1
      rw [this] at hnd
      exact hnd.1 ha1

namespace schedule

/-- The entries of a well-formed schedule have distinct repo IDs. -/
theorem entries_ids_nodup_sch {q : schedule} (hq : q.Wf) :
    (q.entries.map (fun e => e.Repo.ID)).Nodup := by
  have hnd2 : q.heap.Nodup := by
    rw [List.nodup_iff_getElem?_ne_getElem?]
    intro i j hij hj h
    have hjx : q.heap[j]? = some q.heap[j] := List.getElem?_eq_getElem hj
    have := wf_heap_inj_sch hq (h.trans hjx) hjx
    omega
  unfold entries
  rw [List.map_filterMap]
  refine nodup_filterMap_on _ q.heap hnd2 ?_
  intro x hx y hy b hb1 hb2
  obtain ⟨i, hi⟩ := List.mem_iff_getElem?.mp hx
  obtain ⟨j, hj⟩ := List.mem_iff_getElem?.mp hy
  obtain ⟨e1, he1, _, _, hg1⟩ := wf_entry_sch hq hi
  obtain ⟨e2, he2, _, _, hg2⟩ := wf_entry_sch hq hj
  rw [he1] at hb1
  rw [he2] at hb2
  simp only [Option.map_some', Option.some.injEq] at hb1 hb2
  rw [hb1] at hg1
  rw [hb2, hg1] at hg2
  exact Option.some.inj hg2

end schedule

namespace updateQueue

/-- The entries of a well-formed queue have distinct repo IDs. -/
theorem entries_ids_nodup {q : updateQueue} (hq : q.Wf) :
    (q.entries.map (fun e => e.Repo.ID)).Nodup := by
  have hnd2 : q.heap.Nodup := by
    rw [List.nodup_iff_getElem?_ne_getElem?]
    intro i j hij hj h
    have hjx : q.heap[j]? = some q.heap[j] := List.getElem?_eq_getElem hj
    have := wf_heap_inj hq (h.trans hjx) hjx
    omega
  unfold entries
  rw [List.map_filterMap]
  refine nodup_filterMap_on _ q.heap hnd2 ?_
  intro x hx y hy b hb1 hb2
  obtain ⟨i, hi⟩ := List.mem_iff_getElem?.mp hx
  obtain ⟨j, hj⟩ := List.mem_iff_getElem?.mp hy
  obtain ⟨e1, he1, _, _, hg1⟩ := wf_entry hq hi
  obtain ⟨e2, he2, _, _, hg2⟩ := wf_entry hq hj
  rw [he1] at hb1
  rw [he2] at hb2
  simp only [Option.map_some', Option.some.injEq] at hb1 hb2
  rw [hb1] at hg1
  rw [hb2, hg1] at hg2
  exact Option.some.inj hg2

end updateQueue

namespace updateScheduler

/-- The loop of `runSchedule` with fuel `n` is the loop cut off after `n` rounds, when it
has been left by then. -/
theorem runScheduleFor_eq_rounds (clock : Clock) : ∀ (n k : Nat) (s : updateScheduler),
    runScheduleFor clock n k s =
      (runScheduleRounds clock n k s).bind
        (fun r => if r.2.2 then some (r.1, r.2.1) else none) := by
  intro n
  induction n with
  | zero => intro k s; rfl
  | succ n ih =>
    intro k s
    unfold runScheduleFor runScheduleRounds
    by_cases hlen : s.schedule.heap.length = 0
    · rw [if_pos hlen, if_pos hlen]
      rfl
    · rw [if_neg hlen, if_neg hlen]
      cases hx : s.schedule.heap[0]? with
      | none => rfl
      | some x =>
        simp only [Option.some_bind]
        cases he : s.schedule.mem[x]? with
        | none => rfl
        | some e =>
          simp only [Option.some_bind]
          by_cases hdue : Time.Before e.Due (Time.Add (clock k) time.Millisecond) = true
          · simp only [hdue, Bool.not_true, Bool.false_eq_true, if_false]
            cases henq : s.updateQueue.enqueue e.Repo priorityLow with
            | none => rfl
            | some r =>
              simp only [Option.some_bind]
              cases hmod : s.schedule.modify x
                  (fun e => { e with Due := Time.Add (clock (k + 1)) e.Interval }) with
              | none => rfl
              | some sch1 =>
                simp only [Option.some_bind]
                cases hfix : heap.Fix schedule.iface sch1 0 with
                | none => rfl
                | some sch2 =>
                  simp only [Option.some_bind]
                  exact ih (k + 2) _
          · simp only [hdue, Bool.not_false, if_true]
            rfl

/-- No round of the loop of `runSchedule` panics on a state with the heap invariants,
whatever the clock reads: the loop cut off after any number of rounds has a state. -/
theorem runScheduleRounds_total (clock : Clock) : ∀ (n k : Nat) (s : updateScheduler), s.Inv →
    ∃ s1 k1 b, runScheduleRounds clock n k s = some (s1, k1, b) ∧ s1.Inv := by
  intro n
  induction n with
  | zero => intro k s hs; exact ⟨s, k, false, rfl, hs⟩
  | succ n ih =>
    intro k s hinv
    obtain ⟨hs, hi, hq⟩ := hinv
    unfold runScheduleRounds
    by_cases hlen : s.schedule.heap.length = 0
    · rw [if_pos hlen]
      exact ⟨s, k, true, rfl, hs, hi, hq⟩
    · rw [if_neg hlen]
      have hx : s.schedule.heap[0]? = some s.schedule.heap[0] :=
        List.getElem?_eq_getElem (by omega)
      obtain ⟨e, he, _, hnz, _⟩ := schedule.wf_entry_sch hs.1 hx
      rw [hx, Option.some_bind, he, Option.some_bind]
      by_cases hdue : Time.Before e.Due (Time.Add (clock k) time.Millisecond) = true
      · simp only [hdue, Bool.not_true, Bool.false_eq_true, if_false]
        obtain ⟨q1, b, henq, hq1, _⟩ := updateQueue.enqueue_cases hq hnz priorityLow
        obtain ⟨sch1, sch2, hmod, hfix, hv2, hi2, _⟩ :=
          runSchedule_round hs hi hx he (clock (k + 1))
        rw [henq, Option.some_bind, hmod, Option.some_bind, hfix, Option.some_bind]
        exact ih (k + 2) _ ⟨hv2, hi2, hq1⟩
      · simp only [hdue, Bool.not_false, if_true]
        exact ⟨s, k + 1, true, rfl, hs, hi, hq⟩

/-- C31, counterexample. The schedule holds `repoA`, due at 45s, and `repoB`, due 10ns
later. The clock never moves backwards: it advances by 10ns from reading to reading. At the
first reading `repoA` is due and `repoB` is not, so one entry is due at the start of the
pass; at the third reading `repoB` is due as well, and the loop makes two iterations (five
clock readings, both repos enqueued). And under the fixed clock reading `lastSecond`, the
first instant of the last second of the range of `time.Time`, the loop on the same schedule
does not terminate: `now.Add(45s)` is `now` again, and the loop takes the entry of `repoB`
in every round after the first. -/
theorem C31_counterexample_clock_moves_forward :
    (∀ k, creepingClock k ≤ creepingClock (k + 1)) ∧
    dueScheduler.Inv ∧
    (dueScheduler.schedule.entries.filter (fun e =>
      Time.Before e.Due (Time.Add (creepingClock 0) time.Millisecond))).length = 1 ∧
    (runScheduleFor creepingClock 5 0 dueScheduler).map
      (fun r => (r.2, r.1.updateQueue.entries.map (fun e => e.Repo))) =
        some (5, [repoA, repoB]) ∧
    lastSecond ≤ time.maxTime ∧
    (∀ fuel, runScheduleFor (fun _ => lastSecond) fuel 0 dueScheduler = none) ∧
    (∀ n, (runScheduleRounds (fun _ => lastSecond) (n + 2) 0 dueScheduler).map
      (fun r => ((r.1.schedule.entry 0).map (fun e => e.Repo), r.2.2)) =
        some (some repoB, false)) := by
  refine ⟨?_, by decide, by decide, by decide, by decide, runScheduleFor_lastSecond, ?_⟩
  · intro k
    unfold creepingClock
    have h : min k 4 ≤ min (k + 1) 4 := by omega
    unfold Time
    omega
  · intro n
    rw [runScheduleRounds_lastSecond]
    rfl

/-- C31, amended. On a state with the heap invariants, under a clock whose readings during
the pass lie in a window shorter than `minDelay` (in particular a fixed clock), each at
least `maxDelay` before the end of the range of `time.Time`, the loop of `runSchedule` with
more fuel than the schedule has entries returns. `L` is the log of its iterations: one item
for each iteration, the repo handed to `enqueue` in it. No repo is in the log twice, and
each is the repo of an entry of the schedule; the loop reads the clock twice in each of these
iterations and once more to leave a schedule that is not empty. When moreover the entries due
at the first reading are the entries due at every reading of the pass, as under a fixed
clock, the number of iterations is the number of entries that were due, earlier than
now + 1ms, at the start. -/
theorem C31_loop_ends_and_takes_each_due_entry_once (s : updateScheduler) (clock : Clock)
    (B : Time) (fuel : Nat) (hs : s.Inv) (hB : clockWithin clock B)
    (hfuel : s.schedule.heap.length < fuel) :
    ∃ s1 k1, ∃ L : List (configuredRepo2 × Nat),
      runScheduleLog clock fuel 0 s = some (s1, k1, L) ∧
      runScheduleFor clock fuel 0 s = some (s1, k1) ∧
      (L.map (fun m => m.1.ID)).Nodup ∧
      (∀ m ∈ L, ∃ e ∈ s.schedule.entries, e.Repo = m.1) ∧
      k1 = 2 * L.length + (if s.schedule.heap.length = 0 then 0 else 1) ∧
      (dueStable clock s.schedule →
        L.length = (s.schedule.entries.filter (fun e =>
          Time.Before e.Due (Time.Add (clock 0) time.Millisecond))).length) := by
  have hp : s.schedule.pending B < fuel := by
    have h1 : s.schedule.pending B ≤ (s.schedule.index.map Prod.fst).length :=
      List.countP_le_length _
    rw [List.length_map, schedule.index_length_sch hs.1.1] at h1
    omega
  obtain ⟨s1, k1, L, hrun, hinv1, _, _, _, _, _, _, hnd, hmoved, hothers, hk,
      hend⟩ := runScheduleLog_moves clock B hB fuel 0 s hs hp
  refine ⟨s1, k1, L, hrun, runScheduleFor_of_log hrun, hnd, ?_, ?_, ?_⟩
  · intro m hm
    obtain ⟨c, hc, hrepo, _⟩ := hmoved m hm
    obtain ⟨e, he, _, _, hcore⟩ := schedule.find_core_some_sch hs.1.1 hc
    refine ⟨e, he, ?_⟩
    have : e.core.Repo = c.Repo := by rw [hcore]
    exact this.trans hrepo
  · omega
  · intro hstable
    have hnd2 : ((s.schedule.entries.filter (fun e =>
        Time.Before e.Due (Time.Add (clock 0) time.Millisecond))).map
          (fun e => e.Repo.ID)).Nodup :=
      List.Nodup.sublist (List.Sublist.map _ (List.filter_sublist _))
        (schedule.entries_ids_nodup_sch hs.1.1)
    have hperm : List.Perm (L.map (fun m => m.1.ID))
        ((s.schedule.entries.filter (fun e =>
          Time.Before e.Due (Time.Add (clock 0) time.Millisecond))).map
            (fun e => e.Repo.ID)) := by
      rw [List.perm_ext_iff_of_nodup hnd hnd2]
      intro id
      constructor
      · intro hid
        obtain ⟨m, hm, hmid⟩ := List.mem_map.mp hid
        obtain ⟨c, hc, _, _, hdue, _⟩ := hmoved m hm
        obtain ⟨e, he, heid, _, hcore⟩ := schedule.find_core_some_sch hs.1.1 hc
        have hdue2 : e.Due = c.Due := by rw [← hcore]; rfl
        refine List.mem_map.mpr ⟨e, List.mem_filter.mpr ⟨he, ?_⟩, heid.trans hmid⟩
        rw [← hstable e he (m.2 - 1), hdue2]
        exact hdue
      · intro hid
        obtain ⟨e, he, heid⟩ := List.mem_map.mp hid
        obtain ⟨he1, hdue⟩ := List.mem_filter.mp he
        by_contra hnot
        have hf : s.schedule.find id = some e :=
          schedule.entries_find_sch hs.1.1 he1 heid
        have h1 := hothers id hnot
        rw [hf] at h1
        obtain ⟨e1, he1s, _, _, hcore1⟩ :=
          schedule.find_core_some_sch hinv1.1.1 (c := e.core) h1
        have hd1 : e1.Due = e.Due := by
          have := congrArg scheduledRepoUpdate.Due hcore1
          exact this
        have h2 := (hend e1 he1s).2
        rw [hd1, hstable e he1 (k1 - 1)] at h2
        rw [h2] at hdue
        cases hdue
    have := hperm.length_eq
    rw [List.length_map, List.length_map] at this
    exact this

/-- The theorem at `dueScheduler` under the fixed clock reading 45s: two iterations, one for
each of the two entries, both due at the start. -/
theorem C31_witness :
    dueScheduler.Inv ∧
    clockWithin (fun _ => 45000000000) (45000000000 + time.Millisecond) ∧
    dueScheduler.schedule.heap.length < 5 ∧
    dueStable (fun _ => 45000000000) dueScheduler.schedule ∧
    ∃ s1 k1, ∃ L : List (configuredRepo2 × Nat),
      runScheduleLog (fun _ => 45000000000) 5 0 dueScheduler = some (s1, k1, L) ∧
      L.map (fun m => m.1) = [repoA, repoB] ∧
      k1 = 2 * L.length + (if dueScheduler.schedule.heap.length = 0 then 0 else 1) ∧
      L.length = (dueScheduler.schedule.entries.filter (fun e =>
          Time.Before e.Due (Time.Add 45000000000 time.Millisecond))).length := by
  have hst : dueStable (fun _ => 45000000000) dueScheduler.schedule := fun _ _ _ => rfl
  obtain ⟨s1, k1, L, h1, _, _, _, h5, h6⟩ :=
    C31_loop_ends_and_takes_each_due_entry_once dueScheduler (fun _ => 45000000000)
      (45000000000 + time.Millisecond) 5 (by decide)
      (clockWithin_const 45000000000 (by decide)) (by decide)
  have h2 : (runScheduleLog (fun _ => 45000000000) 5 0 dueScheduler).map
      (fun r => r.2.2.map (fun m => m.1)) = some [repoA, repoB] := by decide
  rw [h1] at h2
  exact ⟨by decide, clockWithin_const 45000000000 (by decide), by decide, hst, s1, k1, L, h1,
    Option.some.inj h2, h5, h6 hst⟩

/-- C39. In every state reached from the fresh scheduler by a sequence of the mutating
operations, every entry of the Due-Schedule and every entry of the Update Queue has a
non-zero repo ID. Hence the `enqueue` of the repo of any schedule entry returns, no round of
the loop of `runSchedule` panics whatever the clock reads (the loop cut off after any number
of rounds has a state, and the deferred `rescheduleTimer` returns on it), and `runSchedule`
returns under a clock whose readings lie in a window shorter than `minDelay`, each at least
`maxDelay` before the end of the range of `time.Time`. -/
theorem C39_stored_repo_IDs_are_not_zero (cs : List schedulerCall) (s : updateScheduler)
    (h : NewUpdateScheduler.steps cs = some s) :
    (∀ e ∈ s.schedule.entries, e.Repo.ID ≠ 0) ∧
    (∀ e ∈ s.updateQueue.entries, e.Repo.ID ≠ 0) ∧
    (∀ e ∈ s.schedule.entries, ∃ r, s.updateQueue.enqueue e.Repo priorityLow = some r) ∧
    (∀ (clock : Clock) (n : Nat), ∃ s1 k1 b,
      runScheduleRounds clock n 0 s = some (s1, k1, b) ∧
      (∀ e ∈ s1.schedule.entries, e.Repo.ID ≠ 0) ∧
      ∃ sch, s1.schedule.rescheduleTimer (clock k1) = some sch) ∧
    (∀ (clock : Clock) (B : Time) (fuel : Nat), clockWithin clock B →
      s.schedule.heap.length < fuel → ∃ s1, s.runSchedule fuel clock = some s1) := by
  have hinv := steps_inv cs fresh_inv h
  have hnzS : ∀ {t : updateScheduler}, t.Inv → ∀ e ∈ t.schedule.entries, e.Repo.ID ≠ 0 := by
    intro t ht e he
    have hf := (schedule.mem_entries_sch ht.1.1).mp he
    obtain ⟨i, x, _, hx, hm, _⟩ := schedule.find_eq_some_sch ht.1.1 hf
    obtain ⟨e1, he1, _, hnz, _⟩ := schedule.wf_entry_sch ht.1.1 hx
    have : e1 = e := Option.some.inj (he1.symm.trans hm)
    rw [← this]
    exact hnz
  refine ⟨hnzS hinv, ?_, ?_, ?_, ?_⟩
  · intro e he
    have hf := (updateQueue.mem_entries hinv.2.2.1).mp he
    obtain ⟨i, x, _, hx, hm, _⟩ := updateQueue.find_eq_some hinv.2.2.1 hf
    obtain ⟨e1, he1, _, hnz, _⟩ := updateQueue.wf_entry hinv.2.2.1 hx
    have : e1 = e := Option.some.inj (he1.symm.trans hm)
    rw [← this]
    exact hnz
  · intro e he
    obtain ⟨q1, b, henq, _⟩ := updateQueue.enqueue_cases hinv.2.2 (hnzS hinv e he) priorityLow
    exact ⟨(q1, b), henq⟩
  · intro clock n
    obtain ⟨s1, k1, b, hrun, hinv1⟩ := runScheduleRounds_total clock n 0 s hinv
    obtain ⟨sch, hr, _⟩ := schedule.rescheduleTimer_spec hinv1.1.1 (clock k1)
    exact ⟨s1, k1, b, hrun, hnzS hinv1, sch, hr⟩
  · intro clock B fuel hB hfuel
    obtain ⟨s1, _, _, hrun, _⟩ := runSchedule_moves hinv hB hfuel
    exact ⟨s1, hrun⟩

theorem C39_witness :
    NewUpdateScheduler.steps (exampleCalls.map schedulerCall.schedule) =
      some exampleScheduler ∧
    (∀ e ∈ exampleScheduler.schedule.entries, e.Repo.ID ≠ 0) ∧
    ∃ s1 k1 b, runScheduleRounds creepingClock 3 0 exampleScheduler = some (s1, k1, b) :=
  have h := C39_stored_repo_IDs_are_not_zero (exampleCalls.map schedulerCall.schedule)
    exampleScheduler (by decide)
  ⟨by decide, h.1,
    (h.2.2.2.1 creepingClock 3).elim (fun s1 h1 => h1.elim (fun k1 h2 => h2.elim
      (fun b h3 => ⟨s1, k1, b, h3.1⟩)))⟩

end updateScheduler

theorem filter_eq_nil_of {α : Type} (p : α → Bool) (l : List α) (h : ∀ a ∈ l, p a = false) :
    l.filter p = [] := by
  rw [List.filter_eq_nil_iff]
  intro a ha
  rw [h a ha]
  exact Bool.false_ne_true

theorem watcher_cancel_eq (w : watcher) :
    (match w.stop with
      | some old => ({ w with cancelled := w.cancelled ++ [old] } : watcher)
      | none => w) =
    { w with cancelled :=
        match w.stop with
        | some old => w.cancelled ++ [old]
        | none => w.cancelled } := by
  obtain ⟨hc, st, n, d, ca, sr⟩ := w
  cases st <;> rfl

/-- One notification keeps `watcher.Ok` and leaves a context to stop. -/
theorem RunScheduler_ok (ctx : Nat) (w : watcher) (c : SiteConfiguration) (hw : w.Ok) :
    (RunScheduler ctx w c).Ok ∧ ∃ k, (RunScheduler ctx w c).stop = some k := by
  obtain ⟨hst, hca, hrest⟩ := hw
  unfold RunScheduler
  by_cases heq : w.haveConfig =
      ({ running := true, autoGitUpdatesEnabled := !c.DisableAutoGitUpdates } : schedulerConfig)
  · rw [if_pos heq]
    refine ⟨⟨hst, hca, hrest⟩, ?_⟩
    cases hs : w.stop with
    | some k => exact ⟨k, rfl⟩
    | none =>
      rw [hs] at hrest
      have h1 := hrest.2
      rw [heq] at h1
      cases h1
  · rw [if_neg heq]
    refine ⟨?_, ?_⟩
    swap
    · cases hs : w.stop <;> cases hd : c.DisableAutoGitUpdates <;> simp
    · have hfilter : ∀ (cc : List Nat), (∀ g ∈ w.started, g.ctx ∈ cc) → w.next ∉ cc →
          ∀ extra : List goroutine, (∀ g ∈ extra, g.ctx = w.next) →
          (w.started ++ extra).filter (fun g => decide (g.ctx ∉ cc)) = extra := by
        intro cc hall hnot extra hextra
        rw [List.filter_append, filter_eq_nil_of _ _ (fun g hg => by simp [hall g hg]),
          List.nil_append, List.filter_eq_self]
        intro g hg
        rw [hextra g hg]
        simp [hnot]
      have hcc : ∃ cc : List Nat,
          cc = (match w.stop with
            | some old => w.cancelled ++ [old]
            | none => w.cancelled) ∧
          (∀ g ∈ w.started, g.ctx ∈ cc) ∧ w.next ∉ cc ∧ ∀ k ∈ cc, k < w.next + 1 := by
        cases hs : w.stop with
        | none =>
          rw [hs] at hrest
          refine ⟨w.cancelled, rfl, ?_, fun hk => Nat.lt_irrefl _ (hca _ hk),
            fun k hk => Nat.lt_succ_of_lt (hca k hk)⟩
          intro g hg
          rw [hrest.1] at hg
          cases hg
        | some old =>
          rw [hs] at hrest
          obtain ⟨hold1, hnotc, _, hrun⟩ := hrest
          refine ⟨w.cancelled ++ [old], rfl, ?_, ?_, ?_⟩
          · intro g hg
            rw [List.mem_append, List.mem_singleton]
            by_cases hc : g.ctx ∈ w.cancelled
            · exact Or.inl hc
            · right
              have hgr : g ∈ w.running := by
                unfold watcher.running
                rw [List.mem_filter]
                exact ⟨hg, decide_eq_true hc⟩
              rw [hrun] at hgr
              unfold wantedLoops at hgr
              rcases List.mem_cons.mp hgr with h1 | h1
              · rw [h1]; rfl
              · by_cases ha : w.haveConfig.autoGitUpdatesEnabled = true
                · rw [if_pos ha, List.mem_singleton] at h1
                  rw [h1]; rfl
                · rw [if_neg ha] at h1
                  cases h1
          · intro hk
            rcases List.mem_append.mp hk with h1 | h1
            · exact Nat.lt_irrefl _ (hca _ h1)
            · rw [List.mem_singleton] at h1
              omega
          · intro k hk
            rcases List.mem_append.mp hk with h1 | h1
            · exact Nat.lt_succ_of_lt (hca k h1)
            · rw [List.mem_singleton] at h1
              omega
      obtain ⟨cc, hccdef, hall, hnot, hlt⟩ := hcc
      have hw1 : (match w.stop with
            | some old => ({ w with cancelled := w.cancelled ++ [old] } : watcher)
            | none => w) = { w with cancelled := cc } := by
        rw [hccdef]
        exact watcher_cancel_eq w
      rw [hw1]
      cases hd : c.DisableAutoGitUpdates
      · simp only [Bool.not_false, if_true]
        refine ⟨?_, hlt, Nat.lt_succ_self _, hnot, rfl, ?_⟩
        · intro g hg
          simp only [List.mem_append, List.mem_singleton] at hg
          rcases hg with (hg | hg) | hg
          · exact Nat.lt_succ_of_lt (hst g hg)
          · rw [hg]; exact Nat.lt_succ_self _
          · rw [hg]; exact Nat.lt_succ_self _
        · unfold watcher.running wantedLoops
          simp only [List.append_assoc, if_true]
          exact hfilter cc hall hnot
            [goroutine.runUpdateLoop w.next, goroutine.runScheduleLoop w.next]
            (by
              intro g hg
              simp only [List.mem_cons, List.mem_singleton, List.not_mem_nil, or_false] at hg
              rcases hg with hg | hg <;> rw [hg] <;> rfl)
      · simp only [Bool.not_true, Bool.false_eq_true, if_false]
        refine ⟨?_, hlt, Nat.lt_succ_self _, hnot, rfl, ?_⟩
        · intro g hg
          simp only [List.mem_append, List.mem_singleton] at hg
          rcases hg with hg | hg
          · exact Nat.lt_succ_of_lt (hst g hg)
          · rw [hg]; exact Nat.lt_succ_self _
        · unfold watcher.running wantedLoops
          simp only [Bool.false_eq_true, if_false]
          exact hfilter cc hall hnot [goroutine.runUpdateLoop w.next]
            (by
              intro g hg
              rw [List.mem_singleton] at hg
              rw [hg]
              rfl)

/-- After any sequence of notifications the state of `RunScheduler` satisfies
`watcher.Ok`. -/
theorem RunScheduler_all_ok (ctx : Nat) (cs : List SiteConfiguration) :
    ∀ (w : watcher), w.Ok → (cs.foldl (RunScheduler ctx) w).Ok := by
  induction cs with
  | nil => intro w hw; exact hw
  | cons c cs ih =>
    intro w hw
    rw [List.foldl_cons]
    exact ih _ (RunScheduler_ok ctx w c hw).1

/-- C35. The callback of `RunScheduler` on a configuration, from any state. If the tuple
derived from the configuration, running = true and autoGitUpdatesEnabled = not
DisableAutoGitUpdates, is the active one, the state is unchanged: nothing is stopped or
started. If it differs, the context of `stop`, if there is one, is cancelled; a new
sub-context of the original parent `ctx` is derived and becomes the one to stop; an Update
Loop is started on it, and a Schedule Loop exactly when auto git updates are enabled; the
derived tuple becomes the active one. On the first notification the tuple differs. After any
notifications the goroutines whose context is not cancelled are the loops wanted by the last
configuration, on the context of `stop`. -/
theorem C35_callback_restarts_the_loops_on_change (ctx : Nat) (w : watcher)
    (c : SiteConfiguration) :
    (w.haveConfig = ⟨true, !c.DisableAutoGitUpdates⟩ → RunScheduler ctx w c = w) ∧
    (w.haveConfig ≠ ⟨true, !c.DisableAutoGitUpdates⟩ →
      (RunScheduler ctx w c).cancelled =
        (match w.stop with
          | some old => w.cancelled ++ [old]
          | none => w.cancelled) ∧
      (RunScheduler ctx w c).stop = some w.next ∧
      (RunScheduler ctx w c).derived = w.derived ++ [(w.next, ctx)] ∧
      (RunScheduler ctx w c).next = w.next + 1 ∧
      (RunScheduler ctx w c).started =
        w.started ++ wantedLoops w.next ⟨true, !c.DisableAutoGitUpdates⟩ ∧
      (RunScheduler ctx w c).haveConfig = ⟨true, !c.DisableAutoGitUpdates⟩) ∧
    (∀ n, (watcher.init n).haveConfig ≠ ⟨true, !c.DisableAutoGitUpdates⟩) ∧
    (∀ (n : Nat) (cs : List SiteConfiguration),
      ∃ k, ((cs ++ [c]).foldl (RunScheduler ctx) (watcher.init n)).stop = some k ∧
        ((cs ++ [c]).foldl (RunScheduler ctx) (watcher.init n)).haveConfig =
          ⟨true, !c.DisableAutoGitUpdates⟩ ∧
        ((cs ++ [c]).foldl (RunScheduler ctx) (watcher.init n)).running =
          wantedLoops k ⟨true, !c.DisableAutoGitUpdates⟩) := by
  have hstep : ∀ w : watcher, w.haveConfig ≠ ⟨true, !c.DisableAutoGitUpdates⟩ →
      (RunScheduler ctx w c).cancelled =
        (match w.stop with
          | some old => w.cancelled ++ [old]
          | none => w.cancelled) ∧
      (RunScheduler ctx w c).stop = some w.next ∧
      (RunScheduler ctx w c).derived = w.derived ++ [(w.next, ctx)] ∧
      (RunScheduler ctx w c).next = w.next + 1 ∧
      (RunScheduler ctx w c).started =
        w.started ++ wantedLoops w.next ⟨true, !c.DisableAutoGitUpdates⟩ ∧
      (RunScheduler ctx w c).haveConfig = ⟨true, !c.DisableAutoGitUpdates⟩ := by
    intro w hne
    unfold RunScheduler wantedLoops
    rw [if_neg hne, watcher_cancel_eq]
    cases hd : c.DisableAutoGitUpdates <;> simp
  have hsame : ∀ w : watcher, w.haveConfig = ⟨true, !c.DisableAutoGitUpdates⟩ →
      RunScheduler ctx w c = w := by
    intro w heq
    unfold RunScheduler
    rw [if_pos heq]
  refine ⟨hsame w, hstep w, ?_, ?_⟩
  · intro n hinit
    have := congrArg schedulerConfig.running hinit
    cases this
  · intro n cs
    have hok0 : (watcher.init n).Ok := by
      unfold watcher.Ok watcher.init
      simp
    have hok := RunScheduler_all_ok ctx cs (watcher.init n) hok0
    rw [List.foldl_append, List.foldl_cons, List.foldl_nil]
    obtain ⟨hok1, k, hk⟩ := RunScheduler_ok ctx (cs.foldl (RunScheduler ctx) (watcher.init n)) c hok
    have hhave : (RunScheduler ctx (cs.foldl (RunScheduler ctx) (watcher.init n)) c).haveConfig =
        ⟨true, !c.DisableAutoGitUpdates⟩ := by
      by_cases heq : (cs.foldl (RunScheduler ctx) (watcher.init n)).haveConfig =
          ⟨true, !c.DisableAutoGitUpdates⟩
      · rw [hsame _ heq]
        exact heq
      · exact (hstep _ heq).2.2.2.2.2
    refine ⟨k, hk, hhave, ?_⟩
    have h3 := hok1.2.2
    rw [hk] at h3
    rw [← hhave]
    exact h3.2.2.2

theorem C35_witness :
    RunScheduler 0 (RunScheduler 0 (watcher.init 1) ⟨false⟩) ⟨true⟩ =
      { haveConfig := ⟨true, false⟩, stop := some 2, next := 3,
        derived := [(1, 0), (2, 0)], cancelled := [1],
        started := [goroutine.runUpdateLoop 1, goroutine.runScheduleLoop 1,
          goroutine.runUpdateLoop 2] } ∧
    (RunScheduler 0 (RunScheduler 0 (watcher.init 1) ⟨false⟩) ⟨true⟩).running =
      [goroutine.runUpdateLoop 2] ∧
    ((RunScheduler 0 (watcher.init 1) ⟨false⟩).haveConfig = ⟨true, !false⟩ →
      RunScheduler 0 (RunScheduler 0 (watcher.init 1) ⟨false⟩) ⟨false⟩ =
        RunScheduler 0 (watcher.init 1) ⟨false⟩) :=
  ⟨by decide, by decide,
    (C35_callback_restarts_the_loops_on_change 0 (RunScheduler 0 (watcher.init 1) ⟨false⟩)
      ⟨false⟩).1⟩

namespace updateScheduler

/-- When `runUpdateLoop` returns from its `select`, on `ctx.Done()`, it has reset the Update
Queue: no entry in the heap, an empty index map, the sequence counter at 0 and a new, empty
notification channel. -/
theorem runUpdateLoopAt_idle_exit : ∀ (events : List loopEvent) (inner : Bool)
    (s : updateScheduler) (acc : List configuredRepo2) (r : loopResult),
    runUpdateLoopAt inner s acc events = some r → r.exit = some loopExit.idle →
    r.state.updateQueue.heap = [] ∧ r.state.updateQueue.index = [] ∧
    r.state.updateQueue.seq = 0 ∧ r.state.updateQueue.notifyEnqueue = 0 ∧
    r.state.updateQueue.entries = [] := by
  intro events
  induction events with
  | nil =>
    intro inner s acc r h hx
    cases inner <;> (unfold runUpdateLoopAt at h; cases h; cases hx)
  | cons e es ih =>
    intro inner s acc r h hx
    cases e with
    | other c =>
      have h1 : (s.step c).bind (fun s1 => runUpdateLoopAt inner s1 acc es) = some r := by
        cases inner <;> exact h
      cases hc : s.step c with
      | none => rw [hc] at h1; cases h1
      | some s1 =>
        rw [hc, Option.some_bind] at h1
        exact ih inner s1 acc r h1 hx
    | cancel =>
      cases inner with
      | false =>
        unfold runUpdateLoopAt at h
        cases h
        exact ⟨by simp [updateQueue.reset], rfl, rfl, rfl,
          (updateQueue.reset_valid_queue s.updateQueue).2⟩
      | true =>
        unfold runUpdateLoopAt at h
        cases h
        cases hx
    | proceed =>
      cases inner with
      | false =>
        unfold runUpdateLoopAt at h
        by_cases hn : s.updateQueue.notifyEnqueue = 0
        · rw [if_pos hn] at h
          exact ih false s acc r h hx
        · rw [if_neg hn] at h
          exact ih true _ acc r h hx
      | true =>
        unfold runUpdateLoopAt at h
        cases ha : s.updateQueue.acquireNext with
        | none => rw [ha] at h; cases h
        | some p =>
          rw [ha, Option.some_bind] at h
          cases hp : p.2 with
          | none =>
            rw [hp] at h
            exact ih false _ acc r h hx
          | some repo =>
            rw [hp] at h
            exact ih true _ _ r h hx

/-- C34, failing run. The scheduler holds `repoA` in the queue (sequence counter 1) and one
value in `notifyEnqueue`. When the context is cancelled while the loop is idle, the loop
returns from its `select` with the queue reset. When the `select` first receives from
`notifyEnqueue` and the context is cancelled then, `limiter.Acquire` returns an error and
the loop returns with the queue as it was: `repoA` in the heap and in the index map, the
counter at 1. The same holds after `repoA` was acquired: the loop returns with `repoA` in
the queue, updating. -/
theorem C34_return_from_Acquire_leaves_the_queue :
    (sourceScheduler.runUpdateLoop [loopEvent.cancel]).map
        (fun r => (r.exit, r.state.updateQueue)) =
      some (some loopExit.idle,
        { mem := [⟨repoA, priorityLow, 1, false, 0⟩], heap := [], index := [], seq := 0,
          notifyEnqueue := 0 }) ∧
    (sourceScheduler.runUpdateLoop [loopEvent.proceed, loopEvent.cancel]).map
        (fun r => (r.exit, r.state.updateQueue)) =
      some (some loopExit.acquiring,
        { mem := [⟨repoA, priorityLow, 1, false, 0⟩], heap := [0], index := [(1, 0)],
          seq := 1, notifyEnqueue := 0 }) ∧
    (sourceScheduler.runUpdateLoop
        [loopEvent.proceed, loopEvent.proceed, loopEvent.cancel]).map
        (fun r => (r.exit, r.started, r.state.updateQueue)) =
      some (some loopExit.acquiring, [repoA],
        { mem := [⟨repoA, priorityLow, 1, true, 0⟩], heap := [0], index := [(1, 0)],
          seq := 1, notifyEnqueue := 0 }) :=
  ⟨by decide, by decide, by decide⟩

end updateScheduler

theorem heldAfter_append : ∀ (t1 t2 : List lockEvent) (held : List mutex),
    heldAfter held (t1 ++ t2) = heldAfter (heldAfter held t1) t2 := by
  intro t1
  induction t1 with
  | nil => intro t2 held; rfl
  | cons e t1 ih =>
    intro t2 held
    cases e with
    | Lock m => exact ih t2 (m :: held)
    | Unlock m => exact ih t2 (held.erase m)

theorem locksWhileHolding_append (a b : mutex) : ∀ (t1 t2 : List lockEvent)
    (held : List mutex),
    locksWhileHolding a b held (t1 ++ t2) =
      (locksWhileHolding a b held t1 || locksWhileHolding a b (heldAfter held t1) t2) := by
  intro t1
  induction t1 with
  | nil => intro t2 held; rfl
  | cons e t1 ih =>
    intro t2 held
    cases e with
    | Lock m =>
      show (_ || locksWhileHolding a b (m :: held) (t1 ++ t2)) = _
      rw [ih t2 (m :: held), ← Bool.or_assoc]
      rfl
    | Unlock m => exact ih t2 (held.erase m)

theorem neutral_nil (a b : mutex) (held : List mutex) : Neutral a b held [] := ⟨rfl, rfl⟩

theorem neutral_append {a b : mutex} {held : List mutex} {t1 t2 : List lockEvent}
    (h1 : Neutral a b held t1) (h2 : Neutral a b held t2) : Neutral a b held (t1 ++ t2) := by
  constructor
  · rw [heldAfter_append, h1.1, h2.1]
  · rw [locksWhileHolding_append, h1.2, h1.1, h2.2]
    rfl

/-- A lock that is released at once is neutral when it is not `b`, or `a` is not held. -/
theorem neutral_pair (a b m : mutex) (held : List mutex) (h : m ≠ b ∨ a ∉ held) :
    Neutral a b held [.Lock m, .Unlock m] := by
  constructor
  · show (m :: held).erase m = held
    exact List.erase_cons_head m held
  · show ((decide (m = b) && decide (a ∈ held)) || false) = false
    rcases h with h | h
    · simp [h]
    · simp [h]

/-- A trace that is neutral while `g` is held does not lock `b` while `a` is held when it
runs between `Lock` and `Unlock` of `g`, from no mutex held. -/
theorem guarded_trace {a b g : mutex} {t : List lockEvent} (h : Neutral a b [g] t) :
    locksWhileHolding a b [] ([.Lock g] ++ t ++ [.Unlock g]) = false := by
  show ((decide (g = b) && decide (a ∈ ([] : List mutex))) ||
    locksWhileHolding a b [g] (t ++ [.Unlock g])) = false
  rw [locksWhileHolding_append, h.2, h.1]
  simp [locksWhileHolding]

/-- The calls of the methods of the schedule and of the queue, one after another, are
neutral while only `s.mu` is held, in both directions. -/
theorem neutral_both {a b : mutex} (ha : a ≠ mutex.scheduler) :
    Neutral a b [mutex.scheduler] (locks.schedule ++ locks.updateQueue) := by
  have hn : a ∉ [mutex.scheduler] := by
    rw [List.mem_singleton]
    exact ha
  exact neutral_append (neutral_pair a b _ _ (Or.inr hn)) (neutral_pair a b _ _ (Or.inr hn))

theorem neutral_UpdateLoop {a b : mutex} (ha : a ≠ mutex.scheduler) : ∀ rs : List Repo,
    Neutral a b [mutex.scheduler] (locks.UpdateLoop rs) := by
  intro rs
  induction rs with
  | nil => exact neutral_nil a b _
  | cons r rs ih =>
    unfold locks.UpdateLoop
    refine neutral_append ?_ ih
    cases r.IsDeleted
    · exact neutral_both ha
    · exact neutral_both ha

theorem neutral_updateSourceRemove {a b : mutex} (ha : a ≠ mutex.scheduler)
    (newList : sourceRepoMap) : ∀ old : List (String × configuredRepo2),
    Neutral a b [mutex.scheduler] (locks.updateSourceRemove newList old) := by
  intro old
  induction old with
  | nil => exact neutral_nil a b _
  | cons p rest ih =>
    obtain ⟨key, repo⟩ := p
    unfold locks.updateSourceRemove
    refine neutral_append ?_ ih
    cases sourceRepoMap.get newList key with
    | none => exact neutral_both ha
    | some u =>
      cases hu : u.Enabled
      · simp only [hu, Bool.not_false, if_true]
        exact neutral_both ha
      · simp only [hu, Bool.not_true, Bool.false_eq_true, if_false]
        exact neutral_nil a b _

theorem neutral_updateSourceSchedule {a b : mutex} (ha : a ≠ mutex.scheduler) :
    ∀ l : List (String × configuredRepo2),
    Neutral a b [mutex.scheduler] (locks.updateSourceSchedule l) := by
  intro l
  induction l with
  | nil => exact neutral_nil a b _
  | cons p rest ih =>
    obtain ⟨key, repo⟩ := p
    unfold locks.updateSourceSchedule
    refine neutral_append ?_ ih
    cases hu : repo.Enabled
    · simp only [Bool.false_eq_true, if_false]
      exact neutral_nil a b _
    · simp only [if_true]
      exact neutral_both ha

/-- The loop of `runSchedule` never locks the mutex of the schedule. -/
theorem neutral_runScheduleLoop : ∀ n : Nat,
    Neutral mutex.updateQueue mutex.schedule [mutex.schedule] (locks.runScheduleLoop n) := by
  intro n
  induction n with
  | zero => exact neutral_nil _ _ _
  | succ n ih =>
    unfold locks.runScheduleLoop
    exact neutral_append (neutral_pair _ _ _ _ (Or.inl (by decide))) ih

/-- C37, counterexample. A pass of `runSchedule` that finds one entry due: it locks the mutex
of the Due-Schedule, and `s.updateQueue.enqueue`, called in the loop, locks the mutex of the
Update Queue before the deferred unlock of the first. -/
theorem C37_counterexample_runSchedule_nests :
    locks.trace (operation.runSchedule 1) =
      [.Lock .schedule, .Lock .updateQueue, .Unlock .updateQueue, .Unlock .schedule] ∧
    locksWhileHolding mutex.schedule mutex.updateQueue [] (locks.trace (operation.runSchedule 1))
      = true := by
  decide

/-- C37, amended. No operation of the scheduler (Update, Set, updateSource, UpdateOnce,
runSchedule, the dispatch completion path, DebugDump, ScheduleInfo) locks the mutex of the
Due-Schedule while it holds the mutex of the Update Queue, and no operation other than
runSchedule locks the mutex of the Update Queue while it holds the mutex of the
Due-Schedule; runSchedule does so exactly when its loop makes an iteration. -/
theorem C37_lock_order_is_schedule_before_queue (op : operation) :
    locksWhileHolding mutex.updateQueue mutex.schedule [] (locks.trace op) = false ∧
    (op.isRunSchedule = false →
      locksWhileHolding mutex.schedule mutex.updateQueue [] (locks.trace op) = false) ∧
    (∀ n, locksWhileHolding mutex.schedule mutex.updateQueue [] (locks.runSchedule n) =
      decide (0 < n)) := by
  refine ⟨?_, ?_, ?_⟩
  · cases op with
    | Update rs => exact guarded_trace (neutral_UpdateLoop (by decide) rs)
    | Set rs => exact guarded_trace (neutral_UpdateLoop (by decide) rs)
    | updateSource oldList newList =>
      show locksWhileHolding _ _ [] (locks.updateSource oldList newList) = false
      unfold locks.updateSource
      rw [List.append_assoc [lockEvent.Lock mutex.scheduler]]
      exact guarded_trace (neutral_append (neutral_updateSourceRemove (by decide) newList oldList)
        (neutral_updateSourceSchedule (by decide) newList))
    | UpdateOnce => decide
    | runSchedule n => exact guarded_trace (neutral_runScheduleLoop n)
    | dispatch resp =>
      cases resp with
      | none => decide
      | some r =>
        obtain ⟨f, c⟩ := r
        cases f <;> cases c <;> rfl
    | DebugDump => decide
    | ScheduleInfo => decide
  · intro hop
    cases op with
    | Update rs => exact guarded_trace (neutral_UpdateLoop (by decide) rs)
    | Set rs => exact guarded_trace (neutral_UpdateLoop (by decide) rs)
    | updateSource oldList newList =>
      show locksWhileHolding _ _ [] (locks.updateSource oldList newList) = false
      unfold locks.updateSource
      rw [List.append_assoc [lockEvent.Lock mutex.scheduler]]
      exact guarded_trace (neutral_append (neutral_updateSourceRemove (by decide) newList oldList)
        (neutral_updateSourceSchedule (by decide) newList))
    | UpdateOnce => decide
    | runSchedule n => cases hop
    | dispatch resp =>
      cases resp with
      | none => decide
      | some r =>
        obtain ⟨f, c⟩ := r
        cases f <;> cases c <;> rfl
    | DebugDump => decide
    | ScheduleInfo => decide
  · intro n
    cases n with
    | zero => decide
    | succ n =>
      show ((decide (mutex.schedule = mutex.updateQueue) &&
          decide (mutex.schedule ∈ ([] : List mutex))) ||
        locksWhileHolding mutex.schedule mutex.updateQueue [mutex.schedule]
          (locks.runScheduleLoop (n + 1) ++ [lockEvent.Unlock mutex.schedule])) = _
      unfold locks.runScheduleLoop locks.updateQueue
      simp [locksWhileHolding]

theorem C37_witness :
    (operation.Update [deletedRepoA, knownRepoC]).isRunSchedule = false ∧
    locks.trace (operation.Update [deletedRepoA, knownRepoC]) =
      [.Lock .scheduler, .Lock .schedule, .Unlock .schedule, .Lock .updateQueue,
       .Unlock .updateQueue, .Lock .schedule, .Unlock .schedule, .Lock .updateQueue,
       .Unlock .updateQueue, .Unlock .scheduler] ∧
    locksWhileHolding mutex.schedule mutex.updateQueue []
      (locks.trace (operation.Update [deletedRepoA, knownRepoC])) = false :=
  ⟨rfl, by decide,
    (C37_lock_order_is_schedule_before_queue (operation.Update [deletedRepoA, knownRepoC])).2.1
      rfl⟩

namespace updateScheduler

/-- A call of `updateSource`, `Update`, `Set` or `UpdateOnce` that does not carry the ID `id`,
on a state with the heap invariants whose stored lists hold non-zero IDs: it returns, and an
ID that is not scheduled is not scheduled afterwards, an ID that is not queued is not queued
afterwards; the lists of the sources it does not store for are the same. -/
theorem sourceCall_keeps_out {s : updateScheduler} (hs : s.Inv) (hst : s.StoredOk)
    {c : repos.sourceCall} (hok : c.Ok) {id : Nat} (hc : ¬ c.carries id) :
    ∃ s1, s.sourceCall c = some s1 ∧ s1.Inv ∧ s1.StoredOk ∧
      (s.scheduled id = none → s1.scheduled id = none) ∧
      (s.queued id = none → s1.queued id = none) ∧
      (∀ S, ¬ c.stores S →
        sourceReposGet s1.sourceRepos S = sourceReposGet s.sourceRepos S) := by
  cases c with
  | updateSource source newList clockAt =>
    obtain ⟨s1, hrun, hinv1, hget, hothers, _, hdr, hkeep⟩ :=
      updateSource_spec hs source newList clockAt (fun p hp _ => hst source p hp)
        (fun p hp _ => hok p hp)
    refine ⟨s1, hrun, hinv1, ?_, ?_, ?_, ?_⟩
    · intro S p hp
      by_cases hS : S = source
      · unfold oldList at hp
        rw [hS, hget] at hp
        exact hok p hp
      · unfold oldList at hp
        rw [hothers S hS] at hp
        exact hst S p hp
    · intro h0
      by_cases hd : id ∈ droppedIDs newList (s.oldList source)
      · exact (hdr id hc hd).1
      · rw [(hkeep id hc hd).1]
        exact h0
    · intro h0
      by_cases hd : id ∈ droppedIDs newList (s.oldList source)
      · rw [(hdr id hc hd).2, h0]
        rfl
      · rw [(hkeep id hc hd).2]
        exact h0
    · intro S hS
      exact hothers S (fun h => hS h.symm)
  | Update rs clockAt =>
    obtain ⟨s1, hrun, hinv1, hsrc, hfr⟩ := Update_frame rs s clockAt hs hok
    refine ⟨s1, hrun, hinv1, ?_, ?_, ?_, ?_⟩
    · intro S p hp
      unfold oldList at hp
      rw [hsrc] at hp
      exact hst S p hp
    · intro h0
      rw [(hfr id hc).1]
      exact h0
    · intro h0
      rw [(hfr id hc).2]
      exact h0
    · intro S _
      rw [hsrc]
  | Set rs clockAt =>
    obtain ⟨s1, hrun, hinv1, hsrc, hfr⟩ := Update_frame rs s clockAt hs hok
    refine ⟨s1, ?_, hinv1, ?_, ?_, ?_, ?_⟩
    · show s.Set rs clockAt = some s1
      unfold updateScheduler.Set
      rw [hrun]
      rfl
    · intro S p hp
      unfold oldList at hp
      rw [hsrc] at hp
      exact hst S p hp
    · intro h0
      rw [(hfr id hc).1]
      exact h0
    · intro h0
      rw [(hfr id hc).2]
      exact h0
    · intro S _
      rw [hsrc]
  | UpdateOnce id1 name url =>
    have hrid : ({ URL := url, ID := id1, Name := name, Enabled := false } :
        configuredRepo2).ID ≠ 0 := hok
    obtain ⟨q1, b, hen, hv1, hframe, _⟩ := updateQueue.enqueue_frame hs.2.2 hrid priorityHigh
    refine ⟨{ s with updateQueue := q1 }, ?_, ⟨hs.1, hs.2.1, hv1⟩, hst, fun h0 => h0, ?_,
      fun _ _ => rfl⟩
    · show s.UpdateOnce id1 name url = _
      unfold updateScheduler.UpdateOnce
      simp only [hen, Option.map_some']
    · intro h0
      show (q1.find id).map repoUpdate.core = none
      rw [hframe id hc]
      exact h0

/-- A sequence of calls of `updateSource`, `Update`, `Set` and `UpdateOnce` none of which
carries the ID `id`: it returns, and the ID stays out of the Due-Schedule and of the Update
Queue when it was in neither. -/
theorem sourceCalls_keep_out {id : Nat} : ∀ (cs : List repos.sourceCall) {s : updateScheduler},
    s.Inv → s.StoredOk → (∀ c ∈ cs, c.Ok) → (∀ c ∈ cs, ¬ c.carries id) →
    ∃ s1, s.sourceCalls cs = some s1 ∧ s1.Inv ∧ s1.StoredOk ∧
      (s.scheduled id = none → s1.scheduled id = none) ∧
      (s.queued id = none → s1.queued id = none) ∧
      (∀ S, (∀ c ∈ cs, ¬ c.stores S) →
        sourceReposGet s1.sourceRepos S = sourceReposGet s.sourceRepos S) := by
  intro cs
  induction cs with
  | nil =>
    intro s hs hst _ _
    exact ⟨s, rfl, hs, hst, fun h => h, fun h => h, fun _ _ => rfl⟩
  | cons c cs ih =>
    intro s hs hst hok hc
    obtain ⟨s1, hrun1, hinv1, hst1, hsch1, hqu1, hsrc1⟩ :=
      sourceCall_keeps_out hs hst (hok c (List.mem_cons_self c cs))
        (hc c (List.mem_cons_self c cs))
    obtain ⟨s2, hrun2, hinv2, hst2, hsch2, hqu2, hsrc2⟩ :=
      ih hinv1 hst1 (fun c1 h1 => hok c1 (List.mem_cons_of_mem c h1))
        (fun c1 h1 => hc c1 (List.mem_cons_of_mem c h1))
    refine ⟨s2, ?_, hinv2, hst2, fun h => hsch2 (hsch1 h), fun h => hqu2 (hqu1 h), ?_⟩
    · show (s.sourceCall c).bind _ = _
      rw [hrun1, Option.some_bind, hrun2]
    · intro S hS
      rw [hsrc2 S (fun c1 h1 => hS c1 (List.mem_cons_of_mem c h1)),
        hsrc1 S (hS c (List.mem_cons_self c cs))]

/-- C40, counterexample. Two sources list `repoA`; updateSource("github", {}) removes it from
the Due-Schedule and from the Update Queue. Then Update of the store's record of `repoA`,
which is no call of updateSource, puts it back into both, and UpdateOnce with its ID puts it
back into the Update Queue. -/
theorem C40_counterexample_Update_brings_it_back :
    twoSourceScheduler.Inv ∧
    sourceReposGet twoSourceScheduler.sourceRepos "github" = some [("a", repoA)] ∧
    sourceReposGet twoSourceScheduler.sourceRepos "gitlab" = some [("a", repoA)] ∧
    (twoSourceScheduler.updateSource "github" [] (fun _ _ => 7)).map
      (fun s1 => ((s1.schedule.find repoA.ID).isSome, (s1.updateQueue.find repoA.ID).isSome)) =
      some (false, false) ∧
    configuredRepo2FromRepo knownRepoA = repoA ∧
    ((twoSourceScheduler.updateSource "github" [] (fun _ _ => 7)).bind
      (fun s1 => s1.Update [knownRepoA] (fun _ _ => 9))).map
      (fun s2 => ((s2.schedule.find repoA.ID).isSome, (s2.updateQueue.find repoA.ID).isSome)) =
      some (true, true) ∧
    ((twoSourceScheduler.updateSource "github" [] (fun _ _ => 7)).bind
      (fun s1 => s1.UpdateOnce 1 "a" "a.git")).map
      (fun s2 => ((s2.schedule.find repoA.ID).isSome, (s2.updateQueue.find repoA.ID).isSome)) =
      some (false, true) := by
  decide

/-- C40, amended. Two distinct sources S1 and S2 both store the enabled repo R under its
name. A call updateSource(S1, newList) with a newList that omits R (no entry under the name
of R, no repo with the ID of R), on a state with the heap invariants and with non-zero IDs in
what it removes, R among it, and in what it adds, returns; afterwards R is not in the
Due-Schedule, it is not in the Update Queue when its queue entry was not Updating, and the
list stored for S2 is the same, with R in it. When all stored and given repo IDs are
non-zero, every sequence of following calls of updateSource, Update, Set and UpdateOnce that
do not carry the ID of R returns and leaves R out of the Due-Schedule, and out of the Update
Queue when it was out of it, and the list stored for S2 stays while no call stores one for
S2; the next call of updateSource (for any source) whose list holds R puts R into the
Due-Schedule and into the Update Queue again. -/
theorem C40_updateSource_ignores_other_sources (s : updateScheduler) (S1 S2 : String)
    (old1 old2 newList : sourceRepoMap) (R : configuredRepo2) (clockAt : Nat → Clock)
    (hs : s.Inv) (hne : S1 ≠ S2)
    (h1 : sourceReposGet s.sourceRepos S1 = some old1)
    (h2 : sourceReposGet s.sourceRepos S2 = some old2)
    (hR1 : (R.Name, R) ∈ old1) (hR2 : (R.Name, R) ∈ old2) (hen : R.Enabled = true)
    (homit : sourceRepoMap.get newList R.Name = none)
    (homitID : ∀ p ∈ newList, p.2.ID ≠ R.ID)
    (hold : ∀ p ∈ old1, sourceRepoMap.get newList p.1 = none ∨
      (∃ u, sourceRepoMap.get newList p.1 = some u ∧ u.Enabled = false) → p.2.ID ≠ 0)
    (hnew : ∀ p ∈ newList, p.2.Enabled = true → p.2.ID ≠ 0) :
    ∃ s1, s.updateSource S1 newList clockAt = some s1 ∧ s1.Inv ∧
      ¬ s1.schedule.has R.ID ∧
      ((∀ e ∈ s.updateQueue.entries, e.Repo.ID = R.ID → e.Updating = false) →
        ¬ s1.updateQueue.has R.ID) ∧
      sourceReposGet s1.sourceRepos S2 = some old2 ∧
      (∃ p ∈ old2, p.2 = R ∧ p.2.Enabled = true) ∧
      ∀ cs : List repos.sourceCall, s.StoredOk → (∀ p ∈ newList, p.2.ID ≠ 0) →
        (∀ c ∈ cs, c.Ok) → (∀ c ∈ cs, ¬ c.carries R.ID) →
        ∃ s2, s1.sourceCalls cs = some s2 ∧ s2.Inv ∧ ¬ s2.schedule.has R.ID ∧
          (¬ s1.updateQueue.has R.ID → ¬ s2.updateQueue.has R.ID) ∧
          ((∀ c ∈ cs, ¬ c.stores S2) → sourceReposGet s2.sourceRepos S2 = some old2) ∧
          ∀ (source : String) (list2 : sourceRepoMap) (clock2 : Nat → Clock),
            (∀ p ∈ list2, p.2.ID ≠ 0) → (R.Name, R) ∈ list2 →
            ∃ s3, s2.updateSource source list2 clock2 = some s3 ∧
              s3.schedule.has R.ID ∧ s3.updateQueue.has R.ID := by
  have hold1 : ∀ p ∈ s.oldList S1, sourceRepoMap.dropped newList p.1 = true → p.2.ID ≠ 0 := by
    intro p hp hd
    unfold oldList at hp
    rw [h1] at hp
    exact hold p hp ((dropped_iff newList p.1).mp hd)
  obtain ⟨s1, hrun, hinv1, hget1, hothers, _, hdr, _⟩ :=
    updateSource_spec hs S1 newList clockAt hold1 hnew
  have hnot : R.ID ∉ enabledIDs newList := by
    intro hmem
    obtain ⟨p2, hp2, _, hid2⟩ := mem_enabledIDs.mp hmem
    exact homitID p2 hp2 hid2
  have hin : R.ID ∈ droppedIDs newList (s.oldList S1) := by
    apply mem_droppedIDs.mpr
    refine ⟨(R.Name, R), ?_, (dropped_iff newList R.Name).mpr (Or.inl homit), rfl⟩
    unfold oldList
    rw [h1]
    exact hR1
  obtain ⟨hsch, hqu⟩ := hdr R.ID hnot hin
  have hnoS : ¬ s1.schedule.has R.ID := by
    rw [schedule_has_iff hinv1, hsch]
    rintro ⟨c, hc⟩
    cases hc
  have hS2 : sourceReposGet s1.sourceRepos S2 = some old2 := by
    rw [hothers S2 (fun h => hne h.symm)]
    exact h2
  refine ⟨s1, hrun, hinv1, hnoS, ?_, hS2, ⟨(R.Name, R), hR2, rfl, hen⟩, ?_⟩
  · intro hall
    rw [queue_has_iff hinv1, hqu]
    rintro ⟨c, hc⟩
    cases hq : s.queued R.ID with
    | none => rw [hq] at hc; cases hc
    | some c0 =>
      obtain ⟨e, he, heid, _, hcore⟩ := updateQueue.find_core_some hs.2.2.1 hq
      have hu : c0.Updating = false := by
        rw [← hcore]
        exact hall e he heid
      rw [hq] at hc
      simp only [Option.filter, hu, Bool.false_eq_true, if_false] at hc
      cases hc
  · intro cs hst hnz hok hc
    have hst1 : s1.StoredOk := by
      intro S p hp
      by_cases hS : S = S1
      · unfold oldList at hp
        rw [hS, hget1] at hp
        exact hnz p hp
      · unfold oldList at hp
        rw [hothers S hS] at hp
        exact hst S p hp
    obtain ⟨s2, hrun2, hinv2, hst2, hsch2, hqu2, hsrc2⟩ :=
      sourceCalls_keep_out cs hinv1 hst1 hok hc
    refine ⟨s2, hrun2, hinv2, ?_, ?_, ?_, ?_⟩
    · rw [schedule_has_iff hinv2, hsch2 hsch]
      rintro ⟨c, hc⟩
      cases hc
    · intro hno
      have hq1 : s1.queued R.ID = none := by
        cases hq : s1.queued R.ID with
        | none => rfl
        | some c => exact (hno ((queue_has_iff hinv1).mpr ⟨c, hq⟩)).elim
      rw [queue_has_iff hinv2, hqu2 hq1]
      rintro ⟨c, hc⟩
      cases hc
    · intro hno
      rw [hsrc2 S2 hno]
      exact hS2
    · intro source list2 clock2 hnz2 hmem
      obtain ⟨s3, hrun3, hinv3, _, _, hen3, _⟩ :=
        updateSource_spec hinv2 source list2 clock2 (fun p hp _ => hst2 source p hp)
          (fun p hp _ => hnz2 p hp)
      obtain ⟨ha, hb⟩ := hen3 R.ID (mem_enabledIDs.mpr ⟨(R.Name, R), hmem, hen, rfl⟩)
      exact ⟨s3, hrun3, (schedule_has_iff hinv3).mpr ha, (queue_has_iff hinv3).mpr hb⟩

/-- The theorem at `twoSourceScheduler`, where "github" and "gitlab" both list `repoA`:
updateSource("github", {}) removes `repoA`; a call of updateSource for a third source with
`repoB`, an Update of `repoC` and an UpdateOnce of `repoB` leave it out, with the list of
"gitlab" as it was; updateSource("github", {a: repoA}) puts it back. -/
theorem C40_witness :
    twoSourceScheduler.Inv ∧
    sourceScheduler.updateSource "gitlab" [("a", repoA)] (fun _ _ => 0) =
      some twoSourceScheduler ∧
    sourceReposGet twoSourceScheduler.sourceRepos "gitlab" = some [("a", repoA)] ∧
    ∃ s1, twoSourceScheduler.updateSource "github" [] (fun _ _ => 7) = some s1 ∧
      ¬ s1.schedule.has repoA.ID ∧ ¬ s1.updateQueue.has repoA.ID ∧
      sourceReposGet s1.sourceRepos "gitlab" = some [("a", repoA)] ∧
      ∃ s2, s1.sourceCalls
          [repos.sourceCall.updateSource "bitbucket" [("b", repoB)] (fun _ _ => 8),
            repos.sourceCall.Update [knownRepoC] (fun _ _ => 9),
            repos.sourceCall.UpdateOnce 2 "b" "b.git"] = some s2 ∧
        ¬ s2.schedule.has repoA.ID ∧ ¬ s2.updateQueue.has repoA.ID ∧
        sourceReposGet s2.sourceRepos "gitlab" = some [("a", repoA)] ∧
        ∃ s3, s2.updateSource "github" [("a", repoA)] (fun _ _ => 10) = some s3 ∧
          s3.schedule.has repoA.ID ∧ s3.updateQueue.has repoA.ID := by
  obtain ⟨s1, h1, _, h3, h4, h5, _, h7⟩ :=
    C40_updateSource_ignores_other_sources twoSourceScheduler "github" "gitlab"
      [("a", repoA)] [("a", repoA)] [] repoA (fun _ _ => 7) (by decide) (by decide)
      (by decide) (by decide) (by decide) (by decide) rfl rfl
      (fun p hp => by cases hp)
      (fun p hp _ => by
        rw [List.mem_singleton] at hp
        rw [hp]
        decide)
      (fun p hp => by cases hp)
  have hst : twoSourceScheduler.StoredOk := by
    intro S p hp
    unfold oldList at hp
    by_cases hg : S = "gitlab"
    · rw [hg] at hp
      have hp2 : p ∈ [("a", repoA)] := hp
      rw [List.mem_singleton] at hp2
      rw [hp2]
      decide
    · by_cases hh : S = "github"
      · rw [hh] at hp
        have hp2 : p ∈ [("a", repoA)] := hp
        rw [List.mem_singleton] at hp2
        rw [hp2]
        decide
      · have hnone : sourceReposGet twoSourceScheduler.sourceRepos S = none := by
          simp [sourceReposGet, twoSourceScheduler]
          exact ⟨fun h => hg h.symm, fun h => hh h.symm⟩
        rw [hnone] at hp
        cases hp
  have hq1 := h4 (by decide)
  obtain ⟨s2, k1, _, k3, k4, k5, k6⟩ := h7
    [repos.sourceCall.updateSource "bitbucket" [("b", repoB)] (fun _ _ => 8),
      repos.sourceCall.Update [knownRepoC] (fun _ _ => 9),
      repos.sourceCall.UpdateOnce 2 "b" "b.git"] hst (fun p hp => by cases hp)
    (by decide) (by decide)
  obtain ⟨s3, m1, m2, m3⟩ := k6 "github" [("a", repoA)] (fun _ _ => 10) (by decide)
    (by decide)
  exact ⟨by decide, by decide, by decide, s1, h1, h3, hq1, h5, s2, k1, k3, k4 hq1,
    k5 (by decide), s3, m1, m2, m3⟩

end updateScheduler

theorem rename_inj {k n : Nat} {x y : Nat} (h : rename k n x = rename k n y) : x = y := by
  unfold rename at h
  by_cases hx : x < k <;> by_cases hy : y < k
  · rw [if_pos hx, if_pos hy] at h; exact h
  · rw [if_pos hx, if_neg hy] at h; omega
  · rw [if_neg hx, if_pos hy] at h; omega
  · rw [if_neg hx, if_neg hy] at h; omega

theorem rename_zero (n : Nat) : rename 0 n = fun x => x + n := by
  funext x
  unfold rename
  rw [if_neg (Nat.not_lt_zero x)]

theorem insertCells_length {α : Type} {k : Nat} (G l : List α) (hk : k ≤ l.length) :
    (insertCells k G l).length = l.length + G.length := by
  unfold insertCells
  rw [List.length_append, List.length_append, List.length_take, List.length_drop]
  omega

theorem rename_length {α : Type} {k : Nat} (G l : List α) (hk : k ≤ l.length) :
    rename k G.length l.length = (insertCells k G l).length := by
  rw [insertCells_length G l hk]
  unfold rename
  rw [if_neg (by omega)]

theorem insertCells_get {α : Type} {k : Nat} (G l : List α) (hk : k ≤ l.length) (x : Nat) :
    (insertCells k G l)[rename k G.length x]? = l[x]? := by
  unfold insertCells rename
  have hlen : (List.take k l).length = k := by
    rw [List.length_take]
    omega
  by_cases hx : x < k
  · rw [if_pos hx, List.append_assoc,
      List.getElem?_append_left (by rw [hlen]; exact hx), List.getElem?_take,
      if_pos hx]
  · rw [if_neg hx, List.getElem?_append_right
      (by rw [List.length_append, hlen]; omega)]
    rw [List.length_append, hlen, List.getElem?_drop]
    have : k + (x + G.length - (k + G.length)) = x := by omega
    rw [this]

theorem insertCells_cell {α : Type} {k : Nat} (G l : List α) (hk : k ≤ l.length) (y : Nat)
    (h1 : k ≤ y) (h2 : y < k + G.length) : (insertCells k G l)[y]? = G[y - k]? := by
  unfold insertCells
  have hlen : (List.take k l).length = k := by
    rw [List.length_take]
    omega
  rw [List.append_assoc, List.getElem?_append_right (by rw [hlen]; exact h1), hlen,
    List.getElem?_append_left (by omega)]

theorem insertCells_set {α : Type} {k : Nat} (G l : List α) (hk : k ≤ l.length) (x : Nat)
    (v : α) :
    (insertCells k G l).set (rename k G.length x) v = insertCells k G (l.set x v) := by
  apply List.ext_getElem?
  intro y
  have hk2 : k ≤ (l.set x v).length := by
    rw [List.length_set]
    exact hk
  by_cases hy : ∃ z, y = rename k G.length z
  · obtain ⟨z, hz⟩ := hy
    rw [hz, insertCells_get G (l.set x v) hk2, List.getElem?_set', List.getElem?_set',
      insertCells_get G l hk]
    by_cases hxz : x = z
    · rw [if_pos hxz, if_pos (by rw [hxz])]
    · rw [if_neg hxz, if_neg (fun h => hxz (rename_inj h))]
  · have hyk : k ≤ y ∧ y < k + G.length := by
      by_contra hcon
      apply hy
      by_cases h1 : y < k
      · exact ⟨y, by unfold rename; rw [if_pos h1]⟩
      · refine ⟨y - G.length, ?_⟩
        unfold rename
        rw [if_neg (by omega)]
        omega
    have hne : rename k G.length x ≠ y := fun h => hy ⟨x, h.symm⟩
    rw [List.getElem?_set_ne hne, insertCells_cell G l hk y hyk.1 hyk.2,
      insertCells_cell G (l.set x v) hk2 y hyk.1 hyk.2]

theorem insertCells_append {α : Type} {k : Nat} (G l : List α) (hk : k ≤ l.length) (v : α) :
    insertCells k G l ++ [v] = insertCells k G (l ++ [v]) := by
  unfold insertCells
  rw [List.take_append_of_le_length hk, List.drop_append_of_le_length hk, List.append_assoc]

theorem insertCells_zero {α : Type} (G l : List α) : insertCells 0 G l = G ++ l := by
  unfold insertCells
  simp

namespace IndexMap

theorem get_map (m : IndexMap) (f : Ptr → Ptr) (key : Nat) :
    IndexMap.get (m.map (fun e => (e.1, f e.2))) key = (IndexMap.get m key).map f := by
  unfold IndexMap.get
  induction m with
  | nil => rfl
  | cons e m ih =>
    rw [List.map_cons, List.find?_cons, List.find?_cons]
    by_cases he : e.1 = key
    · simp [he]
    · simp only [he, decide_False]
      exact ih

theorem delete_map (m : IndexMap) (f : Ptr → Ptr) (key : Nat) :
    IndexMap.delete (m.map (fun e => (e.1, f e.2))) key =
      (IndexMap.delete m key).map (fun e => (e.1, f e.2)) := by
  unfold IndexMap.delete
  rw [List.filter_map]
  rfl

theorem set_map (m : IndexMap) (f : Ptr → Ptr) (key : Nat) (v : Ptr) :
    IndexMap.set (m.map (fun e => (e.1, f e.2))) key (f v) =
      (IndexMap.set m key v).map (fun e => (e.1, f e.2)) := by
  unfold IndexMap.set
  rw [delete_map, List.map_cons]

end IndexMap

theorem map_set_comm {α β : Type} (f : α → β) (l : List α) (i : Nat) (v : α) :
    (l.map f).set i (f v) = (l.set i v).map f := by
  rw [List.map_set]

namespace heap

variable {σ ε : Type} {h : Interface σ ε} {φ : σ → σ} {ψ : ε → ε} {P : σ → Prop}

theorem upLoop_comm (hc : Commutes h φ ψ P) : ∀ (fuel : Nat) (s : σ) (j : Nat), P s →
    upLoop h fuel (φ s) j = (upLoop h fuel s j).map φ ∧
      ∀ s1, upLoop h fuel s j = some s1 → P s1 := by
  intro fuel
  induction fuel with
  | zero =>
    intro s j _
    unfold upLoop
    exact ⟨rfl, fun s1 h1 => by cases h1⟩
  | succ fuel ih =>
    intro s j hP
    unfold upLoop
    simp only [hc.Less s _ _ hP, hc.Swap s _ _ hP]
    by_cases hij : (j - 1) / 2 = j
    · simp only [hij, if_true, Option.map_some']
      refine ⟨trivial, ?_⟩
      intro s1 h1
      cases h1
      exact hP
    · simp only [hij, if_false]
      cases hl : h.Less s j ((j - 1) / 2) with
      | none => exact ⟨rfl, fun s1 h1 => by cases h1⟩
      | some b =>
        cases b with
        | false =>
          refine ⟨rfl, ?_⟩
          intro s1 h1
          cases h1
          exact hP
        | true =>
          cases hsw : h.Swap s ((j - 1) / 2) j with
          | none => exact ⟨rfl, fun s1 h1 => by cases h1⟩
          | some s2 =>
            exact ih s2 ((j - 1) / 2) (hc.Swap_keeps s _ _ s2 hP hsw)

theorem downLoop_comm (hc : Commutes h φ ψ P) : ∀ (fuel : Nat) (s : σ) (i n : Nat), P s →
    downLoop h fuel (φ s) i n = (downLoop h fuel s i n).map (fun r => (φ r.1, r.2)) ∧
      ∀ r, downLoop h fuel s i n = some r → P r.1 := by
  intro fuel
  induction fuel with
  | zero =>
    intro s i n _
    unfold downLoop
    exact ⟨rfl, fun r h1 => by cases h1⟩
  | succ fuel ih =>
    intro s i n hP
    unfold downLoop
    simp only [hc.Less s _ _ hP, hc.Swap s _ _ hP]
    by_cases hj1 : 2 * i + 1 ≥ n
    · simp only [hj1, if_true, Option.map_some']
      refine ⟨trivial, ?_⟩
      intro r h1
      cases h1
      exact hP
    · simp only [hj1, if_false]
      cases hb : (if 2 * i + 1 + 1 < n then h.Less s (2 * i + 1 + 1) (2 * i + 1)
          else some false) with
      | none => exact ⟨rfl, fun r h1 => by cases h1⟩
      | some b =>
        simp only []
        cases hl : h.Less s (if b = true then 2 * i + 1 + 1 else 2 * i + 1) i with
        | none => exact ⟨rfl, fun r h1 => by cases h1⟩
        | some c =>
          cases c with
          | false =>
            refine ⟨rfl, ?_⟩
            intro r h1
            cases h1
            exact hP
          | true =>
            cases hsw : h.Swap s i (if b = true then 2 * i + 1 + 1 else 2 * i + 1) with
            | none => exact ⟨rfl, fun r h1 => by cases h1⟩
            | some s2 =>
              exact ih s2 _ n (hc.Swap_keeps s _ _ s2 hP hsw)

theorem down_comm (hc : Commutes h φ ψ P) (s : σ) (i n : Nat) (hP : P s) :
    down h (φ s) i n = (down h s i n).map (fun r => (φ r.1, r.2)) ∧
      ∀ r, down h s i n = some r → P r.1 := by
  unfold down
  obtain ⟨h1, h2⟩ := downLoop_comm hc (n + 1) s i n hP
  rw [h1]
  cases hd : downLoop h (n + 1) s i n with
  | none => exact ⟨rfl, fun r hr => by cases hr⟩
  | some r0 =>
    refine ⟨rfl, ?_⟩
    intro r hr
    cases hr
    exact h2 r0 hd

/-- The step `if !down(h, i, n) then up(h, i)` commutes. -/
theorem down_up_comm (hc : Commutes h φ ψ P) (s : σ) (i n : Nat) (hP : P s) :
    (down h (φ s) i n).bind (fun r => if r.2 then some r.1 else up h r.1 i) =
      ((down h s i n).bind (fun r => if r.2 then some r.1 else up h r.1 i)).map φ ∧
    ∀ s1, (down h s i n).bind (fun r => if r.2 then some r.1 else up h r.1 i) = some s1 →
      P s1 := by
  obtain ⟨h1, h2⟩ := down_comm hc s i n hP
  rw [h1]
  cases hd : down h s i n with
  | none => exact ⟨rfl, fun s1 hs => by cases hs⟩
  | some r =>
    have hPr := h2 r hd
    simp only [Option.map_some', Option.some_bind]
    cases hb : r.2 with
    | true =>
      simp only [if_true, Option.map_some']
      refine ⟨trivial, ?_⟩
      intro s1 hs
      cases hs
      exact hPr
    | false =>
      simp only [Bool.false_eq_true, if_false]
      exact upLoop_comm hc (i + 1) r.1 i hPr

theorem Fix_comm (hc : Commutes h φ ψ P) (s : σ) (i : Nat) (hP : P s) :
    Fix h (φ s) i = (Fix h s i).map φ ∧ ∀ s1, Fix h s i = some s1 → P s1 := by
  unfold Fix
  rw [hc.Len s hP]
  exact down_up_comm hc s i (h.Len s) hP

theorem FixAt_comm (hc : Commutes h φ ψ P) (s : σ) (i : Int) (hP : P s) :
    FixAt h (φ s) i = (FixAt h s i).map φ ∧ ∀ s1, FixAt h s i = some s1 → P s1 := by
  unfold FixAt
  by_cases hi : i = -1
  · rw [if_pos hi, if_pos hi]
    refine ⟨rfl, ?_⟩
    intro s1 h1
    cases h1
    exact hP
  · rw [if_neg hi, if_neg hi]
    cases hti : toIndex i with
    | none => exact ⟨rfl, fun s1 h1 => by cases h1⟩
    | some n =>
      simp only [Option.some_bind]
      exact Fix_comm hc s n hP

theorem Push_comm (hc : Commutes h φ ψ P) (s : σ) (x : ε) (hP : P s) :
    Push h (φ s) (ψ x) = (Push h s x).map φ ∧ ∀ s1, Push h s x = some s1 → P s1 := by
  unfold Push
  rw [hc.Push s x hP]
  cases hp : h.Push s x with
  | none => exact ⟨rfl, fun s1 hs => by cases hs⟩
  | some s2 =>
    have hP2 := hc.Push_keeps s x s2 hP hp
    simp only [Option.map_some', Option.some_bind]
    rw [hc.Len s2 hP2]
    exact upLoop_comm hc (h.Len s2 - 1 + 1) s2 (h.Len s2 - 1) hP2

theorem Pop_comm (hc : Commutes h φ ψ P) (s : σ) (hP : P s) :
    Pop h (φ s) = (Pop h s).map (fun r => (φ r.1, ψ r.2)) ∧
      ∀ r, Pop h s = some r → P r.1 := by
  unfold Pop
  simp only [hc.Len s hP, hc.Swap s _ _ hP]
  cases hsw : h.Swap s 0 (h.Len s - 1) with
  | none => exact ⟨rfl, fun r hr => by cases hr⟩
  | some s1 =>
    have hP1 := hc.Swap_keeps s _ _ s1 hP hsw
    simp only [Option.map_some', Option.some_bind]
    obtain ⟨h1, h2⟩ := down_comm hc s1 0 (h.Len s - 1) hP1
    rw [h1]
    cases hd : down h s1 0 (h.Len s - 1) with
    | none => exact ⟨rfl, fun r hr => by cases hr⟩
    | some r1 =>
      have hPr := h2 r1 hd
      simp only [Option.map_some', Option.some_bind]
      refine ⟨hc.Pop r1.1 hPr, ?_⟩
      intro r hr
      exact hc.Pop_keeps r1.1 r hPr hr

theorem Remove_comm (hc : Commutes h φ ψ P) (s : σ) (i : Nat) (hP : P s) :
    Remove h (φ s) i = (Remove h s i).map (fun r => (φ r.1, ψ r.2)) ∧
      ∀ r, Remove h s i = some r → P r.1 := by
  unfold Remove
  simp only [hc.Len s hP, hc.Swap s _ _ hP]
  by_cases hn : h.Len s - 1 ≠ i
  · simp only [hn, ne_eq, not_false_eq_true, if_true]
    cases hsw : h.Swap s i (h.Len s - 1) with
    | none => exact ⟨rfl, fun r hr => by cases hr⟩
    | some s1 =>
      have hP1 := hc.Swap_keeps s _ _ s1 hP hsw
      simp only [Option.map_some', Option.some_bind]
      obtain ⟨h1, h2⟩ := down_up_comm hc s1 i (h.Len s - 1) hP1
      rw [h1]
      cases hd : (down h s1 i (h.Len s - 1)).bind
          (fun r => if r.2 then some r.1 else up h r.1 i) with
      | none => exact ⟨rfl, fun r hr => by cases hr⟩
      | some s2 =>
        have hP2 := h2 s2 hd
        simp only [Option.map_some', Option.some_bind]
        exact ⟨hc.Pop s2 hP2, fun r hr => hc.Pop_keeps s2 r hP2 hr⟩
  · simp only [hn, if_false, Option.some_bind]
    exact ⟨hc.Pop s hP, fun r hr => hc.Pop_keeps s r hP hr⟩

theorem drain_comm (hc : Commutes h φ ψ P) : ∀ (fuel : Nat) (s : σ) (out : List ε), P s →
    drain h fuel (φ s) (out.map ψ) =
      (drain h fuel s out).map (fun r => (φ r.1, r.2.map ψ)) := by
  intro fuel
  induction fuel with
  | zero =>
    intro s out _
    unfold drain
    rfl
  | succ fuel ih =>
    intro s out hP
    unfold drain
    rw [hc.Len s hP]
    by_cases hl : h.Len s > 0
    · rw [if_pos hl, if_pos hl]
      obtain ⟨h1, h2⟩ := Pop_comm hc s hP
      rw [h1]
      cases hp : Pop h s with
      | none => rfl
      | some r =>
        simp only [Option.map_some', Option.some_bind]
        have := ih r.1 (out ++ [r.2]) (h2 r hp)
        rw [List.map_append, List.map_singleton] at this
        exact this
    · rw [if_neg hl, if_neg hl]
      rfl

end heap

namespace updateQueue

theorem insertAt_modify {k : Nat} (G : List repoUpdate) {q : updateQueue}
    (hk : k ≤ q.mem.length) (x : Ptr) (f : repoUpdate → repoUpdate) :
    (q.insertAt k G).modify (rename k G.length x) f = (q.modify x f).map (insertAt k G) := by
  unfold modify
  show ((insertCells k G q.mem)[rename k G.length x]?).map _ = _
  rw [insertCells_get G q.mem hk]
  cases q.mem[x]? with
  | none => rfl
  | some e =>
    simp only [Option.map_some']
    show some ({ q.insertAt k G with
      mem := (insertCells k G q.mem).set (rename k G.length x) (f e) } : updateQueue) = _
    rw [insertCells_set G q.mem hk]
    rfl

theorem modify_length {q q1 : updateQueue} {x : Ptr} {f : repoUpdate → repoUpdate}
    (h : q.modify x f = some q1) : q1.mem.length = q.mem.length := by
  unfold modify at h
  cases hm : q.mem[x]? with
  | none => rw [hm] at h; cases h
  | some e =>
    rw [hm] at h
    cases h
    exact List.length_set _ _ _

/-- The assignment `q.heap[i].Index = v` and its like: a field update through the pointer
at position `i` of a slice. -/
theorem insertAt_modifyAt {k : Nat} (G : List repoUpdate) {q : updateQueue}
    (hk : k ≤ q.mem.length) (H : List Ptr) (i : Nat) (f : repoUpdate → repoUpdate) :
    ((H.map (rename k G.length))[i]?).bind (fun x => (q.insertAt k G).modify x f) =
      ((H[i]?).bind (fun x => q.modify x f)).map (insertAt k G) := by
  rw [List.getElem?_map]
  cases H[i]? with
  | none => rfl
  | some x => exact insertAt_modify G hk x f

theorem Swap_some {q : updateQueue} {i j : Nat} {a b : Ptr} (hi : q.heap[i]? = some a)
    (hj : q.heap[j]? = some b) :
    q.Swap i j =
      ((((q.heap.set i b).set j a)[i]?).bind (fun x =>
        modify { q with heap := (q.heap.set i b).set j a } x
          (fun e => { e with Index := i }))).bind
        (fun q2 => (q2.heap[j]?).bind (fun x => q2.modify x (fun e => { e with Index := j }))) := by
  unfold Swap
  rw [hi, hj]

theorem Push_none {q : updateQueue} {x : Ptr} (h : q.mem[x]? = none) : q.Push x = none := by
  unfold Push modify
  rw [h]
  rfl

theorem Pop_none {q : updateQueue} (h : q.heap[q.heap.length - 1]? = none) : q.Pop = none := by
  unfold Pop
  simp only [h, Option.none_bind]

theorem Pop_none_mem {q : updateQueue} {x : Ptr} (h1 : q.heap[q.heap.length - 1]? = some x)
    (h2 : q.mem[x]? = none) : q.Pop = none := by
  unfold Pop modify
  simp only [h1, Option.some_bind, h2, Option.map_none', Option.none_bind]

theorem insertAt_entry {k : Nat} (G : List repoUpdate) {q : updateQueue}
    (hk : k ≤ q.mem.length) (i : Nat) : (q.insertAt k G).entry i = q.entry i := by
  unfold entry
  show (((q.heap.map (rename k G.length))[i]?).bind _) = _
  rw [List.getElem?_map]
  cases q.heap[i]? with
  | none => rfl
  | some x => exact insertCells_get G q.mem hk x

theorem insertAt_Less {k : Nat} (G : List repoUpdate) {q : updateQueue}
    (hk : k ≤ q.mem.length) (i j : Nat) : (q.insertAt k G).Less i j = q.Less i j := by
  unfold Less
  rw [insertAt_entry G hk, insertAt_entry G hk]

theorem insertAt_Swap {k : Nat} (G : List repoUpdate) {q : updateQueue}
    (hk : k ≤ q.mem.length) (i j : Nat) :
    (q.insertAt k G).Swap i j = (q.Swap i j).map (insertAt k G) ∧
      ∀ q1, q.Swap i j = some q1 → k ≤ q1.mem.length := by
  have hh : ∀ n, (q.insertAt k G).heap[n]? = (q.heap[n]?).map (rename k G.length) :=
    fun n => List.getElem?_map _ _ _
  cases hi : q.heap[i]? with
  | none =>
    have h1 : q.Swap i j = none := by unfold Swap; rw [hi]
    have h2 : (q.insertAt k G).Swap i j = none := by unfold Swap; rw [hh i, hi]; rfl
    rw [h1, h2]
    exact ⟨rfl, fun q1 h => by cases h⟩
  | some a =>
    cases hj : q.heap[j]? with
    | none =>
      have h1 : q.Swap i j = none := by unfold Swap; rw [hi, hj]
      have h2 : (q.insertAt k G).Swap i j = none := by
        unfold Swap
        rw [hh i, hh j, hi, hj]
        rfl
      rw [h1, h2]
      exact ⟨rfl, fun q1 h => by cases h⟩
    | some b =>
      have hi2 : (q.insertAt k G).heap[i]? = some (rename k G.length a) := by rw [hh i, hi]; rfl
      have hj2 : (q.insertAt k G).heap[j]? = some (rename k G.length b) := by rw [hh j, hj]; rfl
      rw [Swap_some hi hj, Swap_some hi2 hj2]
      have e1 : ({ q.insertAt k G with
          heap := ((q.insertAt k G).heap.set i (rename k G.length b)).set j
            (rename k G.length a) } : updateQueue) =
          ({ q with heap := (q.heap.set i b).set j a } : updateQueue).insertAt k G := by
        unfold insertAt
        simp only [List.map_set]
      have e2 : ((q.insertAt k G).heap.set i (rename k G.length b)).set j
          (rename k G.length a) = ((q.heap.set i b).set j a).map (rename k G.length) := by
        show ((q.heap.map (rename k G.length)).set i _).set j _ = _
        simp only [List.map_set]
      have hk1 : k ≤ ({ q with heap := (q.heap.set i b).set j a } : updateQueue).mem.length := hk
      rw [e1, e2, insertAt_modifyAt G hk1]
      cases hm : (((q.heap.set i b).set j a)[i]?).bind
          (fun x => ({ q with heap := (q.heap.set i b).set j a } : updateQueue).modify x
            (fun e => { e with Index := i })) with
      | none => exact ⟨rfl, fun q1 h1 => by cases h1⟩
      | some q2 =>
        have hk2 : k ≤ q2.mem.length := by
          cases hx : ((q.heap.set i b).set j a)[i]? with
          | none => rw [hx] at hm; cases hm
          | some x =>
            rw [hx, Option.some_bind] at hm
            rw [modify_length hm]
            exact hk
        simp only [Option.map_some', Option.some_bind]
        refine ⟨insertAt_modifyAt G hk2 q2.heap j _, ?_⟩
        intro q1 h1
        cases hx : q2.heap[j]? with
        | none => rw [hx] at h1; cases h1
        | some x =>
          rw [hx, Option.some_bind] at h1
          rw [modify_length h1]
          exact hk2

theorem insertAt_Push {k : Nat} (G : List repoUpdate) {q : updateQueue}
    (hk : k ≤ q.mem.length) (x : Ptr) :
    (q.insertAt k G).Push (rename k G.length x) = (q.Push x).map (insertAt k G) ∧
      ∀ q1, q.Push x = some q1 → k ≤ q1.mem.length := by
  cases hm : q.mem[x]? with
  | none =>
    have hm2 : (q.insertAt k G).mem[rename k G.length x]? = none := by
      show (insertCells k G q.mem)[rename k G.length x]? = none
      rw [insertCells_get G q.mem hk, hm]
    rw [Push_none hm, Push_none hm2]
    exact ⟨rfl, fun q1 h => by cases h⟩
  | some e =>
    have hm2 : (q.insertAt k G).mem[rename k G.length x]? = some e := by
      show (insertCells k G q.mem)[rename k G.length x]? = some e
      rw [insertCells_get G q.mem hk, hm]
    rw [Push_eq hm, Push_eq hm2]
    refine ⟨?_, ?_⟩
    · simp only [Option.map_some', Option.some.injEq]
      unfold insertAt
      simp only [List.map_append, List.map_cons, List.map_nil, List.length_map,
        insertCells_set G q.mem hk, IndexMap.set_map]
    · intro q1 h1
      cases h1
      show k ≤ (q.mem.set x _).length
      rw [List.length_set]
      exact hk

theorem insertAt_Pop {k : Nat} (G : List repoUpdate) {q : updateQueue}
    (hk : k ≤ q.mem.length) :
    (q.insertAt k G).Pop = (q.Pop).map (fun r => (r.1.insertAt k G, rename k G.length r.2)) ∧
      ∀ r, q.Pop = some r → k ≤ r.1.mem.length := by
  have hlen : (q.insertAt k G).heap.length = q.heap.length := List.length_map _ _
  cases hx : q.heap[q.heap.length - 1]? with
  | none =>
    have hx2 : (q.insertAt k G).heap[(q.insertAt k G).heap.length - 1]? = none := by
      rw [hlen]
      show (q.heap.map (rename k G.length))[q.heap.length - 1]? = _
      rw [List.getElem?_map, hx]
      rfl
    rw [Pop_none hx, Pop_none hx2]
    exact ⟨rfl, fun r h => by cases h⟩
  | some x =>
    have hx2 : (q.insertAt k G).heap[(q.insertAt k G).heap.length - 1]? =
        some (rename k G.length x) := by
      rw [hlen]
      show (q.heap.map (rename k G.length))[q.heap.length - 1]? = _
      rw [List.getElem?_map, hx]
      rfl
    cases hm : q.mem[x]? with
    | none =>
      have hm2 : (q.insertAt k G).mem[rename k G.length x]? = none := by
        show (insertCells k G q.mem)[rename k G.length x]? = none
        rw [insertCells_get G q.mem hk, hm]
      rw [Pop_none_mem hx hm, Pop_none_mem hx2 hm2]
      exact ⟨rfl, fun r h => by cases h⟩
    | some e =>
      have hm2 : (q.insertAt k G).mem[rename k G.length x]? = some e := by
        show (insertCells k G q.mem)[rename k G.length x]? = some e
        rw [insertCells_get G q.mem hk, hm]
      rw [Pop_eq hx hm, Pop_eq hx2 hm2]
      refine ⟨?_, ?_⟩
      · simp only [Option.map_some', Option.some.injEq, Prod.mk.injEq, and_true]
        unfold insertAt
        simp only [List.length_map, insertCells_set G q.mem hk, IndexMap.delete_map,
          List.map_take]
      · intro r h1
        cases h1
        show k ≤ (q.mem.set x _).length
        rw [List.length_set]
        exact hk

/-- The methods of the queue as a heap commute with the insertion of cells into its arena. -/
theorem commutes_insertAt (k : Nat) (G : List repoUpdate) :
    heap.Commutes iface (insertAt k G) (rename k G.length) (fun q => k ≤ q.mem.length) where
  Len := fun _ _ => List.length_map _ _
  Less := fun _ i j hk => insertAt_Less G hk i j
  Swap := fun _ i j hk => (insertAt_Swap G hk i j).1
  Swap_keeps := fun _ i j q1 hk h => (insertAt_Swap G hk i j).2 q1 h
  Push := fun _ x hk => (insertAt_Push G hk x).1
  Push_keeps := fun _ x q1 hk h => (insertAt_Push G hk x).2 q1 h
  Pop := fun _ hk => (insertAt_Pop G hk).1
  Pop_keeps := fun _ r hk h => (insertAt_Pop G hk).2 r h

end updateQueue

namespace schedule

theorem insertAt_modify_sch {k : Nat} (G : List scheduledRepoUpdate) {q : schedule}
    (hk : k ≤ q.mem.length) (x : Ptr) (f : scheduledRepoUpdate → scheduledRepoUpdate) :
    (q.insertAt k G).modify (rename k G.length x) f = (q.modify x f).map (insertAt k G) := by
  unfold modify
  show ((insertCells k G q.mem)[rename k G.length x]?).map _ = _
  rw [insertCells_get G q.mem hk]
  cases q.mem[x]? with
  | none => rfl
  | some e =>
    simp only [Option.map_some']
    show some ({ q.insertAt k G with
      mem := (insertCells k G q.mem).set (rename k G.length x) (f e) } : schedule) = _
    rw [insertCells_set G q.mem hk]
    rfl

theorem modify_length_sch {q q1 : schedule} {x : Ptr} {f : scheduledRepoUpdate → scheduledRepoUpdate}
    (h : q.modify x f = some q1) : q1.mem.length = q.mem.length := by
  unfold modify at h
  cases hm : q.mem[x]? with
  | none => rw [hm] at h; cases h
  | some e =>
    rw [hm] at h
    cases h
    exact List.length_set _ _ _

/-- The assignment `q.heap[i].Index = v` and its like: a field update through the pointer
at position `i` of a slice. -/
theorem insertAt_modifyAt_sch {k : Nat} (G : List scheduledRepoUpdate) {q : schedule}
    (hk : k ≤ q.mem.length) (H : List Ptr) (i : Nat) (f : scheduledRepoUpdate → scheduledRepoUpdate) :
    ((H.map (rename k G.length))[i]?).bind (fun x => (q.insertAt k G).modify x f) =
      ((H[i]?).bind (fun x => q.modify x f)).map (insertAt k G) := by
  rw [List.getElem?_map]
  cases H[i]? with
  | none => rfl
  | some x => exact insertAt_modify_sch G hk x f

theorem Swap_some_sch {q : schedule} {i j : Nat} {a b : Ptr} (hi : q.heap[i]? = some a)
    (hj : q.heap[j]? = some b) :
    q.Swap i j =
      ((((q.heap.set i b).set j a)[i]?).bind (fun x =>
        modify { q with heap := (q.heap.set i b).set j a } x
          (fun e => { e with Index := i }))).bind
        (fun q2 => (q2.heap[j]?).bind (fun x => q2.modify x (fun e => { e with Index := j }))) := by
  unfold Swap
  rw [hi, hj]

theorem Push_none_sch {q : schedule} {x : Ptr} (h : q.mem[x]? = none) : q.Push x = none := by
  unfold Push modify
  rw [h]
  rfl

theorem Pop_none_sch {q : schedule} (h : q.heap[q.heap.length - 1]? = none) : q.Pop = none := by
  unfold Pop
  simp only [h, Option.none_bind]

theorem Pop_none_mem_sch {q : schedule} {x : Ptr} (h1 : q.heap[q.heap.length - 1]? = some x)
    (h2 : q.mem[x]? = none) : q.Pop = none := by
  unfold Pop modify
  simp only [h1, Option.some_bind, h2, Option.map_none', Option.none_bind]

theorem insertAt_entry_sch {k : Nat} (G : List scheduledRepoUpdate) {q : schedule}
    (hk : k ≤ q.mem.length) (i : Nat) : (q.insertAt k G).entry i = q.entry i := by
  unfold entry
  show (((q.heap.map (rename k G.length))[i]?).bind _) = _
  rw [List.getElem?_map]
  cases q.heap[i]? with
  | none => rfl
  | some x => exact insertCells_get G q.mem hk x

theorem insertAt_Less_sch {k : Nat} (G : List scheduledRepoUpdate) {q : schedule}
    (hk : k ≤ q.mem.length) (i j : Nat) : (q.insertAt k G).Less i j = q.Less i j := by
  unfold Less
  rw [insertAt_entry_sch G hk, insertAt_entry_sch G hk]

theorem insertAt_Swap_sch {k : Nat} (G : List scheduledRepoUpdate) {q : schedule}
    (hk : k ≤ q.mem.length) (i j : Nat) :
    (q.insertAt k G).Swap i j = (q.Swap i j).map (insertAt k G) ∧
      ∀ q1, q.Swap i j = some q1 → k ≤ q1.mem.length := by
  have hh : ∀ n, (q.insertAt k G).heap[n]? = (q.heap[n]?).map (rename k G.length) :=
    fun n => List.getElem?_map _ _ _
  cases hi : q.heap[i]? with
  | none =>
    have h1 : q.Swap i j = none := by unfold Swap; rw [hi]
    have h2 : (q.insertAt k G).Swap i j = none := by unfold Swap; rw [hh i, hi]; rfl
    rw [h1, h2]
    exact ⟨rfl, fun q1 h => by cases h⟩
  | some a =>
    cases hj : q.heap[j]? with
    | none =>
      have h1 : q.Swap i j = none := by unfold Swap; rw [hi, hj]
      have h2 : (q.insertAt k G).Swap i j = none := by
        unfold Swap
        rw [hh i, hh j, hi, hj]
        rfl
      rw [h1, h2]
      exact ⟨rfl, fun q1 h => by cases h⟩
    | some b =>
      have hi2 : (q.insertAt k G).heap[i]? = some (rename k G.length a) := by rw [hh i, hi]; rfl
      have hj2 : (q.insertAt k G).heap[j]? = some (rename k G.length b) := by rw [hh j, hj]; rfl
      rw [Swap_some_sch hi hj, Swap_some_sch hi2 hj2]
      have e1 : ({ q.insertAt k G with
          heap := ((q.insertAt k G).heap.set i (rename k G.length b)).set j
            (rename k G.length a) } : schedule) =
          ({ q with heap := (q.heap.set i b).set j a } : schedule).insertAt k G := by
        unfold insertAt
        simp only [List.map_set]
      have e2 : ((q.insertAt k G).heap.set i (rename k G.length b)).set j
          (rename k G.length a) = ((q.heap.set i b).set j a).map (rename k G.length) := by
        show ((q.heap.map (rename k G.length)).set i _).set j _ = _
        simp only [List.map_set]
      have hk1 : k ≤ ({ q with heap := (q.heap.set i b).set j a } : schedule).mem.length := hk
      rw [e1, e2, insertAt_modifyAt_sch G hk1]
      cases hm : (((q.heap.set i b).set j a)[i]?).bind
          (fun x => ({ q with heap := (q.heap.set i b).set j a } : schedule).modify x
            (fun e => { e with Index := i })) with
      | none => exact ⟨rfl, fun q1 h1 => by cases h1⟩
      | some q2 =>
        have hk2 : k ≤ q2.mem.length := by
          cases hx : ((q.heap.set i b).set j a)[i]? with
          | none => rw [hx] at hm; cases hm
          | some x =>
            rw [hx, Option.some_bind] at hm
            rw [modify_length_sch hm]
            exact hk
        simp only [Option.map_some', Option.some_bind]
        refine ⟨insertAt_modifyAt_sch G hk2 q2.heap j _, ?_⟩
        intro q1 h1
        cases hx : q2.heap[j]? with
        | none => rw [hx] at h1; cases h1
        | some x =>
          rw [hx, Option.some_bind] at h1
          rw [modify_length_sch h1]
          exact hk2

theorem insertAt_Push_sch {k : Nat} (G : List scheduledRepoUpdate) {q : schedule}
    (hk : k ≤ q.mem.length) (x : Ptr) :
    (q.insertAt k G).Push (rename k G.length x) = (q.Push x).map (insertAt k G) ∧
      ∀ q1, q.Push x = some q1 → k ≤ q1.mem.length := by
  cases hm : q.mem[x]? with
  | none =>
    have hm2 : (q.insertAt k G).mem[rename k G.length x]? = none := by
      show (insertCells k G q.mem)[rename k G.length x]? = none
      rw [insertCells_get G q.mem hk, hm]
    rw [Push_none_sch hm, Push_none_sch hm2]
    exact ⟨rfl, fun q1 h => by cases h⟩
  | some e =>
    have hm2 : (q.insertAt k G).mem[rename k G.length x]? = some e := by
      show (insertCells k G q.mem)[rename k G.length x]? = some e
      rw [insertCells_get G q.mem hk, hm]
    rw [Push_eq_sch hm, Push_eq_sch hm2]
    refine ⟨?_, ?_⟩
    · simp only [Option.map_some', Option.some.injEq]
      unfold insertAt
      simp only [List.map_append, List.map_cons, List.map_nil, List.length_map,
        insertCells_set G q.mem hk, IndexMap.set_map]
    · intro q1 h1
      cases h1
      show k ≤ (q.mem.set x _).length
      rw [List.length_set]
      exact hk

theorem insertAt_Pop_sch {k : Nat} (G : List scheduledRepoUpdate) {q : schedule}
    (hk : k ≤ q.mem.length) :
    (q.insertAt k G).Pop = (q.Pop).map (fun r => (r.1.insertAt k G, rename k G.length r.2)) ∧
      ∀ r, q.Pop = some r → k ≤ r.1.mem.length := by
  have hlen : (q.insertAt k G).heap.length = q.heap.length := List.length_map _ _
  cases hx : q.heap[q.heap.length - 1]? with
  | none =>
    have hx2 : (q.insertAt k G).heap[(q.insertAt k G).heap.length - 1]? = none := by
      rw [hlen]
      show (q.heap.map (rename k G.length))[q.heap.length - 1]? = _
      rw [List.getElem?_map, hx]
      rfl
    rw [Pop_none_sch hx, Pop_none_sch hx2]
    exact ⟨rfl, fun r h => by cases h⟩
  | some x =>
    have hx2 : (q.insertAt k G).heap[(q.insertAt k G).heap.length - 1]? =
        some (rename k G.length x) := by
      rw [hlen]
      show (q.heap.map (rename k G.length))[q.heap.length - 1]? = _
      rw [List.getElem?_map, hx]
      rfl
    cases hm : q.mem[x]? with
    | none =>
      have hm2 : (q.insertAt k G).mem[rename k G.length x]? = none := by
        show (insertCells k G q.mem)[rename k G.length x]? = none
        rw [insertCells_get G q.mem hk, hm]
      rw [Pop_none_mem_sch hx hm, Pop_none_mem_sch hx2 hm2]
      exact ⟨rfl, fun r h => by cases h⟩
    | some e =>
      have hm2 : (q.insertAt k G).mem[rename k G.length x]? = some e := by
        show (insertCells k G q.mem)[rename k G.length x]? = some e
        rw [insertCells_get G q.mem hk, hm]
      rw [Pop_eq_sch hx hm, Pop_eq_sch hx2 hm2]
      refine ⟨?_, ?_⟩
      · simp only [Option.map_some', Option.some.injEq, Prod.mk.injEq, and_true]
        unfold insertAt
        simp only [List.length_map, insertCells_set G q.mem hk, IndexMap.delete_map,
          List.map_take]
      · intro r h1
        cases h1
        show k ≤ (q.mem.set x _).length
        rw [List.length_set]
        exact hk

/-- The methods of the schedule as a heap commute with the insertion of cells into its arena. -/
theorem commutes_insertAt_sch (k : Nat) (G : List scheduledRepoUpdate) :
    heap.Commutes iface (insertAt k G) (rename k G.length) (fun q => k ≤ q.mem.length) where
  Len := fun _ _ => List.length_map _ _
  Less := fun _ i j hk => insertAt_Less_sch G hk i j
  Swap := fun _ i j hk => (insertAt_Swap_sch G hk i j).1
  Swap_keeps := fun _ i j q1 hk h => (insertAt_Swap_sch G hk i j).2 q1 h
  Push := fun _ x hk => (insertAt_Push_sch G hk x).1
  Push_keeps := fun _ x q1 hk h => (insertAt_Push_sch G hk x).2 q1 h
  Pop := fun _ hk => (insertAt_Pop_sch G hk).1
  Pop_keeps := fun _ r hk h => (insertAt_Pop_sch G hk).2 r h

end schedule

theorem derefAll_insertCells {α : Type} {k : Nat} (G l : List α) (hk : k ≤ l.length) :
    ∀ (xs : List Ptr), derefAll (insertCells k G l) (xs.map (rename k G.length)) = derefAll l xs := by
  intro xs
  induction xs with
  | nil => rfl
  | cons x xs ih =>
    show ((insertCells k G l)[rename k G.length x]?).bind _ = (l[x]?).bind _
    rw [insertCells_get G l hk, ih]

namespace updateQueue

theorem copyIn_eq (q : updateQueue) : q.copyIn = q.copy.map (insertAt 0 q.mem) := by
  unfold copyIn copy insertAt
  cases derefAll q.mem q.heap with
  | none => rfl
  | some updates =>
    simp only [Option.map_some', insertCells_zero, rename_zero, List.map_nil]

/-- The loop of `DebugDump` on a copy made in the memory of the queue does what it does on a
copy made elsewhere, and leaves the cells in use as they are: it writes to the copies. -/
theorem dumpIn {q c : updateQueue} {r : updateQueue × List Ptr} {dump : List repoUpdate}
    (hc : q.copy = some c) (hr : heap.drain iface (c.heap.length + 1) c [] = some r)
    (hd : derefAll r.1.mem r.2 = some dump) :
    ∃ cI rI, q.copyIn = some cI ∧ heap.drain iface (cI.heap.length + 1) cI [] = some rI ∧
      derefAll rI.1.mem rI.2 = some dump ∧ rI.1.mem = q.mem ++ r.1.mem := by
  refine ⟨c.insertAt 0 q.mem, (r.1.insertAt 0 q.mem, r.2.map (rename 0 q.mem.length)),
    ?_, ?_, ?_, ?_⟩
  · rw [copyIn_eq, hc]
    rfl
  · have h := heap.drain_comm (commutes_insertAt 0 q.mem) (c.heap.length + 1) c []
      (Nat.zero_le _)
    rw [hr] at h
    have hlen : (c.insertAt 0 q.mem).heap.length = c.heap.length := List.length_map _ _
    rw [hlen]
    exact h
  · show derefAll (insertCells 0 q.mem r.1.mem) (r.2.map (rename 0 q.mem.length)) = some dump
    rw [derefAll_insertCells q.mem r.1.mem (Nat.zero_le _), hd]
  · exact insertCells_zero _ _

end updateQueue

namespace schedule

theorem copyIn_eq_sch (q : schedule) : q.copyIn = q.copy.map (insertAt 0 q.mem) := by
  unfold copyIn copy insertAt
  cases derefAll q.mem q.heap with
  | none => rfl
  | some updates =>
    simp only [Option.map_some', insertCells_zero, rename_zero, List.map_nil]

/-- The loop of `DebugDump` on a copy made in the memory of the schedule does what it does on a
copy made elsewhere, and leaves the cells in use as they are: it writes to the copies. -/
theorem dumpIn_sch {q c : schedule} {r : schedule × List Ptr} {dump : List scheduledRepoUpdate}
    (hc : q.copy = some c) (hr : heap.drain iface (c.heap.length + 1) c [] = some r)
    (hd : derefAll r.1.mem r.2 = some dump) :
    ∃ cI rI, q.copyIn = some cI ∧ heap.drain iface (cI.heap.length + 1) cI [] = some rI ∧
      derefAll rI.1.mem rI.2 = some dump ∧ rI.1.mem = q.mem ++ r.1.mem := by
  refine ⟨c.insertAt 0 q.mem, (r.1.insertAt 0 q.mem, r.2.map (rename 0 q.mem.length)),
    ?_, ?_, ?_, ?_⟩
  · rw [copyIn_eq_sch, hc]
    rfl
  · have h := heap.drain_comm (commutes_insertAt_sch 0 q.mem) (c.heap.length + 1) c []
      (Nat.zero_le _)
    rw [hr] at h
    have hlen : (c.insertAt 0 q.mem).heap.length = c.heap.length := List.length_map _ _
    rw [hlen]
    exact h
  · show derefAll (insertCells 0 q.mem r.1.mem) (r.2.map (rename 0 q.mem.length)) = some dump
    rw [derefAll_insertCells q.mem r.1.mem (Nat.zero_le _), hd]
  · exact insertCells_zero _ _

end schedule

namespace updateScheduler

theorem DebugDumpIn_spec {s : updateScheduler} (hs : s.schedule.Valid)
    (hq : s.updateQueue.Valid) (sortSlice : List configuredRepo2 → List configuredRepo2) :
    ∃ d m1 m2, s.DebugDump sortSlice = some d ∧
      s.DebugDumpIn sortSlice = some (d,
        { s with schedule := { s.schedule with mem := s.schedule.mem ++ m1 },
                 updateQueue := { s.updateQueue with mem := s.updateQueue.mem ++ m2 } }) := by
  obtain ⟨c1, r1, dump1, hc1, hr1, hd1, _, _⟩ := schedule.dump_spec_sch hs
  obtain ⟨c2, r2, dump2, hc2, hr2, hd2, _, _⟩ := updateQueue.dump_spec hq
  obtain ⟨cI1, rI1, hcI1, hrI1, hdI1, hm1⟩ := schedule.dumpIn_sch hc1 hr1 hd1
  obtain ⟨cI2, rI2, hcI2, hrI2, hdI2, hm2⟩ := updateQueue.dumpIn hc2 hr2 hd2
  refine ⟨{ UpdateQueue := dump2, Schedule := dump1,
            SourceRepos := s.sourceRepos.map
              (fun p => (p.1, sortSlice (p.2.map (fun r => r.2)))) }, r1.1.mem, r2.1.mem, ?_, ?_⟩
  · unfold DebugDump
    simp only [hc1, Option.some_bind, hr1, hd1, hc2, hr2, hd2, Option.map_some']
  · unfold DebugDumpIn
    simp only [hcI1, Option.some_bind, hrI1, hdI1, hcI2, hrI2, hdI2, Option.map_some']
    rw [hm1, hm2]

/-- C33. On a scheduler whose two heaps satisfy their invariants (every state that the
operations of the scheduler reach does), `DebugDump` returns, and with the copies of the
entries made in the memory that holds the entries it returns the dump it returns with copies
made elsewhere. It leaves the scheduler as it was: the two heap slices, the two index maps,
the sequence counter, the notification channel, the timer, the wake-up channel and the
source snapshots are the same, and every cell in use holds the entry it held, with all its
fields (Repo, Index, Interval, Due, Priority, Seq, Updating); so the entries in heap order
and the entry of every repo ID are the same. `ScheduleInfo(id)` returns for every `id`, also
for 0 and for an ID in neither structure; it assigns to nothing, so its embedding has no
state to return. -/
theorem C33_DebugDump_and_ScheduleInfo_only_read {s : updateScheduler} (hs : s.Inv)
    (sortSlice : List configuredRepo2 → List configuredRepo2) (id : Nat) :
    (∃ d s1, s.DebugDumpIn sortSlice = some (d, s1) ∧ s.DebugDump sortSlice = some d ∧
      s1.schedule.heap = s.schedule.heap ∧ s1.updateQueue.heap = s.updateQueue.heap ∧
      s1.schedule.index = s.schedule.index ∧ s1.updateQueue.index = s.updateQueue.index ∧
      s1.updateQueue.seq = s.updateQueue.seq ∧
      s1.updateQueue.notifyEnqueue = s.updateQueue.notifyEnqueue ∧
      s1.schedule.timer = s.schedule.timer ∧ s1.schedule.wakeup = s.schedule.wakeup ∧
      s1.sourceRepos = s.sourceRepos ∧
      (∀ (x : Nat) (e : scheduledRepoUpdate), s.schedule.mem[x]? = some e → s1.schedule.mem[x]? = some e) ∧
      (∀ (x : Nat) (e : repoUpdate), s.updateQueue.mem[x]? = some e → s1.updateQueue.mem[x]? = some e) ∧
      s1.schedule.entries = s.schedule.entries ∧
      s1.updateQueue.entries = s.updateQueue.entries ∧
      (∀ i, s1.schedule.find i = s.schedule.find i) ∧
      (∀ i, s1.updateQueue.find i = s.updateQueue.find i)) ∧
    ∃ r, s.ScheduleInfo id = some r := by
  obtain ⟨d, m1, m2, h1, h2⟩ := DebugDumpIn_spec hs.1 hs.2.2 sortSlice
  have hcell : ∀ {α : Type} (l m : List α) (x : Nat) (e : α), l[x]? = some e →
      (l ++ m)[x]? = some e := by
    intro α l m x e h
    rw [List.getElem?_append_left (List.getElem?_eq_some.mp h).1]
    exact h
  refine ⟨⟨d, _, h2, h1, rfl, rfl, rfl, rfl, rfl, rfl, rfl, rfl, rfl, ?_, ?_, ?_, ?_, ?_, ?_⟩,
    _, ScheduleInfo_eq hs.1.1 hs.2.2.1 id⟩
  · exact fun x e h => hcell _ _ x e h
  · exact fun x e h => hcell _ _ x e h
  · unfold schedule.entries
    refine List.filterMap_congr ?_
    intro x hx
    obtain ⟨i, hi⟩ := List.getElem?_of_mem hx
    obtain ⟨e, he, _⟩ := schedule.wf_entry_sch hs.1.1 hi
    rw [he]
    exact hcell _ _ x e he
  · unfold updateQueue.entries
    refine List.filterMap_congr ?_
    intro x hx
    obtain ⟨i, hi⟩ := List.getElem?_of_mem hx
    obtain ⟨e, he, _⟩ := updateQueue.wf_entry hs.2.2.1 hi
    rw [he]
    exact hcell _ _ x e he
  · intro i
    unfold schedule.find
    cases hg : s.schedule.index.get i with
    | none => rfl
    | some x =>
      obtain ⟨_, e, _, he, _⟩ := schedule.wf_index_sch hs.1.1 hg
      rw [Option.some_bind, Option.some_bind, he]
      exact hcell _ _ x e he
  · intro i
    unfold updateQueue.find
    cases hg : s.updateQueue.index.get i with
    | none => rfl
    | some x =>
      obtain ⟨_, e, _, he, _⟩ := updateQueue.wf_index hs.2.2.1 hg
      rw [Option.some_bind, Option.some_bind, he]
      exact hcell _ _ x e he

/-- The scheduler `twoSourceScheduler` satisfies the invariants; `DebugDump` and
`ScheduleInfo(0)` return on it and the heap slices are what they were. -/
theorem C33_witness :
    twoSourceScheduler.Inv ∧
    (∃ d s1, twoSourceScheduler.DebugDumpIn (fun l => l) = some (d, s1) ∧
      twoSourceScheduler.DebugDump (fun l => l) = some d ∧
      s1.schedule.heap = twoSourceScheduler.schedule.heap ∧
      s1.updateQueue.heap = twoSourceScheduler.updateQueue.heap) ∧
    ∃ r, twoSourceScheduler.ScheduleInfo 0 = some r :=
  match C33_DebugDump_and_ScheduleInfo_only_read (by decide : twoSourceScheduler.Inv)
    (fun l => l) 0 with
  | ⟨⟨d, s1, h1, h2, h3, h4, _⟩, hr⟩ => ⟨by decide, ⟨d, s1, h1, h2, h3, h4⟩, hr⟩

end updateScheduler

namespace updateQueue

theorem find_of_core {q q1 : updateQueue} {id : Nat} {e1 : repoUpdate}
    (h1 : q1.find id = some e1)
    (hfr : (q1.find id).map repoUpdate.core = (q.find id).map repoUpdate.core) :
    ∃ e, q.find id = some e ∧ e.core = e1.core := by
  rw [h1] at hfr
  cases hf : q.find id with
  | none => rw [hf] at hfr; cases hfr
  | some e =>
    rw [hf] at hfr
    simp only [Option.map_some', Option.some.injEq] at hfr
    exact ⟨e, rfl, hfr.symm⟩

theorem seqOk_same {q q1 : updateQueue} (h : q.SeqOk) (hseq : q1.seq = q.seq)
    (hf : ∀ id e1, q1.find id = some e1 → ∃ e, q.find id = some e ∧ e.Seq = e1.Seq) :
    q1.SeqOk := by
  constructor
  · intro id e1 h1
    obtain ⟨e, he, hs⟩ := hf id e1 h1
    rw [hseq, ← hs]
    exact h.1 id e he
  · intro i j a b ha hb hab
    obtain ⟨a0, ha0, hsa⟩ := hf i a ha
    obtain ⟨b0, hb0, hsb⟩ := hf j b hb
    exact h.2 i j a0 b0 ha0 hb0 (by rw [hsa, hsb, hab])

theorem seqOk_bump {q q1 : updateQueue} (R : Nat) (h : q.SeqOk) (hseq : q1.seq = q.seq + 1)
    (hf : ∀ id e1, q1.find id = some e1 →
      (id = R ∧ e1.Seq = q.seq + 1) ∨ ∃ e, q.find id = some e ∧ e.Seq = e1.Seq) :
    q1.SeqOk := by
  constructor
  · intro id e1 h1
    rcases hf id e1 h1 with ⟨_, hs⟩ | ⟨e, he, hs⟩
    · rw [hseq, hs]
      omega
    · have := h.1 id e he
      rw [hseq, ← hs]
      omega
  · intro i j a b ha hb hab
    rcases hf i a ha with ⟨hi, hsa⟩ | ⟨a0, ha0, hsa⟩
    · rcases hf j b hb with ⟨hj, _⟩ | ⟨b0, hb0, hsb⟩
      · rw [hi, hj]
      · have := (h.1 j b0 hb0).2
        omega
    · rcases hf j b hb with ⟨_, hsb⟩ | ⟨b0, hb0, hsb⟩
      · have := (h.1 i a0 ha0).2
        omega
      · exact h.2 i j a0 b0 ha0 hb0 (by rw [hsa, hsb, hab])

theorem core_seq {a b : repoUpdate} (h : a.core = b.core) : a.Seq = b.Seq := by
  have h1 : a.core.Seq = b.core.Seq := by rw [h]
  exact h1

/-- A frame of the form that the method specifications give, read as a step of `SeqOk`. -/
theorem seqOk_frame {q q1 : updateQueue} (R : Nat) (c : Option repoUpdate) (h : q.SeqOk)
    (hseq : q1.seq = q.seq ∨ q1.seq = q.seq + 1)
    (hc : ∀ v, c = some v → (q1.seq = q.seq + 1 ∧ v.Seq = q.seq + 1) ∨
      (q1.seq = q.seq ∧ ∃ e, q.find R = some e ∧ e.Seq = v.Seq))
    (hfr : ∀ id, (q1.find id).map repoUpdate.core =
      if id = R then c else (q.find id).map repoUpdate.core) : q1.SeqOk := by
  have hold : ∀ id e1, id ≠ R → q1.find id = some e1 →
      ∃ e, q.find id = some e ∧ e.Seq = e1.Seq := by
    intro id e1 hne h1
    have h2 := hfr id
    rw [if_neg hne] at h2
    obtain ⟨e, he, hcore⟩ := find_of_core h1 h2
    exact ⟨e, he, core_seq hcore⟩
  have hnew : ∀ e1, q1.find R = some e1 → c = some e1.core := by
    intro e1 h1
    have h2 := hfr R
    rw [if_pos rfl, h1] at h2
    exact h2.symm
  rcases hseq with hs | hs
  · refine seqOk_same h hs ?_
    intro id e1 h1
    by_cases hid : id = R
    · subst hid
      rcases hc _ (hnew e1 h1) with ⟨h3, _⟩ | ⟨_, e, he, hse⟩
      · omega
      · exact ⟨e, he, hse⟩
    · exact hold id e1 hid h1
  · refine seqOk_bump R h hs ?_
    intro id e1 h1
    by_cases hid : id = R
    · subst hid
      rcases hc _ (hnew e1 h1) with ⟨_, h4⟩ | ⟨h3, _⟩
      · exact Or.inl ⟨rfl, h4⟩
      · omega
    · exact Or.inr (hold id e1 hid h1)

theorem enqueue_seqOk {q q1 : updateQueue} (hq : q.Valid) (h : q.SeqOk)
    (hw : q.seq + 1 < 2 ^ 64) {repo : configuredRepo2} {p : priority} {b : Bool}
    (he : q.enqueue repo p = some (q1, b)) : q1.SeqOk ∧ q1.seq ≤ q.seq + 1 := by
  obtain ⟨q2, b2, h2, _, hcases⟩ := enqueue_cases hq (enqueue_ne_zero he) p
  rw [he] at h2
  cases h2
  have hmod : (q.seq + 1) % 2 ^ 64 = q.seq + 1 := Nat.mod_eq_of_lt hw
  rcases hcases with ⟨_, _, hs, _, _, hfr⟩ | ⟨e, _, _, _, hq1⟩ |
      ⟨e, x, hfe, _, _, _, _, hq1, hfr⟩ | ⟨e, hfe, _, _, _, hs, _, _, _, hfr⟩
  · rw [hmod] at hs hfr
    refine ⟨seqOk_frame repo.ID _ h (Or.inr hs) ?_ hfr, by omega⟩
    intro v hv
    cases hv
    exact Or.inl ⟨hs, rfl⟩
  · rw [hq1]
    exact ⟨h, by omega⟩
  · have hs : q1.seq = q.seq := by rw [hq1]
    refine ⟨seqOk_same h hs ?_, by omega⟩
    intro id e1 h1
    rw [hfr id] at h1
    by_cases hid : id = repo.ID
    · rw [if_pos hid] at h1
      cases h1
      rw [hid]
      exact ⟨e, hfe, rfl⟩
    · rw [if_neg hid] at h1
      exact ⟨e1, h1, rfl⟩
  · rw [hmod] at hs hfr
    refine ⟨seqOk_frame repo.ID _ h (Or.inr hs) ?_ hfr, by omega⟩
    intro v hv
    cases hv
    exact Or.inl ⟨hs, rfl⟩

theorem remove_seqOk {q q1 : updateQueue} (hq : q.Valid) (h : q.SeqOk)
    {repo : configuredRepo2} {u b : Bool} (hr : q.remove repo u = some (q1, b)) :
    q1.SeqOk ∧ q1.seq = q.seq := by
  rcases remove_spec hq (remove_ne_zero hr) u with ⟨_, h1⟩ | ⟨e, _, _, h1⟩ |
      ⟨e, q2, _, _, h1, _, hs, _, _, hfr⟩
  · rw [hr] at h1
    cases h1
    exact ⟨h, rfl⟩
  · rw [hr] at h1
    cases h1
    exact ⟨h, rfl⟩
  · rw [hr] at h1
    cases h1
    refine ⟨seqOk_frame repo.ID none h (Or.inl hs) ?_ hfr, hs⟩
    intro v hv
    cases hv

theorem acquireNext_seqOk {q q1 : updateQueue} (hq : q.Valid) (h : q.SeqOk)
    {r : Option configuredRepo2} (ha : q.acquireNext = some (q1, r)) :
    q1.SeqOk ∧ q1.seq = q.seq := by
  obtain ⟨q2, r2, h2, _, hs, _, _, _, _, hnone, hsome⟩ := acquireNext_spec hq
  rw [ha] at h2
  cases h2
  cases r with
  | none =>
    rw [(hnone rfl).1]
    exact ⟨h, rfl⟩
  | some R =>
    obtain ⟨e, hfe, _, _, _, hfr⟩ := hsome R rfl
    refine ⟨seqOk_frame R.ID _ h (Or.inl hs) ?_ hfr, hs⟩
    intro v hv
    cases hv
    exact Or.inr ⟨hs, e, hfe, rfl⟩

theorem reset_find (q : updateQueue) (id : Nat) : q.reset.find id = none := rfl

theorem op_seqOk {q q1 : updateQueue} (hq : q.Valid) (h : q.SeqOk) {o : queueOp}
    (hw : o.isEnqueue = true → q.seq + 1 < 2 ^ 64) (ho : q.op o = some q1) :
    q1.Valid ∧ q1.SeqOk ∧ q1.seq ≤ q.seq + (if o.isEnqueue then 1 else 0) := by
  cases o with
  | reset =>
    cases ho
    refine ⟨(reset_valid_queue q).1, ⟨?_, ?_⟩, Nat.zero_le _⟩
    · intro id e hf
      rw [reset_find] at hf
      cases hf
    · intro i j a b hf
      rw [reset_find] at hf
      cases hf
  | call c =>
    have hc : (q.call c).map (fun r => r.1) = some q1 := ho
    cases hcall : q.call c with
    | none => rw [hcall] at hc; cases hc
    | some r =>
      rw [hcall] at hc
      cases hc
      have hv := call_valid hq hcall
      refine ⟨hv, ?_⟩
      cases c with
      | enqueue repo p =>
        have he : (q.enqueue repo p).map (fun r => (r.1, (none : Option configuredRepo2))) =
            some r := hcall
        cases hen : q.enqueue repo p with
        | none => rw [hen] at he; cases he
        | some r0 =>
          rw [hen] at he
          cases he
          exact enqueue_seqOk hq h (hw rfl) hen
      | remove repo u =>
        have he : (q.remove repo u).map (fun r => (r.1, (none : Option configuredRepo2))) =
            some r := hcall
        cases hen : q.remove repo u with
        | none => rw [hen] at he; cases he
        | some r0 =>
          rw [hen] at he
          cases he
          obtain ⟨h1, h2⟩ := remove_seqOk hq h hen
          exact ⟨h1, Nat.le_of_eq h2⟩
      | acquireNext =>
        have he : q.acquireNext = some r := hcall
        obtain ⟨h1, h2⟩ := acquireNext_seqOk hq h he
        exact ⟨h1, Nat.le_of_eq h2⟩

/-- As long as `enqueue` is called fewer than 2^64 times the counter does not wrap, and the
queued Seq values stay distinct and within 1 and the counter. -/
theorem ops_seqOk : ∀ (os : List queueOp) {q q1 : updateQueue}, q.Valid → q.SeqOk →
    q.seq + os.countP queueOp.isEnqueue < 2 ^ 64 → q.ops os = some q1 →
    q1.Valid ∧ q1.SeqOk ∧ q1.seq ≤ q.seq + os.countP queueOp.isEnqueue := by
  intro os
  induction os with
  | nil =>
    intro q q1 hq h _ ho
    cases ho
    exact ⟨hq, h, Nat.le_refl _⟩
  | cons o os ih =>
    intro q q1 hq h hw ho
    have ho2 : (q.op o).bind (fun q1 => q1.ops os) = some q1 := ho
    rw [List.countP_cons] at hw ⊢
    cases hop : q.op o with
    | none => rw [hop] at ho2; cases ho2
    | some q2 =>
      rw [hop, Option.some_bind] at ho2
      obtain ⟨hv2, hs2, hle2⟩ := op_seqOk hq h (o := o) (by
        intro hen
        rw [hen] at hw
        simp only [if_true] at hw
        omega) hop
      have hw2 : q2.seq + os.countP queueOp.isEnqueue < 2 ^ 64 := by
        cases hen : o.isEnqueue
        · rw [hen] at hle2 hw
          simp only [Bool.false_eq_true, if_false] at hle2 hw
          omega
        · rw [hen] at hle2 hw
          simp only [if_true] at hle2 hw
          omega
      obtain ⟨hv1, hs1, hle1⟩ := ih hv2 hs2 hw2 ho2
      refine ⟨hv1, hs1, ?_⟩
      cases hen : o.isEnqueue
      · rw [hen] at hle2
        simp only [Bool.false_eq_true, if_false] at hle2 ⊢
        omega
      · rw [hen] at hle2
        simp only [if_true] at hle2 ⊢
        omega

theorem fresh_seqOk : NewUpdateScheduler.updateQueue.SeqOk := by
  constructor
  · intro id e hf
    cases hf
  · intro i j a b hf
    cases hf

end updateQueue

/-- Two arrangements of one list that are both sorted are the same list, when no two distinct
members tie under the order. -/
theorem sorted_unique {α : Type} (r : α → α → Prop) : ∀ (l1 l2 : List α), l1.Perm l2 →
    (∀ a ∈ l1, ∀ b ∈ l1, r a b → r b a → a = b) → l1.Pairwise r → l2.Pairwise r →
    l1 = l2 := by
  intro l1
  induction l1 with
  | nil =>
    intro l2 hp _ _ _
    exact hp.nil_eq
  | cons a t1 ih =>
    intro l2 hp hanti h1 h2
    cases l2 with
    | nil => exact absurd hp.length_eq (by simp)
    | cons b t2 =>
      have hab : a = b := by
        by_contra hne
        have ha : a ∈ t2 := by
          have : a ∈ b :: t2 := hp.subset (List.mem_cons_self a t1)
          rcases List.mem_cons.mp this with h | h
          · exact absurd h hne
          · exact h
        have hb : b ∈ t1 := by
          have : b ∈ a :: t1 := hp.symm.subset (List.mem_cons_self b t2)
          rcases List.mem_cons.mp this with h | h
          · exact absurd h.symm hne
          · exact h
        exact hne (hanti a (List.mem_cons_self a t1) b (List.mem_cons_of_mem a hb)
          (List.rel_of_pairwise_cons h1 hb) (List.rel_of_pairwise_cons h2 ha))
      subst hab
      have hp2 : t1.Perm t2 := hp.cons_inv
      rw [ih t2 hp2 (fun x hx y hy => hanti x (List.mem_cons_of_mem a hx) y
        (List.mem_cons_of_mem a hy)) (List.Pairwise.of_cons h1) (List.Pairwise.of_cons h2)]

/-- The comparator decides between two entries of different Seq. -/
theorem repoUpdate.less_total {a b : repoUpdate} (hne : a.Seq ≠ b.Seq) :
    b.less a = !a.less b := by
  unfold repoUpdate.less
  cases ha : a.Updating <;> cases hb : b.Updating
  · by_cases hp : a.Priority = b.Priority
    · have h1 : decide (b.Seq < a.Seq) = !decide (a.Seq < b.Seq) := by
        by_cases h : a.Seq < b.Seq
        · have h2 : ¬ b.Seq < a.Seq := by omega
          simp [h, h2]
        · have h2 : b.Seq < a.Seq := by omega
          simp [h, h2]
      simpa [hp] using h1
    · have hp2 : ¬ b.Priority = a.Priority := fun h => hp h.symm
      have h1 : decide (b.Priority > a.Priority) = !decide (a.Priority > b.Priority) := by
        by_cases h : a.Priority > b.Priority
        · have h2 : ¬ b.Priority > a.Priority := lt_asymm h
          simp [h, h2]
        · have h2 : b.Priority > a.Priority := lt_of_le_of_ne (not_lt.mp h) hp
          simp [h, h2]
      simpa [hp, hp2] using h1
  · simp
  · simp
  · by_cases hp : a.Priority = b.Priority
    · have h1 : decide (b.Seq < a.Seq) = !decide (a.Seq < b.Seq) := by
        by_cases h : a.Seq < b.Seq
        · have h2 : ¬ b.Seq < a.Seq := by omega
          simp [h, h2]
        · have h2 : b.Seq < a.Seq := by omega
          simp [h, h2]
      simpa [hp] using h1
    · have hp2 : ¬ b.Priority = a.Priority := fun h => hp h.symm
      have h1 : decide (b.Priority > a.Priority) = !decide (a.Priority > b.Priority) := by
        by_cases h : a.Priority > b.Priority
        · have h2 : ¬ b.Priority > a.Priority := lt_asymm h
          simp [h, h2]
        · have h2 : b.Priority > a.Priority := lt_of_le_of_ne (not_lt.mp h) hp
          simp [h, h2]
      simpa [hp, hp2] using h1

namespace updateQueue

theorem Less_eq_less {q : updateQueue} {i j : Nat} {a b : repoUpdate}
    (ha : q.entry i = some a) (hb : q.entry j = some b) : q.Less i j = some (a.less b) := by
  unfold Less repoUpdate.less
  rw [ha, hb]
  simp only
  split_ifs <;> rfl

theorem entry_facts {q : updateQueue} (hq : q.Wf) {i : Nat} {e : repoUpdate}
    (h : q.entry i = some e) : q.find e.Repo.ID = some e ∧ e.Index = (i : Int) := by
  unfold entry at h
  cases hx : q.heap[i]? with
  | none => rw [hx] at h; cases h
  | some x =>
    rw [hx, Option.some_bind] at h
    obtain ⟨e0, he0, hidx, _, _⟩ := wf_entry hq hx
    rw [h] at he0
    cases he0
    exact ⟨find_of_heap hq hx h, hidx⟩

theorem entry_of_lt {q : updateQueue} (hq : q.Wf) {i : Nat} (hi : i < q.heap.length) :
    ∃ e, q.entry i = some e := by
  have hx : q.heap[i]? = some q.heap[i] := List.getElem?_eq_getElem hi
  obtain ⟨e, he, _⟩ := wf_entry hq hx
  refine ⟨e, ?_⟩
  unfold entry
  rw [hx, Option.some_bind, he]

/-- Under `SeqOk` no two distinct queued entries tie. -/
theorem seqOk_antisymm {q : updateQueue} (hq : q.Wf) (hs : q.SeqOk) {a b : repoUpdate}
    (ha : a ∈ q.entries) (hb : b ∈ q.entries) (h1 : b.less a = false)
    (h2 : a.less b = false) : a = b := by
  have hfa := (mem_entries hq).mp ha
  have hfb := (mem_entries hq).mp hb
  by_cases hne : a.Seq = b.Seq
  · have hid := hs.2 _ _ a b hfa hfb hne
    rw [hid, hfb] at hfa
    cases hfa
    rfl
  · have := repoUpdate.less_total hne
    rw [h1, h2] at this
    cases this

/-- C38, amended. In every Update Queue state reached from the fresh queue by calls of
enqueue, remove and acquireNext and by resets, fewer than 2^64 of them calls of enqueue:
every queued Seq is at least 1 and at most the sequence counter; the entries at two
different heap positions have different Seq; the comparator `Less` never ties between two
different heap positions (`Less(i, j)` and `Less(j, i)` return opposite answers); and the
order in which the entries pop is determined by the entries alone: any two arrangements of
the entries in which no entry comes after one that it is less than are the same list. -/
theorem C38_seq_values_distinct_below_wrap (os : List queueOp) (q : updateQueue)
    (hn : os.countP queueOp.isEnqueue < 2 ^ 64)
    (h : NewUpdateScheduler.updateQueue.ops os = some q) :
    (∀ e ∈ q.entries, 1 ≤ e.Seq ∧ e.Seq ≤ q.seq) ∧
    (∀ (i j : Nat) (ei ej : repoUpdate), q.entry i = some ei → q.entry j = some ej →
      i ≠ j → ei.Seq ≠ ej.Seq) ∧
    (∀ i j : Nat, i < q.heap.length → j < q.heap.length → i ≠ j →
      ∃ b, q.Less i j = some b ∧ q.Less j i = some (!b)) ∧
    (∀ l1 l2 : List repoUpdate, l1.Perm q.entries → l2.Perm q.entries →
      l1.Pairwise (fun a b => b.less a = false) →
      l2.Pairwise (fun a b => b.less a = false) → l1 = l2) := by
  have h0 : NewUpdateScheduler.updateQueue.seq + os.countP queueOp.isEnqueue < 2 ^ 64 := by
    show 0 + os.countP queueOp.isEnqueue < 2 ^ 64
    omega
  obtain ⟨hv, hs, _⟩ := ops_seqOk os fresh_valid fresh_seqOk h0 h
  have hdist : ∀ (i j : Nat) (ei ej : repoUpdate), q.entry i = some ei → q.entry j = some ej →
      i ≠ j → ei.Seq ≠ ej.Seq := by
    intro i j ei ej hi hj hij hseq
    obtain ⟨hfi, hii⟩ := entry_facts hv.1 hi
    obtain ⟨hfj, hjj⟩ := entry_facts hv.1 hj
    have hid := hs.2 _ _ ei ej hfi hfj hseq
    rw [hid, hfj] at hfi
    cases hfi
    rw [hii] at hjj
    exact hij (by omega)
  refine ⟨?_, hdist, ?_, ?_⟩
  · intro e he
    exact hs.1 _ e ((mem_entries hv.1).mp he)
  · intro i j hi hj hij
    obtain ⟨ei, hei⟩ := entry_of_lt hv.1 hi
    obtain ⟨ej, hej⟩ := entry_of_lt hv.1 hj
    refine ⟨ei.less ej, Less_eq_less hei hej, ?_⟩
    rw [Less_eq_less hej hei, repoUpdate.less_total (hdist i j ei ej hei hej hij)]
  · intro l1 l2 hp1 hp2 hs1 hs2
    refine sorted_unique _ l1 l2 (hp1.trans hp2.symm) ?_ hs1 hs2
    intro a ha b hb hab hba
    exact seqOk_antisymm hv.1 hs (hp1.subset ha) (hp1.subset hb) hab hba

/-- The theorem at `exampleOps`, a sequence of six operations, one of them a reset. -/
theorem C38_witness :
    exampleOps.countP queueOp.isEnqueue < 2 ^ 64 ∧
    NewUpdateScheduler.updateQueue.ops exampleOps = some exampleOpsQueue ∧
    ∀ e ∈ exampleOpsQueue.entries, 1 ≤ e.Seq ∧ e.Seq ≤ exampleOpsQueue.seq :=
  ⟨by decide, by decide,
    (C38_seq_values_distinct_below_wrap exampleOps exampleOpsQueue (by decide) (by decide)).1⟩

theorem insertAt_mem_get {k : Nat} (G : List repoUpdate) {q : updateQueue}
    (hk : k ≤ q.mem.length) (x : Ptr) :
    (q.insertAt k G).mem[rename k G.length x]? = q.mem[x]? :=
  insertCells_get G q.mem hk x

theorem insertAt_index_get (k : Nat) (G : List repoUpdate) (q : updateQueue) (id : Nat) :
    (q.insertAt k G).index.get id = (q.index.get id).map (rename k G.length) :=
  IndexMap.get_map q.index (rename k G.length) id

theorem insertAt_alloc {k : Nat} (G : List repoUpdate) {q : updateQueue}
    (hk : k ≤ q.mem.length) (v : repoUpdate) :
    ({ q.insertAt k G with mem := (q.insertAt k G).mem ++ [v] } : updateQueue) =
        ({ q with mem := q.mem ++ [v] } : updateQueue).insertAt k G ∧
      (q.insertAt k G).mem.length = rename k G.length q.mem.length := by
  constructor
  · show (⟨insertCells k G q.mem ++ [v], _, _, _, _⟩ : updateQueue) =
      ⟨insertCells k G (q.mem ++ [v]), _, _, _, _⟩
    rw [insertCells_append G q.mem hk]
    rfl
  · show (insertCells k G q.mem).length = _
    rw [insertCells_length G q.mem hk]
    unfold rename
    rw [if_neg (by omega)]

theorem insertAt_enqueue {k : Nat} (G : List repoUpdate) {q : updateQueue}
    (hk : k ≤ q.mem.length) (repo : configuredRepo2) (p : priority) :
    (q.insertAt k G).enqueue repo p =
        (q.enqueue repo p).map (fun r => (r.1.insertAt k G, r.2)) ∧
      ∀ r, q.enqueue repo p = some r → k ≤ r.1.mem.length := by
  unfold enqueue
  by_cases hid : repo.ID = 0
  · rw [if_pos hid, if_pos hid]
    exact ⟨rfl, fun r h => by cases h⟩
  rw [if_neg hid, if_neg hid, insertAt_index_get]
  cases hget : q.index.get repo.ID with
  | none =>
    simp only [Option.map_none']
    obtain ⟨h1, h2⟩ := insertAt_alloc G hk
      { Repo := repo, Priority := p, Seq := 0, Updating := false, Index := 0 }
    have hk1 : k ≤ ({ q with mem := q.mem ++
        [{ Repo := repo, Priority := p, Seq := 0, Updating := false, Index := 0 }] } :
        updateQueue).mem.length := by
      show k ≤ (q.mem ++ [_]).length
      rw [List.length_append]
      omega
    obtain ⟨h3, h4⟩ := heap.Push_comm (commutes_insertAt k G) _ q.mem.length hk1
    rw [h1, h2, h3]
    cases hp : heap.Push iface ({ q with mem := q.mem ++
        [{ Repo := repo, Priority := p, Seq := 0, Updating := false, Index := 0 }] } :
        updateQueue) q.mem.length with
    | none => exact ⟨rfl, fun r h => by cases h⟩
    | some q2 =>
      refine ⟨rfl, ?_⟩
      intro r h
      cases h
      exact h4 q2 hp
  | some x =>
    simp only [Option.map_some']
    rw [insertAt_mem_get G hk]
    cases hm : q.mem[x]? with
    | none => exact ⟨rfl, fun r h => by cases h⟩
    | some update =>
      simp only [Option.some_bind]
      cases hu : update.Updating
      · simp only [Bool.false_eq_true, if_false]
        rw [insertAt_modify G hk]
        cases hm1 : q.modify x (fun e => { e with Repo := repo }) with
        | none => exact ⟨rfl, fun r h => by cases h⟩
        | some q1 =>
          have hk1 : k ≤ q1.mem.length := by rw [modify_length hm1]; exact hk
          simp only [Option.map_some', Option.some_bind]
          by_cases hp : p ≤ update.Priority
          · simp only [hp, if_true]
            refine ⟨rfl, ?_⟩
            intro r h
            cases h
            exact hk1
          · simp only [hp, if_false]
            rw [insertAt_modify G hk1]
            cases hm2 : q1.modify x (fun e => { e with Priority := p }) with
            | none => exact ⟨rfl, fun r h => by cases h⟩
            | some q2 =>
              have hk2 : k ≤ q2.mem.length := by rw [modify_length hm2]; exact hk1
              simp only [Option.map_some', Option.some_bind]
              have hns : (q2.insertAt k G).nextSeq = (q2.nextSeq.1.insertAt k G, q2.nextSeq.2) :=
                rfl
              rw [hns]
              have hk2n : k ≤ q2.nextSeq.1.mem.length := hk2
              simp only
              rw [insertAt_modify G hk2n]
              cases hm3 : q2.nextSeq.1.modify x (fun e => { e with Seq := q2.nextSeq.2 }) with
              | none => exact ⟨rfl, fun r h => by cases h⟩
              | some q3 =>
                have hk3 : k ≤ q3.mem.length := by rw [modify_length hm3]; exact hk2n
                simp only [Option.map_some', Option.some_bind]
                rw [insertAt_mem_get G hk3]
                cases hm4 : q3.mem[x]? with
                | none => exact ⟨rfl, fun r h => by cases h⟩
                | some u =>
                  simp only [Option.some_bind]
                  obtain ⟨h3, h4⟩ := heap.FixAt_comm (commutes_insertAt k G) q3 u.Index hk3
                  rw [h3]
                  cases hf : heap.FixAt iface q3 u.Index with
                  | none => exact ⟨rfl, fun r h => by cases h⟩
                  | some q4 =>
                    refine ⟨rfl, ?_⟩
                    intro r h
                    cases h
                    exact h4 q4 hf
      · simp only [if_true]
        refine ⟨rfl, ?_⟩
        intro r h
        cases h
        exact hk

theorem insertAt_remove {k : Nat} (G : List repoUpdate) {q : updateQueue}
    (hk : k ≤ q.mem.length) (repo : configuredRepo2) (updating : Bool) :
    (q.insertAt k G).remove repo updating =
        (q.remove repo updating).map (fun r => (r.1.insertAt k G, r.2)) ∧
      ∀ r, q.remove repo updating = some r → k ≤ r.1.mem.length := by
  unfold remove
  by_cases hid : repo.ID = 0
  · rw [if_pos hid, if_pos hid]
    exact ⟨rfl, fun r h => by cases h⟩
  rw [if_neg hid, if_neg hid, insertAt_index_get]
  cases hget : q.index.get repo.ID with
  | none =>
    simp only [Option.map_none']
    refine ⟨rfl, ?_⟩
    intro r h
    cases h
    exact hk
  | some x =>
    simp only [Option.map_some']
    rw [insertAt_mem_get G hk]
    cases hm : q.mem[x]? with
    | none => exact ⟨rfl, fun r h => by cases h⟩
    | some update =>
      simp only [Option.some_bind]
      by_cases hu : update.Updating = updating
      · simp only [hu, if_true]
        cases hti : toIndex update.Index with
        | none => exact ⟨rfl, fun r h => by cases h⟩
        | some i =>
          simp only [Option.some_bind]
          obtain ⟨h3, h4⟩ := heap.Remove_comm (commutes_insertAt k G) q i hk
          rw [h3]
          cases hf : heap.Remove iface q i with
          | none => exact ⟨rfl, fun r h => by cases h⟩
          | some r1 =>
            refine ⟨rfl, ?_⟩
            intro r h
            cases h
            exact h4 r1 hf
      · simp only [hu, if_false]
        refine ⟨rfl, ?_⟩
        intro r h
        cases h
        exact hk

theorem insertAt_acquireNext {k : Nat} (G : List repoUpdate) {q : updateQueue}
    (hk : k ≤ q.mem.length) :
    (q.insertAt k G).acquireNext = (q.acquireNext).map (fun r => (r.1.insertAt k G, r.2)) ∧
      ∀ r, q.acquireNext = some r → k ≤ r.1.mem.length := by
  unfold acquireNext
  have hlen : (q.insertAt k G).heap.length = q.heap.length := List.length_map _ _
  rw [hlen]
  by_cases h0 : q.heap.length = 0
  · rw [if_pos h0, if_pos h0]
    refine ⟨rfl, ?_⟩
    intro r h
    cases h
    exact hk
  rw [if_neg h0, if_neg h0]
  have hh : (q.insertAt k G).heap[0]? = (q.heap[0]?).map (rename k G.length) :=
    List.getElem?_map _ _ _
  rw [hh]
  cases hx : q.heap[0]? with
  | none => exact ⟨rfl, fun r h => by cases h⟩
  | some x =>
    simp only [Option.map_some', Option.some_bind]
    rw [insertAt_mem_get G hk]
    cases hm : q.mem[x]? with
    | none => exact ⟨rfl, fun r h => by cases h⟩
    | some update =>
      simp only [Option.some_bind]
      cases hu : update.Updating
      · simp only [Bool.false_eq_true, if_false]
        rw [insertAt_modify G hk]
        cases hm1 : q.modify x (fun e => { e with Updating := true }) with
        | none => exact ⟨rfl, fun r h => by cases h⟩
        | some q1 =>
          have hk1 : k ≤ q1.mem.length := by rw [modify_length hm1]; exact hk
          simp only [Option.map_some', Option.some_bind]
          rw [insertAt_mem_get G hk1]
          cases hm2 : q1.mem[x]? with
          | none => exact ⟨rfl, fun r h => by cases h⟩
          | some u =>
            simp only [Option.some_bind]
            obtain ⟨h3, h4⟩ := heap.FixAt_comm (commutes_insertAt k G) q1 u.Index hk1
            rw [h3]
            cases hf : heap.FixAt iface q1 u.Index with
            | none => exact ⟨rfl, fun r h => by cases h⟩
            | some q2 =>
              have hk2 := h4 q2 hf
              simp only [Option.map_some', Option.some_bind]
              rw [insertAt_mem_get G hk2]
              cases hm3 : q2.mem[x]? with
              | none => exact ⟨rfl, fun r h => by cases h⟩
              | some u2 =>
                refine ⟨rfl, ?_⟩
                intro r h
                cases h
                exact hk2
      · simp only [if_true]
        refine ⟨rfl, ?_⟩
        intro r h
        cases h
        exact hk

theorem insertAt_op {k : Nat} (G : List repoUpdate) {q : updateQueue}
    (hk : k ≤ q.mem.length) (o : queueOp) :
    (q.insertAt k G).op o = (q.op o).map (insertAt k G) ∧
      ∀ q1, q.op o = some q1 → k ≤ q1.mem.length := by
  cases o with
  | reset =>
    refine ⟨rfl, ?_⟩
    intro q1 h
    cases h
    exact hk
  | call c =>
    cases c with
    | enqueue repo p =>
      obtain ⟨h1, h2⟩ := insertAt_enqueue G hk repo p
      constructor
      · show (((q.insertAt k G).enqueue repo p).map _).map _ =
          (((q.enqueue repo p).map _).map _).map _
        rw [h1]
        cases q.enqueue repo p <;> rfl
      · intro q1 h
        have h3 : ((q.enqueue repo p).map
            (fun r => (r.1, (none : Option configuredRepo2)))).map (fun r => r.1) = some q1 := h
        cases he : q.enqueue repo p with
        | none => rw [he] at h3; cases h3
        | some r =>
          rw [he] at h3
          cases h3
          exact h2 r he
    | remove repo u =>
      obtain ⟨h1, h2⟩ := insertAt_remove G hk repo u
      constructor
      · show (((q.insertAt k G).remove repo u).map _).map _ =
          (((q.remove repo u).map _).map _).map _
        rw [h1]
        cases q.remove repo u <;> rfl
      · intro q1 h
        have h3 : ((q.remove repo u).map
            (fun r => (r.1, (none : Option configuredRepo2)))).map (fun r => r.1) = some q1 := h
        cases he : q.remove repo u with
        | none => rw [he] at h3; cases h3
        | some r =>
          rw [he] at h3
          cases h3
          exact h2 r he
    | acquireNext =>
      obtain ⟨h1, h2⟩ := insertAt_acquireNext G hk
      constructor
      · show ((q.insertAt k G).acquireNext).map _ = ((q.acquireNext).map _).map _
        rw [h1]
        cases q.acquireNext <;> rfl
      · intro q1 h
        have h3 : (q.acquireNext).map (fun r => r.1) = some q1 := h
        cases he : q.acquireNext with
        | none => rw [he] at h3; cases h3
        | some r =>
          rw [he] at h3
          cases h3
          exact h2 r he

/-- A sequence of calls and resets does to a queue with cells put into its arena what it
does to the queue. -/
theorem insertAt_ops {k : Nat} (G : List repoUpdate) : ∀ (os : List queueOp) {q : updateQueue},
    k ≤ q.mem.length → (q.insertAt k G).ops os = (q.ops os).map (insertAt k G) := by
  intro os
  induction os with
  | nil => intro q _; rfl
  | cons o os ih =>
    intro q hk
    obtain ⟨h1, h2⟩ := insertAt_op G hk o
    show ((q.insertAt k G).op o).bind _ = ((q.op o).bind _).map _
    rw [h1]
    cases ho : q.op o with
    | none => rfl
    | some q1 =>
      simp only [Option.map_some', Option.some_bind]
      exact ih (h2 q1 ho)

theorem ops_append : ∀ (os1 os2 : List queueOp) (q : updateQueue),
    q.ops (os1 ++ os2) = (q.ops os1).bind (fun q1 => q1.ops os2) := by
  intro os1
  induction os1 with
  | nil => intro os2 q; rfl
  | cons o os1 ih =>
    intro os2 q
    show (q.op o).bind _ = ((q.op o).bind _).bind _
    cases q.op o with
    | none => rfl
    | some q1 =>
      simp only [Option.some_bind]
      exact ih os2 q1

theorem burnQueue_eq (G : List repoUpdate) (c : Nat) :
    burnQueue G c = (burnQueue [] c).insertAt 1 G := by
  unfold burnQueue insertAt
  simp [insertCells, rename]

theorem burn_enqueue (c : Nat) :
    (burnQueue [] c).enqueue repoC priorityHigh =
      some ((⟨[⟨repoA, priorityLow, 1, false, 1⟩,
               ⟨repoC, priorityHigh, (c + 1) % 2 ^ 64, false, 0⟩],
              [1, 0], [(3, 1), (1, 0)], (c + 1) % 2 ^ 64, 1⟩ : updateQueue), false) := by
  with_unfolding_all rfl

theorem burn_acquire (s : Nat) :
    updateQueue.acquireNext
        ⟨[⟨repoA, priorityLow, 1, false, 1⟩, ⟨repoC, priorityHigh, s, false, 0⟩],
          [1, 0], [(3, 1), (1, 0)], s, 1⟩ =
      some ((⟨[⟨repoA, priorityLow, 1, false, 0⟩, ⟨repoC, priorityHigh, s, true, 1⟩],
              [0, 1], [(3, 1), (1, 0)], s, 1⟩ : updateQueue), some repoC) := by
  rfl

theorem burn_remove (s : Nat) :
    updateQueue.remove
        ⟨[⟨repoA, priorityLow, 1, false, 0⟩, ⟨repoC, priorityHigh, s, true, 1⟩],
          [0, 1], [(3, 1), (1, 0)], s, 1⟩ repoC true =
      some ((⟨[⟨repoA, priorityLow, 1, false, 0⟩, ⟨repoC, priorityHigh, s, true, -1⟩],
              [0], [(1, 0)], s, 1⟩ : updateQueue), true) := by
  rfl

theorem ops_cons (q : updateQueue) (o : queueOp) (os : List queueOp) :
    q.ops (o :: os) = (q.op o).bind (fun q1 => q1.ops os) := rfl

theorem op_enqueue {q q1 : updateQueue} {repo : configuredRepo2} {p : priority} {b : Bool}
    (h : q.enqueue repo p = some (q1, b)) :
    q.op (queueOp.call (queueCall.enqueue repo p)) = some q1 := by
  show ((q.enqueue repo p).map (fun r => (r.1, (none : Option configuredRepo2)))).map
    (fun r => r.1) = some q1
  rw [h]
  rfl

theorem op_remove {q q1 : updateQueue} {repo : configuredRepo2} {u b : Bool}
    (h : q.remove repo u = some (q1, b)) :
    q.op (queueOp.call (queueCall.remove repo u)) = some q1 := by
  show ((q.remove repo u).map (fun r => (r.1, (none : Option configuredRepo2)))).map
    (fun r => r.1) = some q1
  rw [h]
  rfl

theorem op_acquireNext {q q1 : updateQueue} {r : Option configuredRepo2}
    (h : q.acquireNext = some (q1, r)) : q.op (queueOp.call queueCall.acquireNext) = some q1 := by
  show (q.acquireNext).map (fun r => r.1) = some q1
  rw [h]
  rfl

theorem burn_cycle_clean (c : Nat) :
    (burnQueue [] c).ops burnCycle =
      some { mem := [⟨repoA, priorityLow, 1, false, 0⟩,
                     ⟨repoC, priorityHigh, (c + 1) % 2 ^ 64, true, -1⟩],
             heap := [0], index := [(1, 0)], seq := (c + 1) % 2 ^ 64, notifyEnqueue := 1 } := by
  unfold burnCycle
  rw [ops_cons, op_enqueue (burn_enqueue c), Option.some_bind, ops_cons,
    op_acquireNext (burn_acquire _), Option.some_bind, ops_cons, op_remove (burn_remove _),
    Option.some_bind]
  rfl

/-- One round on a queue holding `repoA`: the counter advances by one (and wraps at 2^64),
one cell more is garbage, and the heap slice and the index map are what they were. -/
theorem burn_cycle (G : List repoUpdate) (c : Nat) :
    (burnQueue G c).ops burnCycle =
      some (burnQueue (G ++ [⟨repoC, priorityHigh, (c + 1) % 2 ^ 64, true, -1⟩])
        ((c + 1) % 2 ^ 64)) := by
  have hk : 1 ≤ (burnQueue [] c).mem.length := Nat.le_refl 1
  rw [burnQueue_eq G c, insertAt_ops G burnCycle hk, burn_cycle_clean c]
  unfold burnQueue insertAt
  simp [insertCells, rename]

theorem burn_cycles : ∀ (n : Nat) (G : List repoUpdate) (c : Nat), c < 2 ^ 64 →
    (burnQueue G c).ops (burnCycles n) =
      some (burnQueue (G ++ burnCells n c) ((c + n) % 2 ^ 64)) := by
  intro n
  induction n with
  | zero =>
    intro G c hc
    show some (burnQueue G c) = some (burnQueue (G ++ []) ((c + 0) % 2 ^ 64))
    rw [List.append_nil, Nat.add_zero, Nat.mod_eq_of_lt hc]
  | succ n ih =>
    intro G c hc
    show (burnQueue G c).ops (burnCycle ++ burnCycles n) = _
    rw [ops_append, burn_cycle, Option.some_bind, ih _ _ (Nat.mod_lt _ (by decide))]
    have h1 : ((c + 1) % 2 ^ 64 + n) % 2 ^ 64 = (c + (n + 1)) % 2 ^ 64 := by omega
    rw [h1, List.append_assoc]
    rfl

theorem wrapOps_run :
    NewUpdateScheduler.updateQueue.ops wrapOps =
      some (burnQueue (burnCells (2 ^ 64 - 1) 1) 0) := by
  show (NewUpdateScheduler.updateQueue.op
    (queueOp.call (queueCall.enqueue repoA priorityLow))).bind _ = _
  have h1 : NewUpdateScheduler.updateQueue.op
      (queueOp.call (queueCall.enqueue repoA priorityLow)) = some (burnQueue [] 1) := by decide
  rw [h1, Option.some_bind, burn_cycles (2 ^ 64 - 1) [] 1 (by decide), List.nil_append]
  have h2 : (1 + (2 ^ 64 - 1)) % 2 ^ 64 = 0 := by decide
  rw [h2]

theorem burnQueue_entries (G : List repoUpdate) (c : Nat) :
    (burnQueue G c).entries = [⟨repoA, priorityLow, 1, false, 0⟩] := by
  simp [entries, burnQueue]

/-- C38, counterexample. The fresh queue after enqueue(repoA, low) and 2^64 - 1 rounds of
enqueue(repoC, high), acquireNext, remove(repoC, true) holds `repoA` with Seq 1 while the
`uint64` counter has wrapped to 0; enqueue(repoB, low) then gives `repoB` Seq 1 as well:
the entries at heap positions 0 and 1 have one Seq, and `Less` answers false both ways. -/
theorem C38_counterexample_tie_after_wrap :
    NewUpdateScheduler.updateQueue.ops wrapOps =
      some (burnQueue (burnCells (2 ^ 64 - 1) 1) 0) ∧
    (burnQueue (burnCells (2 ^ 64 - 1) 1) 0).entries = [⟨repoA, priorityLow, 1, false, 0⟩] ∧
    (burnQueue (burnCells (2 ^ 64 - 1) 1) 0).seq = 0 ∧
    NewUpdateScheduler.updateQueue.ops
        (wrapOps ++ [queueOp.call (queueCall.enqueue repoB priorityLow)]) =
      some (tieQueue.insertAt 1 (burnCells (2 ^ 64 - 1) 1)) ∧
    (tieQueue.insertAt 1 (burnCells (2 ^ 64 - 1) 1)).entry 0 =
      some ⟨repoA, priorityLow, 1, false, 0⟩ ∧
    (tieQueue.insertAt 1 (burnCells (2 ^ 64 - 1) 1)).entry 1 =
      some ⟨repoB, priorityLow, 1, false, 1⟩ ∧
    (tieQueue.insertAt 1 (burnCells (2 ^ 64 - 1) 1)).Less 0 1 = some false ∧
    (tieQueue.insertAt 1 (burnCells (2 ^ 64 - 1) 1)).Less 1 0 = some false := by
  have hk : 1 ≤ tieQueue.mem.length := by decide
  refine ⟨wrapOps_run, burnQueue_entries _ _, rfl, ?_, ?_, ?_, ?_, ?_⟩
  · have hk0 : 1 ≤ (burnQueue [] 0).mem.length := Nat.le_refl 1
    have h1 : (burnQueue [] 0).ops [queueOp.call (queueCall.enqueue repoB priorityLow)] =
        some tieQueue := by decide
    rw [ops_append, wrapOps_run, Option.some_bind, burnQueue_eq, insertAt_ops _ _ hk0, h1]
    rfl
  · rw [insertAt_entry _ hk]
    decide
  · rw [insertAt_entry _ hk]
    decide
  · rw [insertAt_Less _ hk]
    decide
  · rw [insertAt_Less _ hk]
    decide

theorem mem_waiting {q : updateQueue} (hq : q.Wf) {c : repoUpdate} :
    c ∈ q.waiting ↔ (q.find c.Repo.ID).map repoUpdate.core = some c ∧ c.Updating = false := by
  unfold waiting
  rw [List.mem_map]
  constructor
  · rintro ⟨e, he, rfl⟩
    rw [List.mem_filter] at he
    have hf := (mem_entries hq).mp he.1
    refine ⟨?_, ?_⟩
    · show (q.find e.Repo.ID).map repoUpdate.core = some e.core
      rw [hf]
      rfl
    · have h2 := he.2
      show e.Updating = false
      simpa using h2
  · rintro ⟨hf, hu⟩
    obtain ⟨e, he, _, _, hcore⟩ := find_core_some hq hf
    refine ⟨e, ?_, hcore⟩
    rw [List.mem_filter]
    refine ⟨he, ?_⟩
    have h2 : e.core.Updating = false := by rw [hcore]; exact hu
    have h3 : e.Updating = false := h2
    simp [h3]

theorem waiting_nodup {q : updateQueue} (hq : q.Wf) : q.waiting.Nodup := by
  unfold waiting
  have h1 : ((q.entries.filter (fun e => !e.Updating)).map (fun e => e.Repo.ID)).Nodup :=
    (entries_ids_nodup hq).sublist ((List.filter_sublist _).map _)
  have h2 : ((q.entries.filter (fun e => !e.Updating)).map repoUpdate.core).map
      (fun c => c.Repo.ID) = (q.entries.filter (fun e => !e.Updating)).map
      (fun e => e.Repo.ID) := by
    rw [List.map_map]
    rfl
  rw [← h2] at h1
  exact List.Nodup.of_map _ h1

theorem waiting_length_le {q : updateQueue} (hq : q.Wf) : q.waiting.length ≤ q.heap.length := by
  unfold waiting
  rw [List.length_map, ← entries_length hq]
  exact List.length_filter_le _ _

/-- What a call of `acquireNext` that returns a repo does to the entries not being updated:
it takes one of them out, one that no other is less than. -/
theorem acquireNext_waiting {q q1 : updateQueue} (hq : q.Valid) {R : configuredRepo2}
    (h : q.acquireNext = some (q1, some R)) :
    ∃ e : repoUpdate, e.Repo = R ∧ (e.core :: q1.waiting).Perm q.waiting ∧
      ∀ b ∈ q.waiting, b.less e.core = false := by
  obtain ⟨q2, r2, h2, hv1, _, _, _, _, _, _, hsome⟩ := acquireNext_spec hq
  rw [h] at h2
  cases h2
  obtain ⟨e, hfe, hrepo, hu, hmin, hfr⟩ := hsome R rfl
  have hid : e.core.Repo.ID = R.ID := by
    show e.Repo.ID = R.ID
    rw [hrepo]
  have hnot : e.core ∉ q1.waiting := by
    intro hmem
    obtain ⟨h3, h4⟩ := (mem_waiting hv1.1).mp hmem
    rw [hid, hfr R.ID, if_pos rfl] at h3
    have h5 : ({ e with Updating := true } : repoUpdate).core.Updating = e.core.Updating := by
      rw [Option.some.inj h3]
    rw [h4] at h5
    cases h5
  refine ⟨e, hrepo, ?_, ?_⟩
  · refine (List.perm_ext_iff_of_nodup (List.nodup_cons.mpr ⟨hnot, waiting_nodup hv1.1⟩)
      (waiting_nodup hq.1)).mpr ?_
    intro c
    rw [List.mem_cons, mem_waiting hv1.1, mem_waiting hq.1]
    constructor
    · rintro (rfl | ⟨h3, h4⟩)
      · refine ⟨?_, hu⟩
        rw [hid, hfe]
        rfl
      · refine ⟨?_, h4⟩
        rw [hfr c.Repo.ID] at h3
        by_cases hc : c.Repo.ID = R.ID
        · rw [if_pos hc] at h3
          have h5 : ({ e with Updating := true } : repoUpdate).core.Updating = c.Updating := by
            rw [Option.some.inj h3]
          rw [h4] at h5
          cases h5
        · rw [if_neg hc] at h3
          exact h3
    · rintro ⟨h3, h4⟩
      by_cases hc : c.Repo.ID = R.ID
      · left
        rw [hc, hfe] at h3
        exact (Option.some.inj h3).symm
      · right
        refine ⟨?_, h4⟩
        rw [hfr c.Repo.ID, if_neg hc]
        exact h3
  · intro b hb
    obtain ⟨h3, _⟩ := (mem_waiting hq.1).mp hb
    obtain ⟨e1, _, _, hf1, hcore⟩ := find_core_some hq.1 h3
    rw [← hcore, less_core]
    exact hmin _ e1 hf1

/-- The loop of `acquireNext` returns, and it returns the repos of the entries not being
updated in an order in which none comes after one that it is less than. -/
theorem acquireUntilNil_spec : ∀ (fuel : Nat) {q : updateQueue}, q.Valid →
    q.waiting.length < fuel →
    ∃ (q1 : updateQueue) (L : List repoUpdate),
      q.acquireUntilNil fuel = some (q1, L.map (fun e => e.Repo)) ∧
      L.Perm q.waiting ∧ L.Pairwise (fun a b => b.less a = false) := by
  intro fuel
  induction fuel with
  | zero => intro q _ h; exact absurd h (Nat.not_lt_zero _)
  | succ fuel ih =>
    intro q hq hfuel
    obtain ⟨q1, r, h1, hv1, _, _, _, _, _, hnone, _⟩ := acquireNext_spec hq
    cases r with
    | none =>
      refine ⟨q1, [], ?_, ?_, List.Pairwise.nil⟩
      · unfold acquireUntilNil
        rw [h1]
        rfl
      · have hall := (hnone rfl).2
        have hw : q.waiting = [] := by
          rw [List.eq_nil_iff_forall_not_mem]
          intro c hc
          obtain ⟨h3, h4⟩ := (mem_waiting hq.1).mp hc
          obtain ⟨e1, _, _, hf1, hcore⟩ := find_core_some hq.1 h3
          have h5 : e1.core.Updating = true := hall _ e1 hf1
          rw [hcore, h4] at h5
          cases h5
        rw [hw]
    | some R =>
      obtain ⟨e, hrepo, hperm, hmin⟩ := acquireNext_waiting hq h1
      have hlen : q1.waiting.length + 1 = q.waiting.length := by
        rw [← hperm.length_eq]
        rfl
      obtain ⟨q2, L1, h2, hp2, hs2⟩ := ih hv1 (by omega)
      refine ⟨q2, e.core :: L1, ?_, ?_, ?_⟩
      · unfold acquireUntilNil
        rw [h1, Option.some_bind]
        simp only
        rw [h2]
        show some (q2, R :: L1.map (fun e => e.Repo)) = some (q2, e.Repo :: L1.map (fun e => e.Repo))
        rw [hrepo]
      · exact (List.Perm.cons _ hp2).trans hperm
      · rw [List.pairwise_cons]
        refine ⟨?_, hs2⟩
        intro b hb
        exact hmin b (hperm.subset (List.mem_cons_of_mem _ (hp2.subset hb)))

/-- Under `SeqOk` the order of the entries not being updated is fixed by the comparator: a
sorted arrangement of them is the non-updating part of any sorted arrangement of all. -/
theorem waiting_sorted_eq {q : updateQueue} (hq : q.Wf) (hs : q.SeqOk)
    {L D : List repoUpdate} (hL : L.Perm q.waiting)
    (hLs : L.Pairwise (fun a b => b.less a = false))
    (hD : (D.map repoUpdate.core).Perm (q.entries.map repoUpdate.core))
    (hDs : D.Pairwise (fun a b => b.less a = false)) :
    L.map (fun e => e.Repo) = (D.filter (fun e => !e.Updating)).map (fun e => e.Repo) := by
  have hDn : ((D.filter (fun e => !e.Updating)).map repoUpdate.core).Perm q.waiting := by
    have h1 := hD.filter (fun e => !e.Updating)
    have h2 : ∀ l : List repoUpdate, (l.map repoUpdate.core).filter (fun e => !e.Updating) =
        (l.filter (fun e => !e.Updating)).map repoUpdate.core := by
      intro l
      rw [List.filter_map]
      rfl
    rw [h2, h2] at h1
    exact h1
  have hDns : ((D.filter (fun e => !e.Updating)).map repoUpdate.core).Pairwise
      (fun a b => b.less a = false) := by
    rw [List.pairwise_map]
    exact hDs.sublist (List.filter_sublist _)
  have heq := sorted_unique (fun a b : repoUpdate => b.less a = false) L _
    (hL.trans hDn.symm) (by
      intro a ha b hb hab hba
      obtain ⟨ha1, _⟩ := (mem_waiting hq).mp (hL.subset ha)
      obtain ⟨hb1, _⟩ := (mem_waiting hq).mp (hL.subset hb)
      obtain ⟨ea, hea, _, _, hca⟩ := find_core_some hq ha1
      obtain ⟨eb, heb, _, _, hcb⟩ := find_core_some hq hb1
      rw [← hca, ← hcb, less_core] at hab hba
      rw [← hca, ← hcb, seqOk_antisymm hq hs hea heb hab hba]) hLs hDns
  rw [heq, List.map_map]
  rfl

end updateQueue

namespace updateScheduler

/-- The dump lists the queue in the order of dispatch, below 2^64 calls of enqueue: let the
Update Queue of a scheduler be in a state reached from the fresh
queue by calls of enqueue, remove and acquireNext and by resets, fewer than 2^64 of them
calls of enqueue, and let the Due-Schedule satisfy its invariant. Then `DebugDump` returns,
the calls of `acquireNext` repeated until one returns nil come to that end, and the repos
they return are, in order, the repos of the entries with Updating = false in the
UpdateQueue list of the dump, taken in list order. -/
theorem dump_order_is_dispatch_order (os : List queueOp) (s : updateScheduler)
    (sortSlice : List configuredRepo2 → List configuredRepo2) (hs : s.schedule.Valid)
    (hn : os.countP queueOp.isEnqueue < 2 ^ 64)
    (h : NewUpdateScheduler.updateQueue.ops os = some s.updateQueue) :
    ∃ d q1 out, s.DebugDump sortSlice = some d ∧
      s.updateQueue.acquireUntilNil (s.updateQueue.heap.length + 1) = some (q1, out) ∧
      out = (d.UpdateQueue.filter (fun e => !e.Updating)).map (fun e => e.Repo) := by
  have h0 : NewUpdateScheduler.updateQueue.seq + os.countP queueOp.isEnqueue < 2 ^ 64 := by
    show 0 + os.countP queueOp.isEnqueue < 2 ^ 64
    omega
  obtain ⟨hv, hseq, _⟩ := updateQueue.ops_seqOk os updateQueue.fresh_valid
    updateQueue.fresh_seqOk h0 h
  obtain ⟨d, hd, _, _, hperm, hsorted⟩ := DebugDump_spec hs hv sortSlice
  obtain ⟨q1, L, hacq, hL, hLs⟩ := updateQueue.acquireUntilNil_spec
    (s.updateQueue.heap.length + 1) hv
    (Nat.lt_succ_of_le (updateQueue.waiting_length_le hv.1))
  exact ⟨d, q1, _, hd, hacq, updateQueue.waiting_sorted_eq hv.1 hseq hL hLs hperm hsorted⟩

/-- The theorem at `exampleScheduler`, whose queue holds `repoA` and `repoB`, none of them
being updated: dump and dispatch both give `repoA`, then `repoB`. -/
theorem dump_order_is_dispatch_order_example :
    exampleScheduler.schedule.Valid ∧
    NewUpdateScheduler.updateQueue.ops
      [queueOp.call (queueCall.enqueue repoA priorityLow),
        queueOp.call (queueCall.enqueue repoB priorityLow)] =
      some exampleScheduler.updateQueue ∧
    ∃ d q1 out, exampleScheduler.DebugDump (fun l => l) = some d ∧
      exampleScheduler.updateQueue.acquireUntilNil
        (exampleScheduler.updateQueue.heap.length + 1) = some (q1, out) ∧
      out = (d.UpdateQueue.filter (fun e => !e.Updating)).map (fun e => e.Repo) ∧
      out = [repoA, repoB] := by
  refine ⟨by decide, by decide, ?_⟩
  obtain ⟨d, q1, out, h1, h2, h3⟩ :=
    dump_order_is_dispatch_order
      [queueOp.call (queueCall.enqueue repoA priorityLow),
        queueOp.call (queueCall.enqueue repoB priorityLow)] exampleScheduler (fun l => l)
      (by decide) (by decide) (by decide)
  have h4 : (exampleScheduler.updateQueue.acquireUntilNil
      (exampleScheduler.updateQueue.heap.length + 1)).map (fun r => r.2) =
        some [repoA, repoB] := by decide
  rw [h2] at h4
  exact ⟨d, q1, out, h1, h2, h3, Option.some.inj h4⟩

end updateScheduler

namespace updateQueue

end updateQueue

end repos
